import Mathlib

/-!
# A shallow embedding of hail's region allocator (`src/main/c/Region.cpp`)

Objects live in a heap addressed by natural numbers: a `Region*` is an index
into `Heap.regions`, a `RegionPool*` an index into `Heap.pools`, a
`ScalaRegion` object an index into `Heap.slots`.  A `RegionPtr` is either
null (`none`) or the address of a region (`some r`).  Byte buffers
(blocks and oversized chunks) are identified by the number the allocator
gave them; the buffers themselves carry no state.

Functions that destroy handles take a fuel argument bounding the depth of
the nested calls `RegionPtr::clear -> Region::clear -> ~RegionPtr`; they
return `none` when the fuel runs out or when the C++ code would dereference
a null or dangling object.
-/

namespace hail

/-- Modelled from the spec: REGION_BLOCK_SIZE is a macro of hail/RegionPool.h,
which is not part of the sources at hand; the spec gives 64 KiB as its value. -/
def REGION_BLOCK_SIZE : Nat := 64 * 1024

/-- A `RegionPtr`: null, or the address of a region. -/
abbrev RegionPtr := Option Nat

/-- An oversized buffer `std::make_unique<char[]>(n)`: its identity and size. -/
structure Chunk where
  id : Nat
  size : Nat
deriving DecidableEq, Repr, Inhabited

/-- A raw `char *`: the buffer it points into and the byte offset there. -/
structure Addr where
  buffer : Nat
  offset : Nat
deriving DecidableEq, Repr, Inhabited

/-- The fields of `class Region`. -/
structure Region where
  pool_ : Nat
  references_ : Nat
  block_offset_ : Nat
  current_block_ : Nat
  big_chunks_ : List Chunk
  used_blocks_ : List Nat
  parents_ : List RegionPtr
deriving DecidableEq, Repr, Inhabited

/-- The fields of `class RegionPool`; an entry of `regions_` is a
`std::unique_ptr<Region>`, null once it has been moved from. -/
structure RegionPool where
  regions_ : List (Option Nat)
  free_regions_ : List Nat
  free_blocks_ : List Nat
deriving DecidableEq, Repr, Inhabited

/-- The whole memory: region objects, pool objects, the `region_` fields of
the `ScalaRegion` objects, and the number of buffers handed out so far. -/
structure Heap where
  regions : List Region
  pools : List RegionPool
  slots : List RegionPtr
  next_buffer : Nat
deriving DecidableEq, Repr, Inhabited

/-- The state before any native constructor has run. -/
def Heap.empty : Heap := { regions := [], pools := [], slots := [], next_buffer := 0 }

/-- Read the region object at address `r`. -/
def Heap.region (w : Heap) (r : Nat) : Region := w.regions.getD r default

/-- Overwrite the region object at address `r`. -/
def Heap.setRegion (w : Heap) (r : Nat) (x : Region) : Heap :=
  { w with regions := w.regions.set r x }

/-- Read the pool object at address `p`. -/
def Heap.pool (w : Heap) (p : Nat) : RegionPool := w.pools.getD p default

/-- Overwrite the pool object at address `p`. -/
def Heap.setPool (w : Heap) (p : Nat) (x : RegionPool) : Heap :=
  { w with pools := w.pools.set p x }

/-- Overwrite the `region_` field of the `ScalaRegion` object `s`. -/
def Heap.setSlot (w : Heap) (s : Nat) (h : RegionPtr) : Heap :=
  { w with slots := w.slots.set s h }

/-- Modelled from the spec: the type of `references_` is declared in
hail/RegionPool.h (absent); the spec calls it an unsigned integer.  The
pre-decrement `--references_` of a 64-bit unsigned count: zero wraps. -/
def decrement (c : Nat) : Nat := if c = 0 then 2 ^ 64 - 1 else c - 1

/-- The statement `free_regions_.push_back(region)` on pool `p`. -/
def Heap.pushFreeRegion (w : Heap) (p r : Nat) : Heap :=
  w.setPool p { w.pool p with free_regions_ := (w.pool p).free_regions_ ++ [r] }

/-- Run a destructor over the handles of a vector, front to back. -/
def destroyAll (drop : Heap → RegionPtr → Option (Heap × RegionPtr)) :
    Heap → List RegionPtr → Option Heap
  | w, [] => some w
  | w, p :: ps =>
    match drop w p with
    | none => none
    | some (w1, _) => destroyAll drop w1 ps

/-- The assignments of `Region::clear` (Region.cpp:40-46): every statement of
its body, short of running the destructors of the handles that
`parents_.clear()` removes. -/
def Region.clear_fields (w : Heap) (r : Nat) : Heap :=
  let R := w.region r
  -- block_offset_ = 0;
  let w1 := w.setRegion r { R with block_offset_ := 0 }
  -- std::move(begin(used_blocks_), end(used_blocks_), back_inserter(pool_->free_blocks_));
  let P := w1.pool R.pool_
  let w2 := w1.setPool R.pool_ { P with free_blocks_ := P.free_blocks_ ++ R.used_blocks_ }
  -- used_blocks_.clear(); big_chunks_.clear();
  let w3 := w2.setRegion r { w2.region r with used_blocks_ := [], big_chunks_ := [] }
  -- parents_.clear();
  w3.setRegion r { w3.region r with parents_ := [] }

/-- The body of `Region::clear` (Region.cpp:40-46), given the destructor of
the parent handles.  `parents_.clear()` empties the vector and runs the
destructor of every handle it held. -/
def Region.clearWith (drop : Heap → RegionPtr → Option (Heap × RegionPtr))
    (w : Heap) (r : Nat) : Option Heap :=
  destroyAll drop (Region.clear_fields w r) (w.region r).parents_

/-- `RegionPtr::clear` (Region.cpp:12-21): returns the new memory and the new
value of the handle. -/
def RegionPtr.clear : Nat → Heap → RegionPtr → Option (Heap × RegionPtr)
  | _, w, none => some (w, none)
  | 0, _, some _ => none
  | fuel + 1, w, some r =>
    -- --(region_->references_);
    let w1 := w.setRegion r
      { w.region r with references_ := decrement (w.region r).references_ }
    if (w1.region r).references_ = 0 then
      -- region_->clear();
      match Region.clearWith (RegionPtr.clear fuel) w1 r with
      | none => none
      | some w2 =>
        -- region_->pool_->free_regions_.push_back(region_); region_ = nullptr;
        some (w2.pushFreeRegion (w2.region r).pool_ r, none)
    else
      -- region_ = nullptr;
      some (w1, none)

/-- `Region::clear` (Region.cpp:40-46). -/
def Region.clear (fuel : Nat) (w : Heap) (r : Nat) : Option Heap :=
  Region.clearWith (RegionPtr.clear fuel) w r

/-- Destructor `~RegionPtr` run on every handle of a list. -/
def RegionPtr.clearAll (fuel : Nat) (w : Heap) (ps : List RegionPtr) : Option Heap :=
  destroyAll (RegionPtr.clear fuel) w ps

/-- Modelled from the spec: the constructor `RegionPtr(Region*)` is defined
in hail/RegionPool.h (absent): "Constructing a handle from a raw region
reference increments ref_count". -/
def RegionPtr.ofRaw (w : Heap) (r : Nat) : Heap × RegionPtr :=
  (w.setRegion r { w.region r with references_ := (w.region r).references_ + 1 }, some r)

/-- Modelled from the spec: the copy constructor of `RegionPtr` is defined in
hail/RegionPool.h (absent): "Copying a handle increments"; a null handle
copies to a null handle. -/
def RegionPtr.copy (w : Heap) (p : RegionPtr) : Heap × RegionPtr :=
  match p with
  | none => (w, none)
  | some r => RegionPtr.ofRaw w r

/-- `RegionPool::get_block` (Region.cpp:80-87): returns the block. -/
def RegionPool.get_block (w : Heap) (p : Nat) : Heap × Nat :=
  match (w.pool p).free_blocks_.getLast? with
  | none => ({ w with next_buffer := w.next_buffer + 1 }, w.next_buffer)
  | some block =>
    (w.setPool p { w.pool p with free_blocks_ := (w.pool p).free_blocks_.dropLast }, block)

/-- The constructor `Region::Region(RegionPool*)` (Region.cpp:23-26) together
with the `new` that calls it: the object is placed at a fresh address, which
is returned.  The spec gives `references_` the initial value 0. -/
def Region.new (w : Heap) (p : Nat) : Heap × Nat :=
  let (w1, block) := RegionPool.get_block w p
  ({ w1 with regions := w1.regions ++
      [{ pool_ := p, references_ := 0, block_offset_ := 0, current_block_ := block,
         big_chunks_ := [], used_blocks_ := [], parents_ := [] }] },
   w1.regions.length)

/-- `RegionPool::new_region` (Region.cpp:89-92). -/
def RegionPool.new_region (w : Heap) (p : Nat) : Heap × RegionPtr :=
  let (w1, r) := Region.new w p
  let w2 := w1.setPool p { w1.pool p with regions_ := (w1.pool p).regions_ ++ [some r] }
  RegionPtr.ofRaw w2 r

/-- `RegionPool::get_region` (Region.cpp:94-101). -/
def RegionPool.get_region (w : Heap) (p : Nat) : Heap × RegionPtr :=
  match (w.pool p).free_regions_.getLast? with
  | none => RegionPool.new_region w p
  | some region =>
    let w1 := w.setPool p { w.pool p with free_regions_ := (w.pool p).free_regions_.dropLast }
    RegionPtr.ofRaw w1 region

/-- Modelled from the spec: `num_regions()` is defined in hail/RegionPool.h
(absent); an observational counter, the size of `regions_`. -/
def RegionPool.num_regions (w : Heap) (p : Nat) : Nat := (w.pool p).regions_.length

/-- Modelled from the spec: `num_free_regions()` is defined in
hail/RegionPool.h (absent); the size of `free_regions_`. -/
def RegionPool.num_free_regions (w : Heap) (p : Nat) : Nat := (w.pool p).free_regions_.length

/-- Modelled from the spec: `num_free_blocks()` is defined in
hail/RegionPool.h (absent); the size of `free_blocks_`. -/
def RegionPool.num_free_blocks (w : Heap) (p : Nat) : Nat := (w.pool p).free_blocks_.length

/-! ## Allocation -/

/-- Modelled from the spec: `Region::align` is defined in hail/RegionPool.h
(absent): "Advance block_offset to the next multiple of a". -/
def Region.align (w : Heap) (r a : Nat) : Heap :=
  w.setRegion r
    { w.region r with block_offset_ := ((w.region r).block_offset_ + a - 1) / a * a }

/-- `Region::allocate_new_block` (Region.cpp:28-33). -/
def Region.allocate_new_block (w : Heap) (r n : Nat) : Heap × Addr :=
  let R := w.region r
  -- used_blocks_.push_back(std::move(current_block_));
  let w1 := w.setRegion r { R with used_blocks_ := R.used_blocks_ ++ [R.current_block_] }
  -- current_block_ = pool_->get_block();
  let (w2, block) := RegionPool.get_block w1 R.pool_
  -- block_offset_ = n;
  let w3 := w2.setRegion r { w2.region r with current_block_ := block, block_offset_ := n }
  (w3, { buffer := block, offset := 0 })

/-- `Region::allocate_big_chunk` (Region.cpp:35-38). -/
def Region.allocate_big_chunk (w : Heap) (r n : Nat) : Heap × Addr :=
  let c := w.next_buffer
  let w1 := { w with next_buffer := c + 1 }
  let w2 := w1.setRegion r
    { w1.region r with big_chunks_ := (w1.region r).big_chunks_ ++ [{ id := c, size := n }] }
  (w2, { buffer := c, offset := 0 })

/-- Modelled from the spec: `Region::allocate(a, n)` is defined in
hail/RegionPool.h (absent).  An oversized request leaves the current block
and `block_offset` untouched; any other request aligns to `a`, then is
served from the current block when it fits and from a new block otherwise. -/
def Region.allocate (w : Heap) (r a n : Nat) : Heap × Addr :=
  if n > REGION_BLOCK_SIZE then Region.allocate_big_chunk w r n
  else
    let w1 := Region.align w r a
    let R := w1.region r
    if R.block_offset_ + n ≤ REGION_BLOCK_SIZE then
      (w1.setRegion r { R with block_offset_ := R.block_offset_ + n },
       { buffer := R.current_block_, offset := R.block_offset_ })
    else Region.allocate_new_block w1 r n

/-! ## Parent references -/

/-- `Region::get_region` (Region.cpp:48-50). -/
def Region.get_region (w : Heap) (r : Nat) : Heap × RegionPtr :=
  RegionPool.get_region w (w.region r).pool_

/-- `Region::add_reference_to` (Region.cpp:52-54).  The argument is the
by-value parameter, a handle the caller has already constructed; it is moved
into the vector, so no count changes here. -/
def Region.add_reference_to (w : Heap) (r : Nat) (region : RegionPtr) : Heap :=
  w.setRegion r { w.region r with parents_ := (w.region r).parents_ ++ [region] }

/-- `Region::get_num_parents` (Region.cpp:56-58). -/
def Region.get_num_parents (w : Heap) (r : Nat) : Nat := (w.region r).parents_.length

/-- `Region::set_num_parents` (Region.cpp:60-62): `parents_.resize(n, nullptr)`
pads with null handles or erases the tail, destroying the erased handles. -/
def Region.set_num_parents (fuel : Nat) (w : Heap) (r n : Nat) : Option Heap :=
  let ps := (w.region r).parents_
  if n ≤ ps.length then
    let w1 := w.setRegion r { w.region r with parents_ := ps.take n }
    RegionPtr.clearAll fuel w1 (ps.drop n)
  else
    some (w.setRegion r
      { w.region r with parents_ := ps ++ List.replicate (n - ps.length) none })

/-- Modelled from the spec: the copy assignment of `RegionPtr` is defined in
hail/RegionPool.h (absent): "Assigning over a handle first increments the new
target's count, then decrements the old".  Here the handle assigned over is
`parents_[i]` of region `r`; an index out of range is undefined. -/
def Region.assign_parent (fuel : Nat) (w : Heap) (r i : Nat) (src : RegionPtr) :
    Option Heap :=
  if i < (w.region r).parents_.length then
    let old := (w.region r).parents_.getD i none
    let (w1, h) := RegionPtr.copy w src
    let w2 := w1.setRegion r { w1.region r with parents_ := (w1.region r).parents_.set i h }
    (RegionPtr.clear fuel w2 old).map Prod.fst
  else none

/-- `Region::set_parent_reference` (Region.cpp:64-66): `parents_[i] = region`,
after which the by-value parameter `region` is destroyed. -/
def Region.set_parent_reference (fuel : Nat) (w : Heap) (r : Nat) (region : RegionPtr)
    (i : Nat) : Option Heap :=
  match Region.assign_parent fuel w r i region with
  | none => none
  | some w1 => (RegionPtr.clear fuel w1 region).map Prod.fst

/-- `Region::get_parent_reference` (Region.cpp:68): a copy of `parents_[i]`. -/
def Region.get_parent_reference (w : Heap) (r i : Nat) : Option (Heap × RegionPtr) :=
  if i < (w.region r).parents_.length then
    some (RegionPtr.copy w ((w.region r).parents_.getD i none))
  else none

/-- `Region::new_parent_reference` (Region.cpp:70-74). -/
def Region.new_parent_reference (fuel : Nat) (w : Heap) (r i : Nat) :
    Option (Heap × RegionPtr) :=
  -- auto r = get_region();
  let (w1, h) := Region.get_region w r
  -- parents_[i] = r; return r;
  match Region.assign_parent fuel w1 r i h with
  | none => none
  | some w2 => some (w2, h)

/-- `Region::clear_parent_reference` (Region.cpp:76-78): `parents_[i] = nullptr`. -/
def Region.clear_parent_reference (fuel : Nat) (w : Heap) (r i : Nat) : Option Heap :=
  Region.assign_parent fuel w r i none

/-! ## Ownership transfer -/

/-- One iteration of the loop of `ScalaRegionPool::own` (Region.cpp:104-109),
on entry `i` of the source pool's `regions_`. -/
def ScalaRegionPool.own_step (this pool : Nat) (w : Heap) (i : Nat) : Option Heap :=
  match (w.pool pool).regions_.getD i none with
  | none => none
  | some r =>
    if (w.region r).references_ ≠ 0 then
      -- region->pool_ = &this->pool_;
      let w1 := w.setRegion r { w.region r with pool_ := this }
      -- this->pool_.regions_.push_back(std::move(region));
      let w2 := w1.setPool this
        { w1.pool this with regions_ := (w1.pool this).regions_ ++ [some r] }
      some (w2.setPool pool
        { w2.pool pool with regions_ := (w2.pool pool).regions_.set i none })
    else some w

/-- The loop of `ScalaRegionPool::own` over the entries listed. -/
def ScalaRegionPool.own_loop (this pool : Nat) : Heap → List Nat → Option Heap
  | w, [] => some w
  | w, i :: is =>
    match ScalaRegionPool.own_step this pool w i with
    | none => none
    | some w1 => ScalaRegionPool.own_loop this pool w1 is

/-- `ScalaRegionPool::own` (Region.cpp:103-110).  Owning oneself would grow
the vector being iterated, which is undefined. -/
def ScalaRegionPool.own (w : Heap) (this pool : Nat) : Option Heap :=
  if this = pool then none
  else ScalaRegionPool.own_loop this pool w (List.range (w.pool pool).regions_.length)

/-! ## The native entry points (Region.cpp:122-283) -/

/-- Modelled from the spec: the copy assignment of `RegionPtr` (see
`Region.assign_parent`), here assigning over the `region_` field of the
`ScalaRegion` object `s`. -/
def ScalaRegion.assign (fuel : Nat) (w : Heap) (s : Nat) (src : RegionPtr) : Option Heap :=
  match w.slots.get? s with
  | none => none
  | some old =>
    let (w1, h) := RegionPtr.copy w src
    (RegionPtr.clear fuel (w1.setSlot s h) old).map Prod.fst

/-- The non-null region held by the `ScalaRegion` object `s`, as needed by
`r->region_->...`. -/
def ScalaRegion.deref (w : Heap) (s : Nat) : Option Nat :=
  match w.slots.get? s with
  | some (some r) => some r
  | _ => none

/-- `RegionPool.nativeCtor` (Region.cpp:122-128): a new, empty pool. -/
def RegionPool_nativeCtor (w : Heap) : Heap :=
  { w with pools := w.pools ++ [{ regions_ := [], free_regions_ := [], free_blocks_ := [] }] }

/-- `Region.nativeCtor` (Region.cpp:154-162), the constructor
`ScalaRegion(ScalaRegionPool*)` (Region.cpp:112-113) included. -/
def Region_nativeCtor (w : Heap) (p : Nat) : Option Heap :=
  if p < w.pools.length then
    let (w1, h) := RegionPool.get_region w p
    some { w1 with slots := w1.slots ++ [h] }
  else none

/-- `Region.initEmpty` (Region.cpp:164-170). -/
def Region_initEmpty (w : Heap) : Heap := { w with slots := w.slots ++ [none] }

/-- `Region.clearButKeepMem` (Region.cpp:172-178). -/
def Region_clearButKeepMem (fuel : Nat) (w : Heap) (s : Nat) : Option Heap :=
  match ScalaRegion.deref w s with
  | none => none
  | some r => Region.clear fuel w r

/-- `Region.nativeAlign` (Region.cpp:180-187). -/
def Region_nativeAlign (w : Heap) (s a : Nat) : Option Heap :=
  match ScalaRegion.deref w s with
  | none => none
  | some r => some (Region.align w r a)

/-- `Region.nativeAlignAllocate` (Region.cpp:189-197). -/
def Region_nativeAlignAllocate (w : Heap) (s a n : Nat) : Option (Heap × Addr) :=
  match ScalaRegion.deref w s with
  | none => none
  | some r => some (Region.allocate w r a n)

/-- `Region.nativeAllocate` (Region.cpp:199-206); the spec makes
`allocate(n)` the same as `allocate(1, n)`. -/
def Region_nativeAllocate (w : Heap) (s n : Nat) : Option (Heap × Addr) :=
  match ScalaRegion.deref w s with
  | none => none
  | some r => some (Region.allocate w r 1 n)

/-- `Region.nativeReference` (Region.cpp:208-216). -/
def Region_nativeReference (w : Heap) (s s2 : Nat) : Option Heap :=
  match ScalaRegion.deref w s, w.slots.get? s2 with
  | some r, some h2 =>
    let (w1, arg) := RegionPtr.copy w h2
    some (Region.add_reference_to w1 r arg)
  | _, _ => none

/-- `Region.nativeRefreshRegion` (Region.cpp:218-224): the right-hand side is
evaluated first, then assigned over the slot, then the temporary dies. -/
def Region_nativeRefreshRegion (fuel : Nat) (w : Heap) (s : Nat) : Option Heap :=
  match ScalaRegion.deref w s with
  | none => none
  | some r =>
    let (w1, tmp) := Region.get_region w r
    match ScalaRegion.assign fuel w1 s tmp with
    | none => none
    | some w2 => (RegionPtr.clear fuel w2 tmp).map Prod.fst

/-- `Region.nativeClearRegion` (Region.cpp:226-232): `r->region_ = nullptr`. -/
def Region_nativeClearRegion (fuel : Nat) (w : Heap) (s : Nat) : Option Heap :=
  ScalaRegion.assign fuel w s none

/-- `Region.nativeGetNumParents` (Region.cpp:234-240). -/
def Region_nativeGetNumParents (w : Heap) (s : Nat) : Option Nat :=
  (ScalaRegion.deref w s).map (Region.get_num_parents w)

/-- `Region.nativeSetNumParents` (Region.cpp:242-249). -/
def Region_nativeSetNumParents (fuel : Nat) (w : Heap) (s n : Nat) : Option Heap :=
  match ScalaRegion.deref w s with
  | none => none
  | some r => Region.set_num_parents fuel w r n

/-- `Region.nativeSetParentReference` (Region.cpp:251-260). -/
def Region_nativeSetParentReference (fuel : Nat) (w : Heap) (s s2 i : Nat) : Option Heap :=
  match ScalaRegion.deref w s, w.slots.get? s2 with
  | some r, some h2 =>
    let (w1, arg) := RegionPtr.copy w h2
    Region.set_parent_reference fuel w1 r arg i
  | _, _ => none

/-- `Region.nativeGetParentReferenceInto` (Region.cpp:262-274). -/
def Region_nativeGetParentReferenceInto (fuel : Nat) (w : Heap) (s s2 i : Nat) :
    Option Heap :=
  match ScalaRegion.deref w s with
  | none => none
  | some r =>
    -- r2->region_ = r->region_->get_parent_reference((int) i);
    match Region.get_parent_reference w r i with
    | none => none
    | some (w1, tmp) =>
      match ScalaRegion.assign fuel w1 s2 tmp with
      | none => none
      | some w2 =>
        match RegionPtr.clear fuel w2 tmp with
        | none => none
        | some (w3, _) =>
          -- if (r2->region_.get() == nullptr)
          match w3.slots.get? s2 with
          | some none =>
            -- r2->region_ = r->region_->new_parent_reference((int) i);
            match ScalaRegion.deref w3 s with
            | none => none
            | some r1 =>
              match Region.new_parent_reference fuel w3 r1 i with
              | none => none
              | some (w4, tmp2) =>
                match ScalaRegion.assign fuel w4 s2 tmp2 with
                | none => none
                | some w5 => (RegionPtr.clear fuel w5 tmp2).map Prod.fst
          | _ => some w3

/-- `Region.nativeClearParentReference` (Region.cpp:276-283). -/
def Region_nativeClearParentReference (fuel : Nat) (w : Heap) (s i : Nat) : Option Heap :=
  match ScalaRegion.deref w s with
  | none => none
  | some r => Region.clear_parent_reference fuel w r i

/-! ## The host's view: sequences of native calls -/

/-- Modelled from the spec: alignments "must be a power of two (undefined
otherwise)"; for a 64-bit `size_t` these are 2^0 .. 2^63. -/
def isAlignment (a : Nat) : Bool := (List.range 64).any (fun k => a == 2 ^ k)

/-- The native calls that change the memory. -/
inductive Op where
  | poolCtor
  | regionCtor (p : Nat)
  | initEmpty
  | clearButKeepMem (s : Nat)
  | align (s a : Nat)
  | alignAllocate (s a n : Nat)
  | allocate (s n : Nat)
  | reference (s s2 : Nat)
  | refreshRegion (s : Nat)
  | clearRegion (s : Nat)
  | setNumParents (s n : Nat)
  | setParentReference (s s2 i : Nat)
  | getParentReferenceInto (s s2 i : Nat)
  | clearParentReference (s i : Nat)
  | own (this pool : Nat)
deriving DecidableEq, Repr

/-- Run one native call; `none` when the call is undefined on this memory
or the fuel does not suffice. -/
def step (fuel : Nat) (w : Heap) : Op → Option Heap
  | .poolCtor => some (RegionPool_nativeCtor w)
  | .regionCtor p => Region_nativeCtor w p
  | .initEmpty => some (Region_initEmpty w)
  | .clearButKeepMem s => Region_clearButKeepMem fuel w s
  | .align s a => if isAlignment a then Region_nativeAlign w s a else none
  | .alignAllocate s a n =>
    if isAlignment a then (Region_nativeAlignAllocate w s a n).map Prod.fst else none
  | .allocate s n => (Region_nativeAllocate w s n).map Prod.fst
  | .reference s s2 => Region_nativeReference w s s2
  | .refreshRegion s => Region_nativeRefreshRegion fuel w s
  | .clearRegion s => Region_nativeClearRegion fuel w s
  | .setNumParents s n => Region_nativeSetNumParents fuel w s n
  | .setParentReference s s2 i => Region_nativeSetParentReference fuel w s s2 i
  | .getParentReferenceInto s s2 i => Region_nativeGetParentReferenceInto fuel w s s2 i
  | .clearParentReference s i => Region_nativeClearParentReference fuel w s i
  | .own this pool =>
    if this < w.pools.length ∧ pool < w.pools.length then ScalaRegionPool.own w this pool
    else none

/-- Run a sequence of native calls. -/
def run (fuel : Nat) : Heap → List Op → Option Heap
  | w, [] => some w
  | w, op :: ops =>
    match step fuel w op with
    | none => none
    | some w1 => run fuel w1 ops

/-- The memories a host can bring about by native calls. -/
inductive Reachable : Heap → Prop
  | init : Reachable Heap.empty
  | step (fuel : Nat) (op : Op) {w w1 : Heap} :
      Reachable w → step fuel w op = some w1 → Reachable w1

/-! ## The cascade of handle destructions, as a relation -/

/-- The memory after `--(region_->references_)` on region `r`. -/
def Heap.decRef (w : Heap) (r : Nat) : Heap :=
  w.setRegion r { w.region r with references_ := decrement (w.region r).references_ }

/-- `Cascade w ps w1`: destroying the handles `ps` front to back takes the
memory `w` to `w1`. -/
inductive Cascade : Heap → List RegionPtr → Heap → Prop
  | nil (w : Heap) : Cascade w [] w
  | null {w w1 : Heap} {ps : List RegionPtr} :
      Cascade w ps w1 → Cascade w (none :: ps) w1
  | keep {w w1 : Heap} {ps : List RegionPtr} {r : Nat} :
      ((w.decRef r).region r).references_ ≠ 0 →
      Cascade (w.decRef r) ps w1 → Cascade w (some r :: ps) w1
  | recycle {w w1 w2 : Heap} {ps : List RegionPtr} {r : Nat} :
      ((w.decRef r).region r).references_ = 0 →
      Cascade (Region.clear_fields (w.decRef r) r) ((w.decRef r).region r).parents_ w1 →
      Cascade (w1.pushFreeRegion (w1.region r).pool_ r) ps w2 →
      Cascade w (some r :: ps) w2

/-! ## Invariants -/

/-- Every handle object of the memory: the slots, then the `parents_` of
every region. -/
def Heap.handles (w : Heap) : List RegionPtr :=
  w.slots ++ (w.regions.map (fun R => R.parents_)).flatten

/-- A handle is null or points at an allocated region. -/
def RegionPtr.valid (w : Heap) (h : RegionPtr) : Bool :=
  match h with
  | none => true
  | some r => decide (r < w.regions.length)

/-- Reference counts are accurate, `q` being the handles that exist outside
the memory (temporaries, parameters, handles under destruction). -/
def Accurate (w : Heap) (q : List RegionPtr) : Prop :=
  (∀ r, r < w.regions.length →
      (w.region r).references_ = (w.handles ++ q).count (some r)) ∧
  (∀ h ∈ w.handles ++ q, RegionPtr.valid w h = true)

instance (w : Heap) (q : List RegionPtr) : Decidable (Accurate w q) := by
  unfold Accurate; infer_instance

/-- The cleared state of a region. -/
def Region.isCleared (R : Region) : Prop :=
  R.block_offset_ = 0 ∧ R.used_blocks_ = [] ∧ R.big_chunks_ = [] ∧ R.parents_ = []

instance (R : Region) : Decidable R.isCleared := by
  unfold Region.isCleared; infer_instance

/-- An entry of `regions_` of pool `p` is null, or an allocated region whose
back-pointer is `p` and which is on `free_regions_` exactly when its count is 0. -/
def RegionPool.entryOk (w : Heap) (p : Nat) (x : Option Nat) : Bool :=
  match x with
  | none => true
  | some r => decide (r < w.regions.length ∧ (w.region r).pool_ = p ∧
      (r ∈ (w.pool p).free_regions_ ↔ (w.region r).references_ = 0))

/-- The pools are well formed. -/
def PoolsOk (w : Heap) : Prop :=
  (∀ r, r < w.regions.length →
      (w.region r).pool_ < w.pools.length ∧
      some r ∈ (w.pool (w.region r).pool_).regions_) ∧
  (∀ p, p < w.pools.length →
      (w.pool p).free_regions_.Nodup ∧
      ((w.pool p).regions_.filter Option.isSome).Nodup ∧
      (∀ r ∈ (w.pool p).free_regions_,
          some r ∈ (w.pool p).regions_ ∧ (w.region r).references_ = 0 ∧
          (w.region r).isCleared) ∧
      (∀ x ∈ (w.pool p).regions_, RegionPool.entryOk w p x = true))

instance (w : Heap) : Decidable (PoolsOk w) := by
  unfold PoolsOk; infer_instance

/-- The invariant of reachable memories. -/
def Inv (w : Heap) : Prop := Accurate w [] ∧ PoolsOk w

instance (w : Heap) : Decidable (Inv w) := by
  unfold Inv; infer_instance

/-! ## What a cascade does to the memory -/

/-- The number of handle objects held in `parents_` vectors. -/
def Heap.parentSlots (w : Heap) : Nat := (w.regions.map (fun R => R.parents_.length)).sum

/-- A region after `Region::clear`, once no handle refers to it. -/
def Region.cleared (R : Region) : Region :=
  { R with references_ := 0, block_offset_ := 0, used_blocks_ := [], big_chunks_ := [],
           parents_ := [] }

/-- What destroying handles does to one region: either only its count went
down, and not to zero, or its count went from non-zero to zero and it was
cleared. -/
def RegionPost (R R1 : Region) : Prop :=
  (R1 = { R with references_ := R1.references_ } ∧ R1.references_ ≤ R.references_ ∧
    (R.references_ = 0 ∨ R1.references_ ≠ 0)) ∨
  (R.references_ ≠ 0 ∧ R1 = R.cleared)

/-- What destroying handles does to the memory: slots, buffer counter and
`regions_` are untouched; every region is related by `RegionPost`; each pool's
`free_regions_` grows by the regions of that pool whose count went to zero,
each once, and its `free_blocks_` by the used blocks of those regions. -/
def Post (w w1 : Heap) : Prop :=
  w1.slots = w.slots ∧ w1.next_buffer = w.next_buffer ∧
  w1.regions.length = w.regions.length ∧ w1.pools.length = w.pools.length ∧
  (∀ r, RegionPost (w.region r) (w1.region r)) ∧
  (∀ p, (w1.pool p).regions_ = (w.pool p).regions_ ∧
    ∃ l bl, (w1.pool p).free_regions_ = (w.pool p).free_regions_ ++ l ∧ l.Nodup ∧
      (∀ r, r ∈ l ↔ (w.region r).pool_ = p ∧ (w.region r).references_ ≠ 0 ∧
        (w1.region r).references_ = 0) ∧
      (w1.pool p).free_blocks_ = (w.pool p).free_blocks_ ++ bl ∧
      bl.Perm (l.map (fun r => (w.region r).used_blocks_)).flatten)

/-- Every allocated region points back at an allocated pool. -/
def PoolValid (w : Heap) : Prop :=
  ∀ r, r < w.regions.length → (w.region r).pool_ < w.pools.length

instance (w : Heap) : Decidable (PoolValid w) := by
  unfold PoolValid; infer_instance

/-- The number of occurrences of the handle `h` in `parents_` vectors. -/
def Heap.parentCount (w : Heap) (h : RegionPtr) : Nat :=
  (w.regions.map (fun R => R.parents_.count h)).sum

/-- The number of handles to region `x`: in slots, in `parents_` vectors, and
among the handles `q` outside the memory. -/
def Heap.handleCount (w : Heap) (q : List RegionPtr) (x : Nat) : Nat :=
  w.slots.count (some x) + w.parentCount (some x) + q.count (some x)

/-- The invariant in the middle of a native call, while the handles `q`
(temporaries, parameters) exist outside the memory. -/
def InvWith (w : Heap) (q : List RegionPtr) : Prop := Accurate w q ∧ PoolsOk w

instance (w : Heap) (q : List RegionPtr) : Decidable (InvWith w q) := by
  unfold InvWith; infer_instance

/-! ## Acyclic parent graphs, and what a release recycles -/

/-- A handle is null or points at a region of rank below `k`. -/
def RegionPtr.below (rank : Nat → Nat) (k : Nat) (h : RegionPtr) : Bool :=
  match h with
  | none => true
  | some b => decide (rank b < k)

/-- The parent graph is acyclic: every parent handle of an allocated region
points at a region of smaller rank. -/
def ParentsDescend (w : Heap) (rank : Nat → Nat) : Prop :=
  ∀ a, a < w.regions.length → ∀ h ∈ (w.region a).parents_, RegionPtr.below rank (rank a) h = true

instance (w : Heap) (rank : Nat → Nat) : Decidable (ParentsDescend w rank) := by
  unfold ParentsDescend; infer_instance

/-- Region `x` was live in `w` and has count zero in `w1`: it was recycled. -/
def Heap.recycledBy (w w1 : Heap) (x : Nat) : Prop :=
  (w.region x).references_ ≠ 0 ∧ (w1.region x).references_ = 0

instance (w w1 : Heap) (x : Nat) : Decidable (w.recycledBy w1 x) := by
  unfold Heap.recycledBy; infer_instance

/-- The number of parent slots holding a handle to `x` among the regions
recycled between `w` and `w1`. -/
def Heap.droppedSlots (w w1 : Heap) (x : Nat) : Nat :=
  ((List.range w.regions.length).map
    (fun a => if w.recycledBy w1 a then (w.region a).parents_.count (some x) else 0)).sum

/-! ## Concrete memories used to exercise the theorems -/

/-- One pool, one region with a single handle, which is held outside the
memory (the slot that held it has just been overwritten). -/
def demoLastHandle : Heap :=
  { regions := [{ pool_ := 0, references_ := 1, block_offset_ := 24, current_block_ := 0,
                  big_chunks_ := [], used_blocks_ := [7], parents_ := [] }],
    pools := [{ regions_ := [some 0], free_regions_ := [], free_blocks_ := [] }],
    slots := [none],
    next_buffer := 8 }

/-- One pool with two regions: region 0 is held by slot 0 and has a used block,
an oversized chunk and one parent handle, to region 1; region 1 has a used
block and no other handle. -/
def demoParent : Heap :=
  { regions := [{ pool_ := 0, references_ := 1, block_offset_ := 100, current_block_ := 0,
                  big_chunks_ := [{ id := 5, size := 70000 }], used_blocks_ := [3],
                  parents_ := [some 1] },
                { pool_ := 0, references_ := 1, block_offset_ := 8, current_block_ := 1,
                  big_chunks_ := [], used_blocks_ := [4], parents_ := [] }],
    pools := [{ regions_ := [some 0, some 1], free_regions_ := [], free_blocks_ := [2] }],
    slots := [some 0, none],
    next_buffer := 6 }

/-- One pool whose two regions are both on the free list. -/
def demoFree : Heap :=
  { regions := [{ pool_ := 0, references_ := 0, block_offset_ := 0, current_block_ := 0,
                  big_chunks_ := [], used_blocks_ := [], parents_ := [] },
                { pool_ := 0, references_ := 0, block_offset_ := 0, current_block_ := 1,
                  big_chunks_ := [], used_blocks_ := [], parents_ := [] }],
    pools := [{ regions_ := [some 0, some 1], free_regions_ := [1, 0], free_blocks_ := [] }],
    slots := [none],
    next_buffer := 2 }

/-- A host session: two regions A (slot 0) and B (slot 1) from one pool; B
fills its block, then rolls over to a second block; A takes a parent reference to B; the host drops
its own handle to B. -/
def parentScenario : List Op :=
  [.poolCtor, .regionCtor 0, .regionCtor 0, .allocate 1 65536, .allocate 1 16,
   .reference 0 1, .clearRegion 1]

/-- The memory at the end of `parentScenario`. -/
def parentScenarioHeap : Heap :=
  { regions := [{ pool_ := 0, references_ := 1, block_offset_ := 0, current_block_ := 0,
                  big_chunks_ := [], used_blocks_ := [], parents_ := [some 1] },
                { pool_ := 0, references_ := 1, block_offset_ := 16, current_block_ := 2,
                  big_chunks_ := [], used_blocks_ := [1], parents_ := [] }],
    pools := [{ regions_ := [some 0, some 1], free_regions_ := [], free_blocks_ := [] }],
    slots := [some 0, none],
    next_buffer := 3 }

/-- A host session: regions A, B, C (slots 0, 1, 2) from one pool; B takes a
parent reference to C and the host drops its handle to C; then A takes a
parent reference to B and the host drops its handle to B. -/
def lifetimeScenario : List Op :=
  [.poolCtor, .regionCtor 0, .regionCtor 0, .regionCtor 0, .reference 1 2, .clearRegion 2,
   .reference 0 1, .clearRegion 1]

/-- The memory at the end of `lifetimeScenario`. -/
def lifetimeScenarioHeap : Heap :=
  { regions := [{ pool_ := 0, references_ := 1, block_offset_ := 0, current_block_ := 0,
                  big_chunks_ := [], used_blocks_ := [], parents_ := [some 1] },
                { pool_ := 0, references_ := 1, block_offset_ := 0, current_block_ := 1,
                  big_chunks_ := [], used_blocks_ := [], parents_ := [some 2] },
                { pool_ := 0, references_ := 1, block_offset_ := 0, current_block_ := 2,
                  big_chunks_ := [], used_blocks_ := [], parents_ := [] }],
    pools := [{ regions_ := [some 0, some 1, some 2], free_regions_ := [],
                free_blocks_ := [] }],
    slots := [some 0, none, none],
    next_buffer := 3 }

/-! ## Sequences of `get_region` calls and handle drops -/

/-- The native calls that only acquire a region or drop a handle. -/
def Op.isGetOrDrop : Op → Bool
  | .regionCtor _ => true
  | .clearRegion _ => true
  | _ => false

/-- The number of live regions (count not zero) among the regions of pool `p`. -/
def RegionPool.num_live (w : Heap) (p : Nat) : Nat :=
  ((w.pool p).regions_.filter (fun x =>
    match x with
    | some r => decide ((w.region r).references_ ≠ 0)
    | none => false)).length

/-- One pool whose only region has been recycled. -/
def demoRecycled : Heap :=
  { regions := [{ pool_ := 0, references_ := 0, block_offset_ := 0, current_block_ := 0,
                  big_chunks_ := [], used_blocks_ := [], parents_ := [] }],
    pools := [{ regions_ := [some 0], free_regions_ := [0], free_blocks_ := [] }],
    slots := [none],
    next_buffer := 1 }

/-- A fresh pool in an otherwise empty memory. -/
def demoFreshPool : Heap :=
  { regions := [],
    pools := [{ regions_ := [], free_regions_ := [], free_blocks_ := [] }],
    slots := [],
    next_buffer := 0 }

/-- Acquire a region, drop it, acquire a region again. -/
def getDropScenario : List Op := [.regionCtor 0, .clearRegion 0, .regionCtor 0]

/-- An entry of `regions_` holds a region whose count is not zero. -/
def RegionPool.isLive (w : Heap) (x : Option Nat) : Bool :=
  match x with
  | some r => decide ((w.region r).references_ ≠ 0)
  | none => false

/-- Two pools: the transient pool 1 created region 0, still held by slot 0,
and region 1, which has been recycled; pool 0 is empty. -/
def demoOwn : Heap :=
  { regions := [{ pool_ := 1, references_ := 1, block_offset_ := 16, current_block_ := 0,
                  big_chunks_ := [], used_blocks_ := [], parents_ := [] },
                { pool_ := 1, references_ := 0, block_offset_ := 0, current_block_ := 1,
                  big_chunks_ := [], used_blocks_ := [], parents_ := [] }],
    pools := [{ regions_ := [], free_regions_ := [], free_blocks_ := [] },
              { regions_ := [some 0, some 1], free_regions_ := [1], free_blocks_ := [] }],
    slots := [some 0, none],
    next_buffer := 2 }

/-- The memory after the count of region `r` has been incremented, as the
constructor and the copy constructor of `RegionPtr` do. -/
def Heap.incRef (w : Heap) (r : Nat) : Heap :=
  w.setRegion r { w.region r with references_ := (w.region r).references_ + 1 }

/-- The order of events that the specification gives for `region_refresh(r)`:
first the handle in slot `s` is dropped (the last-release protocol runs if it
was the last handle), then the result of `get_region()` of the pool its
region belonged to is stored in the slot. -/
def refreshDropThenGet (fuel : Nat) (w : Heap) (s : Nat) : Option Heap :=
  match ScalaRegion.deref w s with
  | none => none
  | some r =>
    match Region_nativeClearRegion fuel w s with
    | none => none
    | some w1 =>
      let (w2, tmp) := RegionPool.get_region w1 (w.region r).pool_
      match ScalaRegion.assign fuel w2 s tmp with
      | none => none
      | some w3 => (RegionPtr.clear fuel w3 tmp).map Prod.fst

/-- A host session: one pool, one region, held by slot 0 only. -/
def refreshScenario : List Op := [.poolCtor, .regionCtor 0]

/-- The memory at the end of `refreshScenario`. -/
def refreshHeap : Heap :=
  { regions := [{ pool_ := 0, references_ := 1, block_offset_ := 0, current_block_ := 0,
                  big_chunks_ := [], used_blocks_ := [], parents_ := [] }],
    pools := [{ regions_ := [some 0], free_regions_ := [], free_blocks_ := [] }],
    slots := [some 0],
    next_buffer := 1 }

/-- Every allocated region has its bump offset within the block. -/
def OffsetsOk (w : Heap) : Prop :=
  ∀ r, r < w.regions.length → (w.region r).block_offset_ ≤ REGION_BLOCK_SIZE

instance (w : Heap) : Decidable (OffsetsOk w) := by
  unfold OffsetsOk; infer_instance

/-- The native call does not ask `align` for an alignment above the block size. -/
def Op.alignsWithinBlock : Op → Bool
  | .align _ a => decide (a ≤ REGION_BLOCK_SIZE)
  | _ => true

/-- A host session: one region, one byte allocated, then `align` to 2^17. -/
def offsetScenario : List Op := [.poolCtor, .regionCtor 0, .allocate 0 1, .align 0 131072]

/-- The buffers a region owns: its current block, its used blocks and its
oversized chunks. -/
def Region.buffers (R : Region) : List Nat :=
  R.current_block_ :: (R.used_blocks_ ++ R.big_chunks_.map Chunk.id)

/-- Every buffer held somewhere in the memory: the free blocks of the pools,
then the buffers of the regions. -/
def Heap.buffers (w : Heap) : List Nat :=
  (w.pools.map (fun P => P.free_blocks_)).flatten ++ (w.regions.map Region.buffers).flatten

/-- No buffer is held twice, and every buffer held was handed out by the
allocator. -/
def BuffersOk (w : Heap) : Prop :=
  w.buffers.Nodup ∧ ∀ b ∈ w.buffers, b < w.next_buffer

instance (w : Heap) : Decidable (BuffersOk w) := by
  unfold BuffersOk; infer_instance

/-- The number of times buffer `b` is held in the memory. -/
def Heap.bufferCount (w : Heap) (b : Nat) : Nat :=
  (w.pools.map (fun P => P.free_blocks_.count b)).sum +
    (w.regions.map (fun R => R.buffers.count b)).sum

/-- From `w` to `w1` no buffer gained an owner, except that each buffer handed
out in between may have found one. -/
def BufStep (w w1 : Heap) : Prop :=
  w.next_buffer ≤ w1.next_buffer ∧
  ∀ b, w1.bufferCount b ≤
    w.bufferCount b + (if w.next_buffer ≤ b ∧ b < w1.next_buffer then 1 else 0)

/-- A run of `allocate(a, n)` calls on region `r`, one per request `(a, n)`
and with nothing in between: the final memory and, call by call, the address
returned and the size asked for. -/
def Region.allocate_all (w : Heap) (r : Nat) : List (Nat × Nat) → Heap × List (Addr × Nat)
  | [] => (w, [])
  | (a, n) :: reqs =>
    let (w1, addr) := Region.allocate w r a n
    let (w2, rest) := Region.allocate_all w1 r reqs
    (w2, (addr, n) :: rest)

/-- Two byte ranges, each given by the address of its first byte and its
size, do not overlap: they lie in different buffers or one ends before the
other starts. -/
def Addr.disjoint (x y : Addr × Nat) : Prop :=
  x.1.buffer ≠ y.1.buffer ∨ x.1.offset + x.2 ≤ y.1.offset ∨ y.1.offset + y.2 ≤ x.1.offset

/-- The byte range lies entirely inside a block of region `R` or inside one
of its oversized chunks. -/
def Region.contains (R : Region) (x : Addr × Nat) : Prop :=
  ((x.1.buffer = R.current_block_ ∨ x.1.buffer ∈ R.used_blocks_) ∧
    x.1.offset + x.2 ≤ REGION_BLOCK_SIZE) ∨
  (∃ c ∈ R.big_chunks_, c.id = x.1.buffer ∧ x.1.offset + x.2 ≤ c.size)

/-- The byte range has been handed out by region `R` since its last clear: it
lies below the bump offset of the current block, in a used block, or in an
oversized chunk. -/
def Region.handedOut (R : Region) (x : Addr × Nat) : Prop :=
  (x.1.buffer = R.current_block_ ∧ x.1.offset + x.2 ≤ R.block_offset_ ∧
    x.1.offset + x.2 ≤ REGION_BLOCK_SIZE) ∨
  (x.1.buffer ∈ R.used_blocks_ ∧ x.1.offset + x.2 ≤ REGION_BLOCK_SIZE) ∨
  (∃ c ∈ R.big_chunks_, c.id = x.1.buffer ∧ x.1.offset + x.2 ≤ c.size)

/-- The standard blocks of pool `p`, counted through the back-pointers: its
free blocks plus, for every region object whose `pool_` is `p`, the current
block and the used blocks. -/
def Heap.blockTotal (w : Heap) (p : Nat) : Nat :=
  (w.pool p).free_blocks_.length +
    (w.regions.map (fun R => if R.pool_ = p then 1 + R.used_blocks_.length else 0)).sum

/-- The native calls that can reach `get_block`: through `get_region` or
through an allocation. -/
def Op.mayTakeBlock : Op → Bool
  | .regionCtor _ => true
  | .alignAllocate _ _ _ => true
  | .allocate _ _ => true
  | .refreshRegion _ => true
  | .getParentReferenceInto _ _ _ => true
  | _ => false

/-- The native call is an ownership transfer. -/
def Op.isOwn : Op → Bool
  | .own _ _ => true
  | _ => false

/-- The number of blocks the entry of `regions_` accounts for: the current
block and the used blocks of its region, nothing for a moved-from entry. -/
def RegionPool.entryBlocks (w : Heap) (x : Option Nat) : Nat :=
  match x with
  | some r => 1 + (w.region r).used_blocks_.length
  | none => 0

/-- The total number of standard blocks of pool `p`: `num_free_blocks()` plus,
over all regions of the pool, 1 + the length of `used_blocks_`. -/
def RegionPool.num_blocks (w : Heap) (p : Nat) : Nat :=
  RegionPool.num_free_blocks w p + ((w.pool p).regions_.map (RegionPool.entryBlocks w)).sum

/-- A host session that builds a cycle of parent handles: regions A (slot 0)
and B (slot 1) from one pool; A takes a parent reference to B, B takes one to
A, and the host drops its own handle to B. -/
def cycleScenario : List Op :=
  [.poolCtor, .regionCtor 0, .regionCtor 0, .reference 0 1, .reference 1 0, .clearRegion 1]

/-- The memory at the end of `cycleScenario`. -/
def cycleHeap : Heap :=
  { regions := [{ pool_ := 0, references_ := 2, block_offset_ := 0, current_block_ := 0,
                  big_chunks_ := [], used_blocks_ := [], parents_ := [some 1] },
                { pool_ := 0, references_ := 1, block_offset_ := 0, current_block_ := 1,
                  big_chunks_ := [], used_blocks_ := [], parents_ := [some 0] }],
    pools := [{ regions_ := [some 0, some 1], free_regions_ := [], free_blocks_ := [] }],
    slots := [some 0, none],
    next_buffer := 2 }

/-- The allocation state of a region: the fields that `allocate` and `align`
read and write, and that `Region::clear` resets. -/
def Region.allocState (R : Region) : Nat × Nat × List Nat × List Chunk :=
  (R.block_offset_, R.current_block_, R.used_blocks_, R.big_chunks_)

/-- Region `x` has the same allocation state in `w1` as in `w`. -/
def Heap.sameAlloc (w w1 : Heap) (x : Nat) : Prop :=
  (w1.region x).allocState = (w.region x).allocState

/-- From `w` to `w1`, a stretch of a native call that releases no handle: if
region `x` is live in `w`, it is live in `w1` and its allocation state is the
same. -/
def Heap.keepsUp (w w1 : Heap) (x : Nat) : Prop :=
  (w.region x).references_ ≠ 0 → w.sameAlloc w1 x ∧ (w1.region x).references_ ≠ 0

/-- From `w` to `w1`, a stretch of a native call that acquires no handle to
`x`: if region `x` is live in `w1`, it was live in `w` and its allocation
state is the same. -/
def Heap.keepsDown (w w1 : Heap) (x : Nat) : Prop :=
  (w1.region x).references_ ≠ 0 → w.sameAlloc w1 x ∧ (w.region x).references_ ≠ 0

/-- The first statement of `nativeGetParentReferenceInto` (Region.cpp:270),
`r2->region_ = r->region_->get_parent_reference(i)`, on its own: the memory
at the test of Region.cpp:271. -/
def Region_nativeGetParentReferenceInto_first (fuel : Nat) (w : Heap) (s s2 i : Nat) :
    Option Heap :=
  match ScalaRegion.deref w s with
  | none => none
  | some r =>
    match Region.get_parent_reference w r i with
    | none => none
    | some (w1, tmp) =>
      match ScalaRegion.assign fuel w1 s2 tmp with
      | none => none
      | some w2 => (RegionPtr.clear fuel w2 tmp).map Prod.fst

/-- The memories at which a native call is observed: between the two
statements of `getParentReferenceInto`, and when the call returns. -/
def Op.observed (fuel : Nat) (w : Heap) (op : Op) : List Heap :=
  (match op with
    | .getParentReferenceInto s s2 i =>
      (Region_nativeGetParentReferenceInto_first fuel w s s2 i).toList
    | _ => []) ++ (step fuel w op).toList

/-- The native call runs `Region::clear` on the live region `x`: it is
`clearButKeepMem` on a slot that holds `x` (Region.cpp:177), or it releases
the last handle to `x` (Region.cpp:15-16), so that the count of `x` is zero
when the call returns or, inside `getParentReferenceInto`, before the second
statement can take `x` from the free list again. -/
def Op.clearsRegion (fuel : Nat) (w : Heap) (x : Nat) (op : Op) : Bool :=
  (match op with
    | .clearButKeepMem s => decide (ScalaRegion.deref w s = some x)
    | _ => false) ||
  (op.observed fuel w).any (fun w1 => decide ((w1.region x).references_ = 0))

/-- No native call of the session runs `Region::clear` on region `x`. -/
def noClear (fuel : Nat) (x : Nat) : Heap → List Op → Bool
  | _, [] => true
  | w, op :: ops =>
    !(op.clearsRegion fuel w x) &&
      match step fuel w op with
      | none => true
      | some w1 => noClear fuel x w1 ops

/-- The native call is an `align` or an allocation on a slot that holds
region `x`. -/
def Op.bumps (w : Heap) (x : Nat) : Op → Bool
  | .align s _ => decide (ScalaRegion.deref w s = some x)
  | .alignAllocate s _ _ => decide (ScalaRegion.deref w s = some x)
  | .allocate s _ => decide (ScalaRegion.deref w s = some x)
  | _ => false

/-- The byte range returned by the native call when it is an allocation on a
slot that holds region `x`: the address returned and the size asked for. -/
def Op.range (w : Heap) (x : Nat) : Op → Option (Addr × Nat)
  | .alignAllocate s a n =>
    if ScalaRegion.deref w s = some x then
      (Region_nativeAlignAllocate w s a n).map (fun r => (r.2, n))
    else none
  | .allocate s n =>
    if ScalaRegion.deref w s = some x then
      (Region_nativeAllocate w s n).map (fun r => (r.2, n))
    else none
  | _ => none

/-- The byte ranges returned, call by call, by the allocations from region
`x` during a session of native calls. -/
def allocatedRanges (fuel : Nat) (x : Nat) : Heap → List Op → List (Addr × Nat)
  | _, [] => []
  | w, op :: ops =>
    match step fuel w op with
    | none => []
    | some w1 => (op.range w x).toList ++ allocatedRanges fuel x w1 ops

/-- From `w` to `w1`, a stretch that first releases nothing and then acquires
no handle to `x`. -/
def Heap.keeps (w w1 : Heap) (x : Nat) : Prop :=
  ∃ w0, w.keepsUp w0 x ∧ w0.keepsDown w1 x

/-- A host session on the memory of `parentScenario`, where slot 0 holds
region A: allocations from A, interleaved with the creation of a region C
(slot 2), an allocation from C, a parent reference from C to A, the retrieval
of A's parent into slot 1, the drop of C, and an `align` on A. -/
def allocScenario : List Op :=
  [.allocate 0 100, .regionCtor 0, .alignAllocate 2 8 64, .alignAllocate 0 8 65500,
   .reference 2 0, .getParentReferenceInto 0 1 0, .allocate 0 70000, .clearRegion 2,
   .align 0 16, .allocate 0 8]

/-- The memory at the end of `allocScenario`. -/
def allocScenarioHeap : Heap :=
  { regions := [{ pool_ := 0, references_ := 1, block_offset_ := 65512, current_block_ := 4,
                  big_chunks_ := [{ id := 5, size := 70000 }], used_blocks_ := [0],
                  parents_ := [some 1] },
                { pool_ := 0, references_ := 2, block_offset_ := 16, current_block_ := 2,
                  big_chunks_ := [], used_blocks_ := [1], parents_ := [] },
                { pool_ := 0, references_ := 0, block_offset_ := 0, current_block_ := 3,
                  big_chunks_ := [], used_blocks_ := [], parents_ := [] }],
    pools := [{ regions_ := [some 0, some 1, some 2], free_regions_ := [2],
                free_blocks_ := [] }],
    slots := [some 0, some 1, none],
    next_buffer := 6 }

/-- A host session in which a region is cleared and taken from the free list
again inside one native call: slot 0 holds region A, with one null parent
handle, and slot 1 holds the only handle to region B; B serves an allocation,
`getParentReferenceInto` then writes A's parent 0 into slot 1, and B serves a
second allocation. -/
def reviveScenario : List Op :=
  [.allocate 1 10, .getParentReferenceInto 0 1 0, .allocate 1 10]

/-- The memory before `reviveScenario`, reached from the empty memory by
`poolCtor`, `regionCtor 0`, `regionCtor 0`, `setNumParents 0 1`. -/
def reviveHeap : Heap :=
  { regions := [{ pool_ := 0, references_ := 1, block_offset_ := 0, current_block_ := 0,
                  big_chunks_ := [], used_blocks_ := [], parents_ := [none] },
                { pool_ := 0, references_ := 1, block_offset_ := 0, current_block_ := 1,
                  big_chunks_ := [], used_blocks_ := [], parents_ := [] }],
    pools := [{ regions_ := [some 0, some 1], free_regions_ := [], free_blocks_ := [] }],
    slots := [some 0, some 1],
    next_buffer := 2 }

/-! ## Reading and writing the memory -/

theorem getD_set_same {α : Type} (l : List α) (i : Nat) (x d : α) (h : i < l.length) :
    (l.set i x).getD i d = x := by
  simp [List.getD_eq_getElem?_getD, List.getElem?_set, h]

theorem getD_set_ne {α : Type} (l : List α) (i j : Nat) (x d : α) (h : j ≠ i) :
    (l.set i x).getD j d = l.getD j d := by
  simp [List.getD_eq_getElem?_getD, List.getElem?_set, Ne.symm h]

theorem getD_set_self {α : Type} (l : List α) (i : Nat) (d : α) :
    l.set i (l.getD i d) = l := by
  induction l generalizing i with
  | nil => simp
  | cons a l ih =>
    cases i with
    | zero => simp
    | succ i => simpa using ih i

@[simp] theorem Heap.regions_setRegion (w : Heap) (r : Nat) (x : Region) :
    (w.setRegion r x).regions = w.regions.set r x := rfl

@[simp] theorem Heap.pools_setRegion (w : Heap) (r : Nat) (x : Region) :
    (w.setRegion r x).pools = w.pools := rfl

@[simp] theorem Heap.slots_setRegion (w : Heap) (r : Nat) (x : Region) :
    (w.setRegion r x).slots = w.slots := rfl

@[simp] theorem Heap.next_buffer_setRegion (w : Heap) (r : Nat) (x : Region) :
    (w.setRegion r x).next_buffer = w.next_buffer := rfl

@[simp] theorem Heap.regions_setPool (w : Heap) (p : Nat) (x : RegionPool) :
    (w.setPool p x).regions = w.regions := rfl

@[simp] theorem Heap.pools_setPool (w : Heap) (p : Nat) (x : RegionPool) :
    (w.setPool p x).pools = w.pools.set p x := rfl

@[simp] theorem Heap.slots_setPool (w : Heap) (p : Nat) (x : RegionPool) :
    (w.setPool p x).slots = w.slots := rfl

@[simp] theorem Heap.next_buffer_setPool (w : Heap) (p : Nat) (x : RegionPool) :
    (w.setPool p x).next_buffer = w.next_buffer := rfl

@[simp] theorem Heap.region_setPool (w : Heap) (p : Nat) (x : RegionPool) (r : Nat) :
    (w.setPool p x).region r = w.region r := rfl

@[simp] theorem Heap.pool_setRegion (w : Heap) (r : Nat) (x : Region) (p : Nat) :
    (w.setRegion r x).pool p = w.pool p := rfl

theorem Heap.region_setRegion_same (w : Heap) (r : Nat) (x : Region)
    (h : r < w.regions.length) : (w.setRegion r x).region r = x :=
  getD_set_same w.regions r x default h

@[simp] theorem Heap.region_setRegion_ne (w : Heap) (r a : Nat) (x : Region) (h : a ≠ r) :
    (w.setRegion r x).region a = w.region a :=
  getD_set_ne w.regions r a x default h

theorem Heap.region_setRegion (w : Heap) (r a : Nat) (x : Region)
    (h : r < w.regions.length) :
    (w.setRegion r x).region a = if a = r then x else w.region a := by
  by_cases e : a = r
  · subst e; simp [Heap.region_setRegion_same, h]
  · simp [e]

theorem Heap.pool_setPool_same (w : Heap) (p : Nat) (x : RegionPool)
    (h : p < w.pools.length) : (w.setPool p x).pool p = x :=
  getD_set_same w.pools p x default h

@[simp] theorem Heap.pool_setPool_ne (w : Heap) (p a : Nat) (x : RegionPool) (h : a ≠ p) :
    (w.setPool p x).pool a = w.pool a :=
  getD_set_ne w.pools p a x default h

theorem Heap.pool_setPool (w : Heap) (p a : Nat) (x : RegionPool)
    (h : p < w.pools.length) :
    (w.setPool p x).pool a = if a = p then x else w.pool a := by
  by_cases e : a = p
  · subst e; simp [Heap.pool_setPool_same, h]
  · simp [e]

theorem Heap.region_default (w : Heap) (r : Nat) (h : w.regions.length ≤ r) :
    w.region r = default := by
  simp [Heap.region, List.getD_eq_getElem?_getD, List.getElem?_eq_none h]

theorem Heap.pool_default (w : Heap) (p : Nat) (h : w.pools.length ≤ p) :
    w.pool p = default := by
  simp [Heap.pool, List.getD_eq_getElem?_getD, List.getElem?_eq_none h]

theorem Heap.setRegion_out (w : Heap) (r : Nat) (x : Region) (h : w.regions.length ≤ r) :
    w.setRegion r x = w := by
  cases w; simp [Heap.setRegion, List.set_eq_of_length_le h] at *

theorem Heap.setPool_out (w : Heap) (p : Nat) (x : RegionPool) (h : w.pools.length ≤ p) :
    w.setPool p x = w := by
  cases w; simp [Heap.setPool, List.set_eq_of_length_le h] at *

/-! ## Unfolding the destructors -/

theorem RegionPtr.clear_null (fuel : Nat) (w : Heap) :
    RegionPtr.clear fuel w none = some (w, none) := by
  cases fuel <;> rfl

theorem RegionPtr.clear_succ (fuel : Nat) (w : Heap) (r : Nat) :
    RegionPtr.clear (fuel + 1) w (some r) =
      if ((w.decRef r).region r).references_ = 0 then
        (RegionPtr.clearAll fuel (Region.clear_fields (w.decRef r) r)
            ((w.decRef r).region r).parents_).map
          (fun w2 => (w2.pushFreeRegion (w2.region r).pool_ r, none))
      else some (w.decRef r, none) := by
  simp only [RegionPtr.clear, Heap.decRef, RegionPtr.clearAll, Region.clearWith]
  split
  · split <;> simp_all
  · rfl

theorem RegionPtr.clearAll_nil (fuel : Nat) (w : Heap) :
    RegionPtr.clearAll fuel w [] = some w := rfl

theorem RegionPtr.clearAll_cons (fuel : Nat) (w : Heap) (p : RegionPtr)
    (ps : List RegionPtr) :
    RegionPtr.clearAll fuel w (p :: ps) =
      (RegionPtr.clear fuel w p).bind (fun x => RegionPtr.clearAll fuel x.1 ps) := by
  simp only [RegionPtr.clearAll, destroyAll]
  cases RegionPtr.clear fuel w p <;> rfl

/-- What the fuelled destructor computes is a cascade. -/
theorem RegionPtr.clearAll_cascade (fuel : Nat) :
    ∀ (ps : List RegionPtr) (w w1 : Heap),
      RegionPtr.clearAll fuel w ps = some w1 → Cascade w ps w1 := by
  induction fuel with
  | zero =>
    intro ps
    induction ps with
    | nil => intro w w1 h; simp [RegionPtr.clearAll_nil] at h; subst h; exact Cascade.nil w
    | cons p ps ih =>
      intro w w1 h
      rw [RegionPtr.clearAll_cons] at h
      cases p with
      | none =>
        rw [RegionPtr.clear_null] at h
        exact Cascade.null (ih w w1 h)
      | some r => simp [RegionPtr.clear] at h
  | succ fuel ihf =>
    intro ps
    induction ps with
    | nil => intro w w1 h; simp [RegionPtr.clearAll_nil] at h; subst h; exact Cascade.nil w
    | cons p ps ih =>
      intro w w1 h
      rw [RegionPtr.clearAll_cons] at h
      cases p with
      | none =>
        rw [RegionPtr.clear_null] at h
        exact Cascade.null (ih w w1 h)
      | some r =>
        rw [RegionPtr.clear_succ] at h
        by_cases hz : ((w.decRef r).region r).references_ = 0
        · rw [if_pos hz] at h
          cases hc : RegionPtr.clearAll fuel (Region.clear_fields (w.decRef r) r)
              ((w.decRef r).region r).parents_ with
          | none => simp [hc] at h
          | some w2 =>
            simp only [hc, Option.map_some', Option.some_bind] at h
            exact Cascade.recycle hz (ihf _ _ _ hc) (ih _ _ h)
        · rw [if_neg hz] at h
          exact Cascade.keep hz (ih _ _ h)

/-! ## The assignments of `Region::clear` in closed form -/

theorem Region.clear_fields_eq (w : Heap) (r : Nat) :
    Region.clear_fields w r =
      (w.setRegion r { w.region r with block_offset_ := 0, used_blocks_ := [],
                                       big_chunks_ := [], parents_ := [] }).setPool
        (w.region r).pool_
        { w.pool (w.region r).pool_ with
          free_blocks_ := (w.pool (w.region r).pool_).free_blocks_ ++
            (w.region r).used_blocks_ } := by
  by_cases h : r < w.regions.length
  · simp only [Region.clear_fields, Heap.pool_setRegion, Heap.region_setPool]
    rw [Heap.region_setRegion_same _ _ _ h]
    rw [Heap.region_setRegion_same _ _ _ (by simpa using h)]
    simp [Heap.setRegion, Heap.setPool]
  · have h1 : w.regions.length ≤ r := Nat.le_of_not_lt h
    simp only [Region.clear_fields, Heap.pool_setRegion, Heap.region_setPool]
    rw [Heap.setRegion_out w r _ h1]
    rw [Heap.setRegion_out (w.setPool _ _) r _ h1]
    rw [Heap.setRegion_out w r _ h1]
    rw [Heap.setRegion_out (w.setPool _ _) r _ h1]

@[simp] theorem Region.clear_fields_slots (w : Heap) (r : Nat) :
    (Region.clear_fields w r).slots = w.slots := by
  rw [Region.clear_fields_eq]; rfl

@[simp] theorem Region.clear_fields_next_buffer (w : Heap) (r : Nat) :
    (Region.clear_fields w r).next_buffer = w.next_buffer := by
  rw [Region.clear_fields_eq]; rfl

@[simp] theorem Region.clear_fields_regions_length (w : Heap) (r : Nat) :
    (Region.clear_fields w r).regions.length = w.regions.length := by
  rw [Region.clear_fields_eq]; simp

@[simp] theorem Region.clear_fields_pools_length (w : Heap) (r : Nat) :
    (Region.clear_fields w r).pools.length = w.pools.length := by
  rw [Region.clear_fields_eq]; simp

theorem Region.clear_fields_region_same (w : Heap) (r : Nat) (h : r < w.regions.length) :
    (Region.clear_fields w r).region r =
      { w.region r with block_offset_ := 0, used_blocks_ := [], big_chunks_ := [],
                        parents_ := [] } := by
  rw [Region.clear_fields_eq, Heap.region_setPool, Heap.region_setRegion_same _ _ _ h]

@[simp] theorem Region.clear_fields_region_ne (w : Heap) (r a : Nat) (h : a ≠ r) :
    (Region.clear_fields w r).region a = w.region a := by
  rw [Region.clear_fields_eq, Heap.region_setPool, Heap.region_setRegion_ne _ _ _ _ h]

theorem Region.clear_fields_pool_same (w : Heap) (r : Nat)
    (h : (w.region r).pool_ < w.pools.length) :
    (Region.clear_fields w r).pool (w.region r).pool_ =
      { w.pool (w.region r).pool_ with
        free_blocks_ := (w.pool (w.region r).pool_).free_blocks_ ++
          (w.region r).used_blocks_ } := by
  rw [Region.clear_fields_eq, Heap.pool_setPool_same _ _ _ (by simpa using h)]

@[simp] theorem Region.clear_fields_pool_ne (w : Heap) (r p : Nat)
    (h : p ≠ (w.region r).pool_) :
    (Region.clear_fields w r).pool p = w.pool p := by
  rw [Region.clear_fields_eq, Heap.pool_setPool_ne _ _ _ _ h, Heap.pool_setRegion]

/-! ## Reference decrement and free-list push -/

@[simp] theorem Heap.decRef_slots (w : Heap) (r : Nat) : (w.decRef r).slots = w.slots := rfl

@[simp] theorem Heap.decRef_next_buffer (w : Heap) (r : Nat) :
    (w.decRef r).next_buffer = w.next_buffer := rfl

@[simp] theorem Heap.decRef_pools (w : Heap) (r : Nat) : (w.decRef r).pools = w.pools := rfl

@[simp] theorem Heap.decRef_pool (w : Heap) (r p : Nat) : (w.decRef r).pool p = w.pool p := rfl

@[simp] theorem Heap.decRef_regions_length (w : Heap) (r : Nat) :
    (w.decRef r).regions.length = w.regions.length := by
  simp [Heap.decRef]

theorem Heap.decRef_region_same (w : Heap) (r : Nat) (h : r < w.regions.length) :
    (w.decRef r).region r =
      { w.region r with references_ := decrement (w.region r).references_ } :=
  Heap.region_setRegion_same _ _ _ h

@[simp] theorem Heap.decRef_region_ne (w : Heap) (r a : Nat) (h : a ≠ r) :
    (w.decRef r).region a = w.region a :=
  Heap.region_setRegion_ne _ _ _ _ h

theorem Heap.decRef_out (w : Heap) (r : Nat) (h : w.regions.length ≤ r) : w.decRef r = w :=
  Heap.setRegion_out _ _ _ h

@[simp] theorem Heap.pushFreeRegion_slots (w : Heap) (p r : Nat) :
    (w.pushFreeRegion p r).slots = w.slots := rfl

@[simp] theorem Heap.pushFreeRegion_next_buffer (w : Heap) (p r : Nat) :
    (w.pushFreeRegion p r).next_buffer = w.next_buffer := rfl

@[simp] theorem Heap.pushFreeRegion_regions (w : Heap) (p r : Nat) :
    (w.pushFreeRegion p r).regions = w.regions := rfl

@[simp] theorem Heap.pushFreeRegion_region (w : Heap) (p r a : Nat) :
    (w.pushFreeRegion p r).region a = w.region a := rfl

@[simp] theorem Heap.pushFreeRegion_pools_length (w : Heap) (p r : Nat) :
    (w.pushFreeRegion p r).pools.length = w.pools.length := by
  simp [Heap.pushFreeRegion]

theorem Heap.pushFreeRegion_pool_same (w : Heap) (p r : Nat) (h : p < w.pools.length) :
    (w.pushFreeRegion p r).pool p =
      { w.pool p with free_regions_ := (w.pool p).free_regions_ ++ [r] } :=
  Heap.pool_setPool_same _ _ _ h

@[simp] theorem Heap.pushFreeRegion_pool_ne (w : Heap) (p r a : Nat) (h : a ≠ p) :
    (w.pushFreeRegion p r).pool a = w.pool a :=
  Heap.pool_setPool_ne _ _ _ _ h

/-! ## Termination of the cascade -/

theorem sum_map_set {α : Type} (f : α → Nat) (l : List α) (i : Nat) (x d : α)
    (h : i < l.length) :
    ((l.set i x).map f).sum + f (l.getD i d) = (l.map f).sum + f x := by
  induction l generalizing i with
  | nil => simp at h
  | cons a l ih =>
    cases i with
    | zero => simp; omega
    | succ i =>
      have := ih i (by simpa using h)
      simp only [List.set_cons_succ, List.map_cons, List.sum_cons, List.getD_cons_succ]
      omega

theorem Heap.parentSlots_setRegion (w : Heap) (r : Nat) (x : Region)
    (h : r < w.regions.length) :
    (w.setRegion r x).parentSlots + (w.region r).parents_.length =
      w.parentSlots + x.parents_.length :=
  sum_map_set (fun R => R.parents_.length) w.regions r x default h

@[simp] theorem Heap.parentSlots_decRef (w : Heap) (r : Nat) :
    (w.decRef r).parentSlots = w.parentSlots := by
  by_cases h : r < w.regions.length
  · have := Heap.parentSlots_setRegion w r
      { w.region r with references_ := decrement (w.region r).references_ } h
    simpa [Heap.decRef] using this
  · rw [Heap.decRef_out _ _ (Nat.le_of_not_lt h)]

@[simp] theorem Heap.parentSlots_pushFreeRegion (w : Heap) (p r : Nat) :
    (w.pushFreeRegion p r).parentSlots = w.parentSlots := rfl

theorem Region.parentSlots_clear_fields (w : Heap) (r : Nat) :
    (Region.clear_fields w r).parentSlots + (w.region r).parents_.length = w.parentSlots := by
  rw [Region.clear_fields_eq]
  by_cases h : r < w.regions.length
  · have := Heap.parentSlots_setRegion w r
      { w.region r with block_offset_ := 0, used_blocks_ := [], big_chunks_ := [],
                        parents_ := [] } h
    simpa [Heap.parentSlots] using this
  · have h1 := Nat.le_of_not_lt h
    rw [Heap.setRegion_out _ _ _ h1, Heap.region_default _ _ h1]
    simp [Heap.parentSlots]
    rfl

/-- With more fuel than there are parent slots, destroying any handles returns,
and does not add parent slots. -/
theorem RegionPtr.clearAll_total (fuel : Nat) :
    ∀ (ps : List RegionPtr) (w : Heap), w.parentSlots < fuel →
      ∃ w1, RegionPtr.clearAll fuel w ps = some w1 ∧ w1.parentSlots ≤ w.parentSlots := by
  induction fuel with
  | zero => intro ps w h; omega
  | succ fuel ihf =>
    intro ps
    induction ps with
    | nil => intro w _; exact ⟨w, rfl, le_refl _⟩
    | cons p ps ih =>
      intro w h
      rw [RegionPtr.clearAll_cons]
      cases p with
      | none =>
        rw [RegionPtr.clear_null]
        exact ih w h
      | some r =>
        rw [RegionPtr.clear_succ]
        by_cases hz : ((w.decRef r).region r).references_ = 0
        · rw [if_pos hz]
          have hm := Region.parentSlots_clear_fields (w.decRef r) r
          rw [Heap.parentSlots_decRef] at hm
          cases hp : ((w.decRef r).region r).parents_ with
          | nil =>
            rw [hp] at hm
            simp only [RegionPtr.clearAll_nil, Option.map_some', Option.some_bind]
            obtain ⟨w1, h1, h2⟩ := ih ((Region.clear_fields (w.decRef r) r).pushFreeRegion
              ((Region.clear_fields (w.decRef r) r).region r).pool_ r)
              (by simp at hm ⊢; omega)
            refine ⟨w1, h1, ?_⟩
            simp at hm h2
            omega
          | cons q qs =>
            rw [hp] at hm
            simp only [List.length_cons] at hm
            obtain ⟨w2, h2, h3⟩ := ihf (q :: qs) (Region.clear_fields (w.decRef r) r)
              (by omega)
            rw [h2]
            simp only [Option.map_some', Option.some_bind]
            obtain ⟨w1, h1, h4⟩ := ih (w2.pushFreeRegion (w2.region r).pool_ r)
              (by simp; omega)
            refine ⟨w1, h1, ?_⟩
            simp at h4
            omega
        · rw [if_neg hz]
          simp only [Option.some_bind]
          obtain ⟨w1, h1, h2⟩ := ih (w.decRef r) (by simpa using h)
          exact ⟨w1, h1, by simpa using h2⟩

/-! ## The cascade is a function of the memory and the handles -/

theorem Cascade.deterministic {w w1 : Heap} {ps : List RegionPtr} (h : Cascade w ps w1) :
    ∀ w2, Cascade w ps w2 → w1 = w2 := by
  induction h with
  | nil w => intro w2 h2; cases h2; rfl
  | null _ ih => intro w2 h2; cases h2 with | null h3 => exact ih _ h3
  | keep hz _ ih =>
    intro w2 h2
    cases h2 with
    | keep _ h3 => exact ih _ h3
    | recycle hz2 _ _ => exact absurd hz2 hz
  | recycle hz _ _ ih1 ih2 =>
    intro w2 h2
    cases h2 with
    | keep hz2 _ => exact absurd hz hz2
    | recycle _ h3 h4 =>
      have e := ih1 _ h3
      subst e
      exact ih2 _ h4

theorem Cascade.append {w w1 w2 : Heap} {ps qs : List RegionPtr} (h : Cascade w ps w1) :
    Cascade w1 qs w2 → Cascade w (ps ++ qs) w2 := by
  induction h with
  | nil w => intro h2; simpa using h2
  | null _ ih => intro h2; exact Cascade.null (ih h2)
  | keep hz _ ih => intro h2; exact Cascade.keep hz (ih h2)
  | recycle hz h3 _ _ ih2 => intro h2; exact Cascade.recycle hz h3 (ih2 h2)

theorem RegionPtr.clearAll_single (fuel : Nat) (w : Heap) (h : RegionPtr) :
    RegionPtr.clearAll fuel w [h] = (RegionPtr.clear fuel w h).map Prod.fst := by
  rw [RegionPtr.clearAll_cons]
  cases RegionPtr.clear fuel w h <;> rfl

theorem RegionPtr.clear_snd (fuel : Nat) (w w1 : Heap) (h h1 : RegionPtr)
    (e : RegionPtr.clear fuel w h = some (w1, h1)) : h1 = none := by
  cases h with
  | none => rw [RegionPtr.clear_null] at e; simp at e; exact e.2.symm
  | some r =>
    cases fuel with
    | zero => simp [RegionPtr.clear] at e
    | succ fuel =>
      rw [RegionPtr.clear_succ] at e
      split at e
      · cases hc : RegionPtr.clearAll fuel (Region.clear_fields (w.decRef r) r)
            ((w.decRef r).region r).parents_ with
        | none => simp [hc] at e
        | some w2 => simp [hc] at e; exact e.2.symm
      · simp at e; exact e.2.symm

theorem RegionPtr.clear_cascade (fuel : Nat) (w w1 : Heap) (h h1 : RegionPtr)
    (e : RegionPtr.clear fuel w h = some (w1, h1)) : Cascade w [h] w1 := by
  apply RegionPtr.clearAll_cascade fuel
  rw [RegionPtr.clearAll_single, e]; rfl

theorem RegionPtr.clear_total (fuel : Nat) (w : Heap) (h : RegionPtr)
    (hf : w.parentSlots < fuel) :
    ∃ w1, RegionPtr.clear fuel w h = some (w1, none) ∧ Cascade w [h] w1 := by
  obtain ⟨w1, h1, _⟩ := RegionPtr.clearAll_total fuel [h] w hf
  rw [RegionPtr.clearAll_single] at h1
  cases e : RegionPtr.clear fuel w h with
  | none => simp [e] at h1
  | some x =>
    obtain ⟨w2, h2⟩ := x
    have := RegionPtr.clear_snd fuel w w2 h h2 e
    subst this
    simp [e] at h1
    subst h1
    exact ⟨w2, rfl, RegionPtr.clear_cascade fuel w w2 h none e⟩

theorem Region.clear_is_cascade (fuel : Nat) (w w1 : Heap) (r : Nat)
    (e : Region.clear fuel w r = some w1) :
    Cascade (Region.clear_fields w r) (w.region r).parents_ w1 :=
  RegionPtr.clearAll_cascade fuel _ _ _ e

theorem Region.clear_returns (fuel : Nat) (w : Heap) (r : Nat) (hf : w.parentSlots < fuel) :
    ∃ w1, Region.clear fuel w r = some w1 ∧
      Cascade (Region.clear_fields w r) (w.region r).parents_ w1 := by
  have hm := Region.parentSlots_clear_fields w r
  obtain ⟨w1, h1, _⟩ := RegionPtr.clearAll_total fuel (w.region r).parents_
    (Region.clear_fields w r) (by omega)
  exact ⟨w1, h1, RegionPtr.clearAll_cascade fuel _ _ _ h1⟩

/-- The last step of `RegionPtr::clear` on a last handle: the region is
cleared, then pushed on the free list of its pool. -/
theorem Cascade.single_recycle {w w2 : Heap} {r : Nat}
    (hz : ((w.decRef r).region r).references_ = 0) (h : Cascade w [some r] w2) :
    ∃ w1, Cascade (Region.clear_fields (w.decRef r) r) ((w.decRef r).region r).parents_ w1 ∧
      w2 = w1.pushFreeRegion (w1.region r).pool_ r := by
  cases h with
  | keep hz2 _ => exact absurd hz hz2
  | recycle _ h3 h4 =>
    cases h4
    exact ⟨_, h3, rfl⟩

theorem Cascade.single_keep {w w2 : Heap} {r : Nat}
    (hz : ((w.decRef r).region r).references_ ≠ 0) (h : Cascade w [some r] w2) :
    w2 = w.decRef r := by
  cases h with
  | keep _ h3 => cases h3; rfl
  | recycle hz2 _ _ => exact absurd hz2 hz

/-! ## Accuracy of the reference counts, as an equation on counts -/

theorem Heap.count_handles (w : Heap) (q : List RegionPtr) (x : Nat) :
    (w.handles ++ q).count (some x) = w.handleCount q x := by
  simp [Heap.handles, Heap.handleCount, Heap.parentCount, List.count_flatten,
    List.map_map, Function.comp_def, Nat.add_assoc]

theorem accurate_iff (w : Heap) (q : List RegionPtr) :
    Accurate w q ↔ ∀ x, (w.region x).references_ = w.handleCount q x ∧
      (w.regions.length ≤ x → w.handleCount q x = 0) := by
  constructor
  · rintro ⟨h1, h2⟩ x
    have hv : w.regions.length ≤ x → w.handleCount q x = 0 := by
      intro hx
      rw [← Heap.count_handles]
      apply List.count_eq_zero_of_not_mem
      intro hm
      have := h2 _ hm
      simp [RegionPtr.valid] at this
      omega
    refine ⟨?_, hv⟩
    by_cases hx : x < w.regions.length
    · rw [h1 x hx, Heap.count_handles]
    · have hx1 := Nat.le_of_not_lt hx
      rw [hv hx1, Heap.region_default _ _ hx1]
      rfl
  · intro h
    refine ⟨fun r _ => by rw [Heap.count_handles]; exact (h r).1, ?_⟩
    intro p hp
    cases p with
    | none => rfl
    | some x =>
      simp only [RegionPtr.valid, decide_eq_true_eq]
      by_contra hx
      have h0 := (h x).2 (Nat.le_of_not_lt hx)
      rw [← Heap.count_handles] at h0
      exact List.count_pos_iff.mpr hp |>.ne' h0

theorem Heap.parentCount_setRegion (w : Heap) (r : Nat) (x : Region) (h : RegionPtr)
    (hr : r < w.regions.length) :
    (w.setRegion r x).parentCount h + (w.region r).parents_.count h =
      w.parentCount h + x.parents_.count h :=
  sum_map_set (fun R => R.parents_.count h) w.regions r x default hr

theorem Heap.parentCount_setRegion_same (w : Heap) (r : Nat) (x : Region) (h : RegionPtr)
    (hp : x.parents_ = (w.region r).parents_) :
    (w.setRegion r x).parentCount h = w.parentCount h := by
  by_cases hr : r < w.regions.length
  · have := Heap.parentCount_setRegion w r x h hr
    rw [hp] at this
    omega
  · rw [Heap.setRegion_out _ _ _ (Nat.le_of_not_lt hr)]

@[simp] theorem Heap.parentCount_decRef (w : Heap) (r : Nat) (h : RegionPtr) :
    (w.decRef r).parentCount h = w.parentCount h :=
  Heap.parentCount_setRegion_same _ _ _ _ rfl

@[simp] theorem Heap.parentCount_setPool (w : Heap) (p : Nat) (x : RegionPool)
    (h : RegionPtr) : (w.setPool p x).parentCount h = w.parentCount h := rfl

@[simp] theorem Heap.parentCount_pushFreeRegion (w : Heap) (p r : Nat) (h : RegionPtr) :
    (w.pushFreeRegion p r).parentCount h = w.parentCount h := rfl

theorem Region.parentCount_clear_fields (w : Heap) (r : Nat) (h : RegionPtr) :
    (Region.clear_fields w r).parentCount h + (w.region r).parents_.count h =
      w.parentCount h := by
  rw [Region.clear_fields_eq, Heap.parentCount_setPool]
  by_cases hr : r < w.regions.length
  · have := Heap.parentCount_setRegion w r
      { w.region r with block_offset_ := 0, used_blocks_ := [], big_chunks_ := [],
                        parents_ := [] } h hr
    simpa using this
  · have h1 := Nat.le_of_not_lt hr
    rw [Heap.setRegion_out _ _ _ h1, Heap.region_default _ _ h1]
    rfl

@[simp] theorem Heap.handleCount_pushFreeRegion (w : Heap) (p r : Nat) (q : List RegionPtr)
    (x : Nat) : (w.pushFreeRegion p r).handleCount q x = w.handleCount q x := rfl

@[simp] theorem Heap.handleCount_decRef (w : Heap) (r : Nat) (q : List RegionPtr)
    (x : Nat) : (w.decRef r).handleCount q x = w.handleCount q x := by
  simp [Heap.handleCount]

theorem Heap.handleCount_cons (w : Heap) (h : RegionPtr) (q : List RegionPtr) (x : Nat) :
    w.handleCount (h :: q) x = w.handleCount q x + if h = some x then 1 else 0 := by
  simp only [Heap.handleCount, List.count_cons]
  by_cases e : h = some x
  · simp [e]; omega
  · simp [e]

theorem Heap.handleCount_append (w : Heap) (p q : List RegionPtr) (x : Nat) :
    w.handleCount (p ++ q) x = w.handleCount q x + p.count (some x) := by
  simp only [Heap.handleCount, List.count_append]
  omega

theorem Region.handleCount_clear_fields (w : Heap) (r : Nat) (q : List RegionPtr) (x : Nat) :
    (Region.clear_fields w r).handleCount ((w.region r).parents_ ++ q) x =
      w.handleCount q x := by
  have := Region.parentCount_clear_fields w r (some x)
  simp only [Heap.handleCount, List.count_append, Region.clear_fields_slots]
  omega

/-- A handle that exists points at an allocated region whose count is not zero. -/
theorem Accurate.pending {w : Heap} {r : Nat} {q : List RegionPtr}
    (h : Accurate w (some r :: q)) :
    r < w.regions.length ∧ (w.region r).references_ ≠ 0 := by
  rw [accurate_iff] at h
  have h1 := h r
  rw [Heap.handleCount_cons] at h1
  simp only [if_true] at h1
  constructor
  · by_contra hx
    have := h1.2 (Nat.le_of_not_lt hx)
    omega
  · omega

theorem decrement_pos {c : Nat} (h : c ≠ 0) : decrement c = c - 1 := by
  simp [decrement, h]

theorem Heap.decRef_references (w : Heap) (r x : Nat) (hr : r < w.regions.length)
    (hc : (w.region r).references_ ≠ 0) :
    ((w.decRef r).region x).references_ =
      (w.region x).references_ - if x = r then 1 else 0 := by
  by_cases e : x = r
  · subst e
    rw [Heap.decRef_region_same _ _ hr]
    simp [decrement_pos hc]
  · simp [e]

theorem Accurate.decRef_acc {w : Heap} {r : Nat} {q : List RegionPtr}
    (h : Accurate w (some r :: q)) : Accurate (w.decRef r) q := by
  obtain ⟨hr, hc⟩ := h.pending
  rw [accurate_iff] at h ⊢
  intro x
  have h1 := h x
  rw [Heap.handleCount_cons] at h1
  rw [Heap.decRef_references _ _ _ hr hc, Heap.handleCount_decRef, Heap.decRef_regions_length]
  by_cases e : x = r
  · subst e
    simp only [if_true] at h1 ⊢
    constructor
    · omega
    · intro hx; omega
  · have e2 : ¬ (some r = some x) := by simpa using Ne.symm e
    simp only [e, e2, if_false] at h1 ⊢
    exact ⟨by omega, fun hx => by have := h1.2 hx; omega⟩

theorem Accurate.null {w : Heap} {q : List RegionPtr} (h : Accurate w (none :: q)) :
    Accurate w q := by
  rw [accurate_iff] at h ⊢
  intro x
  have h1 := h x
  rw [Heap.handleCount_cons] at h1
  simpa using h1

theorem Accurate.pushFreeRegion_acc {w : Heap} {q : List RegionPtr} (p r : Nat)
    (h : Accurate w q) : Accurate (w.pushFreeRegion p r) q := by
  rw [accurate_iff] at h ⊢
  intro x
  simpa using h x

theorem Region.clear_fields_references (w : Heap) (r x : Nat) :
    ((Region.clear_fields w r).region x).references_ = (w.region x).references_ := by
  by_cases e : x = r
  · subst e
    by_cases hr : x < w.regions.length
    · rw [Region.clear_fields_region_same _ _ hr]
    · have h1 := Nat.le_of_not_lt hr
      rw [Heap.region_default _ _ h1, Heap.region_default _ _ (by simpa using h1)]
  · simp [e]

theorem Accurate.clear_fields_acc {w : Heap} {q : List RegionPtr} (r : Nat)
    (h : Accurate w q) :
    Accurate (Region.clear_fields w r) ((w.region r).parents_ ++ q) := by
  rw [accurate_iff] at h ⊢
  intro x
  rw [Region.handleCount_clear_fields, Region.clear_fields_references,
    Region.clear_fields_regions_length]
  exact h x

/-- Destroying handles keeps the counts accurate. -/
theorem Cascade.accurate {w w1 : Heap} {ps : List RegionPtr} (h : Cascade w ps w1) :
    ∀ q, Accurate w (ps ++ q) → Accurate w1 q := by
  induction h with
  | nil w => intro q h; simpa using h
  | null _ ih => intro q h; exact ih q h.null
  | keep _ _ ih => intro q h; exact ih q h.decRef_acc
  | @recycle w w1 w2 ps r _ _ _ ih1 ih2 =>
    intro q h
    have h1 : Accurate (w.decRef r) (ps ++ q) := Accurate.decRef_acc h
    have h2 := ih1 (ps ++ q) (Accurate.clear_fields_acc r h1)
    exact ih2 q (h2.pushFreeRegion_acc _ _)

/-! ## The effect of a cascade on one region -/

theorem RegionPost.refl_region (R : Region) : RegionPost R R := by
  left
  exact ⟨rfl, le_refl _, by omega⟩

theorem RegionPost.pool_ {R R1 : Region} (h : RegionPost R R1) : R1.pool_ = R.pool_ := by
  rcases h with ⟨h, _, _⟩ | ⟨_, h⟩
  · rw [h]
  · rw [h]; rfl

theorem RegionPost.current_block_ {R R1 : Region} (h : RegionPost R R1) :
    R1.current_block_ = R.current_block_ := by
  rcases h with ⟨h, _, _⟩ | ⟨_, h⟩
  · rw [h]
  · rw [h]; rfl

theorem RegionPost.references_le {R R1 : Region} (h : RegionPost R R1) :
    R1.references_ ≤ R.references_ := by
  rcases h with ⟨_, h, _⟩ | ⟨_, h⟩
  · exact h
  · rw [h]; exact Nat.zero_le _

theorem RegionPost.of_zero {R R1 : Region} (h : RegionPost R R1) (h0 : R.references_ = 0) :
    R1 = R := by
  rcases h with ⟨h, h1, _⟩ | ⟨h, _⟩
  · have : R1.references_ = R.references_ := by omega
    rw [h, this]
  · exact absurd h0 h

/-- A region whose count stays non-zero keeps all its other fields. -/
theorem RegionPost.of_ne_zero {R R1 : Region} (h : RegionPost R R1)
    (h0 : R1.references_ ≠ 0) : R1 = { R with references_ := R1.references_ } := by
  rcases h with ⟨h, _, _⟩ | ⟨_, h⟩
  · exact h
  · rw [h] at h0; exact absurd rfl h0

/-- A region whose count goes to zero is cleared. -/
theorem RegionPost.of_recycled {R R1 : Region} (h : RegionPost R R1)
    (h0 : R.references_ ≠ 0) (h1 : R1.references_ = 0) : R1 = R.cleared := by
  rcases h with ⟨_, _, h | h⟩ | ⟨_, h⟩
  · exact absurd h h0
  · exact absurd h1 h
  · exact h

theorem RegionPost.trans_region {R R1 R2 : Region} (h1 : RegionPost R R1) (h2 : RegionPost R1 R2) :
    RegionPost R R2 := by
  rcases h1 with ⟨e1, l1, z1⟩ | ⟨n1, e1⟩
  · rcases h2 with ⟨e2, l2, z2⟩ | ⟨n2, e2⟩
    · left
      refine ⟨?_, by omega, by omega⟩
      rw [e2, e1]
    · right
      refine ⟨by omega, ?_⟩
      rw [e2, e1]; rfl
  · right
    refine ⟨n1, ?_⟩
    have : R1.references_ = 0 := by rw [e1]; rfl
    rw [h2.of_zero this, e1]

/-! ## The effect of a cascade on the memory -/

theorem Post.refl_heap (w : Heap) : Post w w := by
  refine ⟨rfl, rfl, rfl, rfl, fun r => RegionPost.refl_region _, fun p => ⟨rfl, [], [], ?_⟩⟩
  simp

theorem Post.trans_heap {w w1 w2 : Heap} (h1 : Post w w1) (h2 : Post w1 w2) : Post w w2 := by
  obtain ⟨s1, b1, n1, m1, r1, p1⟩ := h1
  obtain ⟨s2, b2, n2, m2, r2, p2⟩ := h2
  refine ⟨s2.trans s1, b2.trans b1, n2.trans n1, m2.trans m1,
    fun r => (r1 r).trans_region (r2 r), fun p => ?_⟩
  obtain ⟨g1, l1, bl1, f1, d1, i1, k1, q1⟩ := p1 p
  obtain ⟨g2, l2, bl2, f2, d2, i2, k2, q2⟩ := p2 p
  refine ⟨g2.trans g1, l1 ++ l2, bl1 ++ bl2, ?_, ?_, ?_, ?_, ?_⟩
  · rw [f2, f1, List.append_assoc]
  · rw [List.nodup_append]
    refine ⟨d1, d2, ?_⟩
    intro x hx1 hx2
    exact ((i2 x).mp hx2).2.1 ((i1 x).mp hx1).2.2
  · intro x
    rw [List.mem_append, i1, i2]
    constructor
    · rintro (⟨a, b, c⟩ | ⟨a, b, c⟩)
      · refine ⟨a, b, ?_⟩
        have := (r2 x).references_le
        omega
      · refine ⟨by rw [← a, (r1 x).pool_], ?_, c⟩
        have := (r1 x).references_le
        omega
    · rintro ⟨a, b, c⟩
      by_cases hx : (w1.region x).references_ = 0
      · exact Or.inl ⟨a, b, hx⟩
      · exact Or.inr ⟨by rw [(r1 x).pool_, a], hx, c⟩
  · rw [k2, k1, List.append_assoc]
  · rw [List.map_append, List.flatten_append]
    refine q1.append ?_
    have e : l2.map (fun r => (w1.region r).used_blocks_) =
        l2.map (fun r => (w.region r).used_blocks_) := by
      apply List.map_congr_left
      intro x hx
      have hx1 := ((i2 x).mp hx).2.1
      rw [(r1 x).of_ne_zero hx1]
    rw [← e]
    exact q2

theorem Post.valid_after {w w1 : Heap} (h : Post w w1) (hv : PoolValid w) : PoolValid w1 := by
  obtain ⟨_, _, n1, m1, r1, _⟩ := h
  intro r hr
  rw [(r1 r).pool_, m1]
  exact hv r (by omega)

theorem PoolValid.decRef_valid {w : Heap} (r : Nat) (hv : PoolValid w) : PoolValid (w.decRef r) := by
  intro x hx
  by_cases e : x = r
  · subst e
    rw [Heap.decRef_region_same _ _ (by simpa using hx)]
    exact hv x (by simpa using hx)
  · simpa [e] using hv x (by simpa using hx)

theorem Region.clear_fields_pool_ (w : Heap) (r x : Nat) :
    ((Region.clear_fields w r).region x).pool_ = (w.region x).pool_ := by
  by_cases e : x = r
  · subst e
    by_cases hr : x < w.regions.length
    · rw [Region.clear_fields_region_same _ _ hr]
    · have h1 := Nat.le_of_not_lt hr
      rw [Heap.region_default _ _ h1, Heap.region_default _ _ (by simpa using h1)]
  · simp [e]

theorem PoolValid.clear_fields_valid {w : Heap} (r : Nat) (hv : PoolValid w) :
    PoolValid (Region.clear_fields w r) := by
  intro x hx
  rw [Region.clear_fields_pool_, Region.clear_fields_pools_length]
  exact hv x (by simpa using hx)

theorem PoolValid.pushFreeRegion_valid {w : Heap} (p r : Nat) (hv : PoolValid w) :
    PoolValid (w.pushFreeRegion p r) := by
  intro x hx
  simpa using hv x (by simpa using hx)

/-- A decrement that does not reach zero. -/
theorem Post.decRef_post {w : Heap} {r : Nat} (hr : r < w.regions.length)
    (hc : (w.region r).references_ ≠ 0) (hz : ((w.decRef r).region r).references_ ≠ 0) :
    Post w (w.decRef r) := by
  refine ⟨rfl, rfl, by simp, rfl, fun x => ?_, fun p => ⟨rfl, [], [], ?_⟩⟩
  · by_cases e : x = r
    · subst e
      left
      refine ⟨?_, ?_, Or.inr hz⟩
      · rw [Heap.decRef_region_same _ _ hr]
      · rw [Heap.decRef_references _ _ _ hr hc]; omega
    · rw [Heap.decRef_region_ne _ _ _ e]; exact RegionPost.refl_region _
  · simp
    intro x _ h1 h2
    by_cases e : x = r
    · subst e; exact hz h2
    · rw [Heap.decRef_region_ne _ _ _ e] at h2; exact h1 h2

theorem Region.clear_fields_decRef_region (w : Heap) (r : Nat) (hr : r < w.regions.length)
    (hz : ((w.decRef r).region r).references_ = 0) :
    (Region.clear_fields (w.decRef r) r).region r = (w.region r).cleared := by
  rw [Region.clear_fields_region_same _ _ (by simpa using hr)]
  rw [Heap.decRef_region_same _ _ hr] at hz ⊢
  simp only [Region.cleared] at hz ⊢
  rw [hz]

theorem Region.clear_fields_decRef_region_ne (w : Heap) (r x : Nat) (e : x ≠ r) :
    (Region.clear_fields (w.decRef r) r).region x = w.region x := by
  rw [Region.clear_fields_region_ne _ _ _ e, Heap.decRef_region_ne _ _ _ e]

theorem Heap.decRef_region_pool_ (w : Heap) (r x : Nat) :
    ((w.decRef r).region x).pool_ = (w.region x).pool_ := by
  by_cases e : x = r
  · subst e
    by_cases hr : x < w.regions.length
    · rw [Heap.decRef_region_same _ _ hr]
    · rw [Heap.decRef_out _ _ (Nat.le_of_not_lt hr)]
  · simp [e]

theorem Heap.decRef_region_used (w : Heap) (r x : Nat) :
    ((w.decRef r).region x).used_blocks_ = (w.region x).used_blocks_ := by
  by_cases e : x = r
  · subst e
    by_cases hr : x < w.regions.length
    · rw [Heap.decRef_region_same _ _ hr]
    · rw [Heap.decRef_out _ _ (Nat.le_of_not_lt hr)]
  · simp [e]

theorem Heap.decRef_region_parents (w : Heap) (r x : Nat) :
    ((w.decRef r).region x).parents_ = (w.region x).parents_ := by
  by_cases e : x = r
  · subst e
    by_cases hr : x < w.regions.length
    · rw [Heap.decRef_region_same _ _ hr]
    · rw [Heap.decRef_out _ _ (Nat.le_of_not_lt hr)]
  · simp [e]

/-- The last handle to `r` goes: `r` is cleared, the handles it held are
destroyed, and `r` is pushed on the free list of its pool. -/
theorem Post.recycle {w w1 : Heap} {r : Nat} (hr : r < w.regions.length)
    (hc : (w.region r).references_ ≠ 0) (hz : ((w.decRef r).region r).references_ = 0)
    (hp : (w.region r).pool_ < w.pools.length)
    (h : Post (Region.clear_fields (w.decRef r) r) w1) :
    Post w (w1.pushFreeRegion (w1.region r).pool_ r) := by
  obtain ⟨s1, b1, n1, m1, r1, p1⟩ := h
  have hcr := Region.clear_fields_decRef_region w r hr hz
  have hcz : ((Region.clear_fields (w.decRef r) r).region r).references_ = 0 := by
    rw [hcr]; rfl
  have h1r : w1.region r = (w.region r).cleared := by
    rw [(r1 r).of_zero hcz, hcr]
  have hP : (w1.region r).pool_ = (w.region r).pool_ := by rw [h1r]; rfl
  rw [hP]
  have hne : ∀ x, x ≠ r → (Region.clear_fields (w.decRef r) r).region x = w.region x :=
    fun x e => Region.clear_fields_decRef_region_ne w r x e
  have hm : (w.region r).pool_ < w1.pools.length := by
    rw [m1]; simpa using hp
  refine ⟨by simpa using s1, by simpa using b1, by simpa using n1, by simpa using m1,
    fun x => ?_, fun p => ?_⟩
  · rw [Heap.pushFreeRegion_region]
    by_cases e : x = r
    · subst e
      exact Or.inr ⟨hc, h1r⟩
    · have := r1 x
      rwa [hne x e] at this
  · obtain ⟨g1, l1, bl1, f1, d1, i1, k1, q1⟩ := p1 p
    have hrl : r ∉ l1 := fun hx => ((i1 r).mp hx).2.1 hcz
    have hi : ∀ x, x ≠ r → (x ∈ l1 ↔ (w.region x).pool_ = p ∧
        (w.region x).references_ ≠ 0 ∧ (w1.region x).references_ = 0) := by
      intro x e
      rw [i1 x, hne x e]
    have hq : bl1.Perm (l1.map (fun x => (w.region x).used_blocks_)).flatten := by
      have e : l1.map (fun x => ((Region.clear_fields (w.decRef r) r).region x).used_blocks_) =
          l1.map (fun x => (w.region x).used_blocks_) := by
        apply List.map_congr_left
        intro x hx
        have : x ≠ r := fun e => hrl (e ▸ hx)
        rw [hne x this]
      rw [← e]; exact q1
    by_cases hpp : p = (w.region r).pool_
    · have e1 : ((w.decRef r).region r).pool_ = (w.region r).pool_ :=
        Heap.decRef_region_pool_ w r r
      have hcp : (Region.clear_fields (w.decRef r) r).pool p =
          { w.pool p with
            free_blocks_ := (w.pool p).free_blocks_ ++ (w.region r).used_blocks_ } := by
        have := Region.clear_fields_pool_same (w.decRef r) r (by rw [e1]; simpa using hp)
        rw [e1, Heap.decRef_region_used, Heap.decRef_pool] at this
        rw [hpp, this]
      rw [hcp] at g1 f1 k1
      rw [hpp, Heap.pushFreeRegion_pool_same _ _ _ hm, ← hpp]
      refine ⟨g1, l1 ++ [r], (w.region r).used_blocks_ ++ bl1, ?_, ?_, ?_, ?_, ?_⟩
      · simp only [f1, List.append_assoc]
      · rw [List.nodup_append]
        exact ⟨d1, List.nodup_singleton r, by simpa using hrl⟩
      · intro x
        by_cases e : x = r
        · subst e
          simp only [List.mem_append, List.mem_singleton, or_true, true_iff]
          exact ⟨hpp.symm, hc, by rw [Heap.pushFreeRegion_region, h1r]; rfl⟩
        · simp only [List.mem_append, List.mem_singleton, e, or_false,
            Heap.pushFreeRegion_region]
          exact hi x e
      · simp only [k1, List.append_assoc]
      · rw [List.map_append, List.flatten_append]
        simp only [List.map_cons, List.map_nil, List.flatten_cons, List.flatten_nil,
          List.append_nil]
        exact List.perm_append_comm.trans (hq.append_right _)
    · rw [Heap.pushFreeRegion_pool_ne _ _ _ _ hpp]
      have hcp : (Region.clear_fields (w.decRef r) r).pool p = w.pool p := by
        rw [Region.clear_fields_pool_ne _ _ _ (by rw [Heap.decRef_region_pool_]; exact hpp)]
        rfl
      rw [hcp] at g1 f1 k1
      refine ⟨g1, l1, bl1, f1, d1, ?_, k1, hq⟩
      intro x
      by_cases e : x = r
      · subst e
        simp only [hrl, false_iff]
        intro ⟨a, _, _⟩
        exact hpp a.symm
      · simpa using hi x e

/-- What destroying handles does, when the counts are accurate. -/
theorem Cascade.post {w w1 : Heap} {ps : List RegionPtr} (h : Cascade w ps w1) :
    ∀ q, Accurate w (ps ++ q) → PoolValid w → Post w w1 := by
  induction h with
  | nil w => intro _ _ _; exact Post.refl_heap w
  | null _ ih => intro q h hv; exact ih q h.null hv
  | @keep w w1 ps r hz _ ih =>
    intro q h hv
    obtain ⟨hr, hc⟩ := h.pending
    exact (Post.decRef_post hr hc hz).trans_heap (ih q h.decRef_acc (hv.decRef_valid r))
  | @recycle w w1 w2 ps r hz hc1 _ ih1 ih2 =>
    intro q h hv
    obtain ⟨hr, hc⟩ := h.pending
    have a1 : Accurate (w.decRef r) (ps ++ q) := Accurate.decRef_acc h
    have a2 := Accurate.clear_fields_acc r a1
    have p1 := ih1 (ps ++ q) a2 ((hv.decRef_valid r).clear_fields_valid r)
    have p2 := Post.recycle hr hc hz (hv r hr) p1
    have a3 := (hc1.accurate (ps ++ q) a2).pushFreeRegion_acc (w1.region r).pool_ r
    exact p2.trans_heap (ih2 q a3 (p2.valid_after hv))

/-! ## Well-formed pools -/

theorem RegionPool.entryOk_some (w : Heap) (p r : Nat) :
    RegionPool.entryOk w p (some r) = true ↔
      r < w.regions.length ∧ (w.region r).pool_ = p ∧
        (r ∈ (w.pool p).free_regions_ ↔ (w.region r).references_ = 0) := by
  simp [RegionPool.entryOk]

theorem PoolsOk.poolValid {w : Heap} (h : PoolsOk w) : PoolValid w :=
  fun r hr => (h.1 r hr).1

theorem PoolsOk.entry {w : Heap} (h : PoolsOk w) {p r : Nat}
    (hm : some r ∈ (w.pool p).regions_) :
    r < w.regions.length ∧ (w.region r).pool_ = p ∧
      (r ∈ (w.pool p).free_regions_ ↔ (w.region r).references_ = 0) := by
  by_cases hp : p < w.pools.length
  · exact (RegionPool.entryOk_some w p r).mp ((h.2 p hp).2.2.2 _ hm)
  · rw [Heap.pool_default _ _ (Nat.le_of_not_lt hp)] at hm
    cases hm

theorem PoolsOk.free {w : Heap} (h : PoolsOk w) {p r : Nat}
    (hm : r ∈ (w.pool p).free_regions_) :
    some r ∈ (w.pool p).regions_ ∧ (w.region r).references_ = 0 ∧
      (w.region r).isCleared := by
  by_cases hp : p < w.pools.length
  · exact (h.2 p hp).2.2.1 _ hm
  · rw [Heap.pool_default _ _ (Nat.le_of_not_lt hp)] at hm
    cases hm

theorem Heap.lt_of_references_ne_zero (w : Heap) (r : Nat)
    (h : (w.region r).references_ ≠ 0) : r < w.regions.length := by
  by_contra hx
  rw [Heap.region_default _ _ (Nat.le_of_not_lt hx)] at h
  exact h rfl

theorem Region.cleared_isCleared (R : Region) : R.cleared.isCleared :=
  ⟨rfl, rfl, rfl, rfl⟩

/-- Destroying handles keeps the pools well formed. -/
theorem PoolsOk.of_post {w w1 : Heap} (h : PoolsOk w) (hp : Post w w1) : PoolsOk w1 := by
  obtain ⟨_, _, n1, m1, r1, p1⟩ := hp
  have key : ∀ p r, r ∈ (w1.pool p).free_regions_ →
      some r ∈ (w.pool p).regions_ ∧ (w1.region r).references_ = 0 ∧
        (w1.region r).isCleared := by
    intro p r hr
    obtain ⟨_, l, bl, f, _, i, _, _⟩ := p1 p
    rw [f, List.mem_append] at hr
    rcases hr with hr | hr
    · obtain ⟨a, b, c⟩ := h.free hr
      rw [(r1 r).of_zero b]
      exact ⟨a, b, c⟩
    · obtain ⟨a, b, c⟩ := (i r).mp hr
      refine ⟨?_, c, ?_⟩
      · have := (h.1 r (w.lt_of_references_ne_zero r b)).2
        rwa [a] at this
      · rw [(r1 r).of_recycled b c]
        exact Region.cleared_isCleared _
  constructor
  · intro r hr
    rw [(r1 r).pool_, m1, (p1 _).1]
    exact h.1 r (by omega)
  · intro p hpl
    obtain ⟨g, l, bl, f, d, i, _, _⟩ := p1 p
    have hpl0 : p < w.pools.length := by omega
    obtain ⟨fd, rd, _, _⟩ := h.2 p hpl0
    refine ⟨?_, by rw [g]; exact rd, ?_, ?_⟩
    · rw [f, List.nodup_append]
      refine ⟨fd, d, ?_⟩
      intro x hx1 hx2
      exact ((i x).mp hx2).2.1 (h.free hx1).2.1
    · intro r hr
      obtain ⟨a, b, c⟩ := key p r hr
      exact ⟨by rw [g]; exact a, b, c⟩
    · intro x hx
      rw [g] at hx
      cases x with
      | none => rfl
      | some r =>
        obtain ⟨a, b, c⟩ := h.entry hx
        rw [RegionPool.entryOk_some]
        refine ⟨by omega, by rw [(r1 r).pool_]; exact b, ?_⟩
        constructor
        · intro hr; exact (key p r hr).2.1
        · intro hz
          rw [f, List.mem_append]
          by_cases h0 : (w.region r).references_ = 0
          · exact Or.inl (c.mpr h0)
          · exact Or.inr ((i r).mpr ⟨b, h0, hz⟩)

/-- Well-formedness of the pools only reads the lengths, each region's pool,
whether its count is zero, the state of the regions of count zero, and each
pool's `regions_` and `free_regions_`. -/
theorem PoolsOk.congr {w w1 : Heap} (h : PoolsOk w)
    (hn : w1.regions.length = w.regions.length) (hm : w1.pools.length = w.pools.length)
    (hr : ∀ r, (w1.region r).pool_ = (w.region r).pool_ ∧
      ((w1.region r).references_ = 0 ↔ (w.region r).references_ = 0) ∧
      ((w.region r).references_ = 0 → w1.region r = w.region r))
    (hp : ∀ p, (w1.pool p).regions_ = (w.pool p).regions_ ∧
      (w1.pool p).free_regions_ = (w.pool p).free_regions_) : PoolsOk w1 := by
  constructor
  · intro r hr1
    rw [(hr r).1, hm, (hp _).1]
    exact h.1 r (by omega)
  · intro p hpl
    obtain ⟨fd, rd, fr, en⟩ := h.2 p (by omega)
    rw [(hp p).1, (hp p).2]
    refine ⟨fd, rd, ?_, ?_⟩
    · intro r hr1
      obtain ⟨a, b, c⟩ := fr r hr1
      rw [(hr r).2.2 b]
      exact ⟨a, b, c⟩
    · intro x hx
      cases x with
      | none => rfl
      | some r =>
        have := (RegionPool.entryOk_some w p r).mp (en _ hx)
        rw [RegionPool.entryOk_some, (hr r).1, (hr r).2.1, (hp p).2, hn]
        exact this

/-! ## The invariant through the building blocks of the native calls -/

theorem InvWith.cascade {w w1 : Heap} {ps q : List RegionPtr} (h : InvWith w (ps ++ q))
    (hc : Cascade w ps w1) : InvWith w1 q :=
  ⟨hc.accurate q h.1, h.2.of_post (hc.post q h.1 h.2.poolValid)⟩

theorem InvWith.clear {w w1 : Heap} {p p1 : RegionPtr} {q : List RegionPtr} {fuel : Nat}
    (h : InvWith w (p :: q)) (e : RegionPtr.clear fuel w p = some (w1, p1)) :
    InvWith w1 q :=
  @InvWith.cascade w w1 [p] q h (RegionPtr.clear_cascade fuel w w1 p p1 e)

theorem InvWith.clearAll {w w1 : Heap} {ps q : List RegionPtr} {fuel : Nat}
    (h : InvWith w (ps ++ q)) (e : RegionPtr.clearAll fuel w ps = some w1) :
    InvWith w1 q :=
  InvWith.cascade h (RegionPtr.clearAll_cascade fuel ps w w1 e)

/-- A region some handle points at is allocated and has a non-zero count. -/
theorem Accurate.live {w : Heap} {q : List RegionPtr} {r : Nat} (h : Accurate w q)
    (hm : some r ∈ w.handles ++ q) :
    r < w.regions.length ∧ (w.region r).references_ ≠ 0 := by
  have hv := h.2 _ hm
  simp only [RegionPtr.valid, decide_eq_true_eq] at hv
  refine ⟨hv, ?_⟩
  rw [h.1 r hv]
  exact (List.count_pos_iff.mpr hm).ne'

theorem Heap.mem_handles_of_slot {w : Heap} {s : Nat} {h : RegionPtr}
    (e : w.slots.get? s = some h) : h ∈ w.handles := by
  simp only [Heap.handles, List.mem_append]
  exact Or.inl (List.get?_mem e)

theorem Heap.mem_handles_of_parent {w : Heap} {r : Nat} {h : RegionPtr}
    (hr : r < w.regions.length) (e : h ∈ (w.region r).parents_) : h ∈ w.handles := by
  simp only [Heap.handles, List.mem_append, List.mem_flatten, List.mem_map]
  refine Or.inr ⟨_, ⟨w.region r, ?_, rfl⟩, e⟩
  simp only [Heap.region, List.getD_eq_getElem?_getD, List.getElem?_eq_getElem hr,
    Option.getD_some]
  exact List.getElem_mem hr

theorem ScalaRegion.deref_eq {w : Heap} {s r : Nat} (e : ScalaRegion.deref w s = some r) :
    w.slots.get? s = some (some r) := by
  unfold ScalaRegion.deref at e
  split at e
  · simp at e; subst e; assumption
  · cases e

theorem Accurate.live_of_deref {w : Heap} {q : List RegionPtr} {s r : Nat}
    (h : Accurate w q) (e : ScalaRegion.deref w s = some r) :
    r < w.regions.length ∧ (w.region r).references_ ≠ 0 :=
  h.live (List.mem_append_left _ (Heap.mem_handles_of_slot (ScalaRegion.deref_eq e)))

theorem Heap.handleCount_setRegion (w : Heap) (r : Nat) (x : Region) (q : List RegionPtr)
    (y : Nat) (hr : r < w.regions.length) :
    (w.setRegion r x).handleCount q y + (w.region r).parents_.count (some y) =
      w.handleCount q y + x.parents_.count (some y) := by
  have := Heap.parentCount_setRegion w r x (some y) hr
  simp only [Heap.handleCount, Heap.slots_setRegion]
  omega

/-- Rewriting a live region without touching its count or its pool, while
handles move between its `parents_` and the outside. -/
theorem InvWith.setRegion_live {w : Heap} {r : Nat} {x : Region}
    {add rem q : List RegionPtr} (h : InvWith w (add ++ q))
    (hr : r < w.regions.length) (hl : (w.region r).references_ ≠ 0)
    (hp : x.pool_ = (w.region r).pool_) (hc : x.references_ = (w.region r).references_)
    (hcount : ∀ y, x.parents_.count (some y) + rem.count (some y) =
      (w.region r).parents_.count (some y) + add.count (some y)) :
    InvWith (w.setRegion r x) (rem ++ q) := by
  constructor
  · have ha := h.1
    rw [accurate_iff] at ha ⊢
    intro y
    have h1 := ha y
    have h2 := Heap.handleCount_setRegion w r x q y hr
    have h3 := hcount y
    rw [Heap.handleCount_append] at h1 ⊢
    have hrefs : ((w.setRegion r x).region y).references_ = (w.region y).references_ := by
      rw [Heap.region_setRegion _ _ _ _ hr]
      split
      · next e => rw [e, hc]
      · rfl
    rw [hrefs]
    simp only [Heap.regions_setRegion, List.length_set]
    constructor
    · omega
    · intro hy; have := h1.2 hy; omega
  · refine h.2.congr (by simp) rfl ?_ ?_
    · intro y
      rw [Heap.region_setRegion _ _ _ _ hr]
      split
      · next e => subst e; exact ⟨hp, by rw [hc], fun h0 => absurd h0 hl⟩
      · exact ⟨rfl, Iff.rfl, fun _ => rfl⟩
    · intro p; exact ⟨rfl, rfl⟩

/-- Rewriting a live region without touching count, pool or `parents_`. -/
theorem InvWith.setRegion_data {w : Heap} {r : Nat} {x : Region} {q : List RegionPtr}
    (h : InvWith w q) (hr : r < w.regions.length) (hl : (w.region r).references_ ≠ 0)
    (hp : x.pool_ = (w.region r).pool_) (hc : x.references_ = (w.region r).references_)
    (hpar : x.parents_ = (w.region r).parents_) : InvWith (w.setRegion r x) q := by
  have := @InvWith.setRegion_live w r x [] [] q h hr hl hp hc
    (by intro y; rw [hpar])
  simpa using this

/-- Rewriting the `free_blocks_` of a pool. -/
theorem InvWith.setPool_blocks {w : Heap} {p : Nat} {x : RegionPool} {q : List RegionPtr}
    (h : InvWith w q) (h1 : x.regions_ = (w.pool p).regions_)
    (h2 : x.free_regions_ = (w.pool p).free_regions_) : InvWith (w.setPool p x) q := by
  constructor
  · have ha := h.1
    rw [accurate_iff] at ha ⊢
    exact ha
  · refine h.2.congr rfl (by simp) ?_ ?_
    · intro y; exact ⟨rfl, Iff.rfl, fun _ => rfl⟩
    · intro a
      by_cases hp : p < w.pools.length
      · rw [Heap.pool_setPool _ _ _ _ hp]
        split
        · next e => subst e; exact ⟨h1, h2⟩
        · exact ⟨rfl, rfl⟩
      · rw [Heap.setPool_out _ _ _ (Nat.le_of_not_lt hp)]
        exact ⟨rfl, rfl⟩

theorem InvWith.set_next_buffer {w : Heap} {q : List RegionPtr} (b : Nat)
    (h : InvWith w q) : InvWith { w with next_buffer := b } q := by
  constructor
  · have ha := h.1
    rw [accurate_iff] at ha ⊢
    exact ha
  · exact h.2.congr rfl rfl (fun y => ⟨rfl, Iff.rfl, fun _ => rfl⟩) (fun p => ⟨rfl, rfl⟩)

/-- Storing a handle in a slot releases the slot's old handle to the outside. -/
theorem InvWith.setSlot {w : Heap} {s : Nat} {h old : RegionPtr} {q : List RegionPtr}
    (hi : InvWith w (h :: q)) (e : w.slots.get? s = some old) :
    InvWith (w.setSlot s h) (old :: q) := by
  constructor
  · have ha := hi.1
    rw [accurate_iff] at ha ⊢
    intro y
    have h1 := ha y
    have hs : s < w.slots.length := by
      rw [List.get?_eq_some] at e; exact e.1
    have hold : old = w.slots[s] := by
      rw [List.get?_eq_some] at e; obtain ⟨_, e⟩ := e; simpa using e.symm
    have hcnt := List.count_set h (some y) w.slots s hs
    simp only [Heap.handleCount, List.count_cons] at h1 ⊢
    have hsl : (w.setSlot s h).slots = w.slots.set s h := rfl
    have hreg : (w.setSlot s h).region y = w.region y := rfl
    have hpc : (w.setSlot s h).parentCount (some y) = w.parentCount (some y) := rfl
    have hlen : (w.setSlot s h).regions.length = w.regions.length := rfl
    rw [hsl, hreg, hpc, hlen, hcnt, ← hold]
    have hpos : (if w.slots[s] == some y then 1 else 0) ≤ List.count (some y) w.slots := by
      split
      · next e1 =>
        have : some y ∈ w.slots := by
          have := List.getElem_mem hs
          simpa using (beq_iff_eq.mp e1) ▸ this
        exact List.count_pos_iff.mpr this
      · omega
    rw [hold]
    constructor
    · omega
    · intro hy; have := h1.2 hy; omega
  · exact hi.2.congr rfl rfl (fun y => ⟨rfl, Iff.rfl, fun _ => rfl⟩) (fun p => ⟨rfl, rfl⟩)

/-- A new `ScalaRegion` object takes a handle from the outside. -/
theorem InvWith.pushSlot {w : Heap} {h : RegionPtr} {q : List RegionPtr}
    (hi : InvWith w (h :: q)) : InvWith { w with slots := w.slots ++ [h] } q := by
  constructor
  · have ha := hi.1
    rw [accurate_iff] at ha ⊢
    intro y
    have h1 := ha y
    simp only [Heap.handleCount, List.count_cons, List.count_append, List.count_nil] at h1 ⊢
    have hreg : ({ w with slots := w.slots ++ [h] } : Heap).region y = w.region y := rfl
    have hpc : ({ w with slots := w.slots ++ [h] } : Heap).parentCount (some y) =
        w.parentCount (some y) := rfl
    rw [hreg, hpc]
    constructor
    · omega
    · intro hy; have := h1.2 hy; omega
  · exact hi.2.congr rfl rfl (fun y => ⟨rfl, Iff.rfl, fun _ => rfl⟩) (fun p => ⟨rfl, rfl⟩)

theorem Accurate.cons_null {w : Heap} {q : List RegionPtr} (h : Accurate w q) :
    Accurate w (none :: q) := by
  rw [accurate_iff] at h ⊢
  intro x
  have h1 := h x
  rw [Heap.handleCount_cons]
  simpa using h1

theorem Heap.handleCount_setRegion_same (w : Heap) (r : Nat) (x : Region)
    (q : List RegionPtr) (y : Nat) (hp : x.parents_ = (w.region r).parents_) :
    (w.setRegion r x).handleCount q y = w.handleCount q y := by
  simp only [Heap.handleCount, Heap.slots_setRegion,
    Heap.parentCount_setRegion_same w r x (some y) hp]

theorem RegionPtr.ofRaw_snd (w : Heap) (r : Nat) : (RegionPtr.ofRaw w r).2 = some r := rfl

theorem RegionPtr.copy_snd (w : Heap) (h : RegionPtr) : (RegionPtr.copy w h).2 = h := by
  cases h <;> rfl

/-- A new handle to a live region. -/
theorem InvWith.ofRaw_live {w : Heap} {r : Nat} {q : List RegionPtr} (h : InvWith w q)
    (hr : r < w.regions.length) (hl : (w.region r).references_ ≠ 0) :
    InvWith (RegionPtr.ofRaw w r).1 (some r :: q) := by
  simp only [RegionPtr.ofRaw]
  constructor
  · have ha := h.1
    rw [accurate_iff] at ha ⊢
    intro y
    have h1 := ha y
    rw [Heap.handleCount_cons, Heap.region_setRegion _ _ _ _ hr,
      Heap.handleCount_setRegion_same]
    swap
    · rfl
    simp only [Heap.regions_setRegion, List.length_set]
    by_cases e : y = r
    · subst e
      simp only [if_true]
      constructor
      · omega
      · intro hy; omega
    · have e2 : ¬ (some r = some y) := by simpa using Ne.symm e
      simp only [e, e2, if_false]
      constructor
      · omega
      · intro hy; have := h1.2 hy; omega
  · refine h.2.congr (by simp) rfl ?_ (fun p => ⟨rfl, rfl⟩)
    intro y
    rw [Heap.region_setRegion _ _ _ _ hr]
    split
    · next e => subst e; exact ⟨rfl, by simp [hl], fun h0 => absurd h0 hl⟩
    · exact ⟨rfl, Iff.rfl, fun _ => rfl⟩

/-- Copying a handle that exists. -/
theorem InvWith.copy {w : Heap} {p : RegionPtr} {q : List RegionPtr} (h : InvWith w q)
    (hm : p ≠ none → p ∈ w.handles ++ q) : InvWith (RegionPtr.copy w p).1 (p :: q) := by
  cases p with
  | none => exact ⟨h.1.cons_null, h.2⟩
  | some r =>
    obtain ⟨hr, hl⟩ := h.1.live (hm (by simp))
    exact h.ofRaw_live hr hl

/-! ### `get_block`, `new_region`, `get_region` -/

theorem RegionPool.get_block_regions (w : Heap) (p : Nat) :
    (RegionPool.get_block w p).1.regions = w.regions := by
  unfold RegionPool.get_block; split <;> rfl

theorem RegionPool.get_block_slots (w : Heap) (p : Nat) :
    (RegionPool.get_block w p).1.slots = w.slots := by
  unfold RegionPool.get_block; split <;> rfl

theorem RegionPool.get_block_region (w : Heap) (p r : Nat) :
    (RegionPool.get_block w p).1.region r = w.region r := by
  unfold RegionPool.get_block; split <;> rfl

theorem RegionPool.get_block_pools_length (w : Heap) (p : Nat) :
    (RegionPool.get_block w p).1.pools.length = w.pools.length := by
  unfold RegionPool.get_block; split <;> simp

theorem RegionPool.get_block_pool (w : Heap) (p a : Nat) :
    ((RegionPool.get_block w p).1.pool a).regions_ = (w.pool a).regions_ ∧
    ((RegionPool.get_block w p).1.pool a).free_regions_ = (w.pool a).free_regions_ := by
  unfold RegionPool.get_block
  split
  · exact ⟨rfl, rfl⟩
  · by_cases hp : p < w.pools.length
    · simp only [Heap.pool_setPool _ _ _ _ hp]
      split
      · next e => subst e; exact ⟨rfl, rfl⟩
      · exact ⟨rfl, rfl⟩
    · rw [Heap.setPool_out _ _ _ (Nat.le_of_not_lt hp)]
      exact ⟨rfl, rfl⟩

theorem InvWith.get_block {w : Heap} {q : List RegionPtr} (p : Nat) (h : InvWith w q) :
    InvWith (RegionPool.get_block w p).1 q := by
  unfold RegionPool.get_block
  split
  · exact h.set_next_buffer _
  · exact h.setPool_blocks rfl rfl

theorem Heap.region_push (w : Heap) (R : Region) (y : Nat) :
    ({ w with regions := w.regions ++ [R] } : Heap).region y =
      if y = w.regions.length then R else w.region y := by
  simp only [Heap.region, List.getD_eq_getElem?_getD]
  by_cases h1 : y < w.regions.length
  · rw [List.getElem?_append_left h1]
    simp [Nat.ne_of_lt h1]
  · by_cases h2 : y = w.regions.length
    · subst h2
      simp
    · have h3 : w.regions.length < y := by omega
      rw [if_neg h2, List.getElem?_eq_none (by simp; omega),
        List.getElem?_eq_none (by omega)]

theorem Heap.parentCount_push (w : Heap) (R : Region) (h : RegionPtr) :
    ({ w with regions := w.regions ++ [R] } : Heap).parentCount h =
      w.parentCount h + R.parents_.count h := by
  simp [Heap.parentCount]

theorem RegionPool.new_region_eq (w : Heap) (p : Nat) :
    RegionPool.new_region w p =
      (({ (RegionPool.get_block w p).1 with
          regions := w.regions ++
            [{ pool_ := p, references_ := 1, block_offset_ := 0,
               current_block_ := (RegionPool.get_block w p).2,
               big_chunks_ := [], used_blocks_ := [], parents_ := [] }] } : Heap).setPool p
        { (RegionPool.get_block w p).1.pool p with
          regions_ := ((RegionPool.get_block w p).1.pool p).regions_ ++
            [some w.regions.length] },
       some w.regions.length) := by
  simp only [RegionPool.new_region, Region.new, RegionPtr.ofRaw, RegionPool.get_block_regions]
  congr 1
  simp [Heap.setRegion, Heap.setPool, Heap.region, Heap.pool]

/-- Placing a new region with one handle at a fresh address of pool `p`. -/
theorem InvWith.push_region {w : Heap} {q : List RegionPtr} {p : Nat} (R : Region)
    (h : InvWith w q) (hp : p < w.pools.length) (hRp : R.pool_ = p)
    (hRc : R.references_ = 1) (hRs : R.parents_ = []) :
    InvWith (({ w with regions := w.regions ++ [R] } : Heap).setPool p
        { w.pool p with regions_ := (w.pool p).regions_ ++ [some w.regions.length] })
      (some w.regions.length :: q) := by
  have hreg : ∀ y, ((({ w with regions := w.regions ++ [R] } : Heap).setPool p
        { w.pool p with regions_ := (w.pool p).regions_ ++ [some w.regions.length] }).region y)
      = if y = w.regions.length then R else w.region y := by
    intro y; rw [Heap.region_setPool, Heap.region_push]
  have hpool : ∀ a, ((({ w with regions := w.regions ++ [R] } : Heap).setPool p
        { w.pool p with regions_ := (w.pool p).regions_ ++ [some w.regions.length] }).pool a)
      = if a = p then
          { w.pool p with regions_ := (w.pool p).regions_ ++ [some w.regions.length] }
        else w.pool a := by
    intro a
    rw [Heap.pool_setPool _ _ _ _
      (show p < ({ w with regions := w.regions ++ [R] } : Heap).pools.length from hp)]
    split <;> rfl
  have hfresh : ∀ a, some w.regions.length ∉ (w.pool a).regions_ := by
    intro a hm
    have := (h.2.entry hm).1
    omega
  constructor
  · have ha := h.1
    rw [accurate_iff] at ha ⊢
    intro y
    have h1 := ha y
    rw [hreg, Heap.handleCount_cons]
    have hc : ((({ w with regions := w.regions ++ [R] } : Heap).setPool p
        { w.pool p with regions_ := (w.pool p).regions_ ++ [some w.regions.length] }).handleCount
        q y) = w.handleCount q y := by
      simp only [Heap.handleCount, Heap.parentCount_setPool, Heap.parentCount_push, hRs,
        Heap.slots_setPool]
      simp
    rw [hc]
    simp only [Heap.regions_setPool, List.length_append, List.length_singleton]
    by_cases e : y = w.regions.length
    · subst e
      have := h1.2 (le_refl _)
      simp only [if_true, hRc]
      constructor
      · omega
      · intro hy; omega
    · have e2 : ¬ (some w.regions.length = some y) := by simpa using Ne.symm e
      simp only [e, e2, if_false]
      constructor
      · omega
      · intro hy; have := h1.2 (by omega); omega
  · constructor
    · intro r hr
      simp only [Heap.regions_setPool, List.length_append, List.length_singleton] at hr
      rw [hreg, hpool]
      simp only [Heap.pools_setPool, List.length_set]
      by_cases e : r = w.regions.length
      · subst e
        simp only [if_true, hRp]
        exact ⟨hp, by simp⟩
      · simp only [e, if_false]
        obtain ⟨a, b⟩ := h.2.1 r (by omega)
        refine ⟨a, ?_⟩
        split
        · next e2 => rw [e2] at b; exact List.mem_append_left _ b
        · exact b
    · intro a ha
      simp only [Heap.pools_setPool, List.length_set] at ha
      obtain ⟨fd, rd, fr, en⟩ := h.2.2 a ha
      rw [hpool]
      have hfree : (if a = p then
          { w.pool p with regions_ := (w.pool p).regions_ ++ [some w.regions.length] }
          else w.pool a).free_regions_ = (w.pool a).free_regions_ := by
        split
        · next e => rw [e]
        · rfl
      have hlt : ∀ r, some r ∈ (w.pool a).regions_ → r ≠ w.regions.length := by
        intro r hm e
        exact hfresh a (e ▸ hm)
      rw [hfree]
      refine ⟨fd, ?_, ?_, ?_⟩
      · split
        · next e =>
          subst e
          simp only [List.filter_append, List.filter_cons, List.filter_nil,
            Option.isSome_some, if_true]
          rw [List.nodup_append]
          refine ⟨rd, List.nodup_singleton _, ?_⟩
          intro x hx1 hx2
          simp only [List.mem_singleton] at hx2
          subst hx2
          exact hfresh a (List.mem_filter.mp hx1).1
        · exact rd
      · intro r hr
        obtain ⟨m, z, c⟩ := fr r hr
        rw [hreg, if_neg (hlt r m)]
        refine ⟨?_, z, c⟩
        split
        · next e => rw [← e]; exact List.mem_append_left _ m
        · exact m
      · intro x hx
        have old : ∀ r, some r ∈ (w.pool a).regions_ →
            RegionPool.entryOk (({ w with regions := w.regions ++ [R] } : Heap).setPool p
              { w.pool p with regions_ := (w.pool p).regions_ ++ [some w.regions.length] })
              a (some r) = true := by
          intro r hm
          obtain ⟨x1, x2, x3⟩ := h.2.entry hm
          rw [RegionPool.entryOk_some, hreg, if_neg (hlt r hm), hpool, hfree]
          simp only [Heap.regions_setPool, List.length_append, List.length_singleton]
          exact ⟨by omega, x2, x3⟩
        cases x with
        | none => rfl
        | some r =>
          by_cases e : a = p
          · subst e
            simp only [if_true, List.mem_append, List.mem_singleton] at hx
            rcases hx with hx | hx
            · exact old r hx
            · simp only [Option.some.injEq] at hx
              subst hx
              rw [RegionPool.entryOk_some, hreg, hpool, hfree]
              simp only [Heap.regions_setPool, List.length_append, List.length_singleton,
                if_true, hRp, hRc]
              refine ⟨by omega, trivial, ?_⟩
              constructor
              · intro hm; exact absurd (fr _ hm).1 (hfresh a)
              · intro h0; omega
          · simp only [e, if_false] at hx
            exact old r hx

theorem InvWith.new_region {w : Heap} {q : List RegionPtr} {p : Nat} (h : InvWith w q)
    (hp : p < w.pools.length) :
    InvWith (RegionPool.new_region w p).1 ((RegionPool.new_region w p).2 :: q) := by
  rw [RegionPool.new_region_eq]
  have hb := h.get_block p
  have := @InvWith.push_region (RegionPool.get_block w p).1 q p
    { pool_ := p, references_ := 1, block_offset_ := 0,
      current_block_ := (RegionPool.get_block w p).2,
      big_chunks_ := [], used_blocks_ := [], parents_ := [] } hb
    (by rw [RegionPool.get_block_pools_length]; exact hp) rfl rfl rfl
  simp only [RegionPool.get_block_regions] at this
  exact this

/-- Taking the last region off the free list of pool `p` and handing out a
handle to it. -/
theorem InvWith.pop_region {w : Heap} {q : List RegionPtr} {p r : Nat} (h : InvWith w q)
    (hp : p < w.pools.length) (hl : (w.pool p).free_regions_.getLast? = some r) :
    InvWith (RegionPtr.ofRaw
        (w.setPool p { w.pool p with free_regions_ := (w.pool p).free_regions_.dropLast }) r).1
      (some r :: q) := by
  have hfree : (w.pool p).free_regions_.dropLast ++ [r] = (w.pool p).free_regions_ :=
    List.dropLast_append_getLast? r hl
  have hmem : r ∈ (w.pool p).free_regions_ := by rw [← hfree]; simp
  obtain ⟨hreg, hz, hcl⟩ := h.2.free hmem
  obtain ⟨hr, hrp, _⟩ := h.2.entry hreg
  obtain ⟨fd, rd, fr, en⟩ := h.2.2 p hp
  have hnd : (w.pool p).free_regions_.dropLast.Nodup ∧
      r ∉ (w.pool p).free_regions_.dropLast := by
    rw [← hfree, List.nodup_append] at fd
    exact ⟨fd.1, fun hx => fd.2.2 hx (List.mem_singleton_self r)⟩
  have hregion : ∀ y, ((RegionPtr.ofRaw
        (w.setPool p { w.pool p with free_regions_ := (w.pool p).free_regions_.dropLast })
        r).1.region y) =
      if y = r then { w.region r with references_ := (w.region r).references_ + 1 }
      else w.region y := by
    intro y
    simp only [RegionPtr.ofRaw]
    rw [Heap.region_setRegion _ _ _ _ (by simpa using hr)]
    rfl
  have hpool : ∀ a, ((RegionPtr.ofRaw
        (w.setPool p { w.pool p with free_regions_ := (w.pool p).free_regions_.dropLast })
        r).1.pool a) =
      if a = p then { w.pool p with free_regions_ := (w.pool p).free_regions_.dropLast }
      else w.pool a := by
    intro a
    simp only [RegionPtr.ofRaw, Heap.pool_setRegion]
    rw [Heap.pool_setPool _ _ _ _ hp]
  have hlen : (RegionPtr.ofRaw
        (w.setPool p { w.pool p with free_regions_ := (w.pool p).free_regions_.dropLast })
        r).1.regions.length = w.regions.length := by
    simp [RegionPtr.ofRaw]
  have hplen : (RegionPtr.ofRaw
        (w.setPool p { w.pool p with free_regions_ := (w.pool p).free_regions_.dropLast })
        r).1.pools.length = w.pools.length := by
    simp [RegionPtr.ofRaw]
  constructor
  · have ha := h.1
    rw [accurate_iff] at ha ⊢
    intro y
    have h1 := ha y
    rw [hregion, Heap.handleCount_cons, hlen]
    have hc : (RegionPtr.ofRaw
        (w.setPool p { w.pool p with free_regions_ := (w.pool p).free_regions_.dropLast })
        r).1.handleCount q y = w.handleCount q y := by
      simp only [RegionPtr.ofRaw]
      rw [Heap.handleCount_setRegion_same]
      · rfl
      · rfl
    rw [hc]
    by_cases e : y = r
    · subst e
      simp only [if_true]
      constructor
      · omega
      · intro hy; omega
    · have e2 : ¬ (some r = some y) := by simpa using Ne.symm e
      simp only [e, e2, if_false]
      constructor
      · omega
      · intro hy; have := h1.2 hy; omega
  · constructor
    · intro y hy
      rw [hlen] at hy
      rw [hplen, hregion]
      have hpl : ∀ a, ((RegionPtr.ofRaw
          (w.setPool p { w.pool p with free_regions_ := (w.pool p).free_regions_.dropLast })
          r).1.pool a).regions_ = (w.pool a).regions_ := by
        intro a; rw [hpool]; split
        · next e => rw [e]
        · rfl
      rw [hpl]
      split
      · next e => subst e; exact h.2.1 y hy
      · exact h.2.1 y hy
    · intro a ha
      rw [hplen] at ha
      rw [hpool]
      by_cases e : a = p
      · subst e
        simp only [if_true]
        refine ⟨hnd.1, rd, ?_, ?_⟩
        · intro y hy
          have hy1 : y ∈ (w.pool a).free_regions_ := List.mem_of_mem_dropLast hy
          have hne : y ≠ r := fun e => hnd.2 (e ▸ hy)
          rw [hregion, if_neg hne]
          exact fr y hy1
        · intro x hx
          cases x with
          | none => rfl
          | some y =>
            obtain ⟨x1, x2, x3⟩ := h.2.entry hx
            rw [RegionPool.entryOk_some, hlen, hregion, hpool]
            simp only [if_true]
            by_cases e : y = r
            · subst e
              simp only [if_true]
              exact ⟨x1, x2, by simp [hnd.2]⟩
            · simp only [e, if_false]
              refine ⟨x1, x2, ?_⟩
              rw [← x3, ← hfree]
              simp [e]
      · simp only [e, if_false]
        obtain ⟨fd1, rd1, fr1, en1⟩ := h.2.2 a ha
        have hne : ∀ y, some y ∈ (w.pool a).regions_ → y ≠ r := by
          intro y hy e1
          subst e1
          exact e ((h.2.entry hy).2.1.symm.trans hrp)
        refine ⟨fd1, rd1, ?_, ?_⟩
        · intro y hy
          rw [hregion, if_neg (hne y (fr1 y hy).1)]
          exact fr1 y hy
        · intro x hx
          cases x with
          | none => rfl
          | some y =>
            obtain ⟨x1, x2, x3⟩ := h.2.entry hx
            rw [RegionPool.entryOk_some, hlen, hregion, hpool, if_neg (hne y hx), if_neg e]
            exact ⟨x1, x2, x3⟩

theorem InvWith.get_region {w : Heap} {q : List RegionPtr} {p : Nat} (h : InvWith w q)
    (hp : p < w.pools.length) :
    InvWith (RegionPool.get_region w p).1 ((RegionPool.get_region w p).2 :: q) := by
  unfold RegionPool.get_region
  split
  · exact h.new_region hp
  · next r hl => exact h.pop_region hp hl

/-! ### What copying a handle leaves alone -/

theorem RegionPtr.copy_slots (w : Heap) (h : RegionPtr) : (RegionPtr.copy w h).1.slots = w.slots := by
  cases h <;> rfl

theorem RegionPtr.copy_pools (w : Heap) (h : RegionPtr) : (RegionPtr.copy w h).1.pools = w.pools := by
  cases h <;> rfl

theorem RegionPtr.copy_pool (w : Heap) (h : RegionPtr) (p : Nat) :
    (RegionPtr.copy w h).1.pool p = w.pool p := by
  cases h <;> rfl

theorem RegionPtr.copy_next_buffer (w : Heap) (h : RegionPtr) :
    (RegionPtr.copy w h).1.next_buffer = w.next_buffer := by
  cases h <;> rfl

theorem RegionPtr.copy_regions_length (w : Heap) (h : RegionPtr) :
    (RegionPtr.copy w h).1.regions.length = w.regions.length := by
  cases h <;> simp [RegionPtr.copy, RegionPtr.ofRaw]

theorem RegionPtr.copy_region (w : Heap) (h : RegionPtr) (y : Nat) :
    (RegionPtr.copy w h).1.region y =
      { w.region y with references_ := ((RegionPtr.copy w h).1.region y).references_ } ∧
    (w.region y).references_ ≤ ((RegionPtr.copy w h).1.region y).references_ := by
  cases h with
  | none => exact ⟨rfl, le_refl _⟩
  | some r =>
    simp only [RegionPtr.copy, RegionPtr.ofRaw]
    by_cases hr : r < w.regions.length
    · rw [Heap.region_setRegion _ _ _ _ hr]
      split
      · next e => subst e; exact ⟨rfl, Nat.le_succ _⟩
      · exact ⟨rfl, le_refl _⟩
    · rw [Heap.setRegion_out _ _ _ (Nat.le_of_not_lt hr)]
      exact ⟨rfl, le_refl _⟩

theorem RegionPtr.copy_region_parents (w : Heap) (h : RegionPtr) (y : Nat) :
    ((RegionPtr.copy w h).1.region y).parents_ = (w.region y).parents_ := by
  rw [(RegionPtr.copy_region w h y).1]

theorem RegionPtr.copy_region_pool_ (w : Heap) (h : RegionPtr) (y : Nat) :
    ((RegionPtr.copy w h).1.region y).pool_ = (w.region y).pool_ := by
  rw [(RegionPtr.copy_region w h y).1]

theorem RegionPtr.copy_live (w : Heap) (h : RegionPtr) (y : Nat)
    (hl : (w.region y).references_ ≠ 0) :
    ((RegionPtr.copy w h).1.region y).references_ ≠ 0 := by
  have := (RegionPtr.copy_region w h y).2
  omega

theorem count_set_getD (l : List RegionPtr) (i : Nat) (h : RegionPtr) (hi : i < l.length)
    (y : Nat) :
    (l.set i h).count (some y) + [l.getD i none].count (some y) =
      l.count (some y) + [h].count (some y) := by
  have hc := List.count_set h (some y) l i hi
  have hg : l.getD i none = l[i] := by
    simp [List.getD_eq_getElem?_getD, List.getElem?_eq_getElem hi]
  rw [hc, hg]
  simp only [List.count_cons, List.count_nil]
  have hpos : (if (l[i] == some y) = true then 1 else 0) ≤ List.count (some y) l := by
    split
    · next e1 =>
      have : some y ∈ l := by
        have := List.getElem_mem hi
        simpa using (beq_iff_eq.mp e1) ▸ this
      exact List.count_pos_iff.mpr this
    · omega
  omega

/-! ### Assignment over a slot or a parent handle -/

theorem InvWith.assign_slot {w w1 : Heap} {s : Nat} {src : RegionPtr} {q : List RegionPtr}
    {fuel : Nat} (h : InvWith w q) (hm : src ≠ none → src ∈ w.handles ++ q)
    (e : ScalaRegion.assign fuel w s src = some w1) : InvWith w1 q := by
  unfold ScalaRegion.assign at e
  split at e
  · cases e
  · next old hold =>
    simp only [Option.map_eq_some'] at e
    obtain ⟨⟨w2, h2⟩, e1, e2⟩ := e
    simp only at e2
    subst e2
    have h1 := h.copy hm
    have hs : (RegionPtr.copy w src).1.slots.get? s = some old := by
      rw [RegionPtr.copy_slots]; exact hold
    have h3 := h1.setSlot hs
    rw [RegionPtr.copy_snd] at e1
    exact h3.clear e1

theorem InvWith.assign_parent {w w1 : Heap} {r i : Nat} {src : RegionPtr}
    {q : List RegionPtr} {fuel : Nat} (h : InvWith w q) (hr : r < w.regions.length)
    (hl : (w.region r).references_ ≠ 0) (hm : src ≠ none → src ∈ w.handles ++ q)
    (e : Region.assign_parent fuel w r i src = some w1) : InvWith w1 q := by
  unfold Region.assign_parent at e
  split at e
  · next hi =>
    simp only [Option.map_eq_some'] at e
    obtain ⟨⟨w2, h2⟩, e1, e2⟩ := e
    simp only at e2
    subst e2
    have h1 : InvWith (RegionPtr.copy w src).1 ([src] ++ q) := h.copy hm
    rw [RegionPtr.copy_snd, RegionPtr.copy_region_parents] at e1
    have h3 := @InvWith.setRegion_live (RegionPtr.copy w src).1 r
      { (RegionPtr.copy w src).1.region r with parents_ := (w.region r).parents_.set i src }
      [src] [(w.region r).parents_.getD i none] q h1
      (by rw [RegionPtr.copy_regions_length]; exact hr) (RegionPtr.copy_live w src r hl)
      rfl rfl
      (by
        intro y
        rw [RegionPtr.copy_region_parents]
        exact count_set_getD _ i src hi y)
    exact h3.clear e1
  · cases e

/-! ### Clear in place -/

theorem Region.clear_fields_pool_lists (w : Heap) (r p : Nat) :
    ((Region.clear_fields w r).pool p).regions_ = (w.pool p).regions_ ∧
    ((Region.clear_fields w r).pool p).free_regions_ = (w.pool p).free_regions_ := by
  rw [Region.clear_fields_eq]
  by_cases hp : (w.region r).pool_ < w.pools.length
  · rw [Heap.pool_setPool _ _ _ _ (by simpa using hp)]
    split
    · next e => subst e; exact ⟨rfl, rfl⟩
    · exact ⟨rfl, rfl⟩
  · rw [Heap.setPool_out _ _ _ (by simpa using Nat.le_of_not_lt hp)]
    exact ⟨rfl, rfl⟩

theorem InvWith.clear_fields_inv {w : Heap} {q : List RegionPtr} {r : Nat} (h : InvWith w q)
    (hl : (w.region r).references_ ≠ 0) :
    InvWith (Region.clear_fields w r) ((w.region r).parents_ ++ q) := by
  refine ⟨h.1.clear_fields_acc r, h.2.congr (by simp) (by simp) ?_
    (fun p => Region.clear_fields_pool_lists w r p)⟩
  intro y
  refine ⟨Region.clear_fields_pool_ w r y, by rw [Region.clear_fields_references], ?_⟩
  intro h0
  have : y ≠ r := fun e => hl (e ▸ h0)
  exact Region.clear_fields_region_ne w r y this

theorem InvWith.region_clear {w w1 : Heap} {q : List RegionPtr} {r fuel : Nat}
    (h : InvWith w q) (hl : (w.region r).references_ ≠ 0)
    (e : Region.clear fuel w r = some w1) : InvWith w1 q :=
  (h.clear_fields_inv hl).cascade (Region.clear_is_cascade fuel w w1 r e)

/-! ### Parent vectors -/

theorem InvWith.set_num_parents {w w1 : Heap} {q : List RegionPtr} {r n fuel : Nat}
    (h : InvWith w q) (hr : r < w.regions.length) (hl : (w.region r).references_ ≠ 0)
    (e : Region.set_num_parents fuel w r n = some w1) : InvWith w1 q := by
  simp only [Region.set_num_parents] at e
  split at e
  · have h1 := @InvWith.setRegion_live w r
      { w.region r with parents_ := (w.region r).parents_.take n } []
      ((w.region r).parents_.drop n) q h hr hl rfl rfl
      (by
        intro y
        simp only [List.count_nil, Nat.add_zero]
        rw [← List.count_append, List.take_append_drop])
    exact h1.clearAll e
  · simp only [Option.some.injEq] at e
    subst e
    have := @InvWith.setRegion_live w r
      { w.region r with parents_ := (w.region r).parents_ ++
          List.replicate (n - (w.region r).parents_.length) none } [] [] q h hr hl rfl rfl
      (by
        intro y
        simp [List.count_append, List.count_replicate])
    simpa using this

theorem InvWith.add_reference_to {w : Heap} {q : List RegionPtr} {r : Nat} {p : RegionPtr}
    (h : InvWith w (p :: q)) (hr : r < w.regions.length)
    (hl : (w.region r).references_ ≠ 0) : InvWith (Region.add_reference_to w r p) q := by
  have := @InvWith.setRegion_live w r
    { w.region r with parents_ := (w.region r).parents_ ++ [p] } [p] [] q h hr hl rfl rfl
    (by intro y; simp [List.count_append])
  simpa using this

theorem getD_mem {α : Type} (l : List α) (i : Nat) (d : α) (h : i < l.length) :
    l.getD i d ∈ l := by
  simp only [List.getD_eq_getElem?_getD, List.getElem?_eq_getElem h, Option.getD_some]
  exact List.getElem_mem h

theorem InvWith.get_parent_reference {w w1 : Heap} {q : List RegionPtr} {r i : Nat}
    {p : RegionPtr} (h : InvWith w q) (hr : r < w.regions.length)
    (e : Region.get_parent_reference w r i = some (w1, p)) : InvWith w1 (p :: q) := by
  unfold Region.get_parent_reference at e
  split at e
  · next hi =>
    simp only [Option.some.injEq] at e
    have e1 := congrArg Prod.fst e
    have e2 := congrArg Prod.snd e
    simp only [RegionPtr.copy_snd] at e1 e2
    subst e1
    rw [← e2]
    apply h.copy
    intro _
    exact List.mem_append_left _ (Heap.mem_handles_of_parent hr (getD_mem _ _ _ hi))
  · cases e

theorem InvWith.set_parent_reference {w w1 : Heap} {q : List RegionPtr} {r i fuel : Nat}
    {p : RegionPtr} (h : InvWith w (p :: q)) (hr : r < w.regions.length)
    (hl : (w.region r).references_ ≠ 0)
    (e : Region.set_parent_reference fuel w r p i = some w1) : InvWith w1 q := by
  unfold Region.set_parent_reference at e
  split at e
  · cases e
  · next w2 e2 =>
    simp only [Option.map_eq_some'] at e
    obtain ⟨⟨w3, h3⟩, e3, e4⟩ := e
    simp only at e4
    subst e4
    have h2 := h.assign_parent hr hl (fun _ => by simp) e2
    exact h2.clear e3

theorem InvWith.clear_parent_reference {w w1 : Heap} {q : List RegionPtr} {r i fuel : Nat}
    (h : InvWith w q) (hr : r < w.regions.length) (hl : (w.region r).references_ ≠ 0)
    (e : Region.clear_parent_reference fuel w r i = some w1) : InvWith w1 q :=
  h.assign_parent hr hl (fun hn => absurd rfl hn) e

/-! ### `get_region` keeps live regions live -/

theorem RegionPtr.ofRaw_region_le (w : Heap) (r y : Nat) :
    (w.region y).references_ ≤ ((RegionPtr.ofRaw w r).1.region y).references_ :=
  (RegionPtr.copy_region w (some r) y).2

theorem RegionPool.get_region_le (w : Heap) (p y : Nat) :
    (w.region y).references_ ≤ ((RegionPool.get_region w p).1.region y).references_ := by
  unfold RegionPool.get_region
  split
  · rw [RegionPool.new_region_eq]
    simp only [Heap.region_setPool]
    have := Heap.region_push (RegionPool.get_block w p).1
      { pool_ := p, references_ := 1, block_offset_ := 0,
        current_block_ := (RegionPool.get_block w p).2,
        big_chunks_ := [], used_blocks_ := [], parents_ := [] } y
    rw [RegionPool.get_block_regions, RegionPool.get_block_region] at this
    rw [this]
    split
    · next e => rw [e, Heap.region_default _ _ (le_refl _)]; exact Nat.zero_le _
    · exact le_refl _
  · exact RegionPtr.ofRaw_region_le _ _ _

theorem RegionPool.get_region_length_le (w : Heap) (p : Nat) :
    w.regions.length ≤ (RegionPool.get_region w p).1.regions.length := by
  unfold RegionPool.get_region
  split
  · rw [RegionPool.new_region_eq]; simp
  · simp [RegionPtr.ofRaw]

theorem RegionPool.get_region_slots (w : Heap) (p : Nat) :
    (RegionPool.get_region w p).1.slots = w.slots := by
  unfold RegionPool.get_region
  split
  · rw [RegionPool.new_region_eq]
    simp only [Heap.slots_setPool]
    exact RegionPool.get_block_slots w p
  · rfl

theorem InvWith.new_parent_reference {w w1 : Heap} {q : List RegionPtr} {r i fuel : Nat}
    {p : RegionPtr} (h : InvWith w q) (hr : r < w.regions.length)
    (hl : (w.region r).references_ ≠ 0)
    (e : Region.new_parent_reference fuel w r i = some (w1, p)) : InvWith w1 (p :: q) := by
  have h1 := h.get_region (h.2.poolValid r hr)
  have hle := RegionPool.get_region_le w (w.region r).pool_ r
  have hlen := RegionPool.get_region_length_le w (w.region r).pool_
  simp only [Region.new_parent_reference, Region.get_region] at e
  split at e
  · cases e
  · next w2 e2 =>
    simp only [Option.some.injEq, Prod.mk.injEq] at e
    obtain ⟨e3, e4⟩ := e
    subst e3
    rw [← e4]
    exact h1.assign_parent (lt_of_lt_of_le hr hlen) (by omega) (fun _ => by simp) e2

/-! ### Allocation -/

theorem InvWith.align {w : Heap} {q : List RegionPtr} {r : Nat} (a : Nat) (h : InvWith w q)
    (hr : r < w.regions.length) (hl : (w.region r).references_ ≠ 0) :
    InvWith (Region.align w r a) q :=
  h.setRegion_data hr hl rfl rfl rfl

theorem InvWith.allocate_big_chunk {w : Heap} {q : List RegionPtr} {r : Nat} (n : Nat)
    (h : InvWith w q) (hr : r < w.regions.length) (hl : (w.region r).references_ ≠ 0) :
    InvWith (Region.allocate_big_chunk w r n).1 q := by
  simp only [Region.allocate_big_chunk]
  exact (h.set_next_buffer _).setRegion_data hr hl rfl rfl rfl

theorem InvWith.allocate_new_block {w : Heap} {q : List RegionPtr} {r : Nat} (n : Nat)
    (h : InvWith w q) (hr : r < w.regions.length) (hl : (w.region r).references_ ≠ 0) :
    InvWith (Region.allocate_new_block w r n).1 q := by
  simp only [Region.allocate_new_block]
  have h1 : InvWith (w.setRegion r { w.region r with
      used_blocks_ := (w.region r).used_blocks_ ++ [(w.region r).current_block_] }) q :=
    h.setRegion_data hr hl rfl rfl rfl
  have h2 := h1.get_block (w.region r).pool_
  have hreg := RegionPool.get_block_region (w.setRegion r { w.region r with
      used_blocks_ := (w.region r).used_blocks_ ++ [(w.region r).current_block_] })
      (w.region r).pool_ r
  rw [Heap.region_setRegion_same _ _ _ hr] at hreg
  refine h2.setRegion_data ?_ ?_ rfl rfl rfl
  · rw [RegionPool.get_block_regions]; simpa using hr
  · rw [hreg]; exact hl

theorem InvWith.allocate {w : Heap} {q : List RegionPtr} {r : Nat} (a n : Nat)
    (h : InvWith w q) (hr : r < w.regions.length) (hl : (w.region r).references_ ≠ 0) :
    InvWith (Region.allocate w r a n).1 q := by
  simp only [Region.allocate]
  have h1 := h.align a hr hl
  have hr1 : r < (Region.align w r a).regions.length := by simpa [Region.align] using hr
  have hl1 : ((Region.align w r a).region r).references_ ≠ 0 := by
    simp only [Region.align]
    rw [Heap.region_setRegion_same _ _ _ hr]
    exact hl
  split
  · exact h.allocate_big_chunk n hr hl
  · split
    · exact h1.setRegion_data hr1 hl1 rfl rfl rfl
    · exact h1.allocate_new_block n hr1 hl1

/-! ### A new pool -/

theorem Heap.pool_push (w : Heap) (P : RegionPool) (a : Nat) :
    ({ w with pools := w.pools ++ [P] } : Heap).pool a =
      if a = w.pools.length then P else w.pool a := by
  simp only [Heap.pool, List.getD_eq_getElem?_getD]
  by_cases h1 : a < w.pools.length
  · rw [List.getElem?_append_left h1]
    simp [Nat.ne_of_lt h1]
  · by_cases h2 : a = w.pools.length
    · subst h2
      simp
    · have h3 : w.pools.length < a := by omega
      rw [if_neg h2, List.getElem?_eq_none (by simp; omega),
        List.getElem?_eq_none (by omega)]

theorem InvWith.nativeCtor {w : Heap} {q : List RegionPtr} (h : InvWith w q) :
    InvWith (RegionPool_nativeCtor w) q := by
  constructor
  · have ha := h.1
    rw [accurate_iff] at ha ⊢
    exact ha
  · have hpool : ∀ a, a < w.pools.length → (RegionPool_nativeCtor w).pool a = w.pool a := by
      intro a ha
      simp only [RegionPool_nativeCtor, Heap.pool_push]
      rw [if_neg (by omega)]
    constructor
    · intro r hr
      obtain ⟨a, b⟩ := h.2.1 r hr
      have hreg : (RegionPool_nativeCtor w).region r = w.region r := rfl
      rw [hreg, hpool _ a]
      exact ⟨by simp [RegionPool_nativeCtor]; omega, b⟩
    · intro a ha
      simp only [RegionPool_nativeCtor, List.length_append, List.length_singleton] at ha
      by_cases e : a = w.pools.length
      · subst e
        simp only [RegionPool_nativeCtor, Heap.pool_push, if_true]
        simp
      · have ha1 : a < w.pools.length := by omega
        rw [hpool a ha1]
        obtain ⟨fd, rd, fr, en⟩ := h.2.2 a ha1
        refine ⟨fd, rd, fr, ?_⟩
        intro x hx
        cases x with
        | none => rfl
        | some r =>
          have := (RegionPool.entryOk_some w a r).mp (en _ hx)
          rw [RegionPool.entryOk_some, hpool a ha1]
          exact this

/-! ### Ownership transfer -/

theorem mem_set_of_ne {α : Type} (l : List α) (i : Nat) (v x d : α) (hx : x ∈ l)
    (hne : x ≠ l.getD i d) : x ∈ l.set i v := by
  induction l generalizing i with
  | nil => cases hx
  | cons a l ih =>
    cases i with
    | zero =>
      simp only [List.getD_cons_zero] at hne
      simp only [List.set_cons_zero, List.mem_cons] at hx ⊢
      rcases hx with hx | hx
      · exact absurd hx hne
      · exact Or.inr hx
    | succ i =>
      simp only [List.getD_cons_succ] at hne
      simp only [List.set_cons_succ, List.mem_cons] at hx ⊢
      rcases hx with hx | hx
      · exact Or.inl hx
      · exact Or.inr (ih i hx hne)

theorem not_mem_set_none (l : List (Option Nat)) (i r : Nat)
    (hd : (l.filter Option.isSome).Nodup) (hi : l.getD i none = some r) :
    some r ∉ l.set i none := by
  induction l generalizing i with
  | nil => simp
  | cons a l ih =>
    cases i with
    | zero =>
      simp only [List.getD_cons_zero] at hi
      subst hi
      simp only [List.filter_cons, Option.isSome_some, if_true, List.nodup_cons,
        List.mem_filter, and_true] at hd
      simp only [List.set_cons_zero, List.mem_cons, not_or]
      exact ⟨by simp, hd.1⟩
    | succ i =>
      simp only [List.getD_cons_succ] at hi
      simp only [List.set_cons_succ, List.mem_cons, not_or]
      have hmem : some r ∈ l := by
        rw [← hi]
        have hlen : i < l.length := by
          by_contra hx
          rw [List.getD_eq_getElem?_getD, List.getElem?_eq_none (Nat.le_of_not_lt hx)] at hi
          cases hi
        exact getD_mem l i none hlen
      cases a with
      | none =>
        simp only [List.filter_cons, Option.isSome_none, Bool.false_eq_true, if_false] at hd
        exact ⟨by simp, ih i hd hi⟩
      | some b =>
        simp only [List.filter_cons, Option.isSome_some, if_true, List.nodup_cons,
          List.mem_filter, and_true] at hd
        refine ⟨?_, ih i hd.2 hi⟩
        intro e
        rw [e] at hmem
        exact hd.1 hmem

theorem nodup_filter_set_none (l : List (Option Nat)) (i : Nat)
    (hd : (l.filter Option.isSome).Nodup) : ((l.set i none).filter Option.isSome).Nodup := by
  induction l generalizing i with
  | nil => simp
  | cons a l ih =>
    cases i with
    | zero =>
      simp only [List.set_cons_zero, List.filter_cons, Option.isSome_none,
        Bool.false_eq_true, if_false]
      cases a with
      | none => simpa using hd
      | some b =>
        simp only [List.filter_cons, Option.isSome_some, if_true, List.nodup_cons] at hd
        exact hd.2
    | succ i =>
      simp only [List.set_cons_succ]
      cases a with
      | none =>
        simp only [List.filter_cons, Option.isSome_none, Bool.false_eq_true, if_false] at hd ⊢
        exact ih i hd
      | some b =>
        simp only [List.filter_cons, Option.isSome_some, if_true, List.nodup_cons,
          List.mem_filter, and_true] at hd ⊢
        refine ⟨?_, ih i hd.2⟩
        intro hm
        rcases List.mem_or_eq_of_mem_set hm with hm | hm
        · exact hd.1 hm
        · cases hm

/-- Moving the live region `r`, entry `i` of pool `pool`, into pool `this`. -/
theorem InvWith.move_region {w : Heap} {q : List RegionPtr} {this pool i r : Nat}
    (h : InvWith w q) (hne : this ≠ pool) (ht : this < w.pools.length)
    (hp : pool < w.pools.length) (hi : (w.pool pool).regions_.getD i none = some r)
    (hl : (w.region r).references_ ≠ 0) :
    InvWith (((w.setRegion r { w.region r with pool_ := this }).setPool this
        { w.pool this with regions_ := (w.pool this).regions_ ++ [some r] }).setPool pool
        { w.pool pool with regions_ := (w.pool pool).regions_.set i none }) q := by
  have hilen : i < (w.pool pool).regions_.length := by
    by_contra hx
    rw [List.getD_eq_getElem?_getD, List.getElem?_eq_none (Nat.le_of_not_lt hx)] at hi
    cases hi
  have hmem : some r ∈ (w.pool pool).regions_ := by
    rw [← hi]; exact getD_mem _ i none hilen
  obtain ⟨hr, hrp, _⟩ := h.2.entry hmem
  have hreg : ∀ y, ((((w.setRegion r { w.region r with pool_ := this }).setPool this
        { w.pool this with regions_ := (w.pool this).regions_ ++ [some r] }).setPool pool
        { w.pool pool with regions_ := (w.pool pool).regions_.set i none }).region y) =
      if y = r then { w.region r with pool_ := this } else w.region y := by
    intro y
    simp only [Heap.region_setPool]
    rw [Heap.region_setRegion _ _ _ _ hr]
  have hpool : ∀ a, ((((w.setRegion r { w.region r with pool_ := this }).setPool this
        { w.pool this with regions_ := (w.pool this).regions_ ++ [some r] }).setPool pool
        { w.pool pool with regions_ := (w.pool pool).regions_.set i none }).pool a) =
      if a = pool then { w.pool pool with regions_ := (w.pool pool).regions_.set i none }
      else if a = this then
        { w.pool this with regions_ := (w.pool this).regions_ ++ [some r] }
      else w.pool a := by
    intro a
    rw [Heap.pool_setPool _ _ _ _ (by simpa using hp)]
    split
    · rfl
    · rw [Heap.pool_setPool _ _ _ _ (by simpa using ht)]
      rfl
  have hfreeEq : ∀ a, (if a = pool then
        { w.pool pool with regions_ := (w.pool pool).regions_.set i none }
      else if a = this then
        { w.pool this with regions_ := (w.pool this).regions_ ++ [some r] }
      else w.pool a).free_regions_ = (w.pool a).free_regions_ := by
    intro a
    split
    · next e => rw [e]
    · split
      · next e => rw [e]
      · rfl
  have hnotthis : some r ∉ (w.pool this).regions_ := by
    intro hm
    exact hne ((h.2.entry hm).2.1.symm.trans hrp)
  have hgone : some r ∉ (w.pool pool).regions_.set i none :=
    not_mem_set_none _ i r (h.2.2 pool hp).2.1 hi
  -- an entry other than `some r` of a pool stays where it is
  have hkeep : ∀ a y, y ≠ r → some y ∈ (w.pool a).regions_ →
      some y ∈ (if a = pool then
          { w.pool pool with regions_ := (w.pool pool).regions_.set i none }
        else if a = this then
          { w.pool this with regions_ := (w.pool this).regions_ ++ [some r] }
        else w.pool a).regions_ := by
    intro a y hy hm
    split
    · next e =>
      subst e
      exact mem_set_of_ne _ i none (some y) none hm (by rw [hi]; simpa using hy)
    · split
      · next e => subst e; exact List.mem_append_left _ hm
      · exact hm
  -- and every entry `some y` afterwards with `y ≠ r` was there before
  have hback : ∀ a y, y ≠ r → some y ∈ (if a = pool then
          { w.pool pool with regions_ := (w.pool pool).regions_.set i none }
        else if a = this then
          { w.pool this with regions_ := (w.pool this).regions_ ++ [some r] }
        else w.pool a).regions_ → some y ∈ (w.pool a).regions_ := by
    intro a y hy hm
    split at hm
    · next e =>
      subst e
      rcases List.mem_or_eq_of_mem_set hm with hm | hm
      · exact hm
      · cases hm
    · split at hm
      · next e =>
        subst e
        simp only [List.mem_append, List.mem_singleton, Option.some.injEq] at hm
        rcases hm with hm | hm
        · exact hm
        · exact absurd hm hy
      · exact hm
  constructor
  · have ha := h.1
    rw [accurate_iff] at ha ⊢
    intro y
    have h1 := ha y
    have hc : ((((w.setRegion r { w.region r with pool_ := this }).setPool this
        { w.pool this with regions_ := (w.pool this).regions_ ++ [some r] }).setPool pool
        { w.pool pool with regions_ := (w.pool pool).regions_.set i none }).handleCount q y)
        = w.handleCount q y := by
      have := Heap.handleCount_setRegion_same w r { w.region r with pool_ := this } q y rfl
      rw [← this]
      rfl
    have hrefs : ((((w.setRegion r { w.region r with pool_ := this }).setPool this
        { w.pool this with regions_ := (w.pool this).regions_ ++ [some r] }).setPool pool
        { w.pool pool with regions_ := (w.pool pool).regions_.set i none }).region
        y).references_ = (w.region y).references_ := by
      rw [hreg]; split
      · next e => rw [e]
      · rfl
    rw [hc, hrefs]
    simpa using h1
  · constructor
    · intro y hy
      simp only [Heap.regions_setPool, Heap.regions_setRegion, List.length_set] at hy
      simp only [Heap.pools_setPool, Heap.pools_setRegion, List.length_set]
      rw [hreg]
      by_cases e : y = r
      · subst e
        simp only [if_true]
        refine ⟨ht, ?_⟩
        rw [hpool, if_neg hne, if_pos rfl]
        simp
      · simp only [e, if_false]
        obtain ⟨a, b⟩ := h.2.1 y hy
        exact ⟨a, by rw [hpool]; exact hkeep _ y e b⟩
    · intro a ha
      simp only [Heap.pools_setPool, Heap.pools_setRegion, List.length_set] at ha
      obtain ⟨fd, rd, fr, en⟩ := h.2.2 a ha
      rw [hpool, hfreeEq]
      have hfne : ∀ y, y ∈ (w.pool a).free_regions_ → y ≠ r := by
        intro y hy e
        exact hl (e ▸ (fr y hy).2.1)
      refine ⟨fd, ?_, ?_, ?_⟩
      · split
        · next e => subst e; exact nodup_filter_set_none _ i rd
        · split
          · next e =>
            subst e
            simp only [List.filter_append, List.filter_cons, List.filter_nil,
              Option.isSome_some, if_true]
            rw [List.nodup_append]
            refine ⟨rd, List.nodup_singleton _, ?_⟩
            intro x hx1 hx2
            simp only [List.mem_singleton] at hx2
            subst hx2
            exact hnotthis (List.mem_filter.mp hx1).1
          · exact rd
      · intro y hy
        obtain ⟨m, z, c⟩ := fr y hy
        rw [hreg, if_neg (hfne y hy)]
        exact ⟨hkeep a y (hfne y hy) m, z, c⟩
      · intro x hx
        cases x with
        | none => rfl
        | some y =>
          rw [RegionPool.entryOk_some, hreg, hpool, hfreeEq]
          simp only [Heap.regions_setPool, Heap.regions_setRegion, List.length_set]
          by_cases e : y = r
          · subst e
            simp only [if_true]
            have hat : a = this := by
              by_contra hat
              by_cases hap : a = pool
              · rw [if_pos hap] at hx
                exact hgone hx
              · rw [if_neg hap, if_neg hat] at hx
                exact hap ((h.2.entry hx).2.1.symm.trans hrp)
            refine ⟨hr, hat.symm, ?_⟩
            constructor
            · intro hm; exact absurd rfl (hfne y hm)
            · intro h0; exact absurd h0 hl
          · simp only [e, if_false]
            exact h.2.entry (hback a y e hx)

theorem InvWith.own_step {w w1 : Heap} {q : List RegionPtr} {this pool i : Nat}
    (h : InvWith w q) (hne : this ≠ pool) (ht : this < w.pools.length)
    (hp : pool < w.pools.length) (e : ScalaRegionPool.own_step this pool w i = some w1) :
    InvWith w1 q ∧ w1.pools.length = w.pools.length := by
  unfold ScalaRegionPool.own_step at e
  split at e
  · cases e
  · next r hi =>
    split at e
    · next hl =>
      simp only [Option.some.injEq] at e
      subst e
      refine ⟨?_, by simp⟩
      have hmv := h.move_region hne ht hp hi hl
      have e1 : (w.setRegion r { w.region r with pool_ := this }).pool this = w.pool this := rfl
      have e2 : ((w.setRegion r { w.region r with pool_ := this }).setPool this
          { w.pool this with regions_ := (w.pool this).regions_ ++ [some r] }).pool pool =
          w.pool pool := by
        rw [Heap.pool_setPool_ne _ _ _ _ (Ne.symm hne)]; rfl
      rw [e1, e2]
      exact hmv
    · simp only [Option.some.injEq] at e
      subst e
      exact ⟨h, rfl⟩

theorem InvWith.own_loop {q : List RegionPtr} {this pool : Nat} (hne : this ≠ pool)
    (is : List Nat) : ∀ {w w1 : Heap}, InvWith w q → this < w.pools.length →
      pool < w.pools.length → ScalaRegionPool.own_loop this pool w is = some w1 →
      InvWith w1 q := by
  induction is with
  | nil =>
    intro w w1 h _ _ e
    simp only [ScalaRegionPool.own_loop, Option.some.injEq] at e
    subst e; exact h
  | cons i is ih =>
    intro w w1 h ht hp e
    simp only [ScalaRegionPool.own_loop] at e
    split at e
    · cases e
    · next w2 e2 =>
      obtain ⟨h2, hlen⟩ := h.own_step hne ht hp e2
      exact ih h2 (by omega) (by omega) e

theorem InvWith.own {w w1 : Heap} {q : List RegionPtr} {this pool : Nat} (h : InvWith w q)
    (ht : this < w.pools.length) (hp : pool < w.pools.length)
    (e : ScalaRegionPool.own w this pool = some w1) : InvWith w1 q := by
  unfold ScalaRegionPool.own at e
  split at e
  · cases e
  · next hne => exact InvWith.own_loop hne _ h ht hp e

/-! ## Every native call keeps the invariant -/

theorem Inv.iff_invWith (w : Heap) : Inv w ↔ InvWith w [] := Iff.rfl

theorem InvWith.deref_live {w : Heap} {q : List RegionPtr} {s r : Nat}
    (h : InvWith w q) (e : ScalaRegion.deref w s = some r) :
    r < w.regions.length ∧ (w.region r).references_ ≠ 0 :=
  h.1.live_of_deref e

theorem InvWith.slot_mem {w : Heap} {q : List RegionPtr} {s : Nat} {p : RegionPtr}
    (e : w.slots.get? s = some p) : p ≠ none → p ∈ w.handles ++ q :=
  fun _ => List.mem_append_left _ (Heap.mem_handles_of_slot e)

theorem InvWith.nativeRefreshRegion {w w1 : Heap} {s fuel : Nat} (h : InvWith w [])
    (e : Region_nativeRefreshRegion fuel w s = some w1) : InvWith w1 [] := by
  unfold Region_nativeRefreshRegion at e
  split at e
  · cases e
  · next r hd =>
    obtain ⟨hr, _⟩ := h.deref_live hd
    have h1 := h.get_region (h.2.poolValid r hr)
    simp only [Region.get_region] at e
    split at e
    · cases e
    · next w2 e2 =>
      simp only [Option.map_eq_some'] at e
      obtain ⟨⟨w3, h3⟩, e3, e4⟩ := e
      simp only at e4
      subst e4
      have h2 := h1.assign_slot (fun _ => by simp) e2
      exact h2.clear e3

theorem InvWith.nativeGetParentReferenceInto {w w1 : Heap} {s s2 i fuel : Nat}
    (h : InvWith w [])
    (e : Region_nativeGetParentReferenceInto fuel w s s2 i = some w1) : InvWith w1 [] := by
  unfold Region_nativeGetParentReferenceInto at e
  split at e
  · cases e
  · next r hd =>
    obtain ⟨hr, _⟩ := h.deref_live hd
    split at e
    · cases e
    · next wa tmp ea =>
      have ha := h.get_parent_reference hr ea
      split at e
      · cases e
      · next wb eb =>
        have hb := ha.assign_slot (fun _ => by simp) eb
        split at e
        · cases e
        · next wc hc ec =>
          have hcI := hb.clear ec
          split at e
          · split at e
            · cases e
            · next r1 hd1 =>
              obtain ⟨hr1, hl1⟩ := hcI.deref_live hd1
              split at e
              · cases e
              · next wd tmp2 ed =>
                have hdI := hcI.new_parent_reference hr1 hl1 ed
                split at e
                · cases e
                · next we ee =>
                  simp only [Option.map_eq_some'] at e
                  obtain ⟨⟨wf, hf⟩, e3, e4⟩ := e
                  simp only at e4
                  subst e4
                  have heI := hdI.assign_slot (fun _ => by simp) ee
                  exact heI.clear e3
          · simp only [Option.some.injEq] at e
            subst e
            exact hcI

/-- Every native call keeps the invariant. -/
theorem Inv.step {w w1 : Heap} {fuel : Nat} {op : Op} (h : Inv w)
    (e : step fuel w op = some w1) : Inv w1 := by
  have h0 : InvWith w [] := h
  show InvWith w1 []
  cases op with
  | poolCtor =>
    simp only [hail.step, Option.some.injEq] at e
    subst e; exact h0.nativeCtor
  | regionCtor p =>
    simp only [hail.step, Region_nativeCtor] at e
    split at e
    · next hp =>
      simp only [Option.some.injEq] at e
      subst e
      exact (h0.get_region hp).pushSlot
    · cases e
  | initEmpty =>
    simp only [hail.step, Option.some.injEq] at e
    subst e
    exact (show InvWith w [none] from ⟨h0.1.cons_null, h0.2⟩).pushSlot
  | clearButKeepMem s =>
    simp only [hail.step, Region_clearButKeepMem] at e
    split at e
    · cases e
    · next r hd => exact h0.region_clear (h0.deref_live hd).2 e
  | align s a =>
    simp only [hail.step, Region_nativeAlign] at e
    split at e
    · split at e
      · cases e
      · next r hd =>
        simp only [Option.some.injEq] at e
        subst e
        exact h0.align a (h0.deref_live hd).1 (h0.deref_live hd).2
    · cases e
  | alignAllocate s a n =>
    simp only [hail.step, Region_nativeAlignAllocate] at e
    split at e
    · split at e
      · simp at e
      · next r hd =>
        simp only [Option.map_some', Option.some.injEq] at e
        subst e
        exact h0.allocate a n (h0.deref_live hd).1 (h0.deref_live hd).2
    · cases e
  | allocate s n =>
    simp only [hail.step, Region_nativeAllocate] at e
    split at e
    · simp at e
    · next r hd =>
      simp only [Option.map_some', Option.some.injEq] at e
      subst e
      exact h0.allocate 1 n (h0.deref_live hd).1 (h0.deref_live hd).2
  | reference s s2 =>
    simp only [hail.step, Region_nativeReference] at e
    split at e
    · next r h2 hd hs2 =>
      simp only [Option.some.injEq] at e
      subst e
      obtain ⟨hr, hl⟩ := h0.deref_live hd
      have h1 := h0.copy (InvWith.slot_mem hs2)
      have := @InvWith.add_reference_to (RegionPtr.copy w h2).1 [] r h2 h1
        (by rw [RegionPtr.copy_regions_length]; exact hr) (RegionPtr.copy_live w h2 r hl)
      rw [RegionPtr.copy_snd]
      exact this
    · cases e
  | refreshRegion s => exact h0.nativeRefreshRegion e
  | clearRegion s =>
    simp only [hail.step, Region_nativeClearRegion] at e
    exact h0.assign_slot (fun hn => absurd rfl hn) e
  | setNumParents s n =>
    simp only [hail.step, Region_nativeSetNumParents] at e
    split at e
    · cases e
    · next r hd =>
      exact h0.set_num_parents (h0.deref_live hd).1 (h0.deref_live hd).2 e
  | setParentReference s s2 i =>
    simp only [hail.step, Region_nativeSetParentReference] at e
    split at e
    · next r h2 hd hs2 =>
      obtain ⟨hr, hl⟩ := h0.deref_live hd
      have h1 := h0.copy (InvWith.slot_mem hs2)
      rw [RegionPtr.copy_snd] at e
      exact h1.set_parent_reference
        (by rw [RegionPtr.copy_regions_length]; exact hr) (RegionPtr.copy_live w h2 r hl) e
    · cases e
  | getParentReferenceInto s s2 i => exact h0.nativeGetParentReferenceInto e
  | clearParentReference s i =>
    simp only [hail.step, Region_nativeClearParentReference] at e
    split at e
    · cases e
    · next r hd =>
      exact h0.clear_parent_reference (h0.deref_live hd).1 (h0.deref_live hd).2 e
  | own this pool =>
    simp only [hail.step] at e
    split at e
    · next hb => exact h0.own hb.1 hb.2 e
    · cases e

theorem Inv.empty : Inv Heap.empty := by decide

/-- Every memory a host can bring about satisfies the invariant. -/
theorem Reachable.inv {w : Heap} (h : Reachable w) : Inv w := by
  induction h with
  | init => exact Inv.empty
  | step fuel op _ e ih => exact ih.step e

theorem Inv.after_run {fuel : Nat} (ops : List Op) : ∀ {w w1 : Heap}, Inv w →
    run fuel w ops = some w1 → Inv w1 := by
  induction ops with
  | nil => intro w w1 h e; simp only [hail.run, Option.some.injEq] at e; subst e; exact h
  | cons op ops ih =>
    intro w w1 h e
    simp only [hail.run] at e
    split at e
    · cases e
    · next w2 e2 => exact ih (h.step e2) e

theorem Reachable.by_run {fuel : Nat} (ops : List Op) : ∀ {w w1 : Heap}, Reachable w →
    run fuel w ops = some w1 → Reachable w1 := by
  induction ops with
  | nil => intro w w1 h e; simp only [hail.run, Option.some.injEq] at e; subst e; exact h
  | cons op ops ih =>
    intro w w1 h e
    simp only [hail.run] at e
    split at e
    · cases e
    · next w2 e2 => exact ih (Reachable.step fuel op h e2) e

/-! ## Releasing one handle: the result, for any sufficient fuel -/

/-- Releasing a handle that exists returns, whatever fuel above the number of
parent slots is given, and the result is the one described by `Post`. -/
theorem RegionPtr.clear_spec {w : Heap} {q : List RegionPtr} {p : RegionPtr}
    (h : InvWith w (p :: q)) :
    ∃ w1, (∀ fuel, w.parentSlots < fuel → RegionPtr.clear fuel w p = some (w1, none)) ∧
      Cascade w [p] w1 ∧ Post w w1 ∧ InvWith w1 q := by
  obtain ⟨w1, _, hc⟩ := RegionPtr.clear_total (w.parentSlots + 1) w p (Nat.lt_succ_self _)
  refine ⟨w1, ?_, hc, hc.post q h.1 h.2.poolValid, @InvWith.cascade w w1 [p] q h hc⟩
  intro fuel hf
  obtain ⟨w2, e2, hc2⟩ := RegionPtr.clear_total fuel w p hf
  rw [e2, hc.deterministic w2 hc2]

/-- Destroying handles that exist returns, and the result is the one
described by `Post`. -/
theorem RegionPtr.clearAll_spec {w : Heap} {q ps : List RegionPtr}
    (h : InvWith w (ps ++ q)) :
    ∃ w1, (∀ fuel, w.parentSlots < fuel → RegionPtr.clearAll fuel w ps = some w1) ∧
      Cascade w ps w1 ∧ Post w w1 ∧ InvWith w1 q := by
  obtain ⟨w1, e1, _⟩ := RegionPtr.clearAll_total (w.parentSlots + 1) ps w (Nat.lt_succ_self _)
  have hc := RegionPtr.clearAll_cascade _ _ _ _ e1
  refine ⟨w1, ?_, hc, hc.post q h.1 h.2.poolValid, h.cascade hc⟩
  intro fuel hf
  obtain ⟨w2, e2, _⟩ := RegionPtr.clearAll_total fuel ps w hf
  rw [e2, hc.deterministic w2 (RegionPtr.clearAll_cascade _ _ _ _ e2)]

@[simp] theorem Region.parentSlots_clear_fields_le (w : Heap) (r : Nat) :
    (Region.clear_fields w r).parentSlots ≤ w.parentSlots := by
  have := Region.parentSlots_clear_fields w r
  omega

/-- `Region::clear` on a live region returns, and the result is the one
described by `Post` after the assignments of its body. -/
theorem Region.clear_in_place_spec {w : Heap} {q : List RegionPtr} {r : Nat} (h : InvWith w q)
    (hl : (w.region r).references_ ≠ 0) :
    ∃ w1, (∀ fuel, w.parentSlots < fuel → Region.clear fuel w r = some w1) ∧
      Cascade (Region.clear_fields w r) (w.region r).parents_ w1 ∧
      Post (Region.clear_fields w r) w1 ∧ InvWith w1 q := by
  obtain ⟨w1, e1, hc, hp, hi⟩ := RegionPtr.clearAll_spec (h.clear_fields_inv hl)
  refine ⟨w1, ?_, hc, hp, hi⟩
  intro fuel hf
  exact e1 fuel (lt_of_le_of_lt (Region.parentSlots_clear_fields_le w r) hf)

theorem decrement_eq_zero (c : Nat) : decrement c = 0 ↔ c = 1 := by
  unfold decrement
  split
  · next h => subst h; simp
  · omega

/-- The release of the last handle to `R`, taken apart: the body of
`Region::clear` runs on `R` with count zero, and then `R` is pushed on the
free list of its pool. -/
theorem RegionPtr.clear_last {w w1 : Heap} {q : List RegionPtr} {R : Nat}
    (h : InvWith w (some R :: q)) (hc : (w.region R).references_ = 1)
    (hcas : Cascade w [some R] w1) :
    ∃ w2, Cascade (Region.clear_fields (w.decRef R) R) (w.region R).parents_ w2 ∧
      Post (Region.clear_fields (w.decRef R) R) w2 ∧
      (∀ fuel, w.parentSlots < fuel → Region.clear fuel (w.decRef R) R = some w2) ∧
      w1 = w2.pushFreeRegion (w.region R).pool_ R ∧
      w2.region R = (w.region R).cleared ∧
      (w.region R).pool_ < w2.pools.length := by
  obtain ⟨hr, hl⟩ := h.1.pending
  have hz : ((w.decRef R).region R).references_ = 0 := by
    rw [Heap.decRef_region_same _ _ hr]
    exact (decrement_eq_zero _).mpr hc
  obtain ⟨w2, hc2, e2⟩ := hcas.single_recycle hz
  rw [Heap.decRef_region_parents] at hc2
  have hacc : Accurate (Region.clear_fields (w.decRef R) R) ((w.region R).parents_ ++ q) := by
    have := Accurate.clear_fields_acc R (Accurate.decRef_acc h.1)
    rwa [Heap.decRef_region_parents] at this
  have hpv : PoolValid (Region.clear_fields (w.decRef R) R) :=
    (h.2.poolValid.decRef_valid R).clear_fields_valid R
  have hpost := hc2.post q hacc hpv
  have hcr := Region.clear_fields_decRef_region w R hr hz
  have hcz : ((Region.clear_fields (w.decRef R) R).region R).references_ = 0 := by
    rw [hcr]; rfl
  have h2r : w2.region R = (w.region R).cleared := by
    rw [(hpost.2.2.2.2.1 R).of_zero hcz, hcr]
  have hP : (w2.region R).pool_ = (w.region R).pool_ := by rw [h2r]; rfl
  refine ⟨w2, hc2, hpost, ?_, by rw [e2, hP], h2r, ?_⟩
  · intro fuel hf
    obtain ⟨w3, e3, hc3⟩ := Region.clear_returns fuel (w.decRef R) R (by simpa using hf)
    rw [Heap.decRef_region_parents] at hc3
    rw [e3, hc2.deterministic w3 hc3]
  · rw [hpost.2.2.2.1]
    simpa using h.2.poolValid R hr

/-! ## C1: the last-release protocol -/

/-- C1. Releasing a null handle changes nothing.  Releasing a handle to `R`
that exists (so that the count `c` of `R` is at least 1) returns for any fuel
above the number of parent slots, nulls the handle and leaves `R` with count
`c - 1`.  When `c = 1` the memory is the one `Region::clear` produces on `R`
followed by the push of `R` on the free list of its pool: `R` is in the
cleared state and is the last element of that free list.  When `c > 1`
nothing but the count of `R` changes: its other fields, every other region,
every pool and every slot are as before. -/
theorem RegionPtr.clear_release_protocol (w : Heap) (q : List RegionPtr) (R : Nat)
    (h : InvWith w (some R :: q)) (hc : 1 ≤ (w.region R).references_) :
    (∀ fuel, RegionPtr.clear fuel w none = some (w, none)) ∧
    ∃ w1, (∀ fuel, w.parentSlots < fuel → RegionPtr.clear fuel w (some R) = some (w1, none)) ∧
      (w1.region R).references_ = (w.region R).references_ - 1 ∧
      ((w.region R).references_ = 1 →
        (∃ w2, (∀ fuel, w.parentSlots < fuel →
            Region.clear fuel (w.decRef R) R = some w2) ∧
          w1 = w2.pushFreeRegion (w.region R).pool_ R) ∧
        w1.region R = (w.region R).cleared ∧
        (w1.pool (w.region R).pool_).free_regions_.getLast? = some R ∧
        ∃ l, (w1.pool (w.region R).pool_).free_regions_ =
          (w.pool (w.region R).pool_).free_regions_ ++ l ++ [R]) ∧
      (1 < (w.region R).references_ →
        w1.region R = { w.region R with references_ := (w.region R).references_ - 1 } ∧
        (∀ x, x ≠ R → w1.region x = w.region x) ∧
        w1.pools = w.pools ∧ w1.slots = w.slots ∧ w1.next_buffer = w.next_buffer) := by
  have _ := hc
  refine ⟨fun fuel => RegionPtr.clear_null fuel w, ?_⟩
  obtain ⟨w1, e1, hcas, hpost, _⟩ := RegionPtr.clear_spec h
  obtain ⟨hr, hl⟩ := h.1.pending
  refine ⟨w1, e1, ?_, ?_, ?_⟩
  · by_cases h1 : (w.region R).references_ = 1
    · obtain ⟨w2, _, _, _, e2, h2r, _⟩ := RegionPtr.clear_last h h1 hcas
      rw [e2, Heap.pushFreeRegion_region, h2r, h1]
      rfl
    · have hz : ((w.decRef R).region R).references_ ≠ 0 := by
        rw [Heap.decRef_region_same _ _ hr]
        exact fun e => h1 ((decrement_eq_zero _).mp e)
      rw [hcas.single_keep hz, Heap.decRef_references _ _ _ hr hl]
      simp
  · intro h1
    obtain ⟨w2, _, hp2, ec, e2, h2r, hpl⟩ := RegionPtr.clear_last h h1 hcas
    refine ⟨⟨w2, ec, e2⟩, by rw [e2, Heap.pushFreeRegion_region, h2r], ?_⟩
    obtain ⟨_, l, bl, f, _, _, _, _⟩ := hp2.2.2.2.2.2 (w.region R).pool_
    have hfree : ((Region.clear_fields (w.decRef R) R).pool (w.region R).pool_).free_regions_
        = (w.pool (w.region R).pool_).free_regions_ :=
      (Region.clear_fields_pool_lists (w.decRef R) R _).2
    have hfin : (w1.pool (w.region R).pool_).free_regions_ =
        (w.pool (w.region R).pool_).free_regions_ ++ l ++ [R] := by
      rw [e2, Heap.pushFreeRegion_pool_same _ _ _ hpl, f, hfree]
    exact ⟨by rw [hfin]; simp, l, hfin⟩
  · intro h1
    have hz : ((w.decRef R).region R).references_ ≠ 0 := by
      rw [Heap.decRef_region_same _ _ hr]
      intro e
      have := (decrement_eq_zero _).mp e
      omega
    rw [hcas.single_keep hz]
    refine ⟨?_, fun x hx => Heap.decRef_region_ne w R x hx, rfl, rfl, rfl⟩
    rw [Heap.decRef_region_same _ _ hr, decrement_pos hl]

/-- C1 at a concrete memory: the last handle to a region with one used block. -/
theorem RegionPtr.clear_release_protocol_witness :
    InvWith demoLastHandle [some 0] ∧ 1 ≤ (demoLastHandle.region 0).references_ ∧
    ∃ w1, (∀ fuel, demoLastHandle.parentSlots < fuel →
        RegionPtr.clear fuel demoLastHandle (some 0) = some (w1, none)) ∧
      (w1.region 0).references_ = (demoLastHandle.region 0).references_ - 1 :=
  ⟨by decide, by decide,
    let ⟨w1, e1, e2, _⟩ :=
      (RegionPtr.clear_release_protocol demoLastHandle [] 0 (by decide) (by decide)).2
    ⟨w1, e1, e2⟩⟩

/-! ## C2: the recycling round trip -/

theorem RegionPool.get_region_pop (w : Heap) (p r : Nat)
    (hl : (w.pool p).free_regions_.getLast? = some r) :
    RegionPool.get_region w p =
      RegionPtr.ofRaw
        (w.setPool p { w.pool p with free_regions_ := (w.pool p).free_regions_.dropLast })
        r := by
  simp only [RegionPool.get_region, hl]

theorem RegionPool.get_region_new (w : Heap) (p : Nat)
    (hl : (w.pool p).free_regions_ = []) :
    RegionPool.get_region w p = RegionPool.new_region w p := by
  simp only [RegionPool.get_region, hl, List.getLast?_nil]

theorem Heap.parentSlots_setSlot (w : Heap) (s : Nat) (h : RegionPtr) :
    (w.setSlot s h).parentSlots = w.parentSlots := rfl

/-- Dropping the handle in slot `s`, taken apart: the slot is nulled and its
old handle released. -/
theorem Region_nativeClearRegion_eq (fuel : Nat) (w : Heap) (s : Nat) (old : RegionPtr)
    (hs : w.slots.get? s = some old) :
    Region_nativeClearRegion fuel w s =
      (RegionPtr.clear fuel (w.setSlot s none) old).map Prod.fst := by
  simp only [Region_nativeClearRegion, ScalaRegion.assign, hs, RegionPtr.copy]

theorem InvWith.drop_slot {w : Heap} {s : Nat} {old : RegionPtr} (h : Inv w)
    (hs : w.slots.get? s = some old) : InvWith (w.setSlot s none) [old] :=
  InvWith.setSlot (show InvWith w [none] from ⟨h.1.cons_null, h.2⟩) hs

/-- C2. In a memory satisfying the invariant of reachable memories, let the
slot `s` hold the only handle to region `R` (count 1), whatever blocks, chunks
and parent handles `R` holds.  Dropping that handle returns, and
`get_region()` on the pool of `R` then returns a handle to `R` itself, with
count 1, `block_offset` 0 and empty `used_blocks`, `big_chunks` and
`parents`, on the storage it had (same pool, same current block). -/
theorem recycling_round_trip (w : Heap) (s R : Nat) (hinv : Inv w)
    (hs : w.slots.get? s = some (some R)) (hone : (w.region R).references_ = 1) :
    ∃ w1, (∀ fuel, w.parentSlots < fuel → Region_nativeClearRegion fuel w s = some w1) ∧
      (RegionPool.get_region w1 (w.region R).pool_).2 = some R ∧
      (RegionPool.get_region w1 (w.region R).pool_).1.region R =
        { pool_ := (w.region R).pool_, references_ := 1, block_offset_ := 0,
          current_block_ := (w.region R).current_block_, big_chunks_ := [],
          used_blocks_ := [], parents_ := [] } := by
  have h1 := InvWith.drop_slot hinv hs
  obtain ⟨w1, e1, hcas, hpost, _⟩ := RegionPtr.clear_spec h1
  have hone1 : ((w.setSlot s none).region R).references_ = 1 := hone
  obtain ⟨w2, _, _, _, e2, h2r, hpl⟩ := RegionPtr.clear_last h1 hone1 hcas
  have hreg : (w.setSlot s none).region R = w.region R := rfl
  rw [hreg] at e2 h2r hpl
  obtain ⟨hr, _⟩ := h1.1.pending
  have hr1 : R < w1.regions.length := by
    rw [hpost.2.2.1]; exact hr
  have hlast : (w1.pool (w.region R).pool_).free_regions_.getLast? = some R := by
    rw [e2, Heap.pushFreeRegion_pool_same _ _ _ hpl]
    simp
  have h1r : w1.region R = (w.region R).cleared := by
    rw [e2, Heap.pushFreeRegion_region, h2r]
  refine ⟨w1, ?_, ?_, ?_⟩
  · intro fuel hf
    rw [Region_nativeClearRegion_eq fuel w s _ hs, e1 fuel hf]
    rfl
  · rw [RegionPool.get_region_pop _ _ _ hlast]; rfl
  · rw [RegionPool.get_region_pop _ _ _ hlast]
    simp only [RegionPtr.ofRaw, Heap.region_setPool]
    rw [Heap.region_setRegion_same _ _ _ (by simpa using hr1), h1r]
    rfl

/-- C2 at a concrete memory: region 0 with a used block, a chunk and a parent. -/
theorem recycling_round_trip_witness :
    Inv demoParent ∧ demoParent.slots.get? 0 = some (some 0) ∧
    (demoParent.region 0).references_ = 1 ∧
    ∃ w1, (∀ fuel, demoParent.parentSlots < fuel →
        Region_nativeClearRegion fuel demoParent 0 = some w1) ∧
      (RegionPool.get_region w1 (demoParent.region 0).pool_).2 = some 0 ∧
      (RegionPool.get_region w1 (demoParent.region 0).pool_).1.region 0 =
        { pool_ := (demoParent.region 0).pool_, references_ := 1, block_offset_ := 0,
          current_block_ := (demoParent.region 0).current_block_, big_chunks_ := [],
          used_blocks_ := [], parents_ := [] } :=
  ⟨by decide, by decide, by decide,
    recycling_round_trip demoParent 0 0 (by decide) (by decide) (by decide)⟩

/-! ## C3: the reuse policy of `get_region` -/

/-- C3. On a pool `p` of a memory satisfying the invariant: when
`free_regions_` is non-empty with last element `r`, `get_region` returns a
handle to `r`, removes exactly that last element, leaves `regions_` (and so
`num_regions`) alone and takes the count of `r` from 0 to 1; when
`free_regions_` is empty it appends one region, constructed at a fresh
address, to `regions_` (`num_regions` grows by 1, `num_free_regions` stays 0)
and returns a handle to it, with count 1. -/
theorem get_region_reuse_policy (w : Heap) (p : Nat) (hinv : Inv w)
    (hp : p < w.pools.length) :
    (∀ r, (w.pool p).free_regions_.getLast? = some r →
      (RegionPool.get_region w p).2 = some r ∧
      ((RegionPool.get_region w p).1.pool p).free_regions_ =
        (w.pool p).free_regions_.dropLast ∧
      (w.pool p).free_regions_ =
        ((RegionPool.get_region w p).1.pool p).free_regions_ ++ [r] ∧
      ((RegionPool.get_region w p).1.pool p).regions_ = (w.pool p).regions_ ∧
      RegionPool.num_regions (RegionPool.get_region w p).1 p = RegionPool.num_regions w p ∧
      (w.region r).references_ = 0 ∧
      ((RegionPool.get_region w p).1.region r).references_ = 1) ∧
    ((w.pool p).free_regions_ = [] →
      (RegionPool.get_region w p).2 = some w.regions.length ∧
      (RegionPool.get_region w p).1.regions.length = w.regions.length + 1 ∧
      ((RegionPool.get_region w p).1.pool p).regions_ =
        (w.pool p).regions_ ++ [some w.regions.length] ∧
      RegionPool.num_regions (RegionPool.get_region w p).1 p =
        RegionPool.num_regions w p + 1 ∧
      RegionPool.num_free_regions (RegionPool.get_region w p).1 p = 0 ∧
      (RegionPool.get_region w p).1.region w.regions.length =
        { pool_ := p, references_ := 1, block_offset_ := 0,
          current_block_ := (RegionPool.get_block w p).2, big_chunks_ := [],
          used_blocks_ := [], parents_ := [] }) := by
  constructor
  · intro r hl
    have hfree : (w.pool p).free_regions_.dropLast ++ [r] = (w.pool p).free_regions_ :=
      List.dropLast_append_getLast? r hl
    have hmem : r ∈ (w.pool p).free_regions_ := by rw [← hfree]; simp
    obtain ⟨hreg, hz, _⟩ := hinv.2.free hmem
    obtain ⟨hr, _, _⟩ := hinv.2.entry hreg
    rw [RegionPool.get_region_pop _ _ _ hl]
    have hpool : (RegionPtr.ofRaw
        (w.setPool p { w.pool p with free_regions_ := (w.pool p).free_regions_.dropLast })
        r).1.pool p =
        { w.pool p with free_regions_ := (w.pool p).free_regions_.dropLast } := by
      simp only [RegionPtr.ofRaw, Heap.pool_setRegion]
      exact Heap.pool_setPool_same _ _ _ hp
    refine ⟨rfl, by rw [hpool], by rw [hpool]; exact hfree.symm, by rw [hpool], ?_, hz, ?_⟩
    · simp only [RegionPool.num_regions, hpool]
    · simp only [RegionPtr.ofRaw, Heap.region_setPool]
      rw [Heap.region_setRegion_same _ _ _ (by simpa using hr)]
      simp only [Heap.region_setPool, hz]
  · intro hl
    rw [RegionPool.get_region_new _ _ hl, RegionPool.new_region_eq]
    have hpool : ((({ (RegionPool.get_block w p).1 with
          regions := w.regions ++
            [{ pool_ := p, references_ := 1, block_offset_ := 0,
               current_block_ := (RegionPool.get_block w p).2,
               big_chunks_ := [], used_blocks_ := [], parents_ := [] }] } : Heap).setPool p
        { (RegionPool.get_block w p).1.pool p with
          regions_ := ((RegionPool.get_block w p).1.pool p).regions_ ++
            [some w.regions.length] }).pool p) =
        { (RegionPool.get_block w p).1.pool p with
          regions_ := ((RegionPool.get_block w p).1.pool p).regions_ ++
            [some w.regions.length] } :=
      Heap.pool_setPool_same _ _ _ (by
        show p < (RegionPool.get_block w p).1.pools.length
        rw [RegionPool.get_block_pools_length]; exact hp)
    refine ⟨rfl, by simp, ?_, ?_, ?_, ?_⟩
    · rw [hpool]
      simp only [(RegionPool.get_block_pool w p p).1]
    · unfold RegionPool.num_regions
      rw [hpool]
      simp only [(RegionPool.get_block_pool w p p).1, List.length_append,
        List.length_singleton]
    · unfold RegionPool.num_free_regions
      rw [hpool]
      simp only [(RegionPool.get_block_pool w p p).2, hl, List.length_nil]
    · simp only [Heap.region_setPool]
      have := Heap.region_push (RegionPool.get_block w p).1
        { pool_ := p, references_ := 1, block_offset_ := 0,
          current_block_ := (RegionPool.get_block w p).2,
          big_chunks_ := [], used_blocks_ := [], parents_ := [] } w.regions.length
      rw [RegionPool.get_block_regions] at this
      rw [this, if_pos rfl]

/-- C3 at a concrete memory with two free regions. -/
theorem get_region_reuse_policy_witness :
    Inv demoFree ∧ 0 < demoFree.pools.length ∧
    (RegionPool.get_region demoFree 0).2 = some 0 ∧
    ((RegionPool.get_region demoFree 0).1.pool 0).free_regions_ = [1] :=
  ⟨by decide, by decide,
    ((get_region_reuse_policy demoFree 0 (by decide) (by decide)).1 0 (by decide)).1,
    ((get_region_reuse_policy demoFree 0 (by decide) (by decide)).1 0 (by decide)).2.1⟩

/-! ## C4: blocks returned by a clear -/

theorem Cascade.all_null {w w1 : Heap} {ps : List RegionPtr} (h : Cascade w ps w1) :
    (∀ p ∈ ps, p = none) → w1 = w := by
  induction h with
  | nil w => intro _; rfl
  | null _ ih => intro hp; exact ih (fun p hm => hp p (List.mem_cons_of_mem _ hm))
  | keep _ _ _ => intro hp; cases hp _ (List.mem_cons_self _ _)
  | recycle _ _ _ _ _ => intro hp; cases hp _ (List.mem_cons_self _ _)

/-- The blocks a pool gets back from a clear of `R`: the used blocks of `R`
and those of the other regions of the pool that the clear recycles. -/
theorem Post.free_blocks_count {w wc w2 : Heap} {R P : Nat} (hpost : Post wc w2)
    (hne : ∀ x, x ≠ R → wc.region x = w.region x)
    (hfb : (wc.pool P).free_blocks_ = (w.pool P).free_blocks_ ++ (w.region R).used_blocks_)
    (hR : (wc.region R).references_ = 0 ∨ (w2.region R).references_ ≠ 0) :
    ∃ l : List Nat, l.Nodup ∧
      (∀ x, x ∈ l ↔ (w.region x).pool_ = P ∧ x ≠ R ∧ (w.region x).references_ ≠ 0 ∧
        (w2.region x).references_ = 0) ∧
      (w2.pool P).free_blocks_.length = (w.pool P).free_blocks_.length +
        (w.region R).used_blocks_.length +
        (l.map (fun x => (w.region x).used_blocks_.length)).sum := by
  obtain ⟨_, l, bl, _, d, i, k, q⟩ := hpost.2.2.2.2.2 P
  have hRl : R ∉ l := by
    intro hm
    obtain ⟨_, a, b⟩ := (i R).mp hm
    rcases hR with hR | hR
    · exact a hR
    · exact hR b
  refine ⟨l, d, ?_, ?_⟩
  · intro x
    rw [i x]
    by_cases e : x = R
    · subst e
      constructor
      · intro hx; exact absurd ((i x).mpr hx) hRl
      · intro hx; exact absurd rfl hx.2.1
    · rw [hne x e]
      simp [e]
  · rw [k, hfb, List.length_append, List.length_append, q.length_eq, List.length_flatten,
      List.map_map]
    congr 1
    apply congrArg
    apply List.map_congr_left
    intro x hx
    have : x ≠ R := fun e => hRl (e ▸ hx)
    simp only [Function.comp_apply, hne x this]

theorem Region_clearButKeepMem_eq (fuel : Nat) (w : Heap) (s R : Nat)
    (hs : w.slots.get? s = some (some R)) :
    Region_clearButKeepMem fuel w s = Region.clear fuel w R := by
  simp only [Region_clearButKeepMem, ScalaRegion.deref, hs]

theorem Region.clear_fields_free_blocks (w : Heap) (R : Nat)
    (hp : (w.region R).pool_ < w.pools.length) :
    ((Region.clear_fields w R).pool (w.region R).pool_).free_blocks_ =
      (w.pool (w.region R).pool_).free_blocks_ ++ (w.region R).used_blocks_ := by
  rw [Region.clear_fields_pool_same _ _ hp]

/-- C4, as amended.  Let slot `s` hold a handle to region `R`, which has `k`
used blocks, in a memory satisfying the invariant.  After `Region::clear` on
`R`, called in place or through the drop of the last handle, `num_free_blocks`
of the pool of `R` has grown by exactly `k` plus the numbers of used blocks of
the other regions of that pool that the clear recycled (the list `l`, each
once); it has grown by exactly `k` when `R` holds no non-null parent handle. -/
theorem block_reuse_law (w : Heap) (s R : Nat) (hinv : Inv w)
    (hs : w.slots.get? s = some (some R)) :
    (∃ w1 l, (∀ fuel, w.parentSlots < fuel → Region_clearButKeepMem fuel w s = some w1) ∧
      List.Nodup l ∧
      (∀ x, x ∈ l ↔ (w.region x).pool_ = (w.region R).pool_ ∧ x ≠ R ∧ w.recycledBy w1 x) ∧
      RegionPool.num_free_blocks w1 (w.region R).pool_ =
        RegionPool.num_free_blocks w (w.region R).pool_ + (w.region R).used_blocks_.length +
          (l.map (fun x => (w.region x).used_blocks_.length)).sum ∧
      ((∀ h ∈ (w.region R).parents_, h = none) →
        RegionPool.num_free_blocks w1 (w.region R).pool_ =
          RegionPool.num_free_blocks w (w.region R).pool_ +
            (w.region R).used_blocks_.length)) ∧
    ((w.region R).references_ = 1 →
      ∃ w1 l, (∀ fuel, w.parentSlots < fuel → Region_nativeClearRegion fuel w s = some w1) ∧
        List.Nodup l ∧
        (∀ x, x ∈ l ↔ (w.region x).pool_ = (w.region R).pool_ ∧ x ≠ R ∧
          w.recycledBy w1 x) ∧
        RegionPool.num_free_blocks w1 (w.region R).pool_ =
          RegionPool.num_free_blocks w (w.region R).pool_ +
            (w.region R).used_blocks_.length +
            (l.map (fun x => (w.region x).used_blocks_.length)).sum ∧
        ((∀ h ∈ (w.region R).parents_, h = none) →
          RegionPool.num_free_blocks w1 (w.region R).pool_ =
            RegionPool.num_free_blocks w (w.region R).pool_ +
              (w.region R).used_blocks_.length)) := by
  have h0 : InvWith w [] := hinv
  obtain ⟨hr, hl⟩ := h0.1.live
    (List.mem_append_left _ (Heap.mem_handles_of_slot hs))
  have hpv := hinv.2.poolValid R hr
  constructor
  · obtain ⟨w1, e1, hcas, hpost, hi1⟩ := Region.clear_in_place_spec h0 hl
    have hlive1 : (w1.region R).references_ ≠ 0 := by
      have hs1 : w1.slots.get? s = some (some R) := by
        rw [hpost.1, Region.clear_fields_slots]; exact hs
      exact (hi1.1.live (List.mem_append_left _ (Heap.mem_handles_of_slot hs1))).2
    obtain ⟨l, d, i, k⟩ := @Post.free_blocks_count w _ w1 R (w.region R).pool_ hpost
      (fun x hx => Region.clear_fields_region_ne w R x hx)
      (Region.clear_fields_free_blocks w R hpv) (Or.inr hlive1)
    refine ⟨w1, l, ?_, d, i, k, ?_⟩
    · intro fuel hf
      rw [Region_clearButKeepMem_eq fuel w s R hs]; exact e1 fuel hf
    · intro hnull
      have := hcas.all_null hnull
      unfold RegionPool.num_free_blocks
      rw [this, Region.clear_fields_free_blocks w R hpv, List.length_append]
  · intro hone
    have h1 := InvWith.drop_slot hinv hs
    obtain ⟨w1, e1, hcas, hpost, _⟩ := RegionPtr.clear_spec h1
    have hone1 : ((w.setSlot s none).region R).references_ = 1 := hone
    obtain ⟨w2, hcas2, hpost2, _, e2, h2r, hpl⟩ := RegionPtr.clear_last h1 hone1 hcas
    have hreg : ∀ x, (w.setSlot s none).region x = w.region x := fun _ => rfl
    rw [hreg] at e2 h2r hpl hcas2
    have hz : (((w.setSlot s none).decRef R).region R).references_ = 0 := by
      rw [Heap.decRef_region_same (w.setSlot s none) R hr]
      exact (decrement_eq_zero _).mpr hone
    have hcz : ((Region.clear_fields ((w.setSlot s none).decRef R) R).region R).references_
        = 0 := by
      rw [Region.clear_fields_decRef_region (w.setSlot s none) R hr hz]; rfl
    have hfb : ((Region.clear_fields ((w.setSlot s none).decRef R) R).pool
        (w.region R).pool_).free_blocks_ =
        (w.pool (w.region R).pool_).free_blocks_ ++ (w.region R).used_blocks_ := by
      have e := Region.clear_fields_free_blocks ((w.setSlot s none).decRef R) R
        (by rw [Heap.decRef_region_pool_]; exact hpv)
      rw [Heap.decRef_region_pool_, Heap.decRef_region_used, Heap.decRef_pool] at e
      exact e
    obtain ⟨l, d, i, k⟩ := @Post.free_blocks_count w _ w2 R (w.region R).pool_ hpost2
      (fun x hx => Region.clear_fields_decRef_region_ne (w.setSlot s none) R x hx)
      hfb (Or.inl hcz)
    have hfb1 : (w1.pool (w.region R).pool_).free_blocks_ =
        (w2.pool (w.region R).pool_).free_blocks_ := by
      rw [e2, Heap.pushFreeRegion_pool_same _ _ _ hpl]
    refine ⟨w1, l, ?_, d, ?_, ?_, ?_⟩
    · intro fuel hf
      rw [Region_nativeClearRegion_eq fuel w s _ hs, e1 fuel hf]
      rfl
    · intro x
      rw [i x, e2]
      rfl
    · unfold RegionPool.num_free_blocks
      rw [hfb1]; exact k
    · intro hnull
      have e3 := hcas2.all_null hnull
      unfold RegionPool.num_free_blocks
      rw [hfb1, e3, hfb, List.length_append]

/-- C4 as stated fails: at the end of `parentScenario` region 0 has no used
block (it never rolled over), yet clearing it in place takes
`num_free_blocks` from 0 to 1, because the clear recycles its parent, region
1, whose used block goes back to the pool. -/
theorem block_reuse_counterexample :
    run 2 Heap.empty parentScenario = some parentScenarioHeap ∧
    (parentScenarioHeap.region 0).used_blocks_.length = 0 ∧
    RegionPool.num_free_blocks parentScenarioHeap 0 = 0 ∧
    (Region_clearButKeepMem 2 parentScenarioHeap 0).map
      (fun w1 => RegionPool.num_free_blocks w1 0) = some 1 := by
  decide

/-- C4 as amended, at a concrete memory. -/
theorem block_reuse_law_witness :
    Inv demoParent ∧ demoParent.slots.get? 0 = some (some 0) ∧
    ∃ w1 l, (∀ fuel, demoParent.parentSlots < fuel →
        Region_clearButKeepMem fuel demoParent 0 = some w1) ∧
      RegionPool.num_free_blocks w1 (demoParent.region 0).pool_ =
        RegionPool.num_free_blocks demoParent (demoParent.region 0).pool_ +
          (demoParent.region 0).used_blocks_.length +
          (List.map (fun x => (demoParent.region x).used_blocks_.length) l).sum :=
  ⟨by decide, by decide,
    let ⟨w1, l, e1, _, _, k, _⟩ :=
      (block_reuse_law demoParent 0 0 (by decide) (by decide)).1
    ⟨w1, l, e1, k⟩⟩

/-! ## Acyclic parent graphs: what a cascade leaves untouched -/

theorem RegionPtr.below_some (rank : Nat → Nat) (k r : Nat) :
    RegionPtr.below rank k (some r) = true ↔ rank r < k := by
  simp [RegionPtr.below]

theorem ParentsDescend.decRef_desc {w : Heap} {rank : Nat → Nat} (r : Nat)
    (h : ParentsDescend w rank) : ParentsDescend (w.decRef r) rank := by
  intro a ha p hp
  rw [Heap.decRef_region_parents] at hp
  exact h a (by simpa using ha) p hp

theorem Region.clear_fields_parents_subset (w : Heap) (r a : Nat) (p : RegionPtr)
    (hp : p ∈ ((Region.clear_fields w r).region a).parents_) : p ∈ (w.region a).parents_ := by
  by_cases e : a = r
  · subst e
    by_cases hr : a < w.regions.length
    · rw [Region.clear_fields_region_same _ _ hr] at hp
      cases hp
    · have h1 := Nat.le_of_not_lt hr
      rw [Heap.region_default _ _ (by simpa using h1)] at hp
      cases hp
  · rwa [Region.clear_fields_region_ne _ _ _ e] at hp

theorem ParentsDescend.clear_fields_desc {w : Heap} {rank : Nat → Nat} (r : Nat)
    (h : ParentsDescend w rank) : ParentsDescend (Region.clear_fields w r) rank := by
  intro a ha p hp
  exact h a (by simpa using ha) p (Region.clear_fields_parents_subset w r a p hp)

theorem ParentsDescend.pushFreeRegion_desc {w : Heap} {rank : Nat → Nat} (p r : Nat)
    (h : ParentsDescend w rank) : ParentsDescend (w.pushFreeRegion p r) rank := by
  intro a ha x hx
  exact h a (by simpa using ha) x (by simpa using hx)

/-- In an acyclic parent graph, destroying handles to regions of rank below
`k` leaves every region of rank `k` or more untouched. -/
theorem Cascade.untouched {w w1 : Heap} {ps : List RegionPtr} (h : Cascade w ps w1) :
    ∀ (rank : Nat → Nat) (k : Nat), ParentsDescend w rank →
      (∀ p ∈ ps, RegionPtr.below rank k p = true) →
      ParentsDescend w1 rank ∧ ∀ x, k ≤ rank x → w1.region x = w.region x := by
  induction h with
  | nil w => intro _ _ hd _; exact ⟨hd, fun _ _ => rfl⟩
  | null _ ih =>
    intro rank k hd hb
    exact ih rank k hd (fun p hp => hb p (List.mem_cons_of_mem _ hp))
  | @keep w w1 ps r _ _ ih =>
    intro rank k hd hb
    have hrk : rank r < k := (RegionPtr.below_some rank k r).mp (hb _ (List.mem_cons_self _ _))
    obtain ⟨a, b⟩ := ih rank k (hd.decRef_desc r)
      (fun p hp => hb p (List.mem_cons_of_mem _ hp))
    refine ⟨a, fun x hx => ?_⟩
    rw [b x hx, Heap.decRef_region_ne]
    intro e; subst e; omega
  | @recycle w w1 w2 ps r _ _ _ ih1 ih2 =>
    intro rank k hd hb
    have hrk : rank r < k := (RegionPtr.below_some rank k r).mp (hb _ (List.mem_cons_self _ _))
    have hpar : ∀ p ∈ ((w.decRef r).region r).parents_,
        RegionPtr.below rank (rank r) p = true := by
      intro p hp
      rw [Heap.decRef_region_parents] at hp
      by_cases hr : r < w.regions.length
      · exact hd r hr p hp
      · rw [Heap.region_default _ _ (Nat.le_of_not_lt hr)] at hp
        cases hp
    obtain ⟨a1, b1⟩ := ih1 rank (rank r) ((hd.decRef_desc r).clear_fields_desc r) hpar
    obtain ⟨a2, b2⟩ := ih2 rank k (a1.pushFreeRegion_desc _ _)
      (fun p hp => hb p (List.mem_cons_of_mem _ hp))
    refine ⟨a2, fun x hx => ?_⟩
    have hne : x ≠ r := by intro e; subst e; omega
    rw [b2 x hx, Heap.pushFreeRegion_region, b1 x (by omega),
      Region.clear_fields_decRef_region_ne w r x hne]

/-! ## C6: the parent cascade -/

theorem map_eq_map_range {α β : Type} (l : List α) (f : α → β) (d : α) :
    l.map f = (List.range l.length).map (fun a => f (l.getD a d)) := by
  apply List.ext_getElem
  · simp
  · intro i h1 h2
    simp only [List.length_map] at h1
    simp [List.getD_eq_getElem?_getD, List.getElem?_eq_getElem h1]

theorem Heap.parentCount_eq_range (w : Heap) (h : RegionPtr) :
    w.parentCount h =
      ((List.range w.regions.length).map (fun a => (w.region a).parents_.count h)).sum := by
  unfold Heap.parentCount
  rw [map_eq_map_range w.regions (fun R => R.parents_.count h) default]
  rfl

/-- After a cascade a region has lost its parent handles exactly when it was
recycled. -/
theorem Post.parents_after {w w1 : Heap} (h : Post w w1) (a : Nat) :
    (w1.region a).parents_ = if w.recycledBy w1 a then [] else (w.region a).parents_ := by
  by_cases hr : w.recycledBy w1 a
  · rw [if_pos hr, (h.2.2.2.2.1 a).of_recycled hr.1 hr.2]
    rfl
  · rw [if_neg hr]
    rcases h.2.2.2.2.1 a with ⟨e, _, _⟩ | ⟨n0, e⟩
    · rw [e]
    · exact absurd ⟨n0, by rw [e]; rfl⟩ hr

/-- The handles a cascade removes from `parents_` vectors are those of the
recycled regions. -/
theorem Post.parentCount_split {w w1 : Heap} (h : Post w w1) (x : Nat) :
    w.parentCount (some x) = w1.parentCount (some x) + w.droppedSlots w1 x := by
  rw [Heap.parentCount_eq_range w, Heap.parentCount_eq_range w1, h.2.2.1,
    Heap.droppedSlots, ← List.sum_map_add]
  apply congrArg
  apply List.map_congr_left
  intro a _
  rw [h.parents_after a]
  split <;> simp

theorem count_set_none_of_ne (l : List RegionPtr) (s x A : Nat)
    (hs : l.get? s = some (some A)) (hx : x ≠ A) :
    (l.set s none).count (some x) = l.count (some x) := by
  have hlt : s < l.length := by
    rw [List.get?_eq_some] at hs; exact hs.1
  have hv : l[s] = some A := by
    rw [List.get?_eq_some] at hs; obtain ⟨_, e⟩ := hs; simpa using e
  rw [List.count_set _ _ _ _ hlt, hv]
  have : ¬ ((some A : RegionPtr) == some x) = true := by
    simpa using Ne.symm hx
  simp [this]

/-- Dropping the handle to `A` held by slot `s`: the call returns and its
result is the cascade from the memory with the slot nulled. -/
theorem drop_slot_spec (w : Heap) (s A : Nat) (hinv : Inv w)
    (hs : w.slots.get? s = some (some A)) :
    ∃ w1, (∀ fuel, w.parentSlots < fuel → Region_nativeClearRegion fuel w s = some w1) ∧
      Cascade (w.setSlot s none) [some A] w1 ∧ Post (w.setSlot s none) w1 ∧ Inv w1 := by
  have h1 := InvWith.drop_slot hinv hs
  obtain ⟨w1, e1, hcas, hpost, hi1⟩ := RegionPtr.clear_spec h1
  refine ⟨w1, ?_, hcas, hpost, hi1⟩
  intro fuel hf
  rw [Region_nativeClearRegion_eq fuel w s _ hs, e1 fuel hf]
  rfl

/-- The count of a region other than `A` after the handle to `A` in slot `s`
was dropped. -/
theorem drop_slot_references (w w1 : Heap) (s A : Nat)
    (hs : w.slots.get? s = some (some A)) (hpost : Post (w.setSlot s none) w1)
    (hi1 : Inv w1) (x : Nat) (hx : x ≠ A) :
    (w1.region x).references_ = w.slots.count (some x) + w1.parentCount (some x) := by
  have hslots : w1.slots = w.slots.set s none := hpost.1
  have := ((accurate_iff w1 []).mp hi1.1 x).1
  simp only [Heap.handleCount, List.count_nil, Nat.add_zero] at this
  rw [this, hslots, count_set_none_of_ne w.slots s x A hs hx]

/-- A live region other than `A` is recycled by the drop of the handle to `A`
exactly when no slot held it and every parent slot holding it belonged to a
recycled region. -/
theorem drop_slot_recycled_iff (w w1 : Heap) (s A : Nat)
    (hs : w.slots.get? s = some (some A)) (hpost : Post (w.setSlot s none) w1)
    (hi1 : Inv w1) (x : Nat) (hx : x ≠ A) (hl : (w.region x).references_ ≠ 0) :
    w.recycledBy w1 x ↔
      (some x ∉ w.slots ∧ ∀ a, a < w.regions.length → ¬ w.recycledBy w1 a →
        some x ∉ (w.region a).parents_) := by
  have hlen : w1.regions.length = w.regions.length := hpost.2.2.1
  have hpar : ∀ a, (w1.region a).parents_ =
      if w.recycledBy w1 a then [] else (w.region a).parents_ := fun a => hpost.parents_after a
  have hiff : w.recycledBy w1 x ↔ (w1.region x).references_ = 0 :=
    ⟨fun h => h.2, fun h => ⟨hl, h⟩⟩
  rw [hiff, drop_slot_references w w1 s A hs hpost hi1 x hx, Nat.add_eq_zero_iff,
    List.count_eq_zero, Heap.parentCount_eq_range, List.sum_eq_zero_iff, hlen]
  apply and_congr_right
  intro _
  constructor
  · intro h a ha hnr hm
    have := h ((w1.region a).parents_.count (some x))
      (List.mem_map.mpr ⟨a, List.mem_range.mpr ha, rfl⟩)
    rw [hpar a, if_neg hnr] at this
    exact List.count_eq_zero.mp this hm
  · intro h y hy
    obtain ⟨a, ha, rfl⟩ := List.mem_map.mp hy
    rw [hpar a]
    split
    · rfl
    · next hnr => exact List.count_eq_zero.mpr (h a (List.mem_range.mp ha) hnr)

/-- The regions recycled by a cascade are those newly on the free list of
their pool. -/
theorem Post.recycled_iff_free {w w0 w1 : Heap} (hpost : Post w0 w1) (hinv : Inv w)
    (hreg : ∀ x, w0.region x = w.region x) (hpool : ∀ p, w0.pool p = w.pool p) (x : Nat) :
    w.recycledBy w1 x ↔
      (x ∈ (w1.pool (w.region x).pool_).free_regions_ ∧
        x ∉ (w.pool (w.region x).pool_).free_regions_) := by
  obtain ⟨_, l, bl, f, _, i, _, _⟩ := hpost.2.2.2.2.2 (w.region x).pool_
  rw [hpool] at f
  have i1 := i x
  rw [hreg] at i1
  constructor
  · intro hx
    refine ⟨by rw [f]; exact List.mem_append_right _ (i1.mpr ⟨rfl, hx.1, hx.2⟩), ?_⟩
    intro hm
    exact hx.1 (hinv.2.free hm).2.1
  · rintro ⟨hm, hn⟩
    rw [f, List.mem_append] at hm
    rcases hm with hm | hm
    · exact absurd hm hn
    · exact (i1.mp hm).2

/-- The last handle to `A`, held by slot `s`, is dropped: `A` is recycled. -/
theorem drop_slot_recycles (w w1 : Heap) (s A : Nat) (hinv : Inv w)
    (hs : w.slots.get? s = some (some A)) (hone : (w.region A).references_ = 1)
    (hcas : Cascade (w.setSlot s none) [some A] w1) : w.recycledBy w1 A := by
  have h1 := InvWith.drop_slot hinv hs
  have hone1 : ((w.setSlot s none).region A).references_ = 1 := hone
  obtain ⟨w2, _, _, _, e2, h2r, _⟩ := RegionPtr.clear_last h1 hone1 hcas
  refine ⟨by rw [hone]; exact Nat.one_ne_zero, ?_⟩
  rw [e2, Heap.pushFreeRegion_region, h2r]
  rfl

/-- C6. Let slot `s` hold the last handle to region `A` (count 1) in a memory
satisfying the invariant.  Dropping it returns, and, calling a region recycled
when its count was non-zero before and is zero afterwards: `A` is recycled;
the recycled regions are exactly the regions newly on the free list of their
pool; every region other than `A` has its count reduced by the number of
parent slots of recycled regions that held a handle to it, and keeps every
other field unless it is recycled; and a live region other than `A` is
recycled exactly when no slot held a handle to it and every parent slot that
did belonged to a recycled region.  A region that is not recycled keeps a
non-zero count or was already free and is unchanged. -/
theorem parent_cascade (w : Heap) (s A : Nat) (hinv : Inv w)
    (hs : w.slots.get? s = some (some A)) (hone : (w.region A).references_ = 1) :
    ∃ w1, (∀ fuel, w.parentSlots < fuel → Region_nativeClearRegion fuel w s = some w1) ∧
      w.recycledBy w1 A ∧
      (∀ x, w.recycledBy w1 x ↔
        (x ∈ (w1.pool (w.region x).pool_).free_regions_ ∧
          x ∉ (w.pool (w.region x).pool_).free_regions_)) ∧
      (∀ x, x ≠ A →
        (w1.region x).references_ + w.droppedSlots w1 x = (w.region x).references_) ∧
      (∀ x, x ≠ A → (w.region x).references_ ≠ 0 →
        (w.recycledBy w1 x ↔
          (some x ∉ w.slots ∧ ∀ a, a < w.regions.length → ¬ w.recycledBy w1 a →
            some x ∉ (w.region a).parents_))) ∧
      (∀ x, ¬ w.recycledBy w1 x →
        w1.region x = { w.region x with references_ := (w1.region x).references_ } ∧
        ((w1.region x).references_ ≠ 0 ∨
          ((w.region x).references_ = 0 ∧ w1.region x = w.region x))) := by
  obtain ⟨w1, e1, hcas, hpost, hi1⟩ := drop_slot_spec w s A hinv hs
  have hrp : ∀ x, RegionPost (w.region x) (w1.region x) := hpost.2.2.2.2.1
  have hacc := (accurate_iff w []).mp hinv.1
  have hsplit : ∀ x, w.parentCount (some x) =
      w1.parentCount (some x) + w.droppedSlots w1 x := fun x => hpost.parentCount_split x
  refine ⟨w1, e1, drop_slot_recycles w w1 s A hinv hs hone hcas,
    fun x => hpost.recycled_iff_free hinv (fun _ => rfl) (fun _ => rfl) x, ?_,
    fun x hx hl => drop_slot_recycled_iff w w1 s A hs hpost hi1 x hx hl, ?_⟩
  · intro x hx
    have h2 := (hacc x).1
    simp only [Heap.handleCount, List.count_nil, Nat.add_zero] at h2
    rw [drop_slot_references w w1 s A hs hpost hi1 x hx, h2, hsplit x]
    omega
  · intro x hx
    rcases hrp x with ⟨e, _, z⟩ | ⟨n0, e⟩
    · refine ⟨e, ?_⟩
      rcases z with z | z
      · exact Or.inr ⟨z, (hrp x).of_zero z⟩
      · exact Or.inl z
    · exact absurd ⟨n0, by rw [e]; rfl⟩ hx

/-- C6 at a concrete memory: dropping region 0 recycles its parent, region 1. -/
theorem parent_cascade_witness :
    Inv demoParent ∧ demoParent.slots.get? 0 = some (some 0) ∧
    (demoParent.region 0).references_ = 1 ∧
    ∃ w1, (∀ fuel, demoParent.parentSlots < fuel →
        Region_nativeClearRegion fuel demoParent 0 = some w1) ∧
      demoParent.recycledBy w1 0 ∧
      (demoParent.recycledBy w1 1 ↔
        (some 1 ∉ demoParent.slots ∧ ∀ a, a < demoParent.regions.length →
          ¬ demoParent.recycledBy w1 a → some 1 ∉ (demoParent.region a).parents_)) :=
  ⟨by decide, by decide, by decide,
    let ⟨w1, e1, e2, _, _, e5, _⟩ :=
      parent_cascade demoParent 0 0 (by decide) (by decide) (by decide)
    ⟨w1, e1, e2, e5 1 (by decide) (by decide)⟩⟩

/-! ## C7: a parent reference extends a lifetime -/

/-- Destroying handles touches only regions of a set that contains the targets
of the handles and is closed under parent handles. -/
theorem Cascade.frame_closed {w w1 : Heap} {ps : List RegionPtr} (h : Cascade w ps w1) :
    ∀ (S : Nat → Prop), (∀ y, some y ∈ ps → S y) →
      (∀ a, S a → ∀ y, some y ∈ (w.region a).parents_ → S y) →
      (∀ a, S a → ∀ y, some y ∈ (w1.region a).parents_ → S y) ∧
      ∀ x, ¬ S x → w1.region x = w.region x := by
  induction h with
  | nil w => intro _ _ hc; exact ⟨hc, fun _ _ => rfl⟩
  | null _ ih =>
    intro S hp hc
    exact ih S (fun y hy => hp y (List.mem_cons_of_mem _ hy)) hc
  | @keep w w1 ps r _ _ ih =>
    intro S hp hc
    have hSr : S r := hp r (List.mem_cons_self _ _)
    obtain ⟨a, b⟩ := ih S (fun y hy => hp y (List.mem_cons_of_mem _ hy))
      (fun a ha y hy => hc a ha y (by rwa [Heap.decRef_region_parents] at hy))
    refine ⟨a, fun x hx => ?_⟩
    rw [b x hx, Heap.decRef_region_ne]
    intro e; subst e; exact hx hSr
  | @recycle w w1 w2 ps r _ _ _ ih1 ih2 =>
    intro S hp hc
    have hSr : S r := hp r (List.mem_cons_self _ _)
    have hcd : ∀ a, S a → ∀ y,
        some y ∈ ((Region.clear_fields (w.decRef r) r).region a).parents_ → S y := by
      intro a ha y hy
      have := Region.clear_fields_parents_subset (w.decRef r) r a _ hy
      rw [Heap.decRef_region_parents] at this
      exact hc a ha y this
    obtain ⟨a1, b1⟩ := ih1 S
      (fun y hy => hc r hSr y (by rwa [Heap.decRef_region_parents] at hy)) hcd
    obtain ⟨a2, b2⟩ := ih2 S (fun y hy => hp y (List.mem_cons_of_mem _ hy))
      (fun a ha y hy => a1 a ha y (by simpa using hy))
    refine ⟨a2, fun x hx => ?_⟩
    have hne : x ≠ r := by intro e; subst e; exact hx hSr
    rw [b2 x hx, Heap.pushFreeRegion_region, b1 x hx,
      Region.clear_fields_decRef_region_ne w r x hne]

theorem Heap.count_le_parentCount (w : Heap) (a : Nat) (h : RegionPtr)
    (ha : a < w.regions.length) : (w.region a).parents_.count h ≤ w.parentCount h := by
  have := Heap.parentCount_setRegion w a { w.region a with parents_ := [] } h ha
  simp only [List.count_nil, Nat.add_zero] at this
  omega

theorem Heap.count_add_count_le_parentCount (w : Heap) (a b : Nat) (h : RegionPtr)
    (ha : a < w.regions.length) (hb : b < w.regions.length) (hab : a ≠ b) :
    (w.region a).parents_.count h + (w.region b).parents_.count h ≤ w.parentCount h := by
  have h1 := Heap.parentCount_setRegion w a { w.region a with parents_ := [] } h ha
  have h2 := Heap.count_le_parentCount (w.setRegion a { w.region a with parents_ := [] }) b h
    (by simpa using hb)
  rw [Heap.region_setRegion_ne _ _ _ _ (Ne.symm hab)] at h2
  simp only [List.count_nil, Nat.add_zero] at h1 h2
  omega

/-- `nativeReference` from slot `s` (holding `A`) to slot `t` (holding `B`)
makes the last parent slot of `A` hold `B`. -/
theorem Region_nativeReference_spec (w : Heap) (s t A B : Nat) (hinv : Inv w)
    (hs : w.slots.get? s = some (some A)) (ht : w.slots.get? t = some (some B)) :
    ∃ w1, Region_nativeReference w s t = some w1 ∧ Inv w1 ∧
      (w1.region A).parents_ = (w.region A).parents_ ++ [some B] ∧ w1.slots = w.slots := by
  have h0 : InvWith w [] := hinv
  obtain ⟨hr, _⟩ := h0.1.live (List.mem_append_left _ (Heap.mem_handles_of_slot hs))
  have e : Region_nativeReference w s t =
      some (Region.add_reference_to (RegionPtr.copy w (some B)).1 A
        (RegionPtr.copy w (some B)).2) := by
    simp only [Region_nativeReference, ScalaRegion.deref, hs, ht]
  refine ⟨_, e, @Inv.step w _ 0 (.reference s t) hinv e, ?_, ?_⟩
  · simp only [Region.add_reference_to]
    rw [Heap.region_setRegion_same _ _ _ (by rw [RegionPtr.copy_regions_length]; exact hr),
      RegionPtr.copy_region_parents]
    rfl
  · simp only [Region.add_reference_to, Heap.slots_setRegion, RegionPtr.copy_slots]

theorem two_le_length_of_mem {l : List Nat} {A B : Nat} (hAB : A ≠ B)
    (hA : A ∈ l) (hB : B ∈ l) : 2 ≤ l.length := by
  have hd : [A, B].Nodup := by simp [hAB]
  have hs : [A, B] ⊆ l := by
    intro x hx
    simp only [List.mem_cons, List.mem_singleton, List.not_mem_nil, or_false] at hx
    rcases hx with rfl | rfl <;> assumption
  exact (List.subperm_of_subset hd hs).length_le

theorem length_le_two_of_nodup {l : List Nat} {A B : Nat} (d : l.Nodup)
    (h : ∀ x ∈ l, x = A ∨ x = B) : l.length ≤ 2 := by
  have hs : l ⊆ [A, B] := by
    intro x hx
    rcases h x hx with rfl | rfl <;> simp
  exact (List.subperm_of_subset d hs).length_le

/-- C7, as amended.  In a memory satisfying the invariant let slot `s` hold a
handle to `A`, and let `A` hold a parent handle to another region `B` of the
same pool, as after `A.add_reference_to(B)` (first part: the native call puts
that handle in the last parent slot of `A`).  Then `B` has a non-zero count
and is on no free list; dropping a handle to `B` held by a slot lowers the
count of `B` by one, to at least 1, and changes no pool, so `num_free_regions`
is unchanged; the count of `B` is 1 once the parent slot of `A` is its only
handle; and when then the last handle to `A` is dropped, `A` and `B` are both
recycled onto the free list of their pool, whose `num_free_regions` grows by
at least 2, and by exactly 2 when `A` holds no non-null parent handle other
than to `B` and `B` holds none. -/
theorem parent_lifetime_extension (w : Heap) (s A B : Nat) (hinv : Inv w) (hAB : A ≠ B)
    (hs : w.slots.get? s = some (some A)) (hpar : some B ∈ (w.region A).parents_)
    (hpool : (w.region B).pool_ = (w.region A).pool_) :
    (∀ w0 t, Inv w0 → w0.slots.get? s = some (some A) → w0.slots.get? t = some (some B) →
      ∃ w1, Region_nativeReference w0 s t = some w1 ∧ Inv w1 ∧
        some B ∈ (w1.region A).parents_ ∧ w1.slots = w0.slots) ∧
    (1 ≤ (w.region B).references_ ∧ ∀ p, B ∉ (w.pool p).free_regions_) ∧
    (∀ t, w.slots.get? t = some (some B) →
      ∃ w1, (∀ fuel, w.parentSlots < fuel → Region_nativeClearRegion fuel w t = some w1) ∧
        (w1.region B).references_ + 1 = (w.region B).references_ ∧
        1 ≤ (w1.region B).references_ ∧
        w1.pools = w.pools ∧
        (∀ p, RegionPool.num_free_regions w1 p = RegionPool.num_free_regions w p) ∧
        (∀ x, x ≠ B → w1.region x = w.region x) ∧
        (w1.region B).parents_ = (w.region B).parents_) ∧
    ((w.slots.count (some B) = 0 → w.parentCount (some B) = 1 →
      (w.region B).references_ = 1)) ∧
    ((w.region A).references_ = 1 → (w.region B).references_ = 1 →
      ∃ w1, (∀ fuel, w.parentSlots < fuel → Region_nativeClearRegion fuel w s = some w1) ∧
        w.recycledBy w1 A ∧ w.recycledBy w1 B ∧
        A ∈ (w1.pool (w.region A).pool_).free_regions_ ∧
        B ∈ (w1.pool (w.region A).pool_).free_regions_ ∧
        RegionPool.num_free_regions w (w.region A).pool_ + 2 ≤
          RegionPool.num_free_regions w1 (w.region A).pool_ ∧
        ((∀ h ∈ (w.region A).parents_, h = none ∨ h = some B) →
          (∀ h ∈ (w.region B).parents_, h = none) →
          RegionPool.num_free_regions w1 (w.region A).pool_ =
            RegionPool.num_free_regions w (w.region A).pool_ + 2)) := by
  have h0 : InvWith w [] := hinv
  obtain ⟨hA, hAl⟩ := h0.1.live (List.mem_append_left _ (Heap.mem_handles_of_slot hs))
  obtain ⟨hB, hBl⟩ := h0.1.live
    (List.mem_append_left _ (Heap.mem_handles_of_parent hA hpar))
  have hacc := (accurate_iff w []).mp hinv.1
  have hcountA : 1 ≤ (w.region A).parents_.count (some B) := List.count_pos_iff.mpr hpar
  have hBrefs : (w.region B).references_ =
      w.slots.count (some B) + w.parentCount (some B) := by
    have := (hacc B).1
    simpa [Heap.handleCount] using this
  refine ⟨?_, ⟨Nat.one_le_iff_ne_zero.mpr hBl, fun p hm => hBl (hinv.2.free hm).2.1⟩,
    ?_, ?_, ?_⟩
  · intro w0 t hi0 hs0 ht0
    obtain ⟨w1, e, hi1, hp1, hsl⟩ := Region_nativeReference_spec w0 s t A B hi0 hs0 ht0
    exact ⟨w1, e, hi1, by rw [hp1]; simp, hsl⟩
  · intro t ht
    obtain ⟨w1, e1, hcas, _, _⟩ := drop_slot_spec w t B hinv ht
    have hslot : 1 ≤ w.slots.count (some B) :=
      List.count_pos_iff.mpr (List.get?_mem ht)
    have hpc := Heap.count_le_parentCount w A (some B) hA
    have hz : (((w.setSlot t none).decRef B).region B).references_ ≠ 0 := by
      rw [Heap.decRef_region_same (w.setSlot t none) B hB]
      show decrement (w.region B).references_ ≠ 0
      rw [decrement_pos hBl]
      omega
    have e2 := hcas.single_keep hz
    have hrB : w1.region B =
        { w.region B with references_ := decrement (w.region B).references_ } := by
      rw [e2]; exact Heap.decRef_region_same (w.setSlot t none) B hB
    refine ⟨w1, e1, ?_, ?_, by rw [e2]; rfl, fun p => by rw [e2]; rfl, ?_, by rw [hrB]⟩
    · rw [hrB]
      show decrement (w.region B).references_ + 1 = _
      rw [decrement_pos hBl]; omega
    · rw [hrB]
      show 1 ≤ decrement (w.region B).references_
      rw [decrement_pos hBl]; omega
    · intro x hx
      rw [e2]
      exact Heap.decRef_region_ne (w.setSlot t none) B x hx
  · intro h1 h2
    rw [hBrefs, h1, h2]
  · intro honeA honeB
    obtain ⟨w1, e1, hcas, hpost, hi1⟩ := drop_slot_spec w s A hinv hs
    have recA := drop_slot_recycles w w1 s A hinv hs honeA hcas
    have hpcA := Heap.count_le_parentCount w A (some B) hA
    have recB : w.recycledBy w1 B := by
      rw [drop_slot_recycled_iff w w1 s A hs hpost hi1 B (Ne.symm hAB) hBl]
      constructor
      · intro hm
        have := List.count_pos_iff.mpr hm
        omega
      · intro a ha hna hm
        have hne : a ≠ A := fun e => hna (e ▸ recA)
        have := Heap.count_add_count_le_parentCount w a A (some B) ha hA hne
        have := List.count_pos_iff.mpr hm
        omega
    have hfA := (hpost.recycled_iff_free hinv (fun _ => rfl) (fun _ => rfl) A).mp recA
    have hfB := (hpost.recycled_iff_free hinv (fun _ => rfl) (fun _ => rfl) B).mp recB
    rw [hpool] at hfB
    obtain ⟨_, l, bl, f, d, i, _, _⟩ := hpost.2.2.2.2.2 (w.region A).pool_
    have f1 : (w1.pool (w.region A).pool_).free_regions_ =
        (w.pool (w.region A).pool_).free_regions_ ++ l := f
    have i1 : ∀ x, x ∈ l ↔ (w.region x).pool_ = (w.region A).pool_ ∧
        (w.region x).references_ ≠ 0 ∧ (w1.region x).references_ = 0 := i
    have hAl1 : A ∈ l := (i1 A).mpr ⟨rfl, recA.1, recA.2⟩
    have hBl1 : B ∈ l := (i1 B).mpr ⟨hpool, recB.1, recB.2⟩
    refine ⟨w1, e1, recA, recB, hfA.1, hfB.1, ?_, ?_⟩
    · unfold RegionPool.num_free_regions
      rw [f1, List.length_append]
      have := two_le_length_of_mem hAB hAl1 hBl1
      omega
    · intro hAonly hBnone
      have h1 := InvWith.drop_slot hinv hs
      have honeA1 : ((w.setSlot s none).region A).references_ = 1 := honeA
      obtain ⟨w2, hcas2, _, _, e2, _, _⟩ := RegionPtr.clear_last h1 honeA1 hcas
      have hfr := hcas2.frame_closed (fun y => y = B)
        (fun y hy => by
          rcases hAonly _ hy with h | h
          · cases h
          · exact (Option.some.inj h))
        (fun a ha y hy => by
          subst ha
          rw [Region.clear_fields_decRef_region_ne (w.setSlot s none) A a (Ne.symm hAB)] at hy
          cases hBnone _ hy)
      have hsub : ∀ x ∈ l, x = A ∨ x = B := by
        intro x hx
        by_contra hne
        rw [not_or] at hne
        obtain ⟨_, hx1, hx2⟩ := (i1 x).mp hx
        have := hfr.2 x hne.2
        rw [Region.clear_fields_decRef_region_ne (w.setSlot s none) A x hne.1] at this
        rw [e2, Heap.pushFreeRegion_region, this] at hx2
        exact hx1 hx2
      unfold RegionPool.num_free_regions
      rw [f1, List.length_append]
      have := two_le_length_of_mem hAB hAl1 hBl1
      have := length_le_two_of_nodup d hsub
      omega

/-- C7 as stated fails: at the end of `lifetimeScenario` the regions 0 and 1
are live regions of pool 0, region 0 holds a parent handle to region 1, whose
other handle has been dropped (count 1, `num_free_regions` 0); dropping the
last handle to region 0 takes `num_free_regions` from 0 to 3, not 2, because
region 1 holds the last handle to region 2. -/
theorem parent_lifetime_counterexample :
    run 3 Heap.empty lifetimeScenario = some lifetimeScenarioHeap ∧
    (lifetimeScenarioHeap.region 1).references_ = 1 ∧
    RegionPool.num_free_regions lifetimeScenarioHeap 0 = 0 ∧
    (Region_nativeClearRegion 3 lifetimeScenarioHeap 0).map
      (fun w1 => RegionPool.num_free_regions w1 0) = some 3 := by
  decide

/-- C7 as amended, at a concrete memory. -/
theorem parent_lifetime_extension_witness :
    Inv demoParent ∧ (0 : Nat) ≠ 1 ∧ demoParent.slots.get? 0 = some (some 0) ∧
    some 1 ∈ (demoParent.region 0).parents_ ∧
    (demoParent.region 1).pool_ = (demoParent.region 0).pool_ ∧
    ∃ w1, (∀ fuel, demoParent.parentSlots < fuel →
        Region_nativeClearRegion fuel demoParent 0 = some w1) ∧
      RegionPool.num_free_regions w1 (demoParent.region 0).pool_ =
        RegionPool.num_free_regions demoParent (demoParent.region 0).pool_ + 2 :=
  ⟨by decide, by decide, by decide, by decide, by decide,
    let ⟨w1, e1, _, _, _, _, _, e7⟩ :=
      (parent_lifetime_extension demoParent 0 0 1 (by decide) (by decide) (by decide)
        (by decide) (by decide)).2.2.2.2 (by decide) (by decide)
    ⟨w1, e1, e7 (by decide) (by decide)⟩⟩

/-! ## C9 and C10: the free list in reachable memories -/

/-- C9. In every memory reachable by native calls (pool and region
construction, allocation, parent operations, clear in place, refresh, handle
copies and drops, ownership transfer), every region on a `free_regions_`
list has count 0, `block_offset` 0 and empty `used_blocks`, `big_chunks` and
`parents`. -/
theorem free_regions_cleared (w : Heap) (p r : Nat) (h : Reachable w)
    (hm : r ∈ (w.pool p).free_regions_) :
    (w.region r).references_ = 0 ∧ (w.region r).block_offset_ = 0 ∧
    (w.region r).used_blocks_ = [] ∧ (w.region r).big_chunks_ = [] ∧
    (w.region r).parents_ = [] := by
  obtain ⟨_, hz, hc⟩ := h.inv.2.free hm
  exact ⟨hz, hc⟩

theorem demoRecycled_reachable : Reachable demoRecycled :=
  @Reachable.by_run 1 [.poolCtor, .regionCtor 0, .clearRegion 0] Heap.empty demoRecycled
    Reachable.init (by decide)

/-- C9 at a concrete memory: a region that was acquired and dropped. -/
theorem free_regions_cleared_witness :
    Reachable demoRecycled ∧ 0 ∈ (demoRecycled.pool 0).free_regions_ ∧
    ((demoRecycled.region 0).references_ = 0 ∧ (demoRecycled.region 0).block_offset_ = 0 ∧
      (demoRecycled.region 0).used_blocks_ = [] ∧ (demoRecycled.region 0).big_chunks_ = [] ∧
      (demoRecycled.region 0).parents_ = []) :=
  ⟨demoRecycled_reachable, by decide,
    free_regions_cleared demoRecycled 0 0 demoRecycled_reachable (by decide)⟩

/-- C10. In every memory reachable by native calls and for every pool `p`:
`free_regions_` has no duplicates; each of its entries is an entry of
`regions_`; a region of `regions_` is on `free_regions_` exactly when its
count is 0; and `num_free_regions() ≤ num_regions()`. -/
theorem free_list_membership (w : Heap) (p : Nat) (h : Reachable w) :
    (w.pool p).free_regions_.Nodup ∧
    (∀ r ∈ (w.pool p).free_regions_, some r ∈ (w.pool p).regions_) ∧
    (∀ r, some r ∈ (w.pool p).regions_ →
      (r ∈ (w.pool p).free_regions_ ↔ (w.region r).references_ = 0)) ∧
    RegionPool.num_free_regions w p ≤ RegionPool.num_regions w p := by
  have hinv := h.inv
  have hd : (w.pool p).free_regions_.Nodup := by
    by_cases hp : p < w.pools.length
    · exact (hinv.2.2 p hp).1
    · rw [Heap.pool_default _ _ (Nat.le_of_not_lt hp)]
      exact List.nodup_nil
  have hsub : ∀ r ∈ (w.pool p).free_regions_, some r ∈ (w.pool p).regions_ :=
    fun r hr => (hinv.2.free hr).1
  refine ⟨hd, hsub, fun r hr => (hinv.2.entry hr).2.2, ?_⟩
  have hd2 : ((w.pool p).free_regions_.map some).Nodup :=
    hd.map (Option.some_injective Nat)
  have hs2 : (w.pool p).free_regions_.map some ⊆ (w.pool p).regions_ := by
    intro x hx
    obtain ⟨r, hr, rfl⟩ := List.mem_map.mp hx
    exact hsub r hr
  have := (List.subperm_of_subset hd2 hs2).length_le
  simpa [RegionPool.num_free_regions, RegionPool.num_regions] using this

/-- C10 at a concrete memory. -/
theorem free_list_membership_witness :
    Reachable demoRecycled ∧
    RegionPool.num_free_regions demoRecycled 0 ≤ RegionPool.num_regions demoRecycled 0 :=
  ⟨demoRecycled_reachable, (free_list_membership demoRecycled 0 demoRecycled_reachable).2.2.2⟩

/-! ## C8: bounded region creation -/

theorem RegionPool.get_block_pool_other (w : Heap) (q p : Nat) (h : p ≠ q) :
    (RegionPool.get_block w q).1.pool p = w.pool p := by
  unfold RegionPool.get_block
  split
  · rfl
  · exact Heap.pool_setPool_ne _ _ _ _ h

theorem RegionPool.get_region_pool_other (w : Heap) (q p : Nat) (h : p ≠ q) :
    (RegionPool.get_region w q).1.pool p = w.pool p := by
  unfold RegionPool.get_region
  split
  · rw [RegionPool.new_region_eq]
    rw [Heap.pool_setPool_ne _ _ _ _ h]
    exact RegionPool.get_block_pool_other w q p h
  · simp only [RegionPtr.ofRaw, Heap.pool_setRegion]
    exact Heap.pool_setPool_ne _ _ _ _ h

theorem RegionPool.new_region_regions_ (w : Heap) (p : Nat) (hp : p < w.pools.length) :
    ((RegionPool.new_region w p).1.pool p).regions_ =
      (w.pool p).regions_ ++ [some w.regions.length] := by
  rw [RegionPool.new_region_eq]
  simp only []
  rw [Heap.pool_setPool_same _ _ _ (by
    show p < (RegionPool.get_block w p).1.pools.length
    rw [RegionPool.get_block_pools_length]; exact hp)]
  simp only [(RegionPool.get_block_pool w p p).1]

theorem RegionPool.new_region_region (w : Heap) (p y : Nat) :
    (RegionPool.new_region w p).1.region y =
      if y = w.regions.length then
        { pool_ := p, references_ := 1, block_offset_ := 0,
          current_block_ := (RegionPool.get_block w p).2,
          big_chunks_ := [], used_blocks_ := [], parents_ := [] }
      else w.region y := by
  rw [RegionPool.new_region_eq]
  have := Heap.region_push (RegionPool.get_block w p).1
    { pool_ := p, references_ := 1, block_offset_ := 0,
      current_block_ := (RegionPool.get_block w p).2,
      big_chunks_ := [], used_blocks_ := [], parents_ := [] } y
  rw [RegionPool.get_block_regions, RegionPool.get_block_region] at this
  rw [Heap.region_setPool]
  exact this

/-- A drop of the handle in a slot leaves every `regions_` alone. -/
theorem Region_nativeClearRegion_regions_ {w w1 : Heap} {s fuel : Nat} (hinv : Inv w)
    (e : Region_nativeClearRegion fuel w s = some w1) (p : Nat) :
    (w1.pool p).regions_ = (w.pool p).regions_ := by
  simp only [Region_nativeClearRegion, ScalaRegion.assign] at e
  split at e
  · cases e
  · next old hold =>
    simp only [RegionPtr.copy, Option.map_eq_some'] at e
    obtain ⟨⟨w2, h2⟩, e1, e2⟩ := e
    simp only at e2
    subst e2
    have h1 := InvWith.drop_slot hinv hold
    have hpost := (RegionPtr.clear_cascade _ _ _ _ _ e1).post [] h1.1 h1.2.poolValid
    exact (hpost.2.2.2.2.2 p).1

/-- A new region is only constructed when every region of the pool is live. -/
theorem Region_nativeCtor_regions_ {w w1 : Heap} {q : Nat} (hinv : Inv w)
    (e : Region_nativeCtor w q = some w1) (p : Nat)
    (hK : ∀ x ∈ (w.pool p).regions_, x ≠ none) :
    (∀ x ∈ (w1.pool p).regions_, x ≠ none) ∧
    (RegionPool.num_regions w1 p = RegionPool.num_regions w p ∨
      RegionPool.num_regions w1 p = RegionPool.num_live w1 p) := by
  simp only [Region_nativeCtor] at e
  split at e
  swap
  · cases e
  next hq =>
  simp only [Option.some.injEq] at e
  subst e
  have hpool : ∀ a, ({ (RegionPool.get_region w q).1 with
      slots := (RegionPool.get_region w q).1.slots ++ [(RegionPool.get_region w q).2] }
      : Heap).pool a = (RegionPool.get_region w q).1.pool a := fun _ => rfl
  have hregion : ∀ a, ({ (RegionPool.get_region w q).1 with
      slots := (RegionPool.get_region w q).1.slots ++ [(RegionPool.get_region w q).2] }
      : Heap).region a = (RegionPool.get_region w q).1.region a := fun _ => rfl
  unfold RegionPool.num_regions RegionPool.num_live
  simp only [hpool, hregion]
  by_cases hqp : p = q
  · subst hqp
    cases hl : (w.pool p).free_regions_.getLast? with
    | some r =>
      rw [RegionPool.get_region_pop _ _ _ hl]
      have hp2 : (RegionPtr.ofRaw
          (w.setPool p { w.pool p with free_regions_ := (w.pool p).free_regions_.dropLast })
          r).1.pool p =
          { w.pool p with free_regions_ := (w.pool p).free_regions_.dropLast } := by
        simp only [RegionPtr.ofRaw, Heap.pool_setRegion]
        exact Heap.pool_setPool_same _ _ _ hq
      rw [hp2]
      exact ⟨hK, Or.inl rfl⟩
    | none =>
      have hnil : (w.pool p).free_regions_ = [] := List.getLast?_eq_none_iff.mp hl
      rw [RegionPool.get_region_new _ _ hnil]
      simp only [RegionPool.new_region_regions_ w p hq]
      constructor
      · intro x hx
        rw [List.mem_append] at hx
        rcases hx with hx | hx
        · exact hK x hx
        · simp only [List.mem_singleton] at hx
          rw [hx]; simp
      · right
        rw [List.filter_eq_self.mpr]
        intro x hx
        rw [List.mem_append] at hx
        rcases hx with hx | hx
        · cases x with
          | none => exact absurd rfl (hK _ hx)
          | some r =>
            obtain ⟨hr, _, hiff⟩ := hinv.2.entry hx
            simp only [decide_eq_true_eq]
            rw [RegionPool.new_region_region, if_neg (by omega)]
            intro h0
            have := hiff.mpr h0
            rw [hnil] at this
            cases this
        · simp only [List.mem_singleton] at hx
          subst hx
          simp only [decide_eq_true_eq]
          rw [RegionPool.new_region_region, if_pos rfl]
          exact Nat.one_ne_zero
  · rw [RegionPool.get_region_pool_other w q p hqp]
    exact ⟨hK, Or.inl rfl⟩

theorem get_or_drop_step {w w1 : Heap} {p fuel : Nat} {op : Op} (hinv : Inv w)
    (hK : ∀ x ∈ (w.pool p).regions_, x ≠ none) (hop : op.isGetOrDrop = true)
    (e : step fuel w op = some w1) :
    (∀ x ∈ (w1.pool p).regions_, x ≠ none) ∧
    (RegionPool.num_regions w1 p = RegionPool.num_regions w p ∨
      RegionPool.num_regions w1 p = RegionPool.num_live w1 p) := by
  cases op with
  | regionCtor q => exact Region_nativeCtor_regions_ hinv e p hK
  | clearRegion s =>
    have hr := Region_nativeClearRegion_regions_ hinv e p
    unfold RegionPool.num_regions
    rw [hr]
    exact ⟨hK, Or.inl rfl⟩
  | _ => cases hop

theorem run_take_succ (fuel : Nat) (w w2 : Heap) (op : Op) (ops : List Op) (n : Nat) :
    run fuel w ((op :: ops).take (n + 1)) = some w2 ↔
      ∃ w1, step fuel w op = some w1 ∧ run fuel w1 (ops.take n) = some w2 := by
  simp only [List.take_succ_cons, run]
  cases step fuel w op with
  | none => simp
  | some w1 => simp

theorem bounded_creation_aux (p k fuel : Nat) (ops : List Op)
    (hops : ∀ op ∈ ops, op.isGetOrDrop = true) :
    ∀ w0, Inv w0 → (∀ x ∈ (w0.pool p).regions_, x ≠ none) →
      RegionPool.num_regions w0 p ≤ k →
      (∀ n w, run fuel w0 (ops.take n) = some w → RegionPool.num_live w p ≤ k) →
      ∀ n w, run fuel w0 (ops.take n) = some w → RegionPool.num_regions w p ≤ k := by
  induction ops with
  | nil =>
    intro w0 _ _ h0 _ n w e
    simp only [List.take_nil, run, Option.some.injEq] at e
    subst e; exact h0
  | cons op ops ih =>
    intro w0 hinv hK h0 hlive n w e
    cases n with
    | zero =>
      simp only [List.take_zero, run, Option.some.injEq] at e
      subst e; exact h0
    | succ n =>
      obtain ⟨w1, e1, e2⟩ := (run_take_succ fuel w0 w op ops n).mp e
      obtain ⟨hK1, hnum⟩ := @get_or_drop_step w0 w1 p fuel op hinv hK
        (hops op (List.mem_cons_self _ _)) e1
      have hlive1 : RegionPool.num_live w1 p ≤ k :=
        hlive 1 w1 ((run_take_succ fuel w0 w1 op ops 0).mpr ⟨w1, e1, by simp [run]⟩)
      have h1 : RegionPool.num_regions w1 p ≤ k := by
        rcases hnum with h | h <;> omega
      exact ih (fun o ho => hops o (List.mem_cons_of_mem _ ho)) w1 (hinv.step e1) hK1 h1
        (fun m w2 e3 => hlive (m + 1) w2 ((run_take_succ fuel w0 w2 op ops m).mpr ⟨w1, e1, e3⟩))
        n w e2

/-- C8. Start from a memory satisfying the invariant in which pool `p` is
fresh (no region yet), and run any sequence of region acquisitions
(`Region.nativeCtor`, which calls `get_region`) and handle drops
(`nativeClearRegion`).  If at most `k` regions of the pool are live (count
not zero) after every step, then `num_regions() ≤ k` after every step. -/
theorem bounded_region_creation (w0 : Heap) (p k fuel : Nat) (ops : List Op)
    (hinv : Inv w0) (hfresh : (w0.pool p).regions_ = [])
    (hops : ∀ op ∈ ops, op.isGetOrDrop = true)
    (hlive : ∀ n w, run fuel w0 (ops.take n) = some w → RegionPool.num_live w p ≤ k) :
    ∀ n w, run fuel w0 (ops.take n) = some w → RegionPool.num_regions w p ≤ k :=
  bounded_creation_aux p k fuel ops hops w0 hinv (by rw [hfresh]; simp)
    (by simp [RegionPool.num_regions, hfresh]) hlive

theorem getDropScenario_live :
    ∀ n w, run 1 demoFreshPool (getDropScenario.take n) = some w →
      RegionPool.num_live w 0 ≤ 1 := by
  have hb : ∀ n, n ≤ 3 → ∀ w ∈ run 1 demoFreshPool (getDropScenario.take n),
      RegionPool.num_live w 0 ≤ 1 := by decide
  intro n w e
  rcases le_or_lt n 3 with h | h
  · exact hb n h w e
  · have ht : getDropScenario.take n = getDropScenario.take 3 := by
      rw [List.take_of_length_le (by simp [getDropScenario]; omega)]
      rfl
    rw [ht] at e
    exact hb 3 (le_refl _) w e

/-- C8 at a concrete session: acquire, drop, acquire again, with one region
live at a time: the pool never holds more than one region. -/
theorem bounded_region_creation_witness :
    Inv demoFreshPool ∧ (demoFreshPool.pool 0).regions_ = [] ∧
    (∀ op ∈ getDropScenario, op.isGetOrDrop = true) ∧
    (∀ n w, run 1 demoFreshPool (getDropScenario.take n) = some w →
      RegionPool.num_live w 0 ≤ 1) ∧
    (∀ n w, run 1 demoFreshPool (getDropScenario.take n) = some w →
      RegionPool.num_regions w 0 ≤ 1) :=
  ⟨by decide, by decide, by decide, getDropScenario_live,
    bounded_region_creation demoFreshPool 0 1 1 getDropScenario (by decide) (by decide)
      (by decide) getDropScenario_live⟩

theorem parentScenarioHeap_reachable : Reachable parentScenarioHeap :=
  @Reachable.by_run 2 parentScenario Heap.empty parentScenarioHeap Reachable.init (by decide)

/-- C11. Reference-count accuracy: in every memory a host can bring about by
native calls, the count of every region equals the number of handles that
refer to it, the `region_` fields of the `ScalaRegion` objects and every
occurrence in the `parents_` vector of any region counted; and every handle
is null or refers to an allocated region. -/
theorem reference_count_accuracy (w : Heap) (h : Reachable w) :
    (∀ r, (w.region r).references_ = w.slots.count (some r) + w.parentCount (some r)) ∧
    (∀ r, (w.region r).references_ = w.handles.count (some r)) ∧
    (∀ r, some r ∈ w.handles → r < w.regions.length) := by
  have hinv := h.inv
  have hacc := (accurate_iff w []).1 hinv.1
  refine ⟨fun r => ?_, fun r => ?_, fun r hm => ?_⟩
  · have := (hacc r).1
    simpa [Heap.handleCount] using this
  · have := (hacc r).1
    rw [← Heap.count_handles] at this
    simpa using this
  · exact (@Accurate.live w [] r hinv.1 (by simpa using hm)).1

theorem reference_count_accuracy_witness :
    Reachable parentScenarioHeap ∧
    (parentScenarioHeap.region 1).references_ =
      parentScenarioHeap.slots.count (some 1) + parentScenarioHeap.parentCount (some 1) :=
  ⟨parentScenarioHeap_reachable,
    (reference_count_accuracy parentScenarioHeap parentScenarioHeap_reachable).1 1⟩

theorem RegionPool.num_live_eq (w : Heap) (p : Nat) :
    RegionPool.num_live w p = ((w.pool p).regions_.filter (RegionPool.isLive w)).length := rfl

theorem RegionPool.isLive_some (w : Heap) (r : Nat) :
    RegionPool.isLive w (some r) = true ↔ (w.region r).references_ ≠ 0 := by
  simp [RegionPool.isLive]

/-- One iteration of the loop of `own` on an entry that holds region `r`. -/
theorem ScalaRegionPool.own_step_spec {this pool : Nat} (hne : this ≠ pool) (w : Heap)
    (i r : Nat) (ht : this < w.pools.length) (hp : pool < w.pools.length)
    (hi : (w.pool pool).regions_.getD i none = some r) (hr : r < w.regions.length) :
    ∃ w1, ScalaRegionPool.own_step this pool w i = some w1 ∧
      w1.pools.length = w.pools.length ∧ w1.regions.length = w.regions.length ∧
      w1.slots = w.slots ∧ w1.next_buffer = w.next_buffer ∧
      w1.pool this = { w.pool this with
        regions_ := (w.pool this).regions_ ++
          (if RegionPool.isLive w (some r) then [some r] else []) } ∧
      (∀ j, j ≠ i → (w1.pool pool).regions_.getD j none = (w.pool pool).regions_.getD j none) ∧
      (∀ x, w1.region x =
        if RegionPool.isLive w (some r) ∧ x = r then { w.region x with pool_ := this }
        else w.region x) := by
  unfold ScalaRegionPool.own_step
  rw [hi]
  by_cases hl : (w.region r).references_ ≠ 0
  · have hlive : RegionPool.isLive w (some r) = true := (RegionPool.isLive_some w r).2 hl
    simp only [hl, ne_eq, not_false_eq_true, ↓reduceIte, hlive, ite_true, true_and]
    refine ⟨_, rfl, by simp [Heap.setPool, Heap.setRegion],
      by simp [Heap.setPool, Heap.setRegion], rfl, rfl, ?_, ?_, ?_⟩
    · rw [Heap.pool_setPool_ne _ _ _ _ hne, Heap.pool_setPool_same]
      · rfl
      · exact ht
    · intro j hj
      rw [Heap.pool_setPool_same]
      · simp only
        rw [getD_set_ne _ _ _ _ _ hj, Heap.pool_setPool_ne _ _ _ _ (Ne.symm hne)]
        rfl
      · simpa [Heap.setPool, Heap.setRegion] using hp
    · intro x
      rw [Heap.region_setPool, Heap.region_setPool, Heap.region_setRegion _ _ _ _ hr]
      by_cases hx : x = r
      · subst hx; simp
      · simp [hx]
  · have hlive : RegionPool.isLive w (some r) = false := by
      simpa [RegionPool.isLive] using hl
    simp only [hl, ↓reduceIte, hlive]
    refine ⟨w, rfl, rfl, rfl, rfl, rfl, ?_, fun j _ => rfl, fun x => by simp⟩
    simp

theorem RegionPool.isLive_congr {w w1 : Heap}
    (h : ∀ x, (w1.region x).references_ = (w.region x).references_) :
    RegionPool.isLive w1 = RegionPool.isLive w := by
  funext x
  cases x with
  | none => rfl
  | some r => simp [RegionPool.isLive, h r]

/-- The loop of `own` over distinct indices whose entries hold allocated regions. -/
theorem ScalaRegionPool.own_loop_spec {this pool : Nat} (hne : this ≠ pool) (is : List Nat) :
    ∀ w : Heap, this < w.pools.length → pool < w.pools.length → is.Nodup →
      (∀ i ∈ is, ∃ r, (w.pool pool).regions_.getD i none = some r ∧ r < w.regions.length) →
      ∃ w1, ScalaRegionPool.own_loop this pool w is = some w1 ∧
        w1.pools.length = w.pools.length ∧ w1.regions.length = w.regions.length ∧
        w1.slots = w.slots ∧ w1.next_buffer = w.next_buffer ∧
        w1.pool this = { w.pool this with
          regions_ := (w.pool this).regions_ ++
            (is.map (fun i => (w.pool pool).regions_.getD i none)).filter
              (RegionPool.isLive w) } ∧
        (∀ x, w1.region x =
          if RegionPool.isLive w (some x) ∧
              some x ∈ is.map (fun i => (w.pool pool).regions_.getD i none)
          then { w.region x with pool_ := this } else w.region x) := by
  induction is with
  | nil =>
    intro w _ _ _ _
    exact ⟨w, rfl, rfl, rfl, rfl, rfl, by simp, fun x => by simp⟩
  | cons i is ih =>
    intro w ht hp hnd hent
    obtain ⟨r, hi, hr⟩ := hent i (List.mem_cons_self _ _)
    obtain ⟨w1, e1, hpl, hrl, hsl, hnb, hthis, hoth, hreg⟩ :=
      ScalaRegionPool.own_step_spec hne w i r ht hp hi hr
    have hrefs : ∀ x, (w1.region x).references_ = (w.region x).references_ := by
      intro x; rw [hreg x]; split <;> rfl
    have hlive := RegionPool.isLive_congr hrefs
    have hnd2 := List.nodup_cons.1 hnd
    have hmap : is.map (fun j => (w1.pool pool).regions_.getD j none) =
        is.map (fun j => (w.pool pool).regions_.getD j none) := by
      apply List.map_congr_left
      intro j hj
      exact hoth j (fun e => hnd2.1 (e ▸ hj))
    obtain ⟨w2, e2, hpl2, hrl2, hsl2, hnb2, hthis2, hreg2⟩ :=
      ih w1 (by omega) (by omega) hnd2.2 (by
        intro j hj
        obtain ⟨r', hj', hr'⟩ := hent j (List.mem_cons_of_mem _ hj)
        exact ⟨r', by rw [hoth j (fun e => hnd2.1 (e ▸ hj))]; exact hj', by omega⟩)
    refine ⟨w2, ?_, by omega, by omega, hsl2.trans hsl, hnb2.trans hnb, ?_, ?_⟩
    · simp only [ScalaRegionPool.own_loop, e1]; exact e2
    · rw [hthis2, hthis, hlive, hmap]
      simp only [List.map_cons, hi, List.filter_cons]
      cases hl : RegionPool.isLive w (some r) <;> simp
    · intro x
      rw [hreg2 x, hreg x, hlive, hmap]
      simp only [List.map_cons, hi, List.mem_cons, Option.some.injEq]
      by_cases hx : x = r
      · subst hx
        by_cases hl : RegionPool.isLive w (some x) = true
        · simp [hl]
        · simp [hl]
      · by_cases hl : RegionPool.isLive w (some x) = true
        · simp [hl, hx]
        · simp [hl, hx]

theorem range_map_getD {α : Type} (l : List α) (d : α) :
    (List.range l.length).map (fun i => l.getD i d) = l := by
  have := map_eq_map_range l id d
  simpa using this.symm

/-- C12. Pool ownership transfer: `P2.own(P1)` on two different pools of a
well-formed memory, P1 holding all its regions, returns; afterwards
`regions_` of P2 is its old value followed by the entries of P1 whose region
had a count other than zero, in P1's order, so `num_regions()` of P2 grows by
the number of live regions of P1; every migrated region has `pool_` = P2 and
is otherwise unchanged; no region of P1 with count zero is in P2; and
`free_regions_` and `free_blocks_` of P2 are unchanged. -/
theorem pool_ownership_transfer (w : Heap) (this pool : Nat) (hinv : Inv w)
    (hne : this ≠ pool) (ht : this < w.pools.length) (hp : pool < w.pools.length)
    (hfull : ∀ x ∈ (w.pool pool).regions_, x ≠ none) :
    ∃ w1, ScalaRegionPool.own w this pool = some w1 ∧
      (w1.pool this).regions_ =
        (w.pool this).regions_ ++ (w.pool pool).regions_.filter (RegionPool.isLive w) ∧
      RegionPool.num_regions w1 this =
        RegionPool.num_regions w this + RegionPool.num_live w pool ∧
      (∀ r, some r ∈ (w.pool pool).regions_ → (w.region r).references_ ≠ 0 →
        some r ∈ (w1.pool this).regions_ ∧ w1.region r = { w.region r with pool_ := this }) ∧
      (∀ r, some r ∈ (w.pool pool).regions_ → (w.region r).references_ = 0 →
        some r ∉ (w1.pool this).regions_ ∧ w1.region r = w.region r) ∧
      (w1.pool this).free_regions_ = (w.pool this).free_regions_ ∧
      (w1.pool this).free_blocks_ = (w.pool this).free_blocks_ := by
  have hent : ∀ i ∈ List.range (w.pool pool).regions_.length,
      ∃ r, (w.pool pool).regions_.getD i none = some r ∧ r < w.regions.length := by
    intro i hi
    have hm := getD_mem (w.pool pool).regions_ i none (List.mem_range.1 hi)
    cases hx : (w.pool pool).regions_.getD i none with
    | none => exact absurd hx (hfull _ hm)
    | some r => exact ⟨r, rfl, (hinv.2.entry (hx ▸ hm)).1⟩
  obtain ⟨w1, e, _, _, _, _, hthis, hreg⟩ :=
    ScalaRegionPool.own_loop_spec hne (List.range (w.pool pool).regions_.length) w ht hp
      (List.nodup_range _) hent
  rw [range_map_getD] at hthis hreg
  have hregs : (w1.pool this).regions_ =
      (w.pool this).regions_ ++ (w.pool pool).regions_.filter (RegionPool.isLive w) := by
    rw [hthis]
  refine ⟨w1, ?_, hregs, ?_, ?_, ?_, by rw [hthis], by rw [hthis]⟩
  · unfold ScalaRegionPool.own
    rw [if_neg hne]; exact e
  · unfold RegionPool.num_regions
    rw [hregs, List.length_append, RegionPool.num_live_eq]
  · intro r hm hl
    have hlive := (RegionPool.isLive_some w r).2 hl
    refine ⟨?_, ?_⟩
    · rw [hregs]
      exact List.mem_append_right _ (List.mem_filter.2 ⟨hm, hlive⟩)
    · rw [hreg r, if_pos ⟨hlive, hm⟩]
  · intro r hm hz
    have hdead : ¬ RegionPool.isLive w (some r) = true := by
      rw [RegionPool.isLive_some]; exact fun h => h hz
    refine ⟨?_, ?_⟩
    · rw [hregs, List.mem_append]
      rintro (h1 | h1)
      · have e1 := (hinv.2.entry h1).2.1
        have e2 := (hinv.2.entry hm).2.1
        exact hne (e1.symm.trans e2)
      · exact hdead (List.mem_filter.1 h1).2
    · rw [hreg r, if_neg (fun h => hdead h.1)]

theorem pool_ownership_transfer_witness :
    Inv demoOwn ∧ (0 : Nat) ≠ 1 ∧ 0 < demoOwn.pools.length ∧ 1 < demoOwn.pools.length ∧
    (∀ x ∈ (demoOwn.pool 1).regions_, x ≠ none) ∧
    ∃ w1, ScalaRegionPool.own demoOwn 0 1 = some w1 ∧
      (w1.pool 0).regions_ = (demoOwn.pool 0).regions_ ++
        (demoOwn.pool 1).regions_.filter (RegionPool.isLive demoOwn) :=
  ⟨by decide, by decide, by decide, by decide, by decide,
    (pool_ownership_transfer demoOwn 0 1 (by decide) (by decide) (by decide) (by decide)
      (by decide)).imp (fun _ h => ⟨h.1, h.2.1⟩)⟩

/-! ## What `get_region` returns -/

/-- The effect of `get_region` on a well-formed memory: the region handed out
had count zero and now has count one, every other region is untouched. -/
theorem RegionPool.get_region_spec (w : Heap) (p : Nat) (hinv : Inv w)
    (hp : p < w.pools.length) :
    ∃ N, (RegionPool.get_region w p).2 = some N ∧
      N < (RegionPool.get_region w p).1.regions.length ∧
      (w.region N).references_ = 0 ∧
      ((RegionPool.get_region w p).1.region N).references_ = 1 ∧
      ((RegionPool.get_region w p).1.region N).pool_ = p ∧
      ((RegionPool.get_region w p).1.region N).parents_ = [] ∧
      (∀ x, x ≠ N → (RegionPool.get_region w p).1.region x = w.region x) ∧
      (RegionPool.get_region w p).1.pools.length = w.pools.length ∧
      ((w.pool p).free_regions_ = [] →
        N = w.regions.length ∧
        ((RegionPool.get_region w p).1.pool p).regions_ =
          (w.pool p).regions_ ++ [some N]) ∧
      ((w.pool p).free_regions_ ≠ [] →
        (w.pool p).free_regions_.getLast? = some N ∧
        ((RegionPool.get_region w p).1.pool p).regions_ = (w.pool p).regions_) := by
  cases hl : (w.pool p).free_regions_.getLast? with
  | some r =>
    have hfree : (w.pool p).free_regions_.dropLast ++ [r] = (w.pool p).free_regions_ :=
      List.dropLast_append_getLast? r hl
    have hmem : r ∈ (w.pool p).free_regions_ := by rw [← hfree]; simp
    obtain ⟨hreg, hz, hcl⟩ := hinv.2.free hmem
    obtain ⟨hr, hpl, _⟩ := hinv.2.entry hreg
    have hne : (w.pool p).free_regions_ ≠ [] := List.ne_nil_of_mem hmem
    rw [RegionPool.get_region_pop _ _ _ hl]
    have hrr : r < (w.setPool p
        { w.pool p with free_regions_ := (w.pool p).free_regions_.dropLast }).regions.length := hr
    have hN : (RegionPtr.ofRaw (w.setPool p
        { w.pool p with free_regions_ := (w.pool p).free_regions_.dropLast }) r).1.region r =
        { w.region r with references_ := 1 } := by
      simp only [RegionPtr.ofRaw]
      rw [Heap.region_setRegion_same _ _ _ hrr]
      simp only [Heap.region_setPool, hz]
    refine ⟨r, rfl, by simpa [RegionPtr.ofRaw, Heap.setRegion, Heap.setPool] using hr, hz,
      by rw [hN], by rw [hN]; exact hpl, by rw [hN]; exact hcl.2.2.2, ?_,
      by simp [RegionPtr.ofRaw, Heap.setRegion, Heap.setPool],
      fun h => absurd h hne, fun _ => ⟨rfl, ?_⟩⟩
    · intro x hx
      simp only [RegionPtr.ofRaw]
      rw [Heap.region_setRegion_ne _ _ _ _ hx, Heap.region_setPool]
    · simp only [RegionPtr.ofRaw, Heap.pool_setRegion]
      rw [Heap.pool_setPool_same _ _ _ hp]
  | none =>
    have hl0 : (w.pool p).free_regions_ = [] := List.getLast?_eq_none_iff.1 hl
    rw [RegionPool.get_region_new _ _ hl0]
    have hreg := RegionPool.new_region_region w p
    refine ⟨w.regions.length, by rw [RegionPool.new_region_eq], ?_, ?_, by rw [hreg]; simp,
      by rw [hreg]; simp, by rw [hreg]; simp, ?_, ?_, fun _ => ⟨rfl, ?_⟩,
      fun h => absurd hl0 h⟩
    · rw [RegionPool.new_region_eq]; simp [Heap.setPool]
    · rw [Heap.region_default _ _ (le_refl _)]; rfl
    · intro x hx; rw [hreg, if_neg hx]
    · rw [RegionPool.new_region_eq]
      simp only [Heap.setPool, List.length_set]
      exact RegionPool.get_block_pools_length w p
    · exact RegionPool.new_region_regions_ w p hp

/-! ## Assignments that release nothing -/

theorem ScalaRegion.deref_of_slot {w : Heap} {s r : Nat}
    (e : w.slots.get? s = some (some r)) : ScalaRegion.deref w s = some r := by
  unfold ScalaRegion.deref
  rw [e]

/-- Assigning over a slot that holds a null handle: the source is copied and
stored, nothing is released. -/
theorem ScalaRegion.assign_over_null (fuel : Nat) (w : Heap) (s : Nat) (src : RegionPtr)
    (e : w.slots.get? s = some none) :
    ScalaRegion.assign fuel w s src =
      some ((RegionPtr.copy w src).1.setSlot s (RegionPtr.copy w src).2) := by
  unfold ScalaRegion.assign
  rw [e]
  simp only [RegionPtr.clear_null, Option.map_some']

/-- Releasing a handle that is not the last one only decrements the count. -/
theorem RegionPtr.clear_keep (fuel : Nat) (w : Heap) (r : Nat) (hf : 0 < fuel)
    (hz : ((w.decRef r).region r).references_ ≠ 0) :
    RegionPtr.clear fuel w (some r) = some (w.decRef r, none) := by
  obtain ⟨k, rfl⟩ : ∃ k, fuel = k + 1 := ⟨fuel - 1, by omega⟩
  rw [RegionPtr.clear_succ, if_neg hz]

theorem Heap.setRegion_setRegion (w : Heap) (r : Nat) (x y : Region) :
    (w.setRegion r x).setRegion r y = w.setRegion r y := by
  simp [Heap.setRegion, List.set_set]

/-! ## Incrementing and decrementing a count -/

theorem RegionPtr.copy_some (w : Heap) (r : Nat) :
    RegionPtr.copy w (some r) = (w.incRef r, some r) := rfl

theorem RegionPtr.ofRaw_eq (w : Heap) (r : Nat) :
    RegionPtr.ofRaw w r = (w.incRef r, some r) := rfl

theorem Heap.incRef_slots (w : Heap) (r : Nat) : (w.incRef r).slots = w.slots := rfl

theorem Heap.incRef_pools (w : Heap) (r : Nat) : (w.incRef r).pools = w.pools := rfl

theorem Heap.incRef_pool (w : Heap) (r p : Nat) : (w.incRef r).pool p = w.pool p := rfl

theorem Heap.incRef_next_buffer (w : Heap) (r : Nat) :
    (w.incRef r).next_buffer = w.next_buffer := rfl

theorem Heap.incRef_regions_length (w : Heap) (r : Nat) :
    (w.incRef r).regions.length = w.regions.length := by
  simp [Heap.incRef, Heap.setRegion]

theorem Heap.incRef_region_same (w : Heap) (r : Nat) (h : r < w.regions.length) :
    (w.incRef r).region r =
      { w.region r with references_ := (w.region r).references_ + 1 } :=
  Heap.region_setRegion_same _ _ _ h

theorem Heap.incRef_region_ne (w : Heap) (r x : Nat) (h : x ≠ r) :
    (w.incRef r).region x = w.region x :=
  Heap.region_setRegion_ne _ _ _ _ h

theorem Heap.setSlot_region (w : Heap) (s : Nat) (h : RegionPtr) (x : Nat) :
    (w.setSlot s h).region x = w.region x := rfl

theorem Heap.setSlot_pool (w : Heap) (s : Nat) (h : RegionPtr) (p : Nat) :
    (w.setSlot s h).pool p = w.pool p := rfl

theorem Heap.decRef_setSlot (w : Heap) (s : Nat) (h : RegionPtr) (r : Nat) :
    (w.setSlot s h).decRef r = (w.decRef r).setSlot s h := rfl

theorem Heap.incRef_setSlot (w : Heap) (s : Nat) (h : RegionPtr) (r : Nat) :
    (w.setSlot s h).incRef r = (w.incRef r).setSlot s h := rfl

/-- Decrementing undoes an increment. -/
theorem Heap.decRef_incRef (w : Heap) (r : Nat) : (w.incRef r).decRef r = w := by
  by_cases h : r < w.regions.length
  · unfold Heap.decRef
    rw [Heap.incRef_region_same _ _ h, Heap.incRef, Heap.setRegion_setRegion]
    have : decrement ((w.region r).references_ + 1) = (w.region r).references_ := by
      simp [decrement]
    simp only [this]
    show ({ w with regions := w.regions.set r (w.regions.getD r default) } : Heap) = w
    rw [getD_set_self]
  · rw [Heap.decRef_out _ _ (by rw [Heap.incRef_regions_length]; omega), Heap.incRef,
      Heap.setRegion_out _ _ _ (by omega)]

/-- Destroying a temporary copy of a handle to a live region restores the
count. -/
theorem RegionPtr.clear_incRef (fuel : Nat) (w : Heap) (r : Nat) (hf : 0 < fuel)
    (hl : (w.region r).references_ ≠ 0) :
    RegionPtr.clear fuel (w.incRef r) (some r) = some (w, none) := by
  rw [RegionPtr.clear_keep fuel _ r hf, Heap.decRef_incRef]
  rw [Heap.decRef_incRef]; exact hl

theorem slot_lt_of_get {w : Heap} {s : Nat} {h : RegionPtr} (e : w.slots.get? s = some h) :
    s < w.slots.length := by
  by_contra hc
  rw [List.get?_eq_none.2 (by omega)] at e
  cases e

theorem Heap.incRef_decRef_comm (w : Heap) (r R : Nat) (h : r ≠ R) :
    (w.decRef R).incRef r = (w.incRef r).decRef R := by
  unfold Heap.incRef Heap.decRef
  rw [Heap.region_setRegion_ne _ _ _ _ h, Heap.region_setRegion_ne _ _ _ _ (Ne.symm h)]
  simp only [Heap.setRegion]
  rw [List.set_comm _ _ _ (Ne.symm h)]

theorem RegionPool.get_block_setSlot (w : Heap) (s : Nat) (h : RegionPtr) (p : Nat) :
    RegionPool.get_block (w.setSlot s h) p =
      ((RegionPool.get_block w p).1.setSlot s h, (RegionPool.get_block w p).2) := by
  unfold RegionPool.get_block
  rw [Heap.setSlot_pool]
  cases (w.pool p).free_blocks_.getLast? <;> rfl

theorem RegionPool.get_block_decRef (w : Heap) (R p : Nat) :
    RegionPool.get_block (w.decRef R) p =
      ((RegionPool.get_block w p).1.decRef R, (RegionPool.get_block w p).2) := by
  unfold RegionPool.get_block
  rw [Heap.decRef_pool]
  cases (w.pool p).free_blocks_.getLast? <;> rfl

theorem RegionPool.get_region_setSlot (w : Heap) (s : Nat) (h : RegionPtr) (p : Nat) :
    RegionPool.get_region (w.setSlot s h) p =
      ((RegionPool.get_region w p).1.setSlot s h, (RegionPool.get_region w p).2) := by
  unfold RegionPool.get_region
  rw [Heap.setSlot_pool]
  cases (w.pool p).free_regions_.getLast? with
  | some r => rfl
  | none =>
    simp only [RegionPool.new_region, Region.new, RegionPool.get_block_setSlot]
    rfl

theorem Heap.setPool_decRef (w : Heap) (p : Nat) (x : RegionPool) (R : Nat) :
    (w.decRef R).setPool p x = (w.setPool p x).decRef R := rfl

theorem Heap.push_region_decRef (w : Heap) (X : Region) (R : Nat) (hR : R < w.regions.length) :
    ({ w.decRef R with regions := (w.decRef R).regions ++ [X] } : Heap) =
      ({ w with regions := w.regions ++ [X] } : Heap).decRef R := by
  unfold Heap.decRef Heap.setRegion Heap.region
  simp only [List.getD_append _ _ _ _ hR]
  rw [List.set_append_left _ _ hR]

theorem RegionPool.get_region_decRef (w : Heap) (R p : Nat) (hR : R < w.regions.length)
    (hne : (w.pool p).free_regions_.getLast? ≠ some R) :
    RegionPool.get_region (w.decRef R) p =
      ((RegionPool.get_region w p).1.decRef R, (RegionPool.get_region w p).2) := by
  unfold RegionPool.get_region
  rw [Heap.decRef_pool]
  cases hl : (w.pool p).free_regions_.getLast? with
  | some r =>
    have hrR : r ≠ R := fun e => hne (by rw [hl, e])
    simp only [RegionPtr.ofRaw_eq, Heap.setPool_decRef, Heap.incRef_decRef_comm _ _ _ hrR]
  | none =>
    have hlen : (w.decRef R).regions.length = w.regions.length := Heap.decRef_regions_length w R
    simp only [RegionPool.new_region, Region.new, RegionPool.get_block_decRef,
      RegionPtr.ofRaw_eq]
    have hR1 : R < (RegionPool.get_block w p).1.regions.length := by
      rw [RegionPool.get_block_regions]; exact hR
    rw [Heap.push_region_decRef _ _ _ hR1, Heap.decRef_pool]
    simp only [Heap.setPool_decRef]
    have hlen2 : ((RegionPool.get_block w p).1.decRef R).regions.length =
        (RegionPool.get_block w p).1.regions.length := Heap.decRef_regions_length _ R
    rw [hlen2, Heap.incRef_decRef_comm _ _ _ (by rw [RegionPool.get_block_regions]; omega)]

/-- The claim of C14 as written fails when the slot holds the last handle: the
native call acquires a second region and leaves the old one on the free list,
whereas dropping first and then acquiring hands the old region back. -/
theorem refresh_counterexample :
    run 1 Heap.empty refreshScenario = some refreshHeap ∧
    (Region_nativeRefreshRegion 1 refreshHeap 0).map
      (fun w1 => (w1.slots, RegionPool.num_regions w1 0, (w1.pool 0).free_regions_)) =
      some ([some 1], 2, [0]) ∧
    (refreshDropThenGet 1 refreshHeap 0).map
      (fun w1 => (w1.slots, RegionPool.num_regions w1 0, (w1.pool 0).free_regions_)) =
      some ([some 0], 1, []) := by
  decide

theorem Heap.setSlot_setSlot (w : Heap) (s : Nat) (h k : RegionPtr) :
    (w.setSlot s h).setSlot s k = w.setSlot s k := by
  simp [Heap.setSlot, List.set_set]

theorem Heap.get_setSlot (w : Heap) (s : Nat) (h : RegionPtr) (hs : s < w.slots.length) :
    (w.setSlot s h).slots.get? s = some h := by
  simp [Heap.setSlot, hs]

/-- The native call when the slot's handle is not the last one to its region. -/
theorem Region_nativeRefreshRegion_shared (w : Heap) (s R N fuel : Nat) (hinv : Inv w)
    (hs : w.slots.get? s = some (some R)) (hc : 2 ≤ (w.region R).references_)
    (hN : (RegionPool.get_region w (w.region R).pool_).2 = some N) (hf : 0 < fuel) :
    Region_nativeRefreshRegion fuel w s =
      some (((RegionPool.get_region w (w.region R).pool_).1.setSlot s (some N)).decRef R) := by
  obtain ⟨hR, hRl⟩ :=
    InvWith.deref_live (show InvWith w [] from hinv) (ScalaRegion.deref_of_slot hs)
  have hP := (hinv.2.1 R hR).1
  obtain ⟨N', hN', hNlt, hN0, hN1, _, _, hoth, _, _, _⟩ :=
    RegionPool.get_region_spec w _ hinv hP
  have hNN : N' = N := Option.some.inj (hN'.symm.trans hN)
  subst hNN
  have hRN : R ≠ N' := fun e => hRl (e ▸ hN0)
  have hgR := hoth R hRN
  have hgs := RegionPool.get_region_slots w (w.region R).pool_
  have hRg : R < (RegionPool.get_region w (w.region R).pool_).1.regions.length :=
    lt_of_lt_of_le hR (RegionPool.get_region_length_le w _)
  unfold Region_nativeRefreshRegion
  rw [ScalaRegion.deref_of_slot hs]
  unfold Region.get_region
  simp only [hN]
  have eassign : ScalaRegion.assign fuel (RegionPool.get_region w (w.region R).pool_).1 s
      (some N') =
      some ((((RegionPool.get_region w (w.region R).pool_).1.setSlot s (some N')).decRef
        R).incRef N') := by
    unfold ScalaRegion.assign
    rw [hgs, hs]
    simp only [RegionPtr.copy_some]
    rw [RegionPtr.clear_keep fuel _ R hf, ← Heap.incRef_setSlot,
      Heap.incRef_decRef_comm _ _ _ (Ne.symm hRN)]
    · rfl
    · rw [Heap.decRef_region_same _ _ (by
        simpa [Heap.setSlot, Heap.incRef_regions_length] using hRg)]
      simp only [Heap.setSlot_region, Heap.incRef_region_ne _ _ _ hRN, hgR]
      simp only [decrement]
      split <;> omega
  rw [eassign]
  simp only
  rw [RegionPtr.clear_incRef fuel _ N' hf]
  · rfl
  · rw [Heap.decRef_region_ne _ _ _ (Ne.symm hRN), Heap.setSlot_region, hN1]
    exact one_ne_zero

theorem PoolsOk.getLast_dead {w : Heap} (h : PoolsOk w) {p r : Nat}
    (hl : (w.pool p).free_regions_.getLast? = some r) : (w.region r).references_ = 0 := by
  have hfree : (w.pool p).free_regions_.dropLast ++ [r] = (w.pool p).free_regions_ :=
    List.dropLast_append_getLast? r hl
  have hmem : r ∈ (w.pool p).free_regions_ := by rw [← hfree]; simp
  exact (h.free hmem).2.1

/-- Dropping first and acquiring afterwards, when the slot's handle is not the
last one to its region. -/
theorem refreshDropThenGet_shared (w : Heap) (s R N fuel : Nat) (hinv : Inv w)
    (hs : w.slots.get? s = some (some R)) (hc : 2 ≤ (w.region R).references_)
    (hN : (RegionPool.get_region w (w.region R).pool_).2 = some N) (hf : 0 < fuel) :
    refreshDropThenGet fuel w s =
      some (((RegionPool.get_region w (w.region R).pool_).1.setSlot s (some N)).decRef R) := by
  obtain ⟨hR, hRl⟩ :=
    InvWith.deref_live (show InvWith w [] from hinv) (ScalaRegion.deref_of_slot hs)
  have hP := (hinv.2.1 R hR).1
  obtain ⟨N', hN', hNlt, hN0, hN1, _, _, hoth, _, _, _⟩ :=
    RegionPool.get_region_spec w _ hinv hP
  have hNN : N' = N := Option.some.inj (hN'.symm.trans hN)
  subst hNN
  have hRN : R ≠ N' := fun e => hRl (e ▸ hN0)
  have hgs := RegionPool.get_region_slots w (w.region R).pool_
  have hslt := slot_lt_of_get hs
  have hdrop : Region_nativeClearRegion fuel w s = some ((w.setSlot s none).decRef R) := by
    rw [Region_nativeClearRegion_eq fuel w s (some R) hs, RegionPtr.clear_keep fuel _ R hf]
    · rfl
    · rw [Heap.decRef_region_same _ _ (by simpa [Heap.setSlot] using hR)]
      simp only [Heap.setSlot_region, decrement]
      split <;> omega
  have hget : RegionPool.get_region ((w.setSlot s none).decRef R) (w.region R).pool_ =
      ((((RegionPool.get_region w (w.region R).pool_).1.setSlot s none).decRef R),
        some N') := by
    rw [RegionPool.get_region_decRef (w.setSlot s none) R (w.region R).pool_
      (by simpa [Heap.setSlot] using hR)
      (fun e => hRl (hinv.2.getLast_dead e)), RegionPool.get_region_setSlot, hN]
  unfold refreshDropThenGet
  rw [ScalaRegion.deref_of_slot hs, hdrop]
  simp only [hget]
  rw [ScalaRegion.assign_over_null fuel _ s (some N') (by
    rw [Heap.decRef_setSlot]
    exact Heap.get_setSlot _ s none (by
      simpa [Heap.decRef, Heap.setRegion, hgs] using hslt))]
  simp only [RegionPtr.copy_some]
  rw [← Heap.incRef_setSlot, RegionPtr.clear_incRef fuel _ N' hf (by
    rw [Heap.setSlot_region, Heap.decRef_region_ne _ _ _ (Ne.symm hRN), Heap.setSlot_region,
      hN1]
    exact one_ne_zero)]
  simp only [Option.map_some', Heap.decRef_setSlot, Heap.setSlot_setSlot]

theorem Heap.parentSlots_setRegion_same (w : Heap) (r : Nat) (x : Region)
    (hp : x.parents_ = (w.region r).parents_) :
    (w.setRegion r x).parentSlots = w.parentSlots := by
  by_cases h : r < w.regions.length
  · have := Heap.parentSlots_setRegion w r x h
    rw [hp] at this
    omega
  · rw [Heap.setRegion_out _ _ _ (by omega)]

theorem Heap.parentSlots_incRef (w : Heap) (r : Nat) :
    (w.incRef r).parentSlots = w.parentSlots :=
  Heap.parentSlots_setRegion_same _ _ _ rfl

theorem RegionPool.get_region_parentSlots (w : Heap) (p : Nat) :
    (RegionPool.get_region w p).1.parentSlots = w.parentSlots := by
  unfold RegionPool.get_region
  cases hl : (w.pool p).free_regions_.getLast? with
  | some r =>
    simp only [RegionPtr.ofRaw_eq, Heap.parentSlots_incRef]
    rfl
  | none =>
    simp only [RegionPool.new_region_eq]
    simp [Heap.parentSlots, Heap.setPool, RegionPool.get_block_regions]

/-- The native call when the slot holds the last handle to its region: the
region acquired is stored, then the old region is recycled. -/
theorem Region_nativeRefreshRegion_last (w : Heap) (s R N : Nat) (hinv : Inv w)
    (hs : w.slots.get? s = some (some R)) (hc : (w.region R).references_ = 1)
    (hN : (RegionPool.get_region w (w.region R).pool_).2 = some N) :
    ∃ w1, (∀ fuel, w.parentSlots < fuel → Region_nativeRefreshRegion fuel w s = some w1) ∧
      w1.slots.get? s = some (some N) ∧ (w1.region N).references_ = 1 ∧
      (w1.pool (w.region R).pool_).free_regions_.getLast? = some R ∧
      (w1.region R).references_ = 0 := by
  obtain ⟨hR, hRl⟩ :=
    InvWith.deref_live (show InvWith w [] from hinv) (ScalaRegion.deref_of_slot hs)
  have hP := (hinv.2.1 R hR).1
  obtain ⟨N', hN', hNlt, hN0, hN1, _, _, hoth, _, _, _⟩ :=
    RegionPool.get_region_spec w _ hinv hP
  have hNN : N' = N := Option.some.inj (hN'.symm.trans hN)
  subst hNN
  have hRN : R ≠ N' := fun e => hRl (e ▸ hN0)
  have hgR := hoth R hRN
  have hgs := RegionPool.get_region_slots w (w.region R).pool_
  have hslt := slot_lt_of_get hs
  -- the invariant just before the old handle is released
  have hg : InvWith (RegionPool.get_region w (w.region R).pool_).1 [some N'] := by
    have := @InvWith.get_region w [] _ hinv hP
    rwa [hN] at this
  have hg2 : InvWith ((RegionPool.get_region w (w.region R).pool_).1.incRef N')
      [some N', some N'] := by
    have := @InvWith.copy _ (some N') [some N'] hg (fun _ => by simp)
    rwa [RegionPtr.copy_some] at this
  have hH : InvWith (((RegionPool.get_region w (w.region R).pool_).1.incRef N').setSlot s
      (some N')) [some R, some N'] :=
    hg2.setSlot (by rw [Heap.incRef_slots, hgs]; exact hs)
  obtain ⟨w1, hret, hcas, hpost, hi1⟩ := RegionPtr.clear_spec hH
  have hHR : ((((RegionPool.get_region w (w.region R).pool_).1.incRef N').setSlot s
      (some N')).region R) = w.region R := by
    rw [Heap.setSlot_region, Heap.incRef_region_ne _ _ _ hRN, hgR]
  obtain ⟨w2, _, _, _, hw1, hw2R, hPlt⟩ := RegionPtr.clear_last hH (by rw [hHR]; exact hc) hcas
  rw [hHR] at hw1 hw2R hPlt
  have hHN : ((((RegionPool.get_region w (w.region R).pool_).1.incRef N').setSlot s
      (some N')).region N').references_ = 2 := by
    rw [Heap.setSlot_region, Heap.incRef_region_same _ _ hNlt]
    simp [hN1]
  have hslot1 : w1.slots.get? s = some (some N') := by
    rw [hpost.1]
    exact Heap.get_setSlot _ s _ (by rw [Heap.incRef_slots, hgs]; exact hslt)
  have hN2 : (w1.region N').references_ = 2 := by
    have hle := (hpost.2.2.2.2.1 N').references_le
    rw [hHN] at hle
    have hacc := ((accurate_iff w1 [some N']).1 hi1.1 N').1
    have hmem : some N' ∈ w1.slots := List.get?_mem hslot1
    have hpos : 0 < w1.slots.count (some N') := List.count_pos_iff.2 hmem
    simp only [Heap.handleCount, List.count_singleton_self] at hacc
    omega
  have hN1lt : N' < w1.regions.length := by
    rw [hpost.2.2.1]
    simpa [Heap.setSlot, Heap.incRef_regions_length] using hNlt
  have hdec : ((w1.decRef N').region N').references_ = 1 := by
    rw [Heap.decRef_region_same _ _ hN1lt]
    simp [hN2, decrement]
  refine ⟨w1.decRef N', ?_, hslot1, hdec, ?_, ?_⟩
  · intro fuel hf
    unfold Region_nativeRefreshRegion
    rw [ScalaRegion.deref_of_slot hs]
    unfold Region.get_region
    simp only [hN]
    unfold ScalaRegion.assign
    rw [hgs, hs]
    simp only [RegionPtr.copy_some]
    rw [hret fuel (by
      rw [Heap.parentSlots_setSlot, Heap.parentSlots_incRef,
        RegionPool.get_region_parentSlots]
      exact hf)]
    simp only [Option.map_some']
    rw [RegionPtr.clear_keep fuel _ N' (by omega) (by rw [hdec]; exact one_ne_zero)]
    rfl
  · rw [Heap.decRef_pool, hw1, Heap.pushFreeRegion_pool_same _ _ _ hPlt]
    simp
  · rw [Heap.decRef_region_ne _ _ _ hRN, hw1, Heap.pushFreeRegion_region, hw2R]
    rfl

/-- Dropping first and acquiring afterwards, when the slot holds the last
handle to its region: the region comes back into the slot. -/
theorem refreshDropThenGet_last (w : Heap) (s R : Nat) (hinv : Inv w)
    (hs : w.slots.get? s = some (some R)) (hc : (w.region R).references_ = 1) :
    ∃ w2, (∀ fuel, w.parentSlots < fuel → refreshDropThenGet fuel w s = some w2) ∧
      w2.slots.get? s = some (some R) := by
  obtain ⟨hR, hRl⟩ :=
    InvWith.deref_live (show InvWith w [] from hinv) (ScalaRegion.deref_of_slot hs)
  have hslt := slot_lt_of_get hs
  obtain ⟨w1, hret, hcas, hpost, hi1⟩ := drop_slot_spec w s R hinv hs
  obtain ⟨wc, _, _, _, hw1, hwcR, hPlt⟩ :=
    RegionPtr.clear_last (InvWith.drop_slot hinv hs) (by rw [Heap.setSlot_region]; exact hc) hcas
  rw [Heap.setSlot_region] at hw1 hwcR hPlt
  have hlast : (w1.pool (w.region R).pool_).free_regions_.getLast? = some R := by
    rw [hw1, Heap.pushFreeRegion_pool_same _ _ _ hPlt]
    simp
  have hslot1 : w1.slots.get? s = some none := by
    rw [hpost.1]; exact Heap.get_setSlot _ s _ hslt
  have hR1 : R < w1.regions.length := by
    rw [hpost.2.2.1]; simpa [Heap.setSlot] using hR
  refine ⟨((w1.setPool (w.region R).pool_
      { w1.pool (w.region R).pool_ with
        free_regions_ := (w1.pool (w.region R).pool_).free_regions_.dropLast }).incRef
      R).setSlot s (some R), ?_, ?_⟩
  · intro fuel hf
    unfold refreshDropThenGet
    rw [ScalaRegion.deref_of_slot hs, hret fuel hf]
    simp only [RegionPool.get_region_pop _ _ _ hlast, RegionPtr.ofRaw_eq]
    rw [ScalaRegion.assign_over_null fuel ((w1.setPool (w.region R).pool_
      { w1.pool (w.region R).pool_ with
        free_regions_ := (w1.pool (w.region R).pool_).free_regions_.dropLast }).incRef
      R) s (some R) hslot1]
    simp only [RegionPtr.copy_some]
    rw [← Heap.incRef_setSlot, RegionPtr.clear_incRef fuel _ R (by omega) (by
      rw [Heap.setSlot_region, Heap.incRef_region_same _ _ (by
        simpa [Heap.setPool] using hR1)]
      simp)]
    rfl
  · exact Heap.get_setSlot _ s _ (by
      show s < w1.slots.length
      rw [hpost.1]; simpa [Heap.setSlot] using hslt)

/-- C14. The native call `nativeRefreshRegion` on a slot that holds region R
of pool P returns; it acquires a region N from P while the slot still holds
its handle, stores N in the slot and only then releases the old handle, so N
is the region `get_region` hands out in the initial memory, never R, and ends
with count 1.  When the slot's handle is not the last handle to R, the memory
produced equals the one produced by dropping the handle first and acquiring
afterwards.  When it is the last handle, R is recycled after the acquisition
and ends last on the free list of P, whereas dropping first and acquiring
afterwards hands R back into the slot. -/
theorem refresh_region (w : Heap) (s R : Nat) (hinv : Inv w)
    (hs : w.slots.get? s = some (some R)) :
    ∃ w1 N, (∀ fuel, w.parentSlots < fuel → Region_nativeRefreshRegion fuel w s = some w1) ∧
      (RegionPool.get_region w (w.region R).pool_).2 = some N ∧ N ≠ R ∧
      w1.slots.get? s = some (some N) ∧ (w1.region N).references_ = 1 ∧
      (2 ≤ (w.region R).references_ →
        (∀ fuel, w.parentSlots < fuel → refreshDropThenGet fuel w s = some w1) ∧
        (w1.region R).references_ = (w.region R).references_ - 1) ∧
      ((w.region R).references_ = 1 →
        (w1.pool (w.region R).pool_).free_regions_.getLast? = some R ∧
        (w1.region R).references_ = 0 ∧
        ∃ w2, (∀ fuel, w.parentSlots < fuel → refreshDropThenGet fuel w s = some w2) ∧
          w2.slots.get? s = some (some R) ∧ w2 ≠ w1) := by
  obtain ⟨hR, hRl⟩ :=
    InvWith.deref_live (show InvWith w [] from hinv) (ScalaRegion.deref_of_slot hs)
  have hP := (hinv.2.1 R hR).1
  obtain ⟨N, hN, hNlt, hN0, hN1, _, _, hoth, _, _, _⟩ :=
    RegionPool.get_region_spec w _ hinv hP
  have hRN : R ≠ N := fun e => hRl (e ▸ hN0)
  have hgs := RegionPool.get_region_slots w (w.region R).pool_
  have hslt := slot_lt_of_get hs
  have hRg : R < (RegionPool.get_region w (w.region R).pool_).1.regions.length :=
    lt_of_lt_of_le hR (RegionPool.get_region_length_le w _)
  by_cases hc : (w.region R).references_ = 1
  · obtain ⟨w1, hret, hslot, hcount, hlast, hz⟩ :=
      Region_nativeRefreshRegion_last w s R N hinv hs hc hN
    refine ⟨w1, N, hret, hN, Ne.symm hRN, hslot, hcount, fun h2 => by omega, fun _ => ?_⟩
    obtain ⟨w2, hret2, hslot2⟩ := refreshDropThenGet_last w s R hinv hs hc
    refine ⟨hlast, hz, w2, hret2, hslot2, ?_⟩
    intro e
    rw [e, hslot] at hslot2
    exact hRN (Option.some.inj (Option.some.inj hslot2)).symm
  · have h2 : 2 ≤ (w.region R).references_ := by omega
    refine ⟨((RegionPool.get_region w (w.region R).pool_).1.setSlot s (some N)).decRef R, N,
      fun fuel hf => Region_nativeRefreshRegion_shared w s R N fuel hinv hs h2 hN (by omega),
      hN, Ne.symm hRN, ?_, ?_, fun _ => ⟨fun fuel hf =>
        refreshDropThenGet_shared w s R N fuel hinv hs h2 hN (by omega), ?_⟩,
      fun h1 => absurd h1 hc⟩
    · rw [Heap.decRef_setSlot]
      exact Heap.get_setSlot _ s _ (by
        simpa [Heap.decRef, Heap.setRegion, hgs] using hslt)
    · rw [Heap.decRef_region_ne _ _ _ (Ne.symm hRN), Heap.setSlot_region, hN1]
    · rw [Heap.decRef_region_same _ _ (by simpa [Heap.setSlot] using hRg),
        Heap.setSlot_region, hoth R hRN]
      simp only [decrement]
      split <;> omega

theorem refresh_region_witness :
    Inv refreshHeap ∧ refreshHeap.slots.get? 0 = some (some 0) ∧
    ∃ w1 N, (∀ fuel, refreshHeap.parentSlots < fuel →
        Region_nativeRefreshRegion fuel refreshHeap 0 = some w1) ∧
      (RegionPool.get_region refreshHeap (refreshHeap.region 0).pool_).2 = some N ∧ N ≠ 0 :=
  ⟨by decide, by decide,
    (refresh_region refreshHeap 0 0 (by decide) (by decide)).imp
      (fun _ h => h.imp (fun _ h2 => ⟨h2.1, h2.2.1, h2.2.2.1⟩))⟩

/-! ## Taking a block from the pool -/

theorem RegionPool.get_block_setRegion (w : Heap) (r : Nat) (X : Region) (p : Nat) :
    RegionPool.get_block (w.setRegion r X) p =
      ((RegionPool.get_block w p).1.setRegion r X, (RegionPool.get_block w p).2) := by
  unfold RegionPool.get_block
  rw [Heap.pool_setRegion]
  cases (w.pool p).free_blocks_.getLast? <;> rfl

/-- `allocate_new_block` in one step: the block comes from the pool, the region
is rewritten once. -/
theorem Region.allocate_new_block_eq (w : Heap) (r n : Nat) (hr : r < w.regions.length) :
    Region.allocate_new_block w r n =
      ((RegionPool.get_block w (w.region r).pool_).1.setRegion r
        { w.region r with
          used_blocks_ := (w.region r).used_blocks_ ++ [(w.region r).current_block_],
          current_block_ := (RegionPool.get_block w (w.region r).pool_).2,
          block_offset_ := n },
       { buffer := (RegionPool.get_block w (w.region r).pool_).2, offset := 0 }) := by
  simp only [Region.allocate_new_block, RegionPool.get_block_setRegion]
  rw [Heap.region_setRegion_same _ _ _ (by rw [RegionPool.get_block_regions]; exact hr),
    Heap.setRegion_setRegion]

theorem RegionPool.get_block_next_buffer_le (w : Heap) (p : Nat) :
    w.next_buffer ≤ (RegionPool.get_block w p).1.next_buffer := by
  unfold RegionPool.get_block
  split
  · simp
  · exact le_refl _

/-- `get_block` when the free-block list is not empty: its last element. -/
theorem RegionPool.get_block_pop (w : Heap) (p b : Nat) (hp : p < w.pools.length)
    (hl : (w.pool p).free_blocks_.getLast? = some b) :
    (RegionPool.get_block w p).2 = b ∧
    ((RegionPool.get_block w p).1.pool p).free_blocks_ = (w.pool p).free_blocks_.dropLast ∧
    (w.pool p).free_blocks_ = ((RegionPool.get_block w p).1.pool p).free_blocks_ ++ [b] ∧
    (RegionPool.get_block w p).1.next_buffer = w.next_buffer := by
  unfold RegionPool.get_block
  rw [hl]
  simp only [Heap.pool_setPool_same _ _ _ hp]
  exact ⟨trivial, trivial, (List.dropLast_append_getLast? b hl).symm, rfl⟩

/-- `get_block` when the free-block list is empty: a buffer never handed out
before. -/
theorem RegionPool.get_block_fresh (w : Heap) (p : Nat)
    (hl : (w.pool p).free_blocks_ = []) :
    (RegionPool.get_block w p).2 = w.next_buffer ∧
    (RegionPool.get_block w p).1.pools = w.pools ∧
    (RegionPool.get_block w p).1.next_buffer = w.next_buffer + 1 := by
  unfold RegionPool.get_block
  rw [hl]
  exact ⟨rfl, rfl, rfl⟩

/-- C15. Block rollover: `allocate_new_block(n)` on an allocated region R of an
allocated pool appends the former `current_block_` as the last element of
`used_blocks_` (earlier entries unchanged), installs as `current_block_` the
block `get_block` returns, sets `block_offset_` to n and returns offset 0 of
the new current block; that block is the last element of `free_blocks_` when
the list is not empty (`num_free_blocks()` goes down by 1) and a buffer never
handed out before otherwise (`num_free_blocks()` stays 0).  Nothing else
changes, and `allocate(a, n)` takes this path for every n ≤ BLOCK_SIZE that
does not fit in the current block. -/
theorem block_rollover (w : Heap) (r n : Nat) (hr : r < w.regions.length)
    (hp : (w.region r).pool_ < w.pools.length) :
    ((Region.allocate_new_block w r n).1.region r).used_blocks_ =
      (w.region r).used_blocks_ ++ [(w.region r).current_block_] ∧
    ((Region.allocate_new_block w r n).1.region r).current_block_ =
      (RegionPool.get_block w (w.region r).pool_).2 ∧
    ((Region.allocate_new_block w r n).1.region r).block_offset_ = n ∧
    (Region.allocate_new_block w r n).2 =
      { buffer := ((Region.allocate_new_block w r n).1.region r).current_block_,
        offset := 0 } ∧
    (∀ b, (w.pool (w.region r).pool_).free_blocks_.getLast? = some b →
      ((Region.allocate_new_block w r n).1.region r).current_block_ = b ∧
      (w.pool (w.region r).pool_).free_blocks_ =
        ((Region.allocate_new_block w r n).1.pool (w.region r).pool_).free_blocks_ ++ [b] ∧
      RegionPool.num_free_blocks (Region.allocate_new_block w r n).1 (w.region r).pool_ + 1 =
        RegionPool.num_free_blocks w (w.region r).pool_ ∧
      (Region.allocate_new_block w r n).1.next_buffer = w.next_buffer) ∧
    ((w.pool (w.region r).pool_).free_blocks_ = [] →
      ((Region.allocate_new_block w r n).1.region r).current_block_ = w.next_buffer ∧
      (Region.allocate_new_block w r n).1.next_buffer = w.next_buffer + 1 ∧
      RegionPool.num_free_blocks (Region.allocate_new_block w r n).1 (w.region r).pool_ = 0) ∧
    (Region.allocate_new_block w r n).1.region r =
      { w.region r with
        used_blocks_ := ((Region.allocate_new_block w r n).1.region r).used_blocks_,
        current_block_ := ((Region.allocate_new_block w r n).1.region r).current_block_,
        block_offset_ := n } ∧
    (∀ x, x ≠ r → (Region.allocate_new_block w r n).1.region x = w.region x) ∧
    (∀ p, ((Region.allocate_new_block w r n).1.pool p).regions_ = (w.pool p).regions_ ∧
      ((Region.allocate_new_block w r n).1.pool p).free_regions_ =
        (w.pool p).free_regions_) ∧
    (∀ p, p ≠ (w.region r).pool_ → (Region.allocate_new_block w r n).1.pool p = w.pool p) ∧
    (Region.allocate_new_block w r n).1.slots = w.slots ∧
    (∀ a, n ≤ REGION_BLOCK_SIZE →
      ¬ ((Region.align w r a).region r).block_offset_ + n ≤ REGION_BLOCK_SIZE →
      Region.allocate w r a n = Region.allocate_new_block (Region.align w r a) r n) := by
  have hrg : r < (RegionPool.get_block w (w.region r).pool_).1.regions.length := by
    rw [RegionPool.get_block_regions]; exact hr
  have hreg : (Region.allocate_new_block w r n).1.region r =
      { w.region r with
        used_blocks_ := (w.region r).used_blocks_ ++ [(w.region r).current_block_],
        current_block_ := (RegionPool.get_block w (w.region r).pool_).2,
        block_offset_ := n } := by
    rw [Region.allocate_new_block_eq w r n hr, Heap.region_setRegion_same _ _ _ hrg]
  have hpool : ∀ p, (Region.allocate_new_block w r n).1.pool p =
      (RegionPool.get_block w (w.region r).pool_).1.pool p := by
    intro p; rw [Region.allocate_new_block_eq w r n hr]; rfl
  have hnb : (Region.allocate_new_block w r n).1.next_buffer =
      (RegionPool.get_block w (w.region r).pool_).1.next_buffer := by
    rw [Region.allocate_new_block_eq w r n hr]; rfl
  refine ⟨by rw [hreg], by rw [hreg], by rw [hreg], ?_, ?_, ?_, by rw [hreg], ?_, ?_, ?_, ?_,
    ?_⟩
  · rw [hreg, Region.allocate_new_block_eq w r n hr]
  · intro b hl
    obtain ⟨h1, h2, h3, h4⟩ := RegionPool.get_block_pop w _ b hp hl
    refine ⟨by rw [hreg]; exact h1, by rw [hpool]; exact h3, ?_, by rw [hnb]; exact h4⟩
    unfold RegionPool.num_free_blocks
    rw [hpool, h3]
    simp
  · intro hl
    obtain ⟨h1, h2, h3⟩ := RegionPool.get_block_fresh w _ hl
    refine ⟨by rw [hreg]; exact h1, by rw [hnb]; exact h3, ?_⟩
    unfold RegionPool.num_free_blocks
    rw [hpool]
    unfold Heap.pool
    rw [h2]
    show (w.pool (w.region r).pool_).free_blocks_.length = 0
    rw [hl]; rfl
  · intro x hx
    rw [Region.allocate_new_block_eq w r n hr, Heap.region_setRegion_ne _ _ _ _ hx,
      RegionPool.get_block_region]
  · intro p; rw [hpool]; exact RegionPool.get_block_pool w _ p
  · intro p hne; rw [hpool]; exact RegionPool.get_block_pool_other w _ p hne
  · rw [Region.allocate_new_block_eq w r n hr]
    exact RegionPool.get_block_slots w _
  · intro a hn hfit
    unfold Region.allocate
    rw [if_neg (by omega)]
    simp only [hfit, ↓reduceIte]

theorem block_rollover_witness :
    0 < demoParent.regions.length ∧ (demoParent.region 0).pool_ < demoParent.pools.length ∧
    ((Region.allocate_new_block demoParent 0 16).1.region 0).used_blocks_ =
      (demoParent.region 0).used_blocks_ ++ [(demoParent.region 0).current_block_] ∧
    ((Region.allocate_new_block demoParent 0 16).1.region 0).current_block_ =
      (RegionPool.get_block demoParent (demoParent.region 0).pool_).2 :=
  ⟨by decide, by decide,
    (block_rollover demoParent 0 16 (by decide) (by decide)).1,
    (block_rollover demoParent 0 16 (by decide) (by decide)).2.1⟩

/-- C16. Oversized allocation frame: `allocate_big_chunk(n)` on an allocated
region R appends exactly one chunk of n bytes to `big_chunks_` and returns its
base; `current_block_`, `block_offset_`, `used_blocks_` and every other field
of R, every other region, every pool (`free_blocks_`, `free_regions_`,
`regions_`) and every slot are unchanged; and `allocate(a, n)` takes this path
for every n > BLOCK_SIZE. -/
theorem oversized_allocation_frame (w : Heap) (r n : Nat) (hr : r < w.regions.length) :
    (Region.allocate_big_chunk w r n).1.region r =
      { w.region r with
        big_chunks_ := (w.region r).big_chunks_ ++ [{ id := w.next_buffer, size := n }] } ∧
    (Region.allocate_big_chunk w r n).2 = { buffer := w.next_buffer, offset := 0 } ∧
    ((Region.allocate_big_chunk w r n).1.region r).big_chunks_.length =
      (w.region r).big_chunks_.length + 1 ∧
    ((Region.allocate_big_chunk w r n).1.region r).current_block_ =
      (w.region r).current_block_ ∧
    ((Region.allocate_big_chunk w r n).1.region r).block_offset_ =
      (w.region r).block_offset_ ∧
    ((Region.allocate_big_chunk w r n).1.region r).used_blocks_ = (w.region r).used_blocks_ ∧
    (∀ x, x ≠ r → (Region.allocate_big_chunk w r n).1.region x = w.region x) ∧
    (Region.allocate_big_chunk w r n).1.pools = w.pools ∧
    (Region.allocate_big_chunk w r n).1.slots = w.slots ∧
    (Region.allocate_big_chunk w r n).1.next_buffer = w.next_buffer + 1 ∧
    (∀ a, n > REGION_BLOCK_SIZE →
      Region.allocate w r a n = Region.allocate_big_chunk w r n) := by
  have hreg : (Region.allocate_big_chunk w r n).1.region r =
      { w.region r with
        big_chunks_ := (w.region r).big_chunks_ ++ [{ id := w.next_buffer, size := n }] } := by
    simp only [Region.allocate_big_chunk]
    exact Heap.region_setRegion_same _ _ _ hr
  refine ⟨hreg, rfl, by rw [hreg]; simp, by rw [hreg], by rw [hreg], by rw [hreg], ?_, rfl,
    rfl, rfl, ?_⟩
  · intro x hx
    simp only [Region.allocate_big_chunk]
    exact Heap.region_setRegion_ne _ _ _ _ hx
  · intro a hn
    unfold Region.allocate
    rw [if_pos hn]

theorem oversized_allocation_frame_witness :
    0 < demoParent.regions.length ∧
    (Region.allocate_big_chunk demoParent 0 70000).1.region 0 =
      { demoParent.region 0 with
        big_chunks_ := (demoParent.region 0).big_chunks_ ++
          [{ id := demoParent.next_buffer, size := 70000 }] } :=
  ⟨by decide, (oversized_allocation_frame demoParent 0 70000 (by decide)).1⟩

/-! ## The bump offset stays within the block -/

theorem offsetsOk_iff (w : Heap) :
    OffsetsOk w ↔ ∀ r, (w.region r).block_offset_ ≤ REGION_BLOCK_SIZE := by
  constructor
  · intro h r
    by_cases hr : r < w.regions.length
    · exact h r hr
    · rw [Heap.region_default _ _ (by omega)]; exact Nat.zero_le _
  · intro h r _; exact h r

theorem OffsetsOk.setRegion {w : Heap} (h : OffsetsOk w) (r : Nat) (x : Region)
    (hx : x.block_offset_ ≤ REGION_BLOCK_SIZE) : OffsetsOk (w.setRegion r x) := by
  rw [offsetsOk_iff] at h ⊢
  intro y
  by_cases hr : r < w.regions.length
  · rw [Heap.region_setRegion _ _ _ _ hr]
    split
    · exact hx
    · exact h y
  · rw [Heap.setRegion_out _ _ _ (by omega)]; exact h y

theorem OffsetsOk.congr_off {w w1 : Heap} (h : OffsetsOk w)
    (e : ∀ x, (w1.region x).block_offset_ = (w.region x).block_offset_) : OffsetsOk w1 := by
  rw [offsetsOk_iff] at h ⊢
  intro y; rw [e]; exact h y

theorem OffsetsOk.setPool_off {w : Heap} (h : OffsetsOk w) (p : Nat) (x : RegionPool) :
    OffsetsOk (w.setPool p x) :=
  h.congr_off (fun _ => rfl)

theorem OffsetsOk.setSlot_off {w : Heap} (h : OffsetsOk w) (s : Nat) (x : RegionPtr) :
    OffsetsOk (w.setSlot s x) :=
  h.congr_off (fun _ => rfl)

theorem OffsetsOk.incRef_off {w : Heap} (h : OffsetsOk w) (r : Nat) : OffsetsOk (w.incRef r) :=
  h.setRegion r _ ((offsetsOk_iff w).1 h r)

theorem OffsetsOk.decRef_off {w : Heap} (h : OffsetsOk w) (r : Nat) : OffsetsOk (w.decRef r) :=
  h.setRegion r _ ((offsetsOk_iff w).1 h r)

theorem OffsetsOk.copy_off {w : Heap} (h : OffsetsOk w) (p : RegionPtr) :
    OffsetsOk (RegionPtr.copy w p).1 := by
  cases p with
  | none => exact h
  | some r => exact h.incRef_off r

theorem OffsetsOk.clear_fields_off {w : Heap} (h : OffsetsOk w) (r : Nat) :
    OffsetsOk (Region.clear_fields w r) := by
  rw [Region.clear_fields_eq]
  exact (h.setRegion r _ (Nat.zero_le _)).setPool_off _ _

theorem OffsetsOk.pushFreeRegion_off {w : Heap} (h : OffsetsOk w) (p r : Nat) :
    OffsetsOk (w.pushFreeRegion p r) :=
  h.setPool_off _ _

theorem Cascade.offsetsOk {w w1 : Heap} {ps : List RegionPtr} (h : Cascade w ps w1) :
    OffsetsOk w → OffsetsOk w1 := by
  induction h with
  | nil w => exact id
  | null _ ih => exact ih
  | keep _ _ ih => exact fun h => ih (h.decRef_off _)
  | recycle _ _ _ ih1 ih2 =>
    exact fun h => ih2 ((ih1 ((h.decRef_off _).clear_fields_off _)).pushFreeRegion_off _ _)

theorem OffsetsOk.clear_off {w w1 : Heap} {p p1 : RegionPtr} {fuel : Nat} (h : OffsetsOk w)
    (e : RegionPtr.clear fuel w p = some (w1, p1)) : OffsetsOk w1 :=
  (RegionPtr.clear_cascade fuel w w1 p p1 e).offsetsOk h

theorem OffsetsOk.clearAll_off {w w1 : Heap} {ps : List RegionPtr} {fuel : Nat} (h : OffsetsOk w)
    (e : RegionPtr.clearAll fuel w ps = some w1) : OffsetsOk w1 :=
  (RegionPtr.clearAll_cascade fuel ps w w1 e).offsetsOk h

theorem OffsetsOk.get_block_off {w : Heap} (h : OffsetsOk w) (p : Nat) :
    OffsetsOk (RegionPool.get_block w p).1 :=
  h.congr_off (fun x => by rw [RegionPool.get_block_region])

theorem OffsetsOk.get_region_off {w : Heap} (h : OffsetsOk w) (p : Nat) :
    OffsetsOk (RegionPool.get_region w p).1 := by
  unfold RegionPool.get_region
  split
  · rw [offsetsOk_iff] at h ⊢
    intro x
    rw [RegionPool.new_region_region]
    split
    · exact Nat.zero_le _
    · exact h x
  · rw [RegionPtr.ofRaw_eq]
    exact (h.setPool_off _ _).incRef_off _

theorem isAlignment_iff (a : Nat) : isAlignment a = true ↔ ∃ k, k < 64 ∧ a = 2 ^ k := by
  simp [isAlignment]

/-- Rounding an offset within the block up to a power of two that does not
exceed the block size stays within the block. -/
theorem align_le_block (off a : Nat) (ha : isAlignment a = true)
    (hle : a ≤ REGION_BLOCK_SIZE) (hoff : off ≤ REGION_BLOCK_SIZE) :
    (off + a - 1) / a * a ≤ REGION_BLOCK_SIZE := by
  obtain ⟨k, _, rfl⟩ := (isAlignment_iff a).1 ha
  have hB : REGION_BLOCK_SIZE = 2 ^ 16 := by decide
  rw [hB] at hle hoff ⊢
  have hk : k ≤ 16 := (Nat.pow_le_pow_iff_right (by decide : 1 < 2)).1 hle
  have hpos : 0 < 2 ^ k := Nat.pow_pos (by decide)
  have hsplit : 2 ^ 16 = 2 ^ (16 - k) * 2 ^ k := by
    rw [← Nat.pow_add]; congr 1; omega
  have hdiv : (off + 2 ^ k - 1) / 2 ^ k ≤ 2 ^ (16 - k) := by
    apply Nat.le_of_lt_succ
    rw [Nat.div_lt_iff_lt_mul hpos, Nat.succ_mul, ← hsplit]
    omega
  calc (off + 2 ^ k - 1) / 2 ^ k * 2 ^ k ≤ 2 ^ (16 - k) * 2 ^ k :=
        Nat.mul_le_mul_right _ hdiv
    _ = 2 ^ 16 := hsplit.symm

theorem OffsetsOk.align_off {w : Heap} (h : OffsetsOk w) (r a : Nat) (ha : isAlignment a = true)
    (hle : a ≤ REGION_BLOCK_SIZE) : OffsetsOk (Region.align w r a) :=
  h.setRegion r _ (align_le_block _ a ha hle ((offsetsOk_iff w).1 h r))

theorem OffsetsOk.allocate_big_chunk_off {w : Heap} (h : OffsetsOk w) (r n : Nat) :
    OffsetsOk (Region.allocate_big_chunk w r n).1 := by
  simp only [Region.allocate_big_chunk]
  have h1 : OffsetsOk ({ w with next_buffer := w.next_buffer + 1 } : Heap) :=
    h.congr_off (fun _ => rfl)
  exact h1.setRegion r _ ((offsetsOk_iff w).1 h r)

theorem OffsetsOk.allocate_off {w : Heap} (h : OffsetsOk w) (r a n : Nat)
    (hr : r < w.regions.length) : OffsetsOk (Region.allocate w r a n).1 := by
  unfold Region.allocate
  split
  · exact h.allocate_big_chunk_off r n
  · next hn =>
    simp only
    split
    · next hfit =>
      simp only [Region.align, Heap.setRegion_setRegion]
      refine h.setRegion r _ ?_
      simpa [Region.align] using hfit
    · rw [Region.allocate_new_block_eq _ r n (by simpa [Region.align, Heap.setRegion] using hr)]
      simp only [Region.align, RegionPool.get_block_setRegion, Heap.setRegion_setRegion]
      exact (h.get_block_off _).setRegion r _ (by simpa using hn)

theorem OffsetsOk.assign_slot_off {w w1 : Heap} {s : Nat} {src : RegionPtr} {fuel : Nat}
    (h : OffsetsOk w) (e : ScalaRegion.assign fuel w s src = some w1) : OffsetsOk w1 := by
  unfold ScalaRegion.assign at e
  split at e
  · cases e
  · simp only [Option.map_eq_some', Prod.exists, exists_and_right, exists_eq_right] at e
    obtain ⟨p1, e⟩ := e
    exact ((h.copy_off src).setSlot_off s _).clear_off e

theorem OffsetsOk.assign_parent_off {w w1 : Heap} {r i : Nat} {src : RegionPtr} {fuel : Nat}
    (h : OffsetsOk w) (e : Region.assign_parent fuel w r i src = some w1) : OffsetsOk w1 := by
  unfold Region.assign_parent at e
  split at e
  · simp only [Option.map_eq_some', Prod.exists, exists_and_right, exists_eq_right] at e
    obtain ⟨p1, e⟩ := e
    have h1 := h.copy_off src
    refine OffsetsOk.clear_off ?_ e
    exact h1.setRegion r _ ((offsetsOk_iff _).1 h1 r)
  · cases e

theorem OffsetsOk.set_num_parents_off {w w1 : Heap} {r n : Nat} {fuel : Nat}
    (h : OffsetsOk w) (e : Region.set_num_parents fuel w r n = some w1) : OffsetsOk w1 := by
  unfold Region.set_num_parents at e
  simp only at e
  split at e
  · refine OffsetsOk.clearAll_off ?_ e
    exact h.setRegion r _ ((offsetsOk_iff _).1 h r)
  · simp only [Option.some.injEq] at e
    subst e
    exact h.setRegion r _ ((offsetsOk_iff _).1 h r)

theorem OffsetsOk.set_parent_reference_off {w w1 : Heap} {r i : Nat} {p : RegionPtr} {fuel : Nat}
    (h : OffsetsOk w) (e : Region.set_parent_reference fuel w r p i = some w1) :
    OffsetsOk w1 := by
  unfold Region.set_parent_reference at e
  split at e
  · cases e
  · next w2 e2 =>
    simp only [Option.map_eq_some', Prod.exists, exists_and_right, exists_eq_right] at e
    obtain ⟨p1, e⟩ := e
    exact (h.assign_parent_off e2).clear_off e

theorem OffsetsOk.get_parent_reference_off {w w1 : Heap} {r i : Nat} {p : RegionPtr}
    (h : OffsetsOk w) (e : Region.get_parent_reference w r i = some (w1, p)) :
    OffsetsOk w1 := by
  unfold Region.get_parent_reference at e
  split at e
  · simp only [Option.some.injEq] at e
    have := h.copy_off ((w.region r).parents_.getD i none)
    rwa [e] at this
  · cases e

theorem OffsetsOk.new_parent_reference_off {w w1 : Heap} {r i : Nat} {p : RegionPtr} {fuel : Nat}
    (h : OffsetsOk w) (e : Region.new_parent_reference fuel w r i = some (w1, p)) :
    OffsetsOk w1 := by
  simp only [Region.new_parent_reference, Region.get_region] at e
  split at e
  · cases e
  · next w2 e2 =>
    simp only [Option.some.injEq, Prod.mk.injEq] at e
    rw [← e.1]
    exact (h.get_region_off _).assign_parent_off e2

theorem OffsetsOk.own_step_off {w w1 : Heap} {this pool i : Nat} (h : OffsetsOk w)
    (e : ScalaRegionPool.own_step this pool w i = some w1) : OffsetsOk w1 := by
  unfold ScalaRegionPool.own_step at e
  split at e
  · cases e
  · next r _ =>
    split at e
    · simp only [Option.some.injEq] at e
      subst e
      refine OffsetsOk.setPool_off (OffsetsOk.setPool_off ?_ _ _) _ _
      exact h.setRegion r _ ((offsetsOk_iff _).1 h r)
    · simp only [Option.some.injEq] at e
      subst e; exact h

theorem OffsetsOk.own_loop_off {this pool : Nat} (is : List Nat) :
    ∀ {w w1 : Heap}, OffsetsOk w → ScalaRegionPool.own_loop this pool w is = some w1 →
      OffsetsOk w1 := by
  induction is with
  | nil =>
    intro w w1 h e
    simp only [ScalaRegionPool.own_loop, Option.some.injEq] at e
    subst e; exact h
  | cons i is ih =>
    intro w w1 h e
    simp only [ScalaRegionPool.own_loop] at e
    split at e
    · cases e
    · next w2 e2 => exact ih (h.own_step_off e2) e

theorem OffsetsOk.nativeRefreshRegion_off {w w1 : Heap} {s fuel : Nat} (h : OffsetsOk w)
    (e : Region_nativeRefreshRegion fuel w s = some w1) : OffsetsOk w1 := by
  unfold Region_nativeRefreshRegion at e
  split at e
  · cases e
  · next r _ =>
    simp only [Region.get_region] at e
    split at e
    · cases e
    · next w2 e2 =>
      simp only [Option.map_eq_some', Prod.exists, exists_and_right, exists_eq_right] at e
      obtain ⟨p1, e⟩ := e
      exact ((h.get_region_off _).assign_slot_off e2).clear_off e

theorem OffsetsOk.nativeGetParentReferenceInto_off {w w1 : Heap} {s s2 i fuel : Nat}
    (h : OffsetsOk w) (e : Region_nativeGetParentReferenceInto fuel w s s2 i = some w1) :
    OffsetsOk w1 := by
  unfold Region_nativeGetParentReferenceInto at e
  split at e
  · cases e
  · next r _ =>
    split at e
    · cases e
    · next wa tmp ea =>
      have ha := h.get_parent_reference_off ea
      split at e
      · cases e
      · next wb eb =>
        have hb := ha.assign_slot_off eb
        split at e
        · cases e
        · next wc pc ec =>
          have hc := hb.clear_off ec
          split at e
          · split at e
            · cases e
            · next r1 _ =>
              split at e
              · cases e
              · next wd tmp2 ed =>
                have hd := hc.new_parent_reference_off ed
                split at e
                · cases e
                · next we ee =>
                  simp only [Option.map_eq_some', Prod.exists, exists_and_right,
                    exists_eq_right] at e
                  obtain ⟨p1, e⟩ := e
                  exact (hd.assign_slot_off ee).clear_off e
          · simp only [Option.some.injEq] at e
            subst e; exact hc

/-- Every native call other than an `align` above the block size keeps the
bump offsets within the block. -/
theorem OffsetsOk.step_off {w w1 : Heap} {fuel : Nat} {op : Op} (hinv : Inv w)
    (h : OffsetsOk w) (hop : op.alignsWithinBlock = true)
    (e : step fuel w op = some w1) : OffsetsOk w1 := by
  have h0 : InvWith w [] := hinv
  cases op with
  | poolCtor =>
    simp only [hail.step, Option.some.injEq] at e
    subst e; exact h.congr_off (fun _ => rfl)
  | regionCtor p =>
    simp only [hail.step, Region_nativeCtor] at e
    split at e
    · simp only [Option.some.injEq] at e
      subst e
      exact (h.get_region_off p).congr_off (fun _ => rfl)
    · cases e
  | initEmpty =>
    simp only [hail.step, Option.some.injEq] at e
    subst e; exact h.congr_off (fun _ => rfl)
  | clearButKeepMem s =>
    simp only [hail.step, Region_clearButKeepMem] at e
    split at e
    · cases e
    · next r _ => exact (Region.clear_is_cascade fuel w w1 r e).offsetsOk (h.clear_fields_off r)
  | align s a =>
    simp only [hail.step, Region_nativeAlign] at e
    split at e
    · next ha =>
      split at e
      · cases e
      · next r _ =>
        simp only [Option.some.injEq] at e
        subst e
        exact h.align_off r a ha (by simpa [Op.alignsWithinBlock] using hop)
    · cases e
  | alignAllocate s a n =>
    simp only [hail.step, Region_nativeAlignAllocate] at e
    split at e
    · split at e
      · simp at e
      · next r hd =>
        simp only [Option.map_some', Option.some.injEq] at e
        subst e
        exact h.allocate_off r a n (h0.deref_live hd).1
    · cases e
  | allocate s n =>
    simp only [hail.step, Region_nativeAllocate] at e
    split at e
    · simp at e
    · next r hd =>
      simp only [Option.map_some', Option.some.injEq] at e
      subst e
      exact h.allocate_off r 1 n (h0.deref_live hd).1
  | reference s s2 =>
    simp only [hail.step, Region_nativeReference] at e
    split at e
    · next r h2 _ _ =>
      simp only [Option.some.injEq] at e
      subst e
      have h1 := h.copy_off h2
      exact h1.setRegion r _ ((offsetsOk_iff _).1 h1 r)
    · cases e
  | refreshRegion s => exact h.nativeRefreshRegion_off e
  | clearRegion s =>
    simp only [hail.step, Region_nativeClearRegion] at e
    exact h.assign_slot_off e
  | setNumParents s n =>
    simp only [hail.step, Region_nativeSetNumParents] at e
    split at e
    · cases e
    · exact h.set_num_parents_off e
  | setParentReference s s2 i =>
    simp only [hail.step, Region_nativeSetParentReference] at e
    split at e
    · next r h2 _ _ => exact (h.copy_off h2).set_parent_reference_off e
    · cases e
  | getParentReferenceInto s s2 i => exact h.nativeGetParentReferenceInto_off e
  | clearParentReference s i =>
    simp only [hail.step, Region_nativeClearParentReference, Region.clear_parent_reference] at e
    split at e
    · cases e
    · exact h.assign_parent_off e
  | own this pool =>
    simp only [hail.step, ScalaRegionPool.own] at e
    split at e
    · split at e
      · cases e
      · exact OffsetsOk.own_loop_off _ h e
    · cases e

theorem OffsetsOk.after_run_off {fuel : Nat} (ops : List Op) :
    ∀ {w w1 : Heap}, Inv w → OffsetsOk w → (∀ op ∈ ops, op.alignsWithinBlock = true) →
      run fuel w ops = some w1 → OffsetsOk w1 := by
  induction ops with
  | nil =>
    intro w w1 _ h _ e
    simp only [run, Option.some.injEq] at e
    subst e; exact h
  | cons op ops ih =>
    intro w w1 hinv h hops e
    simp only [run] at e
    split at e
    · cases e
    · next w2 e2 =>
      exact ih (hinv.step e2) (h.step_off hinv (hops op (List.mem_cons_self _ _)) e2)
        (fun o ho => hops o (List.mem_cons_of_mem _ ho)) e

/-- C17. Offset bound: in every memory reached from the empty one by native
calls whose `align(a)` requests have a ≤ BLOCK_SIZE (a a power of two), every
region, live ones included, has 0 ≤ `block_offset_` ≤ BLOCK_SIZE. -/
theorem offset_bound (fuel : Nat) (ops : List Op) (w : Heap)
    (hops : ∀ op ∈ ops, op.alignsWithinBlock = true)
    (e : run fuel Heap.empty ops = some w) :
    ∀ r, 0 ≤ (w.region r).block_offset_ ∧ (w.region r).block_offset_ ≤ REGION_BLOCK_SIZE :=
  fun r => ⟨Nat.zero_le _,
    (offsetsOk_iff w).1 (OffsetsOk.after_run_off ops Inv.empty (by decide) hops e) r⟩

/-- The claim of C17 as written fails for an alignment above the block size:
after one byte has been allocated, `align(2^17)` moves the offset of a live
region to 131072, beyond the 65536 bytes of its block. -/
theorem offset_bound_counterexample :
    isAlignment 131072 = true ∧ REGION_BLOCK_SIZE = 65536 ∧
    (run 1 Heap.empty offsetScenario).map
      (fun w => ((w.region 0).references_, (w.region 0).block_offset_)) =
      some (1, 131072) := by
  decide

theorem offset_bound_witness :
    (∀ op ∈ parentScenario, op.alignsWithinBlock = true) ∧
    run 2 Heap.empty parentScenario = some parentScenarioHeap ∧
    (parentScenarioHeap.region 1).block_offset_ ≤ REGION_BLOCK_SIZE :=
  ⟨by decide, by decide,
    ((offset_bound 2 parentScenario parentScenarioHeap (by decide) (by decide)) 1).2⟩

/-! ## Who holds which buffer -/

theorem Heap.count_buffers (w : Heap) (b : Nat) : w.buffers.count b = w.bufferCount b := by
  simp [Heap.buffers, Heap.bufferCount, List.count_flatten, List.map_map, Function.comp_def]

theorem buffersOk_iff (w : Heap) :
    BuffersOk w ↔ ∀ b, w.bufferCount b ≤ if b < w.next_buffer then 1 else 0 := by
  unfold BuffersOk
  rw [List.nodup_iff_count_le_one]
  constructor
  · rintro ⟨h1, h2⟩ b
    rw [← Heap.count_buffers]
    split
    · exact h1 b
    · next hb =>
      have : b ∉ w.buffers := fun hm => hb (h2 b hm)
      rw [List.count_eq_zero_of_not_mem this]
  · intro h
    refine ⟨fun b => ?_, fun b hm => ?_⟩
    · have := h b
      rw [← Heap.count_buffers] at this
      split at this <;> omega
    · by_contra hb
      have := h b
      rw [if_neg hb, ← Heap.count_buffers] at this
      have hpos := List.count_pos_iff.2 hm
      omega

theorem Heap.bufferCount_setRegion (w : Heap) (r : Nat) (x : Region) (b : Nat)
    (hr : r < w.regions.length) :
    (w.setRegion r x).bufferCount b + (w.region r).buffers.count b =
      w.bufferCount b + x.buffers.count b := by
  have := sum_map_set (fun R => R.buffers.count b) w.regions r x default hr
  simp only [Heap.bufferCount, Heap.setRegion, Heap.region]
  simp only at this
  omega

theorem Heap.bufferCount_setRegion_same (w : Heap) (r : Nat) (x : Region) (b : Nat)
    (hx : x.buffers = (w.region r).buffers) :
    (w.setRegion r x).bufferCount b = w.bufferCount b := by
  by_cases hr : r < w.regions.length
  · have := Heap.bufferCount_setRegion w r x b hr
    rw [hx] at this
    omega
  · rw [Heap.setRegion_out _ _ _ (by omega)]

theorem Heap.bufferCount_setPool (w : Heap) (p : Nat) (x : RegionPool) (b : Nat)
    (hp : p < w.pools.length) :
    (w.setPool p x).bufferCount b + (w.pool p).free_blocks_.count b =
      w.bufferCount b + x.free_blocks_.count b := by
  have := sum_map_set (fun P => P.free_blocks_.count b) w.pools p x default hp
  simp only [Heap.bufferCount, Heap.setPool, Heap.pool]
  simp only at this
  omega

theorem Heap.bufferCount_setPool_same (w : Heap) (p : Nat) (x : RegionPool) (b : Nat)
    (hx : x.free_blocks_ = (w.pool p).free_blocks_) :
    (w.setPool p x).bufferCount b = w.bufferCount b := by
  by_cases hp : p < w.pools.length
  · have := Heap.bufferCount_setPool w p x b hp
    rw [hx] at this
    omega
  · rw [Heap.setPool_out _ _ _ (by omega)]

theorem Heap.bufferCount_push_region (w : Heap) (R : Region) (b : Nat) :
    ({ w with regions := w.regions ++ [R] } : Heap).bufferCount b =
      w.bufferCount b + R.buffers.count b := by
  simp [Heap.bufferCount, Nat.add_assoc]

theorem Heap.bufferCount_push_pool (w : Heap) (P : RegionPool) (b : Nat) :
    ({ w with pools := w.pools ++ [P] } : Heap).bufferCount b =
      w.bufferCount b + P.free_blocks_.count b := by
  simp [Heap.bufferCount]; omega

theorem getD_le_sum_map {α : Type} (f : α → Nat) (l : List α) (i : Nat) (d : α)
    (h : i < l.length) : f (l.getD i d) ≤ (l.map f).sum := by
  induction l generalizing i with
  | nil => simp at h
  | cons a l ih =>
    cases i with
    | zero => simp
    | succ i =>
      have := ih i (by simpa using h)
      simp only [List.getD_cons_succ, List.map_cons, List.sum_cons]
      omega

theorem Heap.buffers_count_le (w : Heap) (r b : Nat) (hr : r < w.regions.length) :
    (w.region r).buffers.count b ≤ w.bufferCount b := by
  have := getD_le_sum_map (fun R => R.buffers.count b) w.regions r default hr
  simp only [Heap.bufferCount, Heap.region]
  simp only at this
  omega

theorem Heap.free_blocks_count_le (w : Heap) (p b : Nat) (hp : p < w.pools.length) :
    (w.pool p).free_blocks_.count b ≤ w.bufferCount b := by
  have := getD_le_sum_map (fun P => P.free_blocks_.count b) w.pools p default hp
  simp only [Heap.bufferCount, Heap.pool]
  simp only at this
  omega

/-! ## Steps that hand no buffer to a second owner -/

theorem BufStep.refl_buf (w : Heap) : BufStep w w :=
  ⟨le_refl _, fun b => by simp⟩

theorem BufStep.trans_buf {w w1 w2 : Heap} (h1 : BufStep w w1) (h2 : BufStep w1 w2) :
    BufStep w w2 := by
  refine ⟨le_trans h1.1 h2.1, fun b => ?_⟩
  have a1 := h1.2 b
  have a2 := h2.2 b
  have := h1.1
  have := h2.1
  split at a1 <;> split at a2 <;> split <;> omega

theorem BufStep.of_eq {w w1 : Heap} (hn : w1.next_buffer = w.next_buffer)
    (hc : ∀ b, w1.bufferCount b = w.bufferCount b) : BufStep w w1 :=
  ⟨by omega, fun b => by rw [hc b]; omega⟩

theorem BufStep.of_le {w w1 : Heap} (hn : w1.next_buffer = w.next_buffer)
    (hc : ∀ b, w1.bufferCount b ≤ w.bufferCount b) : BufStep w w1 :=
  ⟨by omega, fun b => by have := hc b; omega⟩

theorem BuffersOk.of_step {w w1 : Heap} (h : BuffersOk w) (hs : BufStep w w1) :
    BuffersOk w1 := by
  rw [buffersOk_iff] at h ⊢
  intro b
  have a1 := h b
  have a2 := hs.2 b
  have := hs.1
  split at a1 <;> split at a2 <;> split <;> omega

theorem BufStep.setRegion_same_buf (w : Heap) (r : Nat) (x : Region)
    (hx : x.buffers = (w.region r).buffers) : BufStep w (w.setRegion r x) :=
  BufStep.of_eq rfl (fun b => Heap.bufferCount_setRegion_same w r x b hx)

theorem BufStep.setPool_same (w : Heap) (p : Nat) (x : RegionPool)
    (hx : x.free_blocks_ = (w.pool p).free_blocks_) : BufStep w (w.setPool p x) :=
  BufStep.of_eq rfl (fun b => Heap.bufferCount_setPool_same w p x b hx)

theorem BufStep.setSlot_buf (w : Heap) (s : Nat) (h : RegionPtr) : BufStep w (w.setSlot s h) :=
  BufStep.of_eq rfl (fun _ => rfl)

theorem BufStep.incRef_buf (w : Heap) (r : Nat) : BufStep w (w.incRef r) :=
  BufStep.setRegion_same_buf w r _ rfl

theorem BufStep.decRef_buf (w : Heap) (r : Nat) : BufStep w (w.decRef r) :=
  BufStep.setRegion_same_buf w r _ rfl

theorem BufStep.copy_buf (w : Heap) (p : RegionPtr) : BufStep w (RegionPtr.copy w p).1 := by
  cases p with
  | none => exact BufStep.refl_buf w
  | some r => exact BufStep.incRef_buf w r

theorem BufStep.pushFreeRegion_buf (w : Heap) (p r : Nat) : BufStep w (w.pushFreeRegion p r) :=
  BufStep.setPool_same w p _ rfl

theorem Region.buffers_count (R : Region) (b : Nat) :
    R.buffers.count b = [R.current_block_].count b + R.used_blocks_.count b +
      (R.big_chunks_.map Chunk.id).count b := by
  simp [Region.buffers, List.count_cons, List.count_append]
  omega

/-- Clearing a region hands its used blocks to the pool and drops its chunks. -/
theorem BufStep.clear_fields_buf (w : Heap) (r : Nat) : BufStep w (Region.clear_fields w r) := by
  apply BufStep.of_le
  · rw [Region.clear_fields_eq]; rfl
  · intro b
    rw [Region.clear_fields_eq]
    have hu : w.regions.length ≤ r → (w.region r).used_blocks_ = [] := by
      intro h; rw [Heap.region_default _ _ h]; rfl
    have h1 : (w.setRegion r
        { w.region r with
          block_offset_ := 0, used_blocks_ := [], big_chunks_ := [],
          parents_ := [] }).bufferCount b + (w.region r).used_blocks_.count b
        ≤ w.bufferCount b := by
      by_cases hr : r < w.regions.length
      · have := Heap.bufferCount_setRegion w r
          { w.region r with
            block_offset_ := 0, used_blocks_ := [], big_chunks_ := [], parents_ := [] } b hr
        simp only [Region.buffers_count, List.count_nil, List.map_nil] at this
        dsimp only at this ⊢
        omega
      · rw [Heap.setRegion_out _ _ _ (by omega), hu (by omega)]
        simp
    by_cases hp : (w.region r).pool_ < w.pools.length
    · have := Heap.bufferCount_setPool (w.setRegion r
          { w.region r with
            block_offset_ := 0, used_blocks_ := [], big_chunks_ := [], parents_ := [] })
        (w.region r).pool_
        { w.pool (w.region r).pool_ with
          free_blocks_ := (w.pool (w.region r).pool_).free_blocks_ ++
            (w.region r).used_blocks_ } b hp
      rw [Heap.pool_setRegion] at this
      simp only [List.count_append] at this
      dsimp only at this h1 ⊢
      omega
    · rw [Heap.setPool_out _ _ _ (by simpa [Heap.setRegion] using Nat.le_of_not_lt hp)]
      omega

theorem Cascade.bufStep {w w1 : Heap} {ps : List RegionPtr} (h : Cascade w ps w1) :
    BufStep w w1 := by
  induction h with
  | nil w => exact BufStep.refl_buf w
  | null _ ih => exact ih
  | keep _ _ ih => exact (BufStep.decRef_buf _ _).trans_buf ih
  | recycle _ _ _ ih1 ih2 =>
    exact (((BufStep.decRef_buf _ _).trans_buf (BufStep.clear_fields_buf _ _)).trans_buf ih1).trans_buf
      ((BufStep.pushFreeRegion_buf _ _ _).trans_buf ih2)

theorem BufStep.clear_buf {w w1 : Heap} {p p1 : RegionPtr} {fuel : Nat}
    (e : RegionPtr.clear fuel w p = some (w1, p1)) : BufStep w w1 :=
  (RegionPtr.clear_cascade fuel w w1 p p1 e).bufStep

theorem BufStep.clearAll_buf {w w1 : Heap} {ps : List RegionPtr} {fuel : Nat}
    (e : RegionPtr.clearAll fuel w ps = some w1) : BufStep w w1 :=
  (RegionPtr.clearAll_cascade fuel ps w w1 e).bufStep

/-- The block `get_block` returns leaves the memory, or is a buffer never
handed out before. -/
theorem RegionPool.get_block_count (w : Heap) (p b : Nat) :
    (RegionPool.get_block w p).1.bufferCount b + [(RegionPool.get_block w p).2].count b =
      w.bufferCount b +
        (if w.next_buffer ≤ b ∧ b < (RegionPool.get_block w p).1.next_buffer then 1 else 0) := by
  unfold RegionPool.get_block
  cases hl : (w.pool p).free_blocks_.getLast? with
  | none =>
    simp only
    show w.bufferCount b + [w.next_buffer].count b = _
    by_cases hb : b = w.next_buffer
    · subst hb; simp
    · have : ¬ (w.next_buffer ≤ b ∧ b < w.next_buffer + 1) := by omega
      simp [hb, this, List.count_singleton, Ne.symm hb]
  | some blk =>
    simp only
    have hp : p < w.pools.length := by
      by_contra hc
      rw [Heap.pool_default _ _ (by omega)] at hl
      cases hl
    have hfree : (w.pool p).free_blocks_.dropLast ++ [blk] = (w.pool p).free_blocks_ :=
      List.dropLast_append_getLast? blk hl
    have := Heap.bufferCount_setPool w p
      { w.pool p with free_blocks_ := (w.pool p).free_blocks_.dropLast } b hp
    simp only at this
    have h2 : (w.pool p).free_blocks_.count b =
        (w.pool p).free_blocks_.dropLast.count b + [blk].count b := by
      conv_lhs => rw [← hfree]
      rw [List.count_append]
    have h3 : ¬ (w.next_buffer ≤ b ∧ b < (w.setPool p
        { w.pool p with free_blocks_ := (w.pool p).free_blocks_.dropLast }).next_buffer) := by
      show ¬ (w.next_buffer ≤ b ∧ b < w.next_buffer)
      omega
    rw [if_neg h3]
    omega

theorem RegionPool.get_block_bufStep (w : Heap) (p : Nat) :
    BufStep w (RegionPool.get_block w p).1 :=
  ⟨RegionPool.get_block_next_buffer_le w p, fun b => by
    have := RegionPool.get_block_count w p b
    omega⟩

theorem Region.buffers_fresh (p c : Nat) :
    ({ pool_ := p, references_ := 1, block_offset_ := 0, current_block_ := c,
       big_chunks_ := [], used_blocks_ := [], parents_ := [] } : Region).buffers = [c] := rfl

theorem BufStep.new_region_buf (w : Heap) (p : Nat) : BufStep w (RegionPool.new_region w p).1 := by
  refine ⟨?_, fun b => ?_⟩
  · rw [RegionPool.new_region_eq]
    exact RegionPool.get_block_next_buffer_le w p
  · rw [RegionPool.new_region_eq]
    simp only
    rw [Heap.bufferCount_setPool_same]
    · have h1 := Heap.bufferCount_push_region (RegionPool.get_block w p).1
        { pool_ := p, references_ := 1, block_offset_ := 0,
          current_block_ := (RegionPool.get_block w p).2,
          big_chunks_ := [], used_blocks_ := [], parents_ := [] } b
      rw [RegionPool.get_block_regions, Region.buffers_fresh] at h1
      have h2 := RegionPool.get_block_count w p b
      have h3 : ((RegionPool.new_region w p).1).next_buffer =
          (RegionPool.get_block w p).1.next_buffer := by
        rw [RegionPool.new_region_eq]; rfl
      rw [RegionPool.new_region_eq] at h3
      simp only at h3
      rw [h3, h1]
      exact le_of_eq h2
    · rfl

theorem BufStep.get_region_buf (w : Heap) (p : Nat) : BufStep w (RegionPool.get_region w p).1 := by
  unfold RegionPool.get_region
  split
  · exact BufStep.new_region_buf w p
  · rw [RegionPtr.ofRaw_eq]
    refine BufStep.trans_buf (BufStep.setPool_same w p _ ?_) (BufStep.incRef_buf _ _)
    rfl

theorem BufStep.allocate_new_block_buf (w : Heap) (r n : Nat) (hr : r < w.regions.length) :
    BufStep w (Region.allocate_new_block w r n).1 := by
  rw [Region.allocate_new_block_eq w r n hr]
  refine ⟨RegionPool.get_block_next_buffer_le w _, fun b => ?_⟩
  have h1 := Heap.bufferCount_setRegion (RegionPool.get_block w (w.region r).pool_).1 r
    { w.region r with
      used_blocks_ := (w.region r).used_blocks_ ++ [(w.region r).current_block_],
      current_block_ := (RegionPool.get_block w (w.region r).pool_).2,
      block_offset_ := n } b (by rw [RegionPool.get_block_regions]; exact hr)
  rw [RegionPool.get_block_region] at h1
  have h2 := RegionPool.get_block_count w (w.region r).pool_ b
  simp only [Region.buffers_count, List.count_append] at h1
  simp only [Heap.next_buffer_setRegion]
  dsimp only at h1 h2 ⊢
  omega

theorem BufStep.allocate_big_chunk_buf (w : Heap) (r n : Nat) :
    BufStep w (Region.allocate_big_chunk w r n).1 := by
  have e1 : ∀ b, (Region.allocate_big_chunk w r n).1.bufferCount b =
      (w.setRegion r
        { w.region r with
          big_chunks_ := (w.region r).big_chunks_ ++
            [{ id := w.next_buffer, size := n }] }).bufferCount b := fun _ => rfl
  have e2 : (Region.allocate_big_chunk w r n).1.next_buffer = w.next_buffer + 1 := rfl
  refine ⟨by rw [e2]; exact Nat.le_succ _, fun b => ?_⟩
  rw [e1, e2]
  by_cases hr : r < w.regions.length
  · have h1 := Heap.bufferCount_setRegion w r
      { w.region r with
        big_chunks_ := (w.region r).big_chunks_ ++ [{ id := w.next_buffer, size := n }] } b hr
    simp only [Region.buffers_count, List.map_append, List.count_append, List.map_cons,
      List.map_nil] at h1
    by_cases hb : b = w.next_buffer
    · subst hb
      simp only [List.count_singleton_self] at h1
      have : w.next_buffer ≤ w.next_buffer ∧ w.next_buffer < w.next_buffer + 1 := by omega
      rw [if_pos this]
      dsimp only
      omega
    · have h4 : [w.next_buffer].count b = 0 :=
        List.count_eq_zero_of_not_mem (by simpa using hb)
      rw [h4] at h1
      dsimp only
      omega
  · rw [Heap.setRegion_out _ _ _ (Nat.le_of_not_lt hr)]
    omega

theorem BufStep.align_buf (w : Heap) (r a : Nat) : BufStep w (Region.align w r a) :=
  BufStep.setRegion_same_buf w r _ rfl

theorem BufStep.allocate_buf (w : Heap) (r a n : Nat) (hr : r < w.regions.length) :
    BufStep w (Region.allocate w r a n).1 := by
  unfold Region.allocate
  split
  · exact BufStep.allocate_big_chunk_buf w r n
  · simp only
    split
    · exact (BufStep.align_buf w r a).trans_buf (BufStep.setRegion_same_buf _ r _ rfl)
    · exact (BufStep.align_buf w r a).trans_buf
        (BufStep.allocate_new_block_buf _ r n (by simpa [Region.align, Heap.setRegion] using hr))

theorem BufStep.setRegion_parents_buf (w : Heap) (r : Nat) (ps : List RegionPtr) :
    BufStep w (w.setRegion r { w.region r with parents_ := ps }) :=
  BufStep.setRegion_same_buf w r _ rfl

theorem BufStep.assign_slot_buf {w w1 : Heap} {s : Nat} {src : RegionPtr} {fuel : Nat}
    (e : ScalaRegion.assign fuel w s src = some w1) : BufStep w w1 := by
  unfold ScalaRegion.assign at e
  split at e
  · cases e
  · simp only [Option.map_eq_some', Prod.exists, exists_and_right, exists_eq_right] at e
    obtain ⟨p1, e⟩ := e
    exact ((BufStep.copy_buf w src).trans_buf (BufStep.setSlot_buf _ s _)).trans_buf (BufStep.clear_buf e)

theorem BufStep.assign_parent_buf {w w1 : Heap} {r i : Nat} {src : RegionPtr} {fuel : Nat}
    (e : Region.assign_parent fuel w r i src = some w1) : BufStep w w1 := by
  unfold Region.assign_parent at e
  split at e
  · simp only [Option.map_eq_some', Prod.exists, exists_and_right, exists_eq_right] at e
    obtain ⟨p1, e⟩ := e
    exact ((BufStep.copy_buf w src).trans_buf (BufStep.setRegion_parents_buf _ r _)).trans_buf
      (BufStep.clear_buf e)
  · cases e

theorem BufStep.set_num_parents_buf {w w1 : Heap} {r n : Nat} {fuel : Nat}
    (e : Region.set_num_parents fuel w r n = some w1) : BufStep w w1 := by
  unfold Region.set_num_parents at e
  simp only at e
  split at e
  · exact (BufStep.setRegion_parents_buf w r _).trans_buf (BufStep.clearAll_buf e)
  · simp only [Option.some.injEq] at e
    subst e
    exact BufStep.setRegion_parents_buf w r _

theorem BufStep.set_parent_reference_buf {w w1 : Heap} {r i : Nat} {p : RegionPtr} {fuel : Nat}
    (e : Region.set_parent_reference fuel w r p i = some w1) : BufStep w w1 := by
  unfold Region.set_parent_reference at e
  split at e
  · cases e
  · next w2 e2 =>
    simp only [Option.map_eq_some', Prod.exists, exists_and_right, exists_eq_right] at e
    obtain ⟨p1, e⟩ := e
    exact (BufStep.assign_parent_buf e2).trans_buf (BufStep.clear_buf e)

theorem BufStep.get_parent_reference_buf {w w1 : Heap} {r i : Nat} {p : RegionPtr}
    (e : Region.get_parent_reference w r i = some (w1, p)) : BufStep w w1 := by
  unfold Region.get_parent_reference at e
  split at e
  · simp only [Option.some.injEq] at e
    have := BufStep.copy_buf w ((w.region r).parents_.getD i none)
    rwa [e] at this
  · cases e

theorem BufStep.new_parent_reference_buf {w w1 : Heap} {r i : Nat} {p : RegionPtr} {fuel : Nat}
    (e : Region.new_parent_reference fuel w r i = some (w1, p)) : BufStep w w1 := by
  simp only [Region.new_parent_reference, Region.get_region] at e
  split at e
  · cases e
  · next w2 e2 =>
    simp only [Option.some.injEq, Prod.mk.injEq] at e
    rw [← e.1]
    exact (BufStep.get_region_buf w _).trans_buf (BufStep.assign_parent_buf e2)

theorem BufStep.own_step_buf {w w1 : Heap} {this pool i : Nat}
    (e : ScalaRegionPool.own_step this pool w i = some w1) : BufStep w w1 := by
  unfold ScalaRegionPool.own_step at e
  split at e
  · cases e
  · next r _ =>
    split at e
    · simp only [Option.some.injEq] at e
      subst e
      refine BufStep.trans_buf (BufStep.trans_buf (BufStep.setRegion_same_buf w r _ ?_)
        (BufStep.setPool_same _ this _ ?_)) (BufStep.setPool_same _ pool _ ?_)
      · rfl
      · rfl
      · rfl
    · simp only [Option.some.injEq] at e
      subst e; exact BufStep.refl_buf w

theorem BufStep.own_loop_buf {this pool : Nat} (is : List Nat) :
    ∀ {w w1 : Heap}, ScalaRegionPool.own_loop this pool w is = some w1 → BufStep w w1 := by
  induction is with
  | nil =>
    intro w w1 e
    simp only [ScalaRegionPool.own_loop, Option.some.injEq] at e
    subst e; exact BufStep.refl_buf w
  | cons i is ih =>
    intro w w1 e
    simp only [ScalaRegionPool.own_loop] at e
    split at e
    · cases e
    · next w2 e2 => exact (BufStep.own_step_buf e2).trans_buf (ih e)

theorem BufStep.nativeRefreshRegion_buf {w w1 : Heap} {s fuel : Nat}
    (e : Region_nativeRefreshRegion fuel w s = some w1) : BufStep w w1 := by
  unfold Region_nativeRefreshRegion at e
  split at e
  · cases e
  · next r _ =>
    simp only [Region.get_region] at e
    split at e
    · cases e
    · next w2 e2 =>
      simp only [Option.map_eq_some', Prod.exists, exists_and_right, exists_eq_right] at e
      obtain ⟨p1, e⟩ := e
      exact ((BufStep.get_region_buf w _).trans_buf (BufStep.assign_slot_buf e2)).trans_buf
        (BufStep.clear_buf e)

theorem BufStep.nativeGetParentReferenceInto_buf {w w1 : Heap} {s s2 i fuel : Nat}
    (e : Region_nativeGetParentReferenceInto fuel w s s2 i = some w1) : BufStep w w1 := by
  unfold Region_nativeGetParentReferenceInto at e
  split at e
  · cases e
  · next r _ =>
    split at e
    · cases e
    · next wa tmp ea =>
      have ha := BufStep.get_parent_reference_buf ea
      split at e
      · cases e
      · next wb eb =>
        have hb := ha.trans_buf (BufStep.assign_slot_buf eb)
        split at e
        · cases e
        · next wc pc ec =>
          have hc := hb.trans_buf (BufStep.clear_buf ec)
          split at e
          · split at e
            · cases e
            · next r1 _ =>
              split at e
              · cases e
              · next wd tmp2 ed =>
                have hd := hc.trans_buf (BufStep.new_parent_reference_buf ed)
                split at e
                · cases e
                · next we ee =>
                  simp only [Option.map_eq_some', Prod.exists, exists_and_right,
                    exists_eq_right] at e
                  obtain ⟨p1, e⟩ := e
                  exact (hd.trans_buf (BufStep.assign_slot_buf ee)).trans_buf (BufStep.clear_buf e)
          · simp only [Option.some.injEq] at e
            subst e; exact hc

/-- No native call hands a buffer to a second owner. -/
theorem BufStep.step_buf {w w1 : Heap} {fuel : Nat} {op : Op} (hinv : Inv w)
    (e : step fuel w op = some w1) : BufStep w w1 := by
  have h0 : InvWith w [] := hinv
  cases op with
  | poolCtor =>
    simp only [hail.step, Option.some.injEq] at e
    subst e
    exact BufStep.of_eq rfl (fun b => by
      rw [RegionPool_nativeCtor, Heap.bufferCount_push_pool]; simp)
  | regionCtor p =>
    simp only [hail.step, Region_nativeCtor] at e
    split at e
    · simp only [Option.some.injEq] at e
      subst e
      exact (BufStep.get_region_buf w p).trans_buf (BufStep.of_eq rfl (fun _ => rfl))
    · cases e
  | initEmpty =>
    simp only [hail.step, Option.some.injEq] at e
    subst e; exact BufStep.of_eq rfl (fun _ => rfl)
  | clearButKeepMem s =>
    simp only [hail.step, Region_clearButKeepMem] at e
    split at e
    · cases e
    · next r _ =>
      exact (BufStep.clear_fields_buf w r).trans_buf (Region.clear_is_cascade fuel w w1 r e).bufStep
  | align s a =>
    simp only [hail.step, Region_nativeAlign] at e
    split at e
    · split at e
      · cases e
      · next r _ =>
        simp only [Option.some.injEq] at e
        subst e
        exact BufStep.align_buf w r a
    · cases e
  | alignAllocate s a n =>
    simp only [hail.step, Region_nativeAlignAllocate] at e
    split at e
    · split at e
      · simp at e
      · next r hd =>
        simp only [Option.map_some', Option.some.injEq] at e
        subst e
        exact BufStep.allocate_buf w r a n (h0.deref_live hd).1
    · cases e
  | allocate s n =>
    simp only [hail.step, Region_nativeAllocate] at e
    split at e
    · simp at e
    · next r hd =>
      simp only [Option.map_some', Option.some.injEq] at e
      subst e
      exact BufStep.allocate_buf w r 1 n (h0.deref_live hd).1
  | reference s s2 =>
    simp only [hail.step, Region_nativeReference] at e
    split at e
    · next r h2 _ _ =>
      simp only [Option.some.injEq] at e
      subst e
      exact (BufStep.copy_buf w h2).trans_buf (BufStep.setRegion_parents_buf _ r _)
    · cases e
  | refreshRegion s => exact BufStep.nativeRefreshRegion_buf e
  | clearRegion s =>
    simp only [hail.step, Region_nativeClearRegion] at e
    exact BufStep.assign_slot_buf e
  | setNumParents s n =>
    simp only [hail.step, Region_nativeSetNumParents] at e
    split at e
    · cases e
    · exact BufStep.set_num_parents_buf e
  | setParentReference s s2 i =>
    simp only [hail.step, Region_nativeSetParentReference] at e
    split at e
    · next r h2 _ _ => exact (BufStep.copy_buf w h2).trans_buf (BufStep.set_parent_reference_buf e)
    · cases e
  | getParentReferenceInto s s2 i => exact BufStep.nativeGetParentReferenceInto_buf e
  | clearParentReference s i =>
    simp only [hail.step, Region_nativeClearParentReference, Region.clear_parent_reference] at e
    split at e
    · cases e
    · exact BufStep.assign_parent_buf e
  | own this pool =>
    simp only [hail.step, ScalaRegionPool.own] at e
    split at e
    · split at e
      · cases e
      · exact BufStep.own_loop_buf _ e
    · cases e

theorem BuffersOk.empty_buf : BuffersOk Heap.empty := by decide

/-- In every memory a host can bring about, no buffer is held twice. -/
theorem Reachable.buffersOk {w : Heap} (h : Reachable w) : BuffersOk w := by
  induction h with
  | init => exact BuffersOk.empty_buf
  | step fuel op hr e ih => exact ih.of_step (BufStep.step_buf hr.inv e)

/-! ## Allocations of one region do not overlap -/

theorem Region.handedOut_contains {R : Region} {x : Addr × Nat} (h : R.handedOut x) :
    R.contains x := by
  rcases h with ⟨h1, _, h3⟩ | ⟨h1, h2⟩ | h
  · exact Or.inl ⟨Or.inl h1, h3⟩
  · exact Or.inl ⟨Or.inr h1, h2⟩
  · exact Or.inr h

theorem Region.handedOut_mem {R : Region} {x : Addr × Nat} (h : R.handedOut x) :
    x.1.buffer ∈ R.buffers := by
  unfold Region.buffers
  rcases h with ⟨h1, _, _⟩ | ⟨h1, _⟩ | ⟨c, hc, hid, _⟩
  · rw [h1]; exact List.mem_cons_self _ _
  · exact List.mem_cons_of_mem _ (List.mem_append_left _ h1)
  · exact List.mem_cons_of_mem _ (List.mem_append_right _ (List.mem_map.2 ⟨c, hc, hid⟩))

theorem BuffersOk.region_nodup {w : Heap} (h : BuffersOk w) (r : Nat)
    (hr : r < w.regions.length) :
    (w.region r).buffers.Nodup ∧ ∀ b ∈ (w.region r).buffers, b < w.next_buffer := by
  rw [buffersOk_iff] at h
  refine ⟨List.nodup_iff_count_le_one.2 (fun b => ?_), fun b hb => ?_⟩
  · have h1 := Heap.buffers_count_le w r b hr
    have h2 := h b
    split at h2 <;> omega
  · have h1 := Heap.buffers_count_le w r b hr
    have h2 := h b
    have h3 := List.count_pos_iff.2 hb
    by_contra hc
    rw [if_neg hc] at h2
    omega

theorem le_align (off a : Nat) (ha : 0 < a) : off ≤ (off + a - 1) / a * a := by
  have h1 := Nat.div_add_mod (off + a - 1) a
  have h2 := Nat.mod_lt (off + a - 1) ha
  rw [Nat.mul_comm] at h1
  omega

theorem isAlignment_pos {a : Nat} (h : isAlignment a = true) : 0 < a := by
  obtain ⟨k, _, rfl⟩ := (isAlignment_iff a).1 h
  exact Nat.pow_pos (by decide)

theorem Region.align_region (w : Heap) (r a : Nat) (hr : r < w.regions.length) :
    (Region.align w r a).region r =
      { w.region r with
        block_offset_ := ((w.region r).block_offset_ + a - 1) / a * a } :=
  Heap.region_setRegion_same _ _ _ hr

theorem Region.allocate_regions_length (w : Heap) (r a n : Nat) :
    (Region.allocate w r a n).1.regions.length = w.regions.length := by
  unfold Region.allocate
  split
  · simp [Region.allocate_big_chunk, Heap.setRegion]
  · simp only
    split
    · simp [Region.align, Heap.setRegion]
    · simp only [Region.allocate_new_block, Heap.setRegion, List.length_set,
        RegionPool.get_block_regions, Region.align]

/-- One `allocate(a, n)` on a region: the range returned is handed out, is
disjoint from every range handed out before, and those stay handed out. -/
theorem Region.allocate_once (w : Heap) (r a n : Nat) (hb : BuffersOk w)
    (hr : r < w.regions.length) (ha : 0 < a) :
    BuffersOk (Region.allocate w r a n).1 ∧
    ((Region.allocate w r a n).1.region r).handedOut ((Region.allocate w r a n).2, n) ∧
    (∀ y, (w.region r).handedOut y → Addr.disjoint y ((Region.allocate w r a n).2, n)) ∧
    (∀ y, (w.region r).handedOut y → ((Region.allocate w r a n).1.region r).handedOut y) := by
  have hb1 : BuffersOk (Region.allocate w r a n).1 := hb.of_step (BufStep.allocate_buf w r a n hr)
  have hr1 : r < (Region.allocate w r a n).1.regions.length := by
    rw [Region.allocate_regions_length]; exact hr
  obtain ⟨hnd, hlt⟩ := hb.region_nodup r hr
  obtain ⟨hnd1, _⟩ := hb1.region_nodup r hr1
  refine ⟨hb1, ?_⟩
  have hra : r < (Region.align w r a).regions.length := by
    simpa [Region.align, Heap.setRegion] using hr
  have hal := Region.align_region w r a hr
  have hge := le_align (w.region r).block_offset_ a ha
  unfold Region.allocate at hnd1 ⊢
  by_cases hn : n > REGION_BLOCK_SIZE
  · -- an oversized chunk
    rw [if_pos hn]
    have hreg : (Region.allocate_big_chunk w r n).1.region r =
        { w.region r with
          big_chunks_ := (w.region r).big_chunks_ ++
            [{ id := w.next_buffer, size := n }] } := by
      simp only [Region.allocate_big_chunk]
      exact Heap.region_setRegion_same _ _ _ hr
    have hadr : (Region.allocate_big_chunk w r n).2 = { buffer := w.next_buffer, offset := 0 } :=
      rfl
    rw [hreg, hadr]
    refine ⟨Or.inr (Or.inr ⟨{ id := w.next_buffer, size := n }, by simp, rfl, by simp⟩),
      fun y hy => Or.inl ?_, fun y hy => ?_⟩
    · have := hlt _ (Region.handedOut_mem hy)
      show y.1.buffer ≠ w.next_buffer
      omega
    · rcases hy with h | h | ⟨c, hc, hid, hs⟩
      · exact Or.inl h
      · exact Or.inr (Or.inl h)
      · exact Or.inr (Or.inr ⟨c, List.mem_append_left _ hc, hid, hs⟩)
  · rw [if_neg hn] at hnd1 ⊢
    simp only at hnd1 ⊢
    by_cases hfit : ((Region.align w r a).region r).block_offset_ + n ≤ REGION_BLOCK_SIZE
    · -- served from the current block
      rw [if_pos hfit]
      simp only
      rw [Heap.region_setRegion_same _ _ _ hra, hal]
      rw [hal] at hfit
      simp only at hfit ⊢
      have hcu : (w.region r).current_block_ ∉
          (w.region r).used_blocks_ ++ (w.region r).big_chunks_.map Chunk.id :=
        (List.nodup_cons.1 hnd).1
      refine ⟨Or.inl ⟨rfl, le_refl _, hfit⟩, fun y hy => ?_, fun y hy => ?_⟩
      · rcases hy with ⟨h1, h2, _⟩ | ⟨h1, _⟩ | ⟨c, hc, hid, _⟩
        · exact Or.inr (Or.inl (le_trans h2 hge))
        · refine Or.inl (fun e => hcu (List.mem_append_left _ ?_))
          rw [← show y.1.buffer = (w.region r).current_block_ from e]; exact h1
        · refine Or.inl (fun e => hcu (List.mem_append_right _ ?_))
          rw [← show y.1.buffer = (w.region r).current_block_ from e]
          exact List.mem_map.2 ⟨c, hc, hid⟩
      · rcases hy with ⟨h1, h2, h3⟩ | h | h
        · exact Or.inl ⟨h1, by show _ ≤ _ + n; omega, h3⟩
        · exact Or.inr (Or.inl h)
        · exact Or.inr (Or.inr h)
    · -- a new block
      rw [if_neg hfit] at hnd1 ⊢
      rw [Region.allocate_new_block_eq _ r n hra] at hnd1 ⊢
      have hrg : r < (RegionPool.get_block (Region.align w r a)
          ((Region.align w r a).region r).pool_).1.regions.length := by
        rw [RegionPool.get_block_regions]; exact hra
      rw [Heap.region_setRegion_same _ _ _ hrg] at hnd1 ⊢
      rw [hal] at hnd1 ⊢
      simp only at hnd1 ⊢
      simp only [Region.buffers, List.nodup_cons, List.mem_append, List.mem_singleton,
        List.append_assoc] at hnd1
      have hfresh := hnd1.1
      refine ⟨Or.inl ⟨rfl, by simp, by simp only [Nat.zero_add]; omega⟩,
        fun y hy => Or.inl (fun e => hfresh ?_), fun y hy => ?_⟩
      · have e' : y.1.buffer = (RegionPool.get_block (Region.align w r a)
            (w.region r).pool_).2 := e
        rw [← e']
        rcases hy with ⟨h1, _, _⟩ | ⟨h1, _⟩ | ⟨c, hc, hid, _⟩
        · exact Or.inr (Or.inl h1)
        · exact Or.inl h1
        · exact Or.inr (Or.inr (List.mem_map.2 ⟨c, hc, hid⟩))
      · rcases hy with ⟨h1, _, h3⟩ | ⟨h1, h2⟩ | h
        · exact Or.inr (Or.inl ⟨List.mem_append_right _ (by simp [h1]), h3⟩)
        · exact Or.inr (Or.inl ⟨List.mem_append_left _ h1, h2⟩)
        · exact Or.inr (Or.inr h)

theorem Region.allocate_all_cons (w : Heap) (r a n : Nat) (reqs : List (Nat × Nat)) :
    Region.allocate_all w r ((a, n) :: reqs) =
      ((Region.allocate_all (Region.allocate w r a n).1 r reqs).1,
        ((Region.allocate w r a n).2, n) ::
          (Region.allocate_all (Region.allocate w r a n).1 r reqs).2) := rfl

/-- A run of allocations on one region: the ranges returned are pairwise
disjoint, are handed out at the end, are disjoint from every range handed out
before the run, and those stay handed out. -/
theorem Region.allocate_all_spec (r : Nat) (reqs : List (Nat × Nat)) :
    ∀ w : Heap, BuffersOk w → r < w.regions.length → (∀ q ∈ reqs, 0 < q.1) →
      (Region.allocate_all w r reqs).2.Pairwise Addr.disjoint ∧
      (∀ x ∈ (Region.allocate_all w r reqs).2,
        ((Region.allocate_all w r reqs).1.region r).handedOut x) ∧
      (∀ y, (w.region r).handedOut y →
        ∀ x ∈ (Region.allocate_all w r reqs).2, Addr.disjoint y x) ∧
      (∀ y, (w.region r).handedOut y →
        ((Region.allocate_all w r reqs).1.region r).handedOut y) := by
  induction reqs with
  | nil =>
    intro w _ _ _
    exact ⟨List.Pairwise.nil, fun x hx => absurd hx (List.not_mem_nil x),
      fun y _ x hx => absurd hx (List.not_mem_nil x), fun y hy => hy⟩
  | cons q reqs ih =>
    intro w hb hr hal
    obtain ⟨a, n⟩ := q
    obtain ⟨hb1, hs1, hs2, hs3⟩ :=
      Region.allocate_once w r a n hb hr (hal (a, n) (List.mem_cons_self _ _))
    obtain ⟨ih1, ih2, ih3, ih4⟩ := ih (Region.allocate w r a n).1 hb1
      (by rw [Region.allocate_regions_length]; exact hr)
      (fun q hq => hal q (List.mem_cons_of_mem _ hq))
    rw [Region.allocate_all_cons]
    refine ⟨List.Pairwise.cons (fun x hx => ih3 _ hs1 x hx) ih1, ?_, ?_, fun y hy => ih4 y (hs3 y hy)⟩
    · intro x hx
      rcases List.mem_cons.1 hx with e | hx
      · rw [e]; exact ih4 _ hs1
      · exact ih2 x hx
    · intro y hy x hx
      rcases List.mem_cons.1 hx with e | hx
      · rw [e]; exact hs2 y hy
      · exact ih3 y (hs3 y hy) x hx

theorem Region.allocate_all_sizes (r : Nat) (reqs : List (Nat × Nat)) :
    ∀ w : Heap, (Region.allocate_all w r reqs).2.map Prod.snd = reqs.map Prod.snd := by
  induction reqs with
  | nil => intro w; rfl
  | cons q reqs ih =>
    intro w
    obtain ⟨a, n⟩ := q
    rw [Region.allocate_all_cons]
    simp only [List.map_cons]
    rw [ih]

/-! ## Termination of the cascade along an acyclic parent graph -/

theorem RegionPtr.below_mono (rank : Nat → Nat) {k m : Nat} (hkm : k ≤ m) (h : RegionPtr)
    (hb : RegionPtr.below rank k h = true) : RegionPtr.below rank m h = true := by
  cases h with
  | none => rfl
  | some b =>
    rw [RegionPtr.below_some] at hb ⊢
    omega

/-- Destroying handles whose regions have rank below the fuel, given that a
single such handle can be destroyed. -/
theorem RegionPtr.clearAll_descend (rank : Nat → Nat) (fuel : Nat)
    (hone : ∀ (w : Heap) (h : RegionPtr), ParentsDescend w rank →
      RegionPtr.below rank fuel h = true → ∃ w1, RegionPtr.clear fuel w h = some (w1, none)) :
    ∀ (ps : List RegionPtr) (w : Heap), ParentsDescend w rank →
      (∀ p ∈ ps, RegionPtr.below rank fuel p = true) →
      ∃ w1, RegionPtr.clearAll fuel w ps = some w1 := by
  intro ps
  induction ps with
  | nil => intro w _ _; exact ⟨w, rfl⟩
  | cons p ps ih =>
    intro w hd hb
    obtain ⟨w1, e1⟩ := hone w p hd (hb p (List.mem_cons_self _ _))
    have hd1 := ((RegionPtr.clear_cascade fuel w w1 p none e1).untouched rank fuel hd
      (fun x hx => by
        rw [List.mem_singleton] at hx
        rw [hx]; exact hb p (List.mem_cons_self _ _))).1
    obtain ⟨w2, e2⟩ := ih w1 hd1 (fun x hx => hb x (List.mem_cons_of_mem _ hx))
    exact ⟨w2, by rw [RegionPtr.clearAll_cons, e1]; exact e2⟩

/-- In an acyclic parent graph the nesting of `RegionPtr::clear` is bounded by
the rank of the region released: fuel above the rank suffices. -/
theorem RegionPtr.clear_descend (rank : Nat → Nat) :
    ∀ (fuel : Nat) (w : Heap) (h : RegionPtr), ParentsDescend w rank →
      RegionPtr.below rank fuel h = true → ∃ w1, RegionPtr.clear fuel w h = some (w1, none) := by
  intro fuel
  induction fuel with
  | zero =>
    intro w h _ hb
    cases h with
    | none => exact ⟨w, rfl⟩
    | some r =>
      rw [RegionPtr.below_some] at hb
      omega
  | succ fuel ih =>
    intro w h hd hb
    cases h with
    | none => exact ⟨w, rfl⟩
    | some r =>
      rw [RegionPtr.below_some] at hb
      rw [RegionPtr.clear_succ]
      by_cases hz : ((w.decRef r).region r).references_ = 0
      · rw [if_pos hz]
        have hpar : ∀ p ∈ ((w.decRef r).region r).parents_,
            RegionPtr.below rank fuel p = true := by
          intro p hp
          rw [Heap.decRef_region_parents] at hp
          by_cases hr : r < w.regions.length
          · exact RegionPtr.below_mono rank (by omega) p (hd r hr p hp)
          · rw [Heap.region_default _ _ (Nat.le_of_not_lt hr)] at hp
            cases hp
        obtain ⟨w2, e2⟩ := RegionPtr.clearAll_descend rank fuel ih _ _
          ((hd.decRef_desc r).clear_fields_desc r) hpar
        exact ⟨_, by rw [e2]; rfl⟩
      · rw [if_neg hz]
        exact ⟨_, rfl⟩

/-- C19. Cascade termination: in a memory whose parent graph is acyclic (every
parent handle points at a region of smaller rank), releasing a handle through
`RegionPtr::clear` returns, and the nesting of the calls `RegionPtr::clear`,
`Region::clear` and the release of the parent handles is bounded along the
parent graph: any fuel above the rank of the region released suffices, as
does any fuel above the number of parent slots.  The acyclic graph is kept.
When the counts are accurate, the release keeps the invariant and recycles
each region at most once: the regions it appends to a free list are pairwise
distinct, and they are exactly the regions of that pool whose count went from
non-zero to zero. -/
theorem cascade_termination (w : Heap) (p : RegionPtr) (rank : Nat → Nat) (k : Nat)
    (hacyc : ParentsDescend w rank) (hk : RegionPtr.below rank k p = true) :
    ∃ w1, (∀ fuel, k ≤ fuel → RegionPtr.clear fuel w p = some (w1, none)) ∧
      (∀ fuel, w.parentSlots < fuel → RegionPtr.clear fuel w p = some (w1, none)) ∧
      Cascade w [p] w1 ∧ ParentsDescend w1 rank ∧
      (∀ q, InvWith w (p :: q) →
        InvWith w1 q ∧
        ∀ P, ∃ l, (w1.pool P).free_regions_ = (w.pool P).free_regions_ ++ l ∧ l.Nodup ∧
          (∀ x, x ∈ l ↔ (w.region x).pool_ = P ∧ w.recycledBy w1 x) ∧
          (∀ x ∈ l, (w1.pool P).free_regions_.count x = 1)) := by
  obtain ⟨w1, e1⟩ := RegionPtr.clear_descend rank k w p hacyc hk
  have hcas := RegionPtr.clear_cascade k w w1 p none e1
  have hsame : ∀ fuel w2, RegionPtr.clear fuel w p = some (w2, none) → w2 = w1 :=
    fun fuel w2 e => (hcas.deterministic w2 (RegionPtr.clear_cascade fuel w w2 p none e)).symm
  refine ⟨w1, fun fuel hf => ?_, fun fuel hf => ?_, hcas, ?_, fun q hq => ?_⟩
  · obtain ⟨w2, e2⟩ := RegionPtr.clear_descend rank fuel w p hacyc
      (RegionPtr.below_mono rank hf p hk)
    rw [e2, hsame fuel w2 e2]
  · obtain ⟨w2, e2, _⟩ := RegionPtr.clear_total fuel w p hf
    rw [e2, hsame fuel w2 e2]
  · exact (hcas.untouched rank k hacyc (fun x hx => by
      rw [List.mem_singleton] at hx
      rw [hx]; exact hk)).1
  · have hi1 : InvWith w1 q := hq.cascade hcas
    have hpost : Post w w1 := hcas.post q hq.1 hq.2.poolValid
    refine ⟨hi1, fun P => ?_⟩
    obtain ⟨_, l, bl, hl, hnd, hmem, _, _⟩ := hpost.2.2.2.2.2 P
    refine ⟨l, hl, hnd, fun x => ?_, fun x hx => ?_⟩
    · rw [hmem x]
      unfold Heap.recycledBy
      tauto
    · have hP : P < w1.pools.length := by
        by_contra hc
        rw [Heap.pool_default _ _ (Nat.le_of_not_lt hc)] at hl
        have hl2 : ([] : List Nat) = (w.pool P).free_regions_ ++ l := hl
        have : l = [] := (List.append_eq_nil.1 hl2.symm).2
        rw [this] at hx
        cases hx
      have hn := (hi1.2.2 P hP).1
      have hm : x ∈ (w1.pool P).free_regions_ := by rw [hl]; exact List.mem_append_right _ hx
      exact List.count_eq_one_of_mem hn hm

theorem cascade_termination_witness :
    ParentsDescend (demoParent.setSlot 0 none) (fun r => 1 - r) ∧
    RegionPtr.below (fun r => 1 - r) 2 (some 0) = true ∧
    ∃ w1, (∀ fuel, 2 ≤ fuel →
        RegionPtr.clear fuel (demoParent.setSlot 0 none) (some 0) = some (w1, none)) :=
  ⟨by decide, by decide,
    (cascade_termination (demoParent.setSlot 0 none) (some 0) (fun r => 1 - r) 2 (by decide)
      (by decide)).imp (fun _ h => h.1)⟩

/-! ## Counting the standard blocks of a pool -/

theorem Heap.blockTotal_setRegion (w : Heap) (r : Nat) (x : Region) (p : Nat)
    (hr : r < w.regions.length) :
    (w.setRegion r x).blockTotal p +
        (if (w.region r).pool_ = p then 1 + (w.region r).used_blocks_.length else 0) =
      w.blockTotal p + (if x.pool_ = p then 1 + x.used_blocks_.length else 0) := by
  have := sum_map_set (fun R : Region => if R.pool_ = p then 1 + R.used_blocks_.length else 0)
    w.regions r x default hr
  simp only [Heap.blockTotal, Heap.setRegion, Heap.region, Heap.pool]
  simp only at this
  omega

theorem Heap.blockTotal_setRegion_same (w : Heap) (r : Nat) (x : Region) (p : Nat)
    (hp : x.pool_ = (w.region r).pool_)
    (hu : x.used_blocks_.length = (w.region r).used_blocks_.length) :
    (w.setRegion r x).blockTotal p = w.blockTotal p := by
  by_cases hr : r < w.regions.length
  · have := Heap.blockTotal_setRegion w r x p hr
    rw [hp, hu] at this
    omega
  · rw [Heap.setRegion_out _ _ _ (by omega)]

theorem Heap.blockTotal_setPool (w : Heap) (p : Nat) (x : RegionPool) (a : Nat)
    (hp : p < w.pools.length) :
    (w.setPool p x).blockTotal a =
      (if a = p then x.free_blocks_.length else (w.pool a).free_blocks_.length) +
        (w.regions.map (fun R => if R.pool_ = a then 1 + R.used_blocks_.length else 0)).sum := by
  unfold Heap.blockTotal
  rw [Heap.pool_setPool _ _ _ _ hp]
  split <;> rfl

theorem Heap.blockTotal_setPool_same (w : Heap) (p : Nat) (x : RegionPool) (a : Nat)
    (hx : x.free_blocks_.length = (w.pool p).free_blocks_.length) :
    (w.setPool p x).blockTotal a = w.blockTotal a := by
  by_cases hp : p < w.pools.length
  · rw [Heap.blockTotal_setPool _ _ _ _ hp]
    unfold Heap.blockTotal
    split
    · next e => rw [hx, e]
    · rfl
  · rw [Heap.setPool_out _ _ _ (by omega)]

theorem Heap.blockTotal_incRef (w : Heap) (r p : Nat) :
    (w.incRef r).blockTotal p = w.blockTotal p :=
  Heap.blockTotal_setRegion_same _ _ _ _ rfl rfl

theorem Heap.blockTotal_decRef (w : Heap) (r p : Nat) :
    (w.decRef r).blockTotal p = w.blockTotal p :=
  Heap.blockTotal_setRegion_same _ _ _ _ rfl rfl

theorem Heap.blockTotal_copy (w : Heap) (h : RegionPtr) (p : Nat) :
    (RegionPtr.copy w h).1.blockTotal p = w.blockTotal p := by
  cases h with
  | none => rfl
  | some r => exact Heap.blockTotal_incRef w r p

theorem Heap.blockTotal_pushFreeRegion (w : Heap) (a r p : Nat) :
    (w.pushFreeRegion a r).blockTotal p = w.blockTotal p :=
  Heap.blockTotal_setPool_same _ _ _ _ rfl

/-- Clearing a region moves its used blocks to the free blocks of its pool. -/
theorem Heap.blockTotal_clear_fields (w : Heap) (r p : Nat)
    (hv : r < w.regions.length → (w.region r).pool_ < w.pools.length) :
    (Region.clear_fields w r).blockTotal p = w.blockTotal p := by
  rw [Region.clear_fields_eq]
  by_cases hr : r < w.regions.length
  · have hp := hv hr
    rw [Heap.blockTotal_setPool _ _ _ _ (by simpa [Heap.setRegion] using hp)]
    have h1 := Heap.blockTotal_setRegion w r
      { w.region r with
        block_offset_ := 0, used_blocks_ := [], big_chunks_ := [], parents_ := [] } p hr
    simp only [List.length_nil, Heap.blockTotal, Heap.pool_setRegion] at h1 ⊢
    have h2 : (w.setRegion r
        { w.region r with
          block_offset_ := 0, used_blocks_ := [], big_chunks_ := [],
          parents_ := [] }).regions = w.regions.set r
        { w.region r with
          block_offset_ := 0, used_blocks_ := [], big_chunks_ := [], parents_ := [] } := rfl
    rw [h2] at h1 ⊢
    by_cases e : p = (w.region r).pool_
    · subst e
      simp only [↓reduceIte, List.length_append] at h1 ⊢
      omega
    · have e2 : ¬ (w.region r).pool_ = p := fun h => e h.symm
      simp only [e, e2, ↓reduceIte] at h1 ⊢
      omega
  · have h0 : w.region r = default := Heap.region_default _ _ (by omega)
    rw [Heap.setRegion_out _ _ _ (by omega)]
    refine Heap.blockTotal_setPool_same _ _ _ _ ?_
    rw [h0]
    show ((w.pool _).free_blocks_ ++ []).length = _
    simp

theorem Cascade.blockTotal {w w1 : Heap} {ps : List RegionPtr} (h : Cascade w ps w1) :
    PoolValid w → PoolValid w1 ∧ ∀ p, w1.blockTotal p = w.blockTotal p := by
  induction h with
  | nil w => exact fun hv => ⟨hv, fun _ => rfl⟩
  | null _ ih => exact ih
  | @keep w w1 ps r _ _ ih =>
    intro hv
    obtain ⟨a, b⟩ := ih (hv.decRef_valid r)
    exact ⟨a, fun p => by rw [b p, Heap.blockTotal_decRef]⟩
  | @recycle w w1 w2 ps r _ _ _ ih1 ih2 =>
    intro hv
    have hv1 := hv.decRef_valid r
    obtain ⟨a1, b1⟩ := ih1 (hv1.clear_fields_valid r)
    obtain ⟨a2, b2⟩ := ih2 (a1.pushFreeRegion_valid _ _)
    refine ⟨a2, fun p => ?_⟩
    rw [b2 p, Heap.blockTotal_pushFreeRegion, b1 p,
      Heap.blockTotal_clear_fields _ _ _ (fun hr => hv1 r hr), Heap.blockTotal_decRef]

theorem PoolValid.congr_valid {w w1 : Heap} (h : PoolValid w)
    (hn : w1.regions.length = w.regions.length) (hm : w1.pools.length = w.pools.length)
    (hp : ∀ r, (w1.region r).pool_ = (w.region r).pool_) : PoolValid w1 := by
  intro r hr
  rw [hp r, hm]
  exact h r (by omega)

theorem PoolValid.setRegion_same_valid {w : Heap} (h : PoolValid w) (r : Nat) (x : Region)
    (hx : x.pool_ = (w.region r).pool_) : PoolValid (w.setRegion r x) := by
  refine h.congr_valid (by simp [Heap.setRegion]) rfl (fun y => ?_)
  by_cases hr : r < w.regions.length
  · rw [Heap.region_setRegion _ _ _ _ hr]
    split
    · next e => rw [hx, e]
    · rfl
  · rw [Heap.setRegion_out _ _ _ (by omega)]

theorem PoolValid.setPool_valid {w : Heap} (h : PoolValid w) (p : Nat) (x : RegionPool) :
    PoolValid (w.setPool p x) :=
  h.congr_valid rfl (by simp [Heap.setPool]) (fun _ => rfl)

theorem PoolValid.setSlot_valid {w : Heap} (h : PoolValid w) (s : Nat) (x : RegionPtr) :
    PoolValid (w.setSlot s x) :=
  h.congr_valid rfl rfl (fun _ => rfl)

theorem PoolValid.incRef_valid {w : Heap} (h : PoolValid w) (r : Nat) : PoolValid (w.incRef r) :=
  h.setRegion_same_valid r _ rfl

theorem PoolValid.copy_valid {w : Heap} (h : PoolValid w) (p : RegionPtr) :
    PoolValid (RegionPtr.copy w p).1 := by
  cases p with
  | none => exact h
  | some r => exact h.incRef_valid r

theorem PoolValid.get_block_valid {w : Heap} (h : PoolValid w) (p : Nat) :
    PoolValid (RegionPool.get_block w p).1 :=
  h.congr_valid (by rw [RegionPool.get_block_regions]) (RegionPool.get_block_pools_length w p)
    (fun r => by rw [RegionPool.get_block_region])

theorem PoolValid.get_region_valid {w : Heap} (h : PoolValid w) (p : Nat) (hp : p < w.pools.length) :
    PoolValid (RegionPool.get_region w p).1 := by
  unfold RegionPool.get_region
  split
  · intro r hr
    rw [RegionPool.new_region_region]
    have hlen : (RegionPool.new_region w p).1.pools.length = w.pools.length := by
      rw [RegionPool.new_region_eq]
      simp only [Heap.setPool, List.length_set]
      exact RegionPool.get_block_pools_length w p
    rw [hlen]
    split
    · exact hp
    · next hne =>
      have : (RegionPool.new_region w p).1.regions.length = w.regions.length + 1 := by
        rw [RegionPool.new_region_eq]; simp [Heap.setPool]
      exact h r (by omega)
  · rw [RegionPtr.ofRaw_eq]
    exact (h.setPool_valid _ _).incRef_valid _

/-- The free blocks of a pool after `get_block`: one fewer in the pool asked
when it had any. -/
theorem RegionPool.get_block_free_length (w : Heap) (p a : Nat) (hp : p < w.pools.length) :
    ((RegionPool.get_block w p).1.pool a).free_blocks_.length +
        (if a = p ∧ (w.pool p).free_blocks_ ≠ [] then 1 else 0) =
      (w.pool a).free_blocks_.length := by
  cases hl : (w.pool p).free_blocks_.getLast? with
  | none =>
    have hl0 : (w.pool p).free_blocks_ = [] := List.getLast?_eq_none_iff.1 hl
    have h1 := (RegionPool.get_block_fresh w p hl0).2.1
    have h2 : (RegionPool.get_block w p).1.pool a = w.pool a := by
      unfold Heap.pool; rw [h1]
    rw [h2, if_neg (fun h => h.2 hl0)]
    rfl
  | some b =>
    obtain ⟨_, h2, h3, _⟩ := RegionPool.get_block_pop w p b hp hl
    have hne : (w.pool p).free_blocks_ ≠ [] := by
      intro e; rw [e] at hl; cases hl
    by_cases e : a = p
    · subst e
      rw [if_pos ⟨rfl, hne⟩]
      conv_rhs => rw [h3]
      simp
    · rw [if_neg (fun h => e h.1), RegionPool.get_block_pool_other w p a e]
      rfl

theorem Heap.blockTotal_get_block (w : Heap) (p a : Nat) (hp : p < w.pools.length) :
    (RegionPool.get_block w p).1.blockTotal a +
        (if a = p ∧ (w.pool p).free_blocks_ ≠ [] then 1 else 0) = w.blockTotal a := by
  have := RegionPool.get_block_free_length w p a hp
  unfold Heap.blockTotal
  rw [RegionPool.get_block_regions]
  omega

/-- `new_region` adds a block to the pool exactly when `get_block` finds the
free-block list empty. -/
theorem Heap.blockTotal_new_region (w : Heap) (p a : Nat) (hp : p < w.pools.length) :
    (RegionPool.new_region w p).1.blockTotal a =
      w.blockTotal a + (if a = p ∧ (w.pool p).free_blocks_ = [] then 1 else 0) := by
  rw [RegionPool.new_region_eq]
  simp only
  rw [Heap.blockTotal_setPool_same]
  · have h1 := Heap.blockTotal_get_block w p a hp
    have h2 : ({ (RegionPool.get_block w p).1 with
        regions := w.regions ++
          [{ pool_ := p, references_ := 1, block_offset_ := 0,
             current_block_ := (RegionPool.get_block w p).2,
             big_chunks_ := [], used_blocks_ := [], parents_ := [] }] } : Heap).blockTotal a =
        (RegionPool.get_block w p).1.blockTotal a + (if p = a then 1 else 0) := by
      unfold Heap.blockTotal
      rw [RegionPool.get_block_regions]
      simp [Heap.pool, Nat.add_assoc]
    rw [h2]
    by_cases e : a = p
    · subst e
      by_cases hl : (w.pool a).free_blocks_ = []
      · simp only [hl, ne_eq, not_true_eq_false, and_false, ↓reduceIte, and_self] at h1 ⊢
        omega
      · simp only [hl, ne_eq, not_false_eq_true, and_self, ↓reduceIte, and_false] at h1 ⊢
        omega
    · have e2 : ¬ p = a := fun h => e h.symm
      simp only [e, e2, false_and, ↓reduceIte] at h1 ⊢
      omega
  · rfl

theorem Heap.blockTotal_get_region (w : Heap) (p a : Nat) (hp : p < w.pools.length) :
    (RegionPool.get_region w p).1.blockTotal a =
      w.blockTotal a +
        (if a = p ∧ (w.pool p).free_regions_ = [] ∧ (w.pool p).free_blocks_ = [] then 1
         else 0) := by
  cases hl : (w.pool p).free_regions_.getLast? with
  | none =>
    have hl0 : (w.pool p).free_regions_ = [] := List.getLast?_eq_none_iff.1 hl
    rw [RegionPool.get_region_new _ _ hl0, Heap.blockTotal_new_region _ _ _ hp]
    simp only [hl0, true_and]
  | some r =>
    have hne : (w.pool p).free_regions_ ≠ [] := by
      intro e; rw [e] at hl; cases hl
    rw [RegionPool.get_region_pop _ _ _ hl, RegionPtr.ofRaw_eq, Heap.blockTotal_incRef,
      Heap.blockTotal_setPool_same]
    · simp only [hne, false_and, and_false, ↓reduceIte, Nat.add_zero]
    · rfl

/-- A rollover adds a block to the pool exactly when `get_block` finds the
free-block list empty. -/
theorem Heap.blockTotal_allocate_new_block (w : Heap) (r n a : Nat)
    (hr : r < w.regions.length) (hp : (w.region r).pool_ < w.pools.length) :
    (Region.allocate_new_block w r n).1.blockTotal a =
      w.blockTotal a +
        (if a = (w.region r).pool_ ∧ (w.pool (w.region r).pool_).free_blocks_ = [] then 1
         else 0) := by
  rw [Region.allocate_new_block_eq w r n hr]
  have h1 := Heap.blockTotal_get_block w (w.region r).pool_ a hp
  have h2 := Heap.blockTotal_setRegion (RegionPool.get_block w (w.region r).pool_).1 r
    { w.region r with
      used_blocks_ := (w.region r).used_blocks_ ++ [(w.region r).current_block_],
      current_block_ := (RegionPool.get_block w (w.region r).pool_).2,
      block_offset_ := n } a (by rw [RegionPool.get_block_regions]; exact hr)
  rw [RegionPool.get_block_region] at h2
  simp only [List.length_append, List.length_singleton] at h2
  by_cases e : a = (w.region r).pool_
  · subst e
    by_cases hl : (w.pool (w.region r).pool_).free_blocks_ = []
    · simp only [hl, ne_eq, not_true_eq_false, and_false, ↓reduceIte, and_self] at h1 h2 ⊢
      omega
    · simp only [hl, ne_eq, not_false_eq_true, and_self, ↓reduceIte, and_false] at h1 h2 ⊢
      omega
  · have e2 : ¬ (w.region r).pool_ = a := fun h => e h.symm
    simp only [e, e2, false_and, ↓reduceIte] at h1 h2 ⊢
    omega

theorem Heap.blockTotal_allocate_big_chunk (w : Heap) (r n a : Nat) :
    (Region.allocate_big_chunk w r n).1.blockTotal a = w.blockTotal a := by
  have e1 : (Region.allocate_big_chunk w r n).1.blockTotal a =
      (w.setRegion r
        { w.region r with
          big_chunks_ := (w.region r).big_chunks_ ++
            [{ id := w.next_buffer, size := n }] }).blockTotal a := rfl
  rw [e1, Heap.blockTotal_setRegion_same]
  · rfl
  · rfl

theorem Heap.blockTotal_align (w : Heap) (r al a : Nat) :
    (Region.align w r al).blockTotal a = w.blockTotal a :=
  Heap.blockTotal_setRegion_same _ _ _ _ rfl rfl

theorem Heap.blockTotal_clear {w w1 : Heap} {p p1 : RegionPtr} {fuel : Nat}
    (hv : PoolValid w) (e : RegionPtr.clear fuel w p = some (w1, p1)) :
    PoolValid w1 ∧ ∀ a, w1.blockTotal a = w.blockTotal a :=
  (RegionPtr.clear_cascade fuel w w1 p p1 e).blockTotal hv

theorem Heap.blockTotal_clearAll {w w1 : Heap} {ps : List RegionPtr} {fuel : Nat}
    (hv : PoolValid w) (e : RegionPtr.clearAll fuel w ps = some w1) :
    PoolValid w1 ∧ ∀ a, w1.blockTotal a = w.blockTotal a :=
  (RegionPtr.clearAll_cascade fuel ps w w1 e).blockTotal hv

theorem Heap.blockTotal_assign_slot {w w1 : Heap} {s : Nat} {src : RegionPtr} {fuel : Nat}
    (hv : PoolValid w) (e : ScalaRegion.assign fuel w s src = some w1) :
    PoolValid w1 ∧ ∀ a, w1.blockTotal a = w.blockTotal a := by
  unfold ScalaRegion.assign at e
  split at e
  · cases e
  · simp only [Option.map_eq_some', Prod.exists, exists_and_right, exists_eq_right] at e
    obtain ⟨p1, e⟩ := e
    obtain ⟨a1, b1⟩ := Heap.blockTotal_clear ((hv.copy_valid src).setSlot_valid s _) e
    refine ⟨a1, fun a => ?_⟩
    rw [b1 a]
    exact Heap.blockTotal_copy w src a

theorem Heap.blockTotal_setRegion_parents (w : Heap) (r : Nat) (ps : List RegionPtr) (a : Nat) :
    (w.setRegion r { w.region r with parents_ := ps }).blockTotal a = w.blockTotal a := by
  rw [Heap.blockTotal_setRegion_same]
  · rfl
  · rfl

theorem PoolValid.setRegion_parents_valid {w : Heap} (h : PoolValid w) (r : Nat)
    (ps : List RegionPtr) : PoolValid (w.setRegion r { w.region r with parents_ := ps }) := by
  apply h.setRegion_same_valid
  rfl

theorem Heap.blockTotal_assign_parent {w w1 : Heap} {r i : Nat} {src : RegionPtr} {fuel : Nat}
    (hv : PoolValid w) (e : Region.assign_parent fuel w r i src = some w1) :
    PoolValid w1 ∧ ∀ a, w1.blockTotal a = w.blockTotal a := by
  unfold Region.assign_parent at e
  split at e
  · simp only [Option.map_eq_some', Prod.exists, exists_and_right, exists_eq_right] at e
    obtain ⟨p1, e⟩ := e
    obtain ⟨a1, b1⟩ := Heap.blockTotal_clear ((hv.copy_valid src).setRegion_parents_valid r _) e
    refine ⟨a1, fun a => ?_⟩
    rw [b1 a, Heap.blockTotal_setRegion_parents]
    exact Heap.blockTotal_copy w src a
  · cases e

theorem Heap.blockTotal_set_num_parents {w w1 : Heap} {r n : Nat} {fuel : Nat}
    (hv : PoolValid w) (e : Region.set_num_parents fuel w r n = some w1) :
    PoolValid w1 ∧ ∀ a, w1.blockTotal a = w.blockTotal a := by
  unfold Region.set_num_parents at e
  simp only at e
  split at e
  · obtain ⟨a1, b1⟩ := Heap.blockTotal_clearAll (hv.setRegion_parents_valid r _) e
    exact ⟨a1, fun a => by rw [b1 a, Heap.blockTotal_setRegion_parents]⟩
  · simp only [Option.some.injEq] at e
    subst e
    exact ⟨hv.setRegion_parents_valid r _, fun a => Heap.blockTotal_setRegion_parents w r _ a⟩

theorem Heap.blockTotal_set_parent_reference {w w1 : Heap} {r i : Nat} {p : RegionPtr}
    {fuel : Nat} (hv : PoolValid w)
    (e : Region.set_parent_reference fuel w r p i = some w1) :
    PoolValid w1 ∧ ∀ a, w1.blockTotal a = w.blockTotal a := by
  unfold Region.set_parent_reference at e
  split at e
  · cases e
  · next w2 e2 =>
    simp only [Option.map_eq_some', Prod.exists, exists_and_right, exists_eq_right] at e
    obtain ⟨p1, e⟩ := e
    obtain ⟨a2, b2⟩ := Heap.blockTotal_assign_parent hv e2
    obtain ⟨a1, b1⟩ := Heap.blockTotal_clear a2 e
    exact ⟨a1, fun a => by rw [b1 a, b2 a]⟩

theorem Heap.blockTotal_get_parent_reference {w w1 : Heap} {r i : Nat} {p : RegionPtr}
    (hv : PoolValid w) (e : Region.get_parent_reference w r i = some (w1, p)) :
    PoolValid w1 ∧ ∀ a, w1.blockTotal a = w.blockTotal a := by
  unfold Region.get_parent_reference at e
  split at e
  · simp only [Option.some.injEq] at e
    have h1 := hv.copy_valid ((w.region r).parents_.getD i none)
    have h2 := Heap.blockTotal_copy w ((w.region r).parents_.getD i none)
    rw [e] at h1 h2
    exact ⟨h1, h2⟩
  · cases e

theorem Heap.blockTotal_new_parent_reference {w w1 : Heap} {r i : Nat} {p : RegionPtr}
    {fuel : Nat} (hv : PoolValid w) (hr : r < w.regions.length)
    (e : Region.new_parent_reference fuel w r i = some (w1, p)) :
    PoolValid w1 ∧ ∀ a, w1.blockTotal a = w.blockTotal a ∨ w1.blockTotal a = w.blockTotal a + 1 := by
  simp only [Region.new_parent_reference, Region.get_region] at e
  split at e
  · cases e
  · next w2 e2 =>
    simp only [Option.some.injEq, Prod.mk.injEq] at e
    rw [← e.1]
    obtain ⟨a2, b2⟩ := Heap.blockTotal_assign_parent (hv.get_region_valid _ (hv r hr)) e2
    refine ⟨a2, fun a => ?_⟩
    rw [b2 a, Heap.blockTotal_get_region _ _ _ (hv r hr)]
    split
    · exact Or.inr rfl
    · exact Or.inl rfl

theorem Heap.blockTotal_allocate (w : Heap) (r al n a : Nat) (hr : r < w.regions.length)
    (hp : (w.region r).pool_ < w.pools.length) :
    (Region.allocate w r al n).1.blockTotal a = w.blockTotal a ∨
    (Region.allocate w r al n).1.blockTotal a = w.blockTotal a + 1 := by
  unfold Region.allocate
  split
  · exact Or.inl (Heap.blockTotal_allocate_big_chunk w r n a)
  · simp only
    split
    · left
      rw [Heap.blockTotal_setRegion_same, Heap.blockTotal_align]
      · rfl
      · rfl
    · have hra : r < (Region.align w r al).regions.length := by
        simpa [Region.align, Heap.setRegion] using hr
      have hpa : ((Region.align w r al).region r).pool_ = (w.region r).pool_ := by
        rw [Region.align_region w r al hr]
      rw [Heap.blockTotal_allocate_new_block _ r n a hra (by rw [hpa]; exact hp),
        Heap.blockTotal_align]
      split
      · exact Or.inr rfl
      · exact Or.inl rfl

theorem Heap.blockTotal_nativeCtor (w : Heap) (a : Nat) :
    (RegionPool_nativeCtor w).blockTotal a = w.blockTotal a := by
  unfold Heap.blockTotal RegionPool_nativeCtor
  rw [Heap.pool_push]
  split
  · next e =>
    rw [Heap.pool_default _ _ (by omega)]
    rfl
  · rfl

theorem Heap.blockTotal_nativeRefreshRegion {w w1 : Heap} {s fuel : Nat} (h : InvWith w [])
    (e : Region_nativeRefreshRegion fuel w s = some w1) :
    ∀ a, w1.blockTotal a = w.blockTotal a ∨ w1.blockTotal a = w.blockTotal a + 1 := by
  unfold Region_nativeRefreshRegion at e
  split at e
  · cases e
  · next r hd =>
    obtain ⟨hr, _⟩ := h.deref_live hd
    have hv := h.2.poolValid
    simp only [Region.get_region] at e
    split at e
    · cases e
    · next w2 e2 =>
      simp only [Option.map_eq_some', Prod.exists, exists_and_right, exists_eq_right] at e
      obtain ⟨p1, e⟩ := e
      obtain ⟨a2, b2⟩ := Heap.blockTotal_assign_slot (hv.get_region_valid _ (hv r hr)) e2
      obtain ⟨_, b1⟩ := Heap.blockTotal_clear a2 e
      intro a
      rw [b1 a, b2 a, Heap.blockTotal_get_region _ _ _ (hv r hr)]
      split
      · exact Or.inr rfl
      · exact Or.inl rfl

theorem Heap.blockTotal_nativeGetParentReferenceInto {w w1 : Heap} {s s2 i fuel : Nat}
    (h : InvWith w [])
    (e : Region_nativeGetParentReferenceInto fuel w s s2 i = some w1) :
    ∀ a, w1.blockTotal a = w.blockTotal a ∨ w1.blockTotal a = w.blockTotal a + 1 := by
  unfold Region_nativeGetParentReferenceInto at e
  split at e
  · cases e
  · next r hd =>
    obtain ⟨hr, _⟩ := h.deref_live hd
    split at e
    · cases e
    · next wa tmp ea =>
      have ha := h.get_parent_reference hr ea
      obtain ⟨va, ta⟩ := Heap.blockTotal_get_parent_reference h.2.poolValid ea
      split at e
      · cases e
      · next wb eb =>
        have hb := ha.assign_slot (fun _ => by simp) eb
        obtain ⟨vb, tb⟩ := Heap.blockTotal_assign_slot va eb
        split at e
        · cases e
        · next wc pc ec =>
          have hcI := hb.clear ec
          obtain ⟨vc, tc⟩ := Heap.blockTotal_clear vb ec
          have hsame : ∀ a, wc.blockTotal a = w.blockTotal a :=
            fun a => by rw [tc a, tb a, ta a]
          split at e
          · split at e
            · cases e
            · next r1 hd1 =>
              obtain ⟨hr1, hl1⟩ := hcI.deref_live hd1
              split at e
              · cases e
              · next wd tmp2 ed =>
                obtain ⟨vd, td⟩ := Heap.blockTotal_new_parent_reference vc hr1 ed
                split at e
                · cases e
                · next we ee =>
                  simp only [Option.map_eq_some', Prod.exists, exists_and_right,
                    exists_eq_right] at e
                  obtain ⟨p1, e⟩ := e
                  obtain ⟨ve, te⟩ := Heap.blockTotal_assign_slot vd ee
                  obtain ⟨_, tf⟩ := Heap.blockTotal_clear ve e
                  intro a
                  rw [tf a, te a, ← hsame a]
                  exact td a
          · simp only [Option.some.injEq] at e
            subst e
            exact fun a => Or.inl (hsame a)

/-- Every native call other than `own` leaves the number of standard blocks of
every pool unchanged or raises it by exactly 1, and only a call that can reach
`get_block` raises it. -/
theorem Heap.blockTotal_step {w w1 : Heap} {fuel : Nat} {op : Op} (hinv : Inv w)
    (hown : op.isOwn = false) (e : step fuel w op = some w1) (a : Nat) :
    w1.blockTotal a = w.blockTotal a ∨
      (op.mayTakeBlock = true ∧ w1.blockTotal a = w.blockTotal a + 1) := by
  have h0 : InvWith w [] := hinv
  have hv : PoolValid w := hinv.2.poolValid
  cases op with
  | poolCtor =>
    simp only [hail.step, Option.some.injEq] at e
    subst e
    exact Or.inl (Heap.blockTotal_nativeCtor w a)
  | regionCtor p =>
    simp only [hail.step, Region_nativeCtor] at e
    split at e
    · next hp =>
      simp only [Option.some.injEq] at e
      subst e
      have : ({ (RegionPool.get_region w p).1 with
          slots := (RegionPool.get_region w p).1.slots ++ [(RegionPool.get_region w p).2] } :
          Heap).blockTotal a = (RegionPool.get_region w p).1.blockTotal a := rfl
      rw [this, Heap.blockTotal_get_region _ _ _ hp]
      split
      · exact Or.inr ⟨rfl, rfl⟩
      · exact Or.inl rfl
    · cases e
  | initEmpty =>
    simp only [hail.step, Option.some.injEq] at e
    subst e; exact Or.inl rfl
  | clearButKeepMem s =>
    simp only [hail.step, Region_clearButKeepMem] at e
    split at e
    · cases e
    · next r _ =>
      left
      rw [((Region.clear_is_cascade fuel w w1 r e).blockTotal (hv.clear_fields_valid r)).2 a,
        Heap.blockTotal_clear_fields _ _ _ (fun hr => hv r hr)]
  | align s al =>
    simp only [hail.step, Region_nativeAlign] at e
    split at e
    · split at e
      · cases e
      · next r _ =>
        simp only [Option.some.injEq] at e
        subst e
        exact Or.inl (Heap.blockTotal_align w r al a)
    · cases e
  | alignAllocate s al n =>
    simp only [hail.step, Region_nativeAlignAllocate] at e
    split at e
    · split at e
      · simp at e
      · next r hd =>
        simp only [Option.map_some', Option.some.injEq] at e
        subst e
        have hr := (h0.deref_live hd).1
        rcases Heap.blockTotal_allocate w r al n a hr (hv r hr) with h | h
        · exact Or.inl h
        · exact Or.inr ⟨rfl, h⟩
    · cases e
  | allocate s n =>
    simp only [hail.step, Region_nativeAllocate] at e
    split at e
    · simp at e
    · next r hd =>
      simp only [Option.map_some', Option.some.injEq] at e
      subst e
      have hr := (h0.deref_live hd).1
      rcases Heap.blockTotal_allocate w r 1 n a hr (hv r hr) with h | h
      · exact Or.inl h
      · exact Or.inr ⟨rfl, h⟩
  | reference s s2 =>
    simp only [hail.step, Region_nativeReference] at e
    split at e
    · next r h2 _ _ =>
      simp only [Option.some.injEq] at e
      subst e
      left
      unfold Region.add_reference_to
      rw [Heap.blockTotal_setRegion_parents, Heap.blockTotal_copy]
    · cases e
  | refreshRegion s =>
    rcases Heap.blockTotal_nativeRefreshRegion h0 e a with h | h
    · exact Or.inl h
    · exact Or.inr ⟨rfl, h⟩
  | clearRegion s =>
    simp only [hail.step, Region_nativeClearRegion] at e
    exact Or.inl ((Heap.blockTotal_assign_slot hv e).2 a)
  | setNumParents s n =>
    simp only [hail.step, Region_nativeSetNumParents] at e
    split at e
    · cases e
    · exact Or.inl ((Heap.blockTotal_set_num_parents hv e).2 a)
  | setParentReference s s2 i =>
    simp only [hail.step, Region_nativeSetParentReference] at e
    split at e
    · next r h2 _ _ =>
      left
      rw [(Heap.blockTotal_set_parent_reference (hv.copy_valid h2) e).2 a, Heap.blockTotal_copy]
    · cases e
  | getParentReferenceInto s s2 i =>
    rcases Heap.blockTotal_nativeGetParentReferenceInto h0 e a with h | h
    · exact Or.inl h
    · exact Or.inr ⟨rfl, h⟩
  | clearParentReference s i =>
    simp only [hail.step, Region_nativeClearParentReference, Region.clear_parent_reference] at e
    split at e
    · cases e
    · exact Or.inl ((Heap.blockTotal_assign_parent hv e).2 a)
  | own this pool => cases hown

theorem sum_map_entryBlocks (w : Heap) (l : List (Option Nat)) :
    (l.map (RegionPool.entryBlocks w)).sum =
      ((l.filterMap id).map (fun r => 1 + (w.region r).used_blocks_.length)).sum := by
  induction l with
  | nil => rfl
  | cons x l ih =>
    cases x with
    | none => simpa [RegionPool.entryBlocks] using ih
    | some r => simp [RegionPool.entryBlocks, ih]

theorem sum_map_ite_filter (l : List Nat) (c : Nat → Prop) [DecidablePred c] (g : Nat → Nat) :
    (l.map (fun r => if c r then g r else 0)).sum = ((l.filter (fun r => c r)).map g).sum := by
  induction l with
  | nil => rfl
  | cons x l ih =>
    by_cases h : c x
    · simp [h, ih]
    · simp [h, ih]

theorem nodup_filterMap_id (l : List (Option Nat)) (h : (l.filter Option.isSome).Nodup) :
    (l.filterMap id).Nodup := by
  induction l with
  | nil => exact List.nodup_nil
  | cons x l ih =>
    cases x with
    | none => simpa using ih (by simpa using h)
    | some r =>
      simp only [Option.isSome_some, List.filter_cons_of_pos, List.nodup_cons,
        List.mem_filter, and_true] at h
      simp only [List.filterMap_cons_some (show id (some r) = some r from rfl),
        List.nodup_cons, List.mem_filterMap, id_eq, exists_eq_right]
      exact ⟨h.1, ih h.2⟩

/-- In a well-formed memory the regions of a pool are the region objects whose
back-pointer is the pool, so both ways of counting its blocks agree. -/
theorem RegionPool.num_blocks_eq (w : Heap) (p : Nat) (h : PoolsOk w) :
    RegionPool.num_blocks w p = w.blockTotal p := by
  unfold RegionPool.num_blocks Heap.blockTotal RegionPool.num_free_blocks
  congr 1
  rw [sum_map_entryBlocks]
  have hB := map_eq_map_range w.regions
    (fun R : Region => if R.pool_ = p then 1 + R.used_blocks_.length else 0) default
  rw [hB]
  have hB2 := sum_map_ite_filter (List.range w.regions.length)
    (fun r => (w.region r).pool_ = p) (fun r => 1 + (w.region r).used_blocks_.length)
  have hB3 : (List.range w.regions.length).map
      (fun a => (fun R : Region => if R.pool_ = p then 1 + R.used_blocks_.length else 0)
        (w.regions.getD a default)) =
      (List.range w.regions.length).map
        (fun r => if (w.region r).pool_ = p then 1 + (w.region r).used_blocks_.length else 0) :=
    rfl
  rw [hB3, hB2]
  apply List.Perm.sum_eq
  apply List.Perm.map
  have hnd1 : ((w.pool p).regions_.filterMap id).Nodup := by
    apply nodup_filterMap_id
    by_cases hp : p < w.pools.length
    · exact (h.2 p hp).2.1
    · rw [Heap.pool_default _ _ (by omega)]
      exact List.nodup_nil
  have hnd2 : ((List.range w.regions.length).filter
      (fun r => decide ((w.region r).pool_ = p))).Nodup :=
    (List.nodup_range _).filter _
  rw [List.perm_ext_iff_of_nodup hnd1 hnd2]
  intro r
  simp only [List.mem_filterMap, id_eq, exists_eq_right, List.mem_filter, List.mem_range,
    decide_eq_true_eq]
  constructor
  · intro hm
    exact ⟨(h.entry hm).1, (h.entry hm).2.1⟩
  · rintro ⟨hr, hp⟩
    have := (h.1 r hr).2
    rwa [hp] at this

/-- C20. Block conservation, in every memory a host can bring about.  No
buffer is held by two owners: the free blocks of the pools and the current
blocks, used blocks and chunks of the regions are pairwise distinct.  For
every native call other than `own`, the total number of standard blocks of
each pool (`num_free_blocks()` plus, over the regions of the pool, 1 + the
length of `used_blocks_`) stays the same or grows by exactly 1, and it stays
the same for every call that cannot reach `get_block` (clear, handle drop, the
parent operations that acquire no region).  It grows by exactly 1 precisely
when `get_block` is called with `free_blocks_` empty: in `new_region` always,
in `get_region` when `free_regions_` is empty, in a block rollover always; an
oversized allocation leaves it unchanged. -/
theorem block_conservation (w : Heap) (h : Reachable w) :
    (w.buffers.Nodup ∧ ∀ b ∈ w.buffers, b < w.next_buffer) ∧
    (∀ fuel op w1, op.isOwn = false → step fuel w op = some w1 → ∀ p,
      RegionPool.num_blocks w1 p = RegionPool.num_blocks w p ∨
      (op.mayTakeBlock = true ∧
        RegionPool.num_blocks w1 p = RegionPool.num_blocks w p + 1)) ∧
    (∀ p a, p < w.pools.length →
      RegionPool.num_blocks (RegionPool.new_region w p).1 a =
        RegionPool.num_blocks w a +
          (if a = p ∧ (w.pool p).free_blocks_ = [] then 1 else 0) ∧
      RegionPool.num_blocks (RegionPool.get_region w p).1 a =
        RegionPool.num_blocks w a +
          (if a = p ∧ (w.pool p).free_regions_ = [] ∧ (w.pool p).free_blocks_ = [] then 1
           else 0)) ∧
    (∀ r n a, (w.region r).references_ ≠ 0 →
      RegionPool.num_blocks (Region.allocate_new_block w r n).1 a =
        RegionPool.num_blocks w a +
          (if a = (w.region r).pool_ ∧ (w.pool (w.region r).pool_).free_blocks_ = [] then 1
           else 0) ∧
      RegionPool.num_blocks (Region.allocate_big_chunk w r n).1 a =
        RegionPool.num_blocks w a) := by
  have hinv := h.inv
  have h0 : InvWith w [] := hinv
  refine ⟨h.buffersOk, ?_, ?_, ?_⟩
  · intro fuel op w1 hown e p
    rw [RegionPool.num_blocks_eq w1 p (hinv.step e).2, RegionPool.num_blocks_eq w p hinv.2]
    exact Heap.blockTotal_step hinv hown e p
  · intro p a hp
    rw [RegionPool.num_blocks_eq _ a (h0.new_region hp).2,
      RegionPool.num_blocks_eq _ a (h0.get_region hp).2, RegionPool.num_blocks_eq w a hinv.2]
    exact ⟨Heap.blockTotal_new_region w p a hp, Heap.blockTotal_get_region w p a hp⟩
  · intro r n a hl
    have hr := Heap.lt_of_references_ne_zero w r hl
    rw [RegionPool.num_blocks_eq _ a (h0.allocate_new_block n hr hl).2,
      RegionPool.num_blocks_eq _ a (h0.allocate_big_chunk n hr hl).2,
      RegionPool.num_blocks_eq w a hinv.2]
    exact ⟨Heap.blockTotal_allocate_new_block w r n a hr (hinv.2.poolValid r hr),
      Heap.blockTotal_allocate_big_chunk w r n a⟩

theorem block_conservation_witness :
    Reachable parentScenarioHeap ∧ parentScenarioHeap.buffers.Nodup ∧
    RegionPool.num_blocks (Region.allocate_new_block parentScenarioHeap 1 16).1 0 =
      RegionPool.num_blocks parentScenarioHeap 0 +
        (if 0 = (parentScenarioHeap.region 1).pool_ ∧
            (parentScenarioHeap.pool (parentScenarioHeap.region 1).pool_).free_blocks_ = []
         then 1 else 0) :=
  ⟨parentScenarioHeap_reachable,
    (block_conservation parentScenarioHeap parentScenarioHeap_reachable).1.1,
    ((block_conservation parentScenarioHeap parentScenarioHeap_reachable).2.2.2 1 16 0
      (by decide)).1⟩

/-! ## C5: clear in place -/

/-- The parent handles to `x` dropped by a clear in place of the live region
`R` are those of the regions it recycles, whether counted from the memory
before the clear or from the memory after the assignments of `Region::clear`. -/
theorem Heap.droppedSlots_clear_fields (w w1 : Heap) (R x : Nat)
    (hl1 : (w1.region R).references_ ≠ 0) :
    (Region.clear_fields w R).droppedSlots w1 x = w.droppedSlots w1 x := by
  unfold Heap.droppedSlots
  rw [Region.clear_fields_regions_length]
  apply congrArg
  apply List.map_congr_left
  intro a _
  by_cases e : a = R
  · subst e
    have h1 : ¬ (Region.clear_fields w a).recycledBy w1 a := fun h => hl1 h.2
    have h2 : ¬ w.recycledBy w1 a := fun h => hl1 h.2
    rw [if_neg h1, if_neg h2]
  · have hiff : (Region.clear_fields w R).recycledBy w1 a ↔ w.recycledBy w1 a := by
      unfold Heap.recycledBy
      rw [Region.clear_fields_references]
    rw [Region.clear_fields_region_ne w R a e]
    by_cases h : w.recycledBy w1 a
    · rw [if_pos h, if_pos (hiff.2 h)]
    · rw [if_neg h, if_neg (fun h1 => h (hiff.1 h1))]

/-- C5, as amended.  Let slot `s` hold a handle to region `R` in a memory
satisfying the invariant of reachable memories.  `Region::clear` on `R`
through `clearButKeepMem` returns, and afterwards `R` has `block_offset` 0 and
empty `used_blocks`, `big_chunks` and `parents`, with its `current_block` and
its pool as before; its count is not zero and has dropped by the number of
parent handles to `R` that the clear destroyed, those in the `parents_` of `R`
itself and of the regions the clear recycled, so that it is unchanged whenever
the parent graph is acyclic (every parent handle points at a region of smaller
rank); the pool's `free_blocks` is the old list followed by the former used
blocks of `R` in their order (followed by the blocks of regions that the clear
recycled, none when `R` held no non-null parent handle); no slot changes, so
slot `s` still holds `R`; and `R` is on no free list. -/
theorem clear_in_place (w : Heap) (s R : Nat) (hinv : Inv w)
    (hs : w.slots.get? s = some (some R)) :
    ∃ w1, (∀ fuel, w.parentSlots < fuel → Region_clearButKeepMem fuel w s = some w1) ∧
      w1.region R = { w.region R with references_ := (w1.region R).references_,
                                      block_offset_ := 0, used_blocks_ := [],
                                      big_chunks_ := [], parents_ := [] } ∧
      (w1.region R).references_ ≠ 0 ∧
      (w1.region R).references_ + ((w.region R).parents_.count (some R) +
        w.droppedSlots w1 R) = (w.region R).references_ ∧
      (∀ rank : Nat → Nat, ParentsDescend w rank →
        (w1.region R).references_ = (w.region R).references_) ∧
      (∃ rest, (w1.pool (w.region R).pool_).free_blocks_ =
        (w.pool (w.region R).pool_).free_blocks_ ++ (w.region R).used_blocks_ ++ rest) ∧
      ((∀ h ∈ (w.region R).parents_, h = none) →
        (w1.pool (w.region R).pool_).free_blocks_ =
          (w.pool (w.region R).pool_).free_blocks_ ++ (w.region R).used_blocks_) ∧
      w1.slots = w.slots ∧ w1.slots.get? s = some (some R) ∧
      (∀ p, R ∉ (w1.pool p).free_regions_) := by
  have h0 : InvWith w [] := hinv
  obtain ⟨hr, hl⟩ := h0.1.live (List.mem_append_left _ (Heap.mem_handles_of_slot hs))
  have hpv := hinv.2.poolValid R hr
  obtain ⟨w1, e1, hcas, hpost, hi1⟩ := Region.clear_in_place_spec h0 hl
  have hslots : w1.slots = w.slots := by rw [hpost.1, Region.clear_fields_slots]
  have hs1 : w1.slots.get? s = some (some R) := by rw [hslots]; exact hs
  obtain ⟨_, hl1⟩ := hi1.1.live (List.mem_append_left _ (Heap.mem_handles_of_slot hs1))
  have hR : w1.region R = { w.region R with references_ := (w1.region R).references_,
                                            block_offset_ := 0, used_blocks_ := [],
                                            big_chunks_ := [], parents_ := [] } := by
    have := (hpost.2.2.2.2.1 R).of_ne_zero hl1
    rw [Region.clear_fields_region_same w R hr] at this
    exact this
  obtain ⟨_, l, bl, _, _, _, k, _⟩ := hpost.2.2.2.2.2 (w.region R).pool_
  refine ⟨w1, ?_, hR, hl1, ?_, ?_, ⟨bl, ?_⟩, ?_, hslots, hs1, ?_⟩
  · intro fuel hf
    rw [Region_clearButKeepMem_eq fuel w s R hs]; exact e1 fuel hf
  · have a0 := ((accurate_iff (Region.clear_fields w R) ((w.region R).parents_ ++ [])).mp
      (hinv.1.clear_fields_acc R) R).1
    have a1 := ((accurate_iff w1 []).mp hi1.1 R).1
    have hsp := hpost.parentCount_split R
    rw [Heap.droppedSlots_clear_fields w w1 R R hl1] at hsp
    rw [Region.clear_fields_references] at a0
    simp only [Heap.handleCount, List.count_nil, Nat.add_zero, List.append_nil,
      Region.clear_fields_slots] at a0 a1
    rw [hslots] at a1
    omega
  · intro rank hacyc
    obtain ⟨_, hun⟩ := hcas.untouched rank (rank R) (hacyc.clear_fields_desc R) (hacyc R hr)
    rw [hun R (le_refl _), Region.clear_fields_references]
  · rw [k, Region.clear_fields_free_blocks w R hpv]
  · intro hnull
    rw [hcas.all_null hnull, Region.clear_fields_free_blocks w R hpv]
  · intro p hm
    exact hl1 (hi1.2.free hm).2.1

/-- The claim of C5 as written fails where parent handles form a cycle.  After
the six native calls of `cycleScenario` slot 0 holds region 0, whose count is
2 (the slot, and the parent handle held by region 1), and region 0 holds the
only handle to region 1.  `clearButKeepMem` on slot 0 destroys that handle, so
region 1 is recycled and its parent handle to region 0 is destroyed in turn:
the count of region 0 is 1 afterwards, not 2. -/
theorem clear_in_place_counterexample :
    run 3 Heap.empty cycleScenario = some cycleHeap ∧ Inv cycleHeap ∧
    cycleHeap.slots.get? 0 = some (some 0) ∧ (cycleHeap.region 0).references_ = 2 ∧
    (Region_clearButKeepMem 3 cycleHeap 0).map (fun w => (w.region 0).references_) =
      some 1 := by
  decide

/-- C5 at a concrete memory with a cycle of parent handles: the clear in place
of region 0 takes its count from 2 to 1. -/
theorem clear_in_place_witness :
    Inv cycleHeap ∧ cycleHeap.slots.get? 0 = some (some 0) ∧
    ∃ w1, (∀ fuel, cycleHeap.parentSlots < fuel →
        Region_clearButKeepMem fuel cycleHeap 0 = some w1) ∧
      (w1.region 0).references_ + ((cycleHeap.region 0).parents_.count (some 0) +
        cycleHeap.droppedSlots w1 0) = (cycleHeap.region 0).references_ :=
  ⟨by decide, by decide,
    let ⟨w1, e1, _, _, e4, _⟩ := clear_in_place cycleHeap 0 0 (by decide) (by decide)
    ⟨w1, e1, e4⟩⟩

/-! ## What the native calls leave of a region's allocation state -/

theorem Heap.sameAlloc_of_eq {w w1 : Heap} {x : Nat} (h : w1.region x = w.region x) :
    w.sameAlloc w1 x := by
  unfold Heap.sameAlloc; rw [h]

theorem Heap.sameAlloc.trans_alloc {w w1 w2 : Heap} {x : Nat} (h1 : w.sameAlloc w1 x)
    (h2 : w1.sameAlloc w2 x) : w.sameAlloc w2 x :=
  Eq.trans h2 h1

theorem Heap.keepsUp_of_eq {w w1 : Heap} {x : Nat} (h : w1.region x = w.region x) :
    w.keepsUp w1 x :=
  fun hl => ⟨Heap.sameAlloc_of_eq h, by rw [h]; exact hl⟩

theorem Heap.keepsDown_of_eq {w w1 : Heap} {x : Nat} (h : w1.region x = w.region x) :
    w.keepsDown w1 x :=
  fun hl => ⟨Heap.sameAlloc_of_eq h, by rw [← h]; exact hl⟩

theorem Heap.keepsUp.trans_up {w w1 w2 : Heap} {x : Nat} (h1 : w.keepsUp w1 x)
    (h2 : w1.keepsUp w2 x) : w.keepsUp w2 x :=
  fun hl => ⟨(h1 hl).1.trans_alloc (h2 (h1 hl).2).1, (h2 (h1 hl).2).2⟩

theorem Heap.keepsDown.trans_down {w w1 w2 : Heap} {x : Nat} (h1 : w.keepsDown w1 x)
    (h2 : w1.keepsDown w2 x) : w.keepsDown w2 x :=
  fun hl => ⟨(h1 (h2 hl).2).1.trans_alloc (h2 hl).1, (h1 (h2 hl).2).2⟩

/-- A stretch that releases nothing followed by one that acquires nothing:
a region live at both ends has kept its allocation state. -/
theorem Heap.keepsUp.then_down {w w1 w2 : Heap} {x : Nat} (h1 : w.keepsUp w1 x)
    (h2 : w1.keepsDown w2 x) (hl : (w.region x).references_ ≠ 0)
    (hl2 : (w2.region x).references_ ≠ 0) : w.sameAlloc w2 x :=
  (h1 hl).1.trans_alloc (h2 hl2).1

theorem Heap.setRegion_keeps (w : Heap) (r : Nat) (X : Region) (x : Nat)
    (ha : X.allocState = (w.region r).allocState)
    (hc : X.references_ = (w.region r).references_) :
    w.keepsUp (w.setRegion r X) x ∧ w.keepsDown (w.setRegion r X) x := by
  by_cases hr : r < w.regions.length
  · have e := Heap.region_setRegion w r x X hr
    by_cases hx : x = r
    · subst hx
      rw [if_pos rfl] at e
      refine ⟨fun hl => ⟨?_, ?_⟩, fun hl => ⟨?_, ?_⟩⟩
      · unfold Heap.sameAlloc; rw [e, ha]
      · rw [e, hc]; exact hl
      · unfold Heap.sameAlloc; rw [e, ha]
      · rw [e, hc] at hl; exact hl
    · rw [if_neg hx] at e
      exact ⟨Heap.keepsUp_of_eq e, Heap.keepsDown_of_eq e⟩
  · have e : (w.setRegion r X).region x = w.region x := by
      rw [Heap.setRegion_out _ _ _ (Nat.le_of_not_lt hr)]
    exact ⟨Heap.keepsUp_of_eq e, Heap.keepsDown_of_eq e⟩

theorem Heap.setRegion_other_keeps (w : Heap) (r : Nat) (X : Region) (x : Nat) (hx : x ≠ r) :
    w.keepsUp (w.setRegion r X) x ∧ w.keepsDown (w.setRegion r X) x :=
  ⟨Heap.keepsUp_of_eq (Heap.region_setRegion_ne w r x X hx),
    Heap.keepsDown_of_eq (Heap.region_setRegion_ne w r x X hx)⟩

theorem RegionPtr.copy_keepsUp (w : Heap) (p : RegionPtr) (x : Nat) :
    w.keepsUp (RegionPtr.copy w p).1 x := by
  intro hl
  obtain ⟨h1, h2⟩ := RegionPtr.copy_region w p x
  refine ⟨?_, by omega⟩
  unfold Heap.sameAlloc
  rw [h1]
  rfl

theorem RegionPtr.copy_region_other (w : Heap) (p : RegionPtr) (x : Nat) (hp : p ≠ some x) :
    (RegionPtr.copy w p).1.region x = w.region x := by
  cases p with
  | none => rfl
  | some r =>
    have hx : x ≠ r := fun e => hp (by rw [e])
    exact Heap.region_setRegion_ne w r x _ hx

theorem RegionPtr.copy_keepsDown (w : Heap) (p : RegionPtr) (x : Nat) (hp : p ≠ some x) :
    w.keepsDown (RegionPtr.copy w p).1 x :=
  Heap.keepsDown_of_eq (RegionPtr.copy_region_other w p x hp)

theorem RegionPool.get_region_keepsUp (w : Heap) (p x : Nat) :
    w.keepsUp (RegionPool.get_region w p).1 x := by
  intro hl
  have hle := RegionPool.get_region_le w p x
  refine ⟨?_, by omega⟩
  have hx := Heap.lt_of_references_ne_zero w x hl
  unfold RegionPool.get_region
  split
  · apply Heap.sameAlloc_of_eq
    rw [RegionPool.new_region_region, if_neg (by omega)]
  · next region _ =>
    exact (RegionPtr.copy_keepsUp
      (w.setPool p { w.pool p with free_regions_ := (w.pool p).free_regions_.dropLast })
      (some region) x hl).1

/-- Destroying handles leaves the allocation state of every region that is
live afterwards as it was. -/
theorem Post.keepsDown {w w1 : Heap} (h : Post w w1) (x : Nat) : w.keepsDown w1 x := by
  intro hl
  have hp := h.2.2.2.2.1 x
  have e := hp.of_ne_zero hl
  have hle := hp.references_le
  refine ⟨?_, by omega⟩
  unfold Heap.sameAlloc
  rw [e]
  rfl

theorem InvWith.clear_down {w w1 : Heap} {p p1 : RegionPtr} {q : List RegionPtr} {fuel : Nat}
    (h : InvWith w (p :: q)) (e : RegionPtr.clear fuel w p = some (w1, p1)) (x : Nat) :
    w.keepsDown w1 x :=
  ((RegionPtr.clear_cascade fuel w w1 p p1 e).post q h.1 h.2.poolValid).keepsDown x

theorem InvWith.clearAll_down {w w1 : Heap} {ps q : List RegionPtr} {fuel : Nat}
    (h : InvWith w (ps ++ q)) (e : RegionPtr.clearAll fuel w ps = some w1) (x : Nat) :
    w.keepsDown w1 x :=
  ((RegionPtr.clearAll_cascade fuel ps w w1 e).post q h.1 h.2.poolValid).keepsDown x

/-- Assignment over a slot: the copy releases nothing, the release of the old
value acquires nothing. -/
theorem InvWith.assign_slot_keeps {w w1 : Heap} {s : Nat} {src : RegionPtr}
    {q : List RegionPtr} {fuel : Nat} (h : InvWith w q)
    (hm : src ≠ none → src ∈ w.handles ++ q)
    (e : ScalaRegion.assign fuel w s src = some w1) (x : Nat) :
    (∃ w0, w.keepsUp w0 x ∧ w0.keepsDown w1 x) ∧ (src ≠ some x → w.keepsDown w1 x) := by
  unfold ScalaRegion.assign at e
  split at e
  · cases e
  · next old hold =>
    simp only [Option.map_eq_some'] at e
    obtain ⟨⟨w2, h2⟩, e1, e2⟩ := e
    simp only at e2
    subst e2
    have h1 := h.copy hm
    have hs : (RegionPtr.copy w src).1.slots.get? s = some old := by
      rw [RegionPtr.copy_slots]; exact hold
    have h3 := h1.setSlot hs
    rw [RegionPtr.copy_snd] at e1
    have hd := h3.clear_down e1 x
    have hd1 : (RegionPtr.copy w src).1.keepsDown w2 x := hd
    exact ⟨⟨_, RegionPtr.copy_keepsUp w src x, hd1⟩,
      fun hne => (RegionPtr.copy_keepsDown w src x hne).trans_down hd1⟩

/-- Assignment over a parent handle, likewise. -/
theorem InvWith.assign_parent_keeps {w w1 : Heap} {r i : Nat} {src : RegionPtr}
    {q : List RegionPtr} {fuel : Nat} (h : InvWith w q) (hr : r < w.regions.length)
    (hl : (w.region r).references_ ≠ 0) (hm : src ≠ none → src ∈ w.handles ++ q)
    (e : Region.assign_parent fuel w r i src = some w1) (x : Nat) :
    (∃ w0, w.keepsUp w0 x ∧ w0.keepsDown w1 x) ∧ (src ≠ some x → w.keepsDown w1 x) := by
  unfold Region.assign_parent at e
  split at e
  · next hi =>
    simp only [Option.map_eq_some'] at e
    obtain ⟨⟨w2, h2⟩, e1, e2⟩ := e
    simp only at e2
    subst e2
    have h1 : InvWith (RegionPtr.copy w src).1 ([src] ++ q) := h.copy hm
    rw [RegionPtr.copy_snd, RegionPtr.copy_region_parents] at e1
    have h3 := @InvWith.setRegion_live (RegionPtr.copy w src).1 r
      { (RegionPtr.copy w src).1.region r with parents_ := (w.region r).parents_.set i src }
      [src] [(w.region r).parents_.getD i none] q h1
      (by rw [RegionPtr.copy_regions_length]; exact hr) (RegionPtr.copy_live w src r hl)
      rfl rfl
      (by
        intro y
        rw [RegionPtr.copy_region_parents]
        exact count_set_getD _ i src hi y)
    have hd := h3.clear_down e1 x
    have hk := Heap.setRegion_keeps (RegionPtr.copy w src).1 r
      { (RegionPtr.copy w src).1.region r with parents_ := (w.region r).parents_.set i src }
      x rfl rfl
    exact ⟨⟨_, (RegionPtr.copy_keepsUp w src x).trans_up hk.1, hd⟩,
      fun hne => ((RegionPtr.copy_keepsDown w src x hne).trans_down hk.2).trans_down hd⟩
  · cases e

theorem Heap.keepsUp.refl_up (w : Heap) (x : Nat) : w.keepsUp w x :=
  Heap.keepsUp_of_eq rfl

theorem Heap.keepsDown.refl_down (w : Heap) (x : Nat) : w.keepsDown w x :=
  Heap.keepsDown_of_eq rfl

theorem Heap.keeps.of_up {w w1 : Heap} {x : Nat} (h : w.keepsUp w1 x) : w.keeps w1 x :=
  ⟨w1, h, Heap.keepsDown.refl_down w1 x⟩

theorem Heap.keeps.of_down {w w1 : Heap} {x : Nat} (h : w.keepsDown w1 x) : w.keeps w1 x :=
  ⟨w, Heap.keepsUp.refl_up w x, h⟩

theorem Heap.keeps.after_up {w w1 w2 : Heap} {x : Nat} (h1 : w.keepsUp w1 x)
    (h2 : w1.keeps w2 x) : w.keeps w2 x :=
  let ⟨w0, a, b⟩ := h2
  ⟨w0, h1.trans_up a, b⟩

theorem Heap.keeps.before_down {w w1 w2 : Heap} {x : Nat} (h1 : w.keeps w1 x)
    (h2 : w1.keepsDown w2 x) : w.keeps w2 x :=
  let ⟨w0, a, b⟩ := h1
  ⟨w0, a, b.trans_down h2⟩

/-- A region live at both ends of such a stretch has kept its allocation
state. -/
theorem Heap.keeps.same {w w1 : Heap} {x : Nat} (h : w.keeps w1 x)
    (hl : (w.region x).references_ ≠ 0) (hl1 : (w1.region x).references_ ≠ 0) :
    w.sameAlloc w1 x :=
  let ⟨_, a, b⟩ := h
  a.then_down b hl hl1

theorem InvWith.set_parent_reference_keeps {w w1 : Heap} {q : List RegionPtr} {r i fuel : Nat}
    {p : RegionPtr} (h : InvWith w (p :: q)) (hr : r < w.regions.length)
    (hl : (w.region r).references_ ≠ 0)
    (e : Region.set_parent_reference fuel w r p i = some w1) (x : Nat) : w.keeps w1 x := by
  unfold Region.set_parent_reference at e
  split at e
  · cases e
  · next w2 e2 =>
    simp only [Option.map_eq_some'] at e
    obtain ⟨⟨w3, h3⟩, e3, e4⟩ := e
    simp only at e4
    subst e4
    have h2 := h.assign_parent hr hl (fun _ => by simp) e2
    have k2 := (h.assign_parent_keeps hr hl (fun _ => by simp) e2 x).1
    exact Heap.keeps.before_down k2 (h2.clear_down e3 x)

theorem InvWith.set_num_parents_down {w w1 : Heap} {q : List RegionPtr} {r n fuel : Nat}
    (h : InvWith w q) (hr : r < w.regions.length) (hl : (w.region r).references_ ≠ 0)
    (e : Region.set_num_parents fuel w r n = some w1) (x : Nat) : w.keepsDown w1 x := by
  simp only [Region.set_num_parents] at e
  split at e
  · have h1 := @InvWith.setRegion_live w r
      { w.region r with parents_ := (w.region r).parents_.take n } []
      ((w.region r).parents_.drop n) q h hr hl rfl rfl
      (by
        intro y
        simp only [List.count_nil, Nat.add_zero]
        rw [← List.count_append, List.take_append_drop])
    exact (Heap.setRegion_keeps w r
      { w.region r with parents_ := (w.region r).parents_.take n } x rfl rfl).2.trans_down
      (h1.clearAll_down e x)
  · simp only [Option.some.injEq] at e
    subst e
    exact (Heap.setRegion_keeps w r
      { w.region r with parents_ := (w.region r).parents_ ++
          List.replicate (n - (w.region r).parents_.length) none } x rfl rfl).2

theorem Region.get_parent_reference_keepsUp {w w1 : Heap} {r i : Nat} {p : RegionPtr}
    (e : Region.get_parent_reference w r i = some (w1, p)) (x : Nat) : w.keepsUp w1 x := by
  unfold Region.get_parent_reference at e
  split at e
  · simp only [Option.some.injEq] at e
    have := RegionPtr.copy_keepsUp w ((w.region r).parents_.getD i none) x
    rwa [e] at this
  · cases e

/-- `new_parent_reference` on a memory that satisfies the invariant: the
region it obtains was not live, so it is not the live region `x`. -/
theorem InvWith.new_parent_reference_keeps {w w1 : Heap} {r i fuel : Nat}
    {p : RegionPtr} (h : InvWith w []) (hr : r < w.regions.length)
    (hl : (w.region r).references_ ≠ 0)
    (e : Region.new_parent_reference fuel w r i = some (w1, p)) (x : Nat)
    (hx : (w.region x).references_ ≠ 0) : w.keeps w1 x ∧ p ≠ some x := by
  have hpv := h.2.poolValid r hr
  have h1 := @InvWith.get_region w [] (w.region r).pool_ h hpv
  have hle := RegionPool.get_region_le w (w.region r).pool_ r
  have hlen := RegionPool.get_region_length_le w (w.region r).pool_
  obtain ⟨N, hN, _, hz, _⟩ := RegionPool.get_region_spec w (w.region r).pool_ h hpv
  have hne : (RegionPool.get_region w (w.region r).pool_).2 ≠ some x := by
    rw [hN]
    intro e1
    simp only [Option.some.injEq] at e1
    rw [e1] at hz
    exact hx hz
  simp only [Region.new_parent_reference, Region.get_region] at e
  split at e
  · cases e
  · next w2 e2 =>
    simp only [Option.some.injEq, Prod.mk.injEq] at e
    obtain ⟨e3, e4⟩ := e
    subst e3
    rw [← e4]
    refine ⟨?_, hne⟩
    have k := (h1.assign_parent_keeps (lt_of_lt_of_le hr hlen) (by omega)
      (fun _ => by simp) e2 x).2 hne
    exact Heap.keeps.before_down
      (Heap.keeps.of_up (RegionPool.get_region_keepsUp w (w.region r).pool_ x)) k

theorem InvWith.region_clear_down {w w1 : Heap} {q : List RegionPtr} {r fuel : Nat}
    (h : InvWith w q) (hl : (w.region r).references_ ≠ 0)
    (e : Region.clear fuel w r = some w1) (x : Nat) (hx : x ≠ r) : w.keepsDown w1 x := by
  have h1 := h.clear_fields_inv hl
  have hp := (Region.clear_is_cascade fuel w w1 r e).post q h1.1 h1.2.poolValid
  exact (Heap.keepsDown_of_eq (Region.clear_fields_region_ne w r x hx)).trans_down
    (hp.keepsDown x)

theorem ScalaRegionPool.own_step_keepsUp {w w1 : Heap} {this pool i : Nat}
    (e : ScalaRegionPool.own_step this pool w i = some w1) (x : Nat) : w.keepsUp w1 x := by
  unfold ScalaRegionPool.own_step at e
  split at e
  · cases e
  · next r _ =>
    split at e
    · simp only [Option.some.injEq] at e
      subst e
      have := (Heap.setRegion_keeps w r { w.region r with pool_ := this } x rfl rfl).1
      exact this
    · simp only [Option.some.injEq] at e
      subst e; exact Heap.keepsUp.refl_up w x

theorem ScalaRegionPool.own_loop_keepsUp {this pool : Nat} (is : List Nat) (x : Nat) :
    ∀ {w w1 : Heap}, ScalaRegionPool.own_loop this pool w is = some w1 → w.keepsUp w1 x := by
  induction is with
  | nil =>
    intro w w1 e
    simp only [ScalaRegionPool.own_loop, Option.some.injEq] at e
    subst e; exact Heap.keepsUp.refl_up w x
  | cons i is ih =>
    intro w w1 e
    simp only [ScalaRegionPool.own_loop] at e
    split at e
    · cases e
    · next w2 e2 => exact (ScalaRegionPool.own_step_keepsUp e2 x).trans_up (ih e)

theorem InvWith.nativeRefreshRegion_keeps {w w1 : Heap} {s fuel : Nat} (h : InvWith w [])
    (e : Region_nativeRefreshRegion fuel w s = some w1) (x : Nat) : w.keeps w1 x := by
  unfold Region_nativeRefreshRegion at e
  split at e
  · cases e
  · next r hd =>
    obtain ⟨hr, _⟩ := h.deref_live hd
    have h1 := h.get_region (h.2.poolValid r hr)
    simp only [Region.get_region] at e
    split at e
    · cases e
    · next w2 e2 =>
      simp only [Option.map_eq_some'] at e
      obtain ⟨⟨w3, h3⟩, e3, e4⟩ := e
      simp only at e4
      subst e4
      have h2 := h1.assign_slot (fun _ => by simp) e2
      have k2 := (h1.assign_slot_keeps (fun _ => by simp) e2 x).1
      exact Heap.keeps.before_down
        (Heap.keeps.after_up (RegionPool.get_region_keepsUp w (w.region r).pool_ x) k2)
        (h2.clear_down e3 x)

/-- The two statements of `getParentReferenceInto`: the call passes through
the memory `wc` of `Region_nativeGetParentReferenceInto_first`; up to there a
region live at both ends keeps its allocation state, and so it does from
there on if it is live in `wc`. -/
theorem InvWith.nativeGetParentReferenceInto_keeps {w w1 : Heap} {s s2 i fuel : Nat}
    (h : InvWith w [])
    (e : Region_nativeGetParentReferenceInto fuel w s s2 i = some w1) (x : Nat) :
    ∃ wc, Region_nativeGetParentReferenceInto_first fuel w s s2 i = some wc ∧
      w.keeps wc x ∧ ((wc.region x).references_ ≠ 0 → wc.keeps w1 x) := by
  unfold Region_nativeGetParentReferenceInto at e
  split at e
  · cases e
  · next r hd =>
    obtain ⟨hr, _⟩ := h.deref_live hd
    split at e
    · cases e
    · next wa tmp ea =>
      have ha := h.get_parent_reference hr ea
      have ka := Region.get_parent_reference_keepsUp ea x
      split at e
      · cases e
      · next wb eb =>
        have hb := ha.assign_slot (fun _ => by simp) eb
        have kb := (ha.assign_slot_keeps (fun _ => by simp) eb x).1
        split at e
        · cases e
        · next wc hc ec =>
          have hcI := hb.clear ec
          have kc := hb.clear_down ec x
          have k1 : w.keeps wc x := Heap.keeps.before_down (Heap.keeps.after_up ka kb) kc
          refine ⟨wc, by simp only [Region_nativeGetParentReferenceInto_first, hd, ea, eb, ec,
            Option.map_some'], k1, ?_⟩
          intro hlc
          split at e
          · split at e
            · cases e
            · next r1 hd1 =>
              obtain ⟨hr1, hl1⟩ := hcI.deref_live hd1
              split at e
              · cases e
              · next wd tmp2 ed =>
                have hdI := hcI.new_parent_reference hr1 hl1 ed
                obtain ⟨kd, hne⟩ := hcI.new_parent_reference_keeps hr1 hl1 ed x hlc
                split at e
                · cases e
                · next we ee =>
                  simp only [Option.map_eq_some'] at e
                  obtain ⟨⟨wf, hf⟩, e3, e4⟩ := e
                  simp only at e4
                  subst e4
                  have heI := hdI.assign_slot (fun _ => by simp) ee
                  have ke := (hdI.assign_slot_keeps (fun _ => by simp) ee x).2 hne
                  exact Heap.keeps.before_down (Heap.keeps.before_down kd ke)
                    (heI.clear_down e3 x)
          · simp only [Option.some.injEq] at e
            subst e
            exact Heap.keeps.of_up (Heap.keepsUp.refl_up _ x)

theorem Op.observed_step {fuel : Nat} {w w1 : Heap} {op : Op} (e : step fuel w op = some w1) :
    w1 ∈ op.observed fuel w := by
  unfold Op.observed
  rw [e]
  exact List.mem_append_right _ (by simp)

theorem Op.observed_first {fuel : Nat} {w wc : Heap} {s s2 i : Nat}
    (e : Region_nativeGetParentReferenceInto_first fuel w s s2 i = some wc) :
    wc ∈ (Op.getParentReferenceInto s s2 i).observed fuel w := by
  unfold Op.observed
  simp only [e]
  exact List.mem_append_left _ (by simp)

/-- A call that does not clear `x` leaves it live wherever it is observed. -/
theorem Op.clearsRegion_live {fuel : Nat} {w : Heap} {x : Nat} {op : Op}
    (hc : op.clearsRegion fuel w x = false) :
    ∀ w1 ∈ op.observed fuel w, (w1.region x).references_ ≠ 0 := by
  unfold Op.clearsRegion at hc
  simp only [Bool.or_eq_false_iff, List.any_eq_false, decide_eq_true_eq] at hc
  exact hc.2

theorem Op.clearsRegion_slot {fuel : Nat} {w : Heap} {x s : Nat}
    (hc : (Op.clearButKeepMem s).clearsRegion fuel w x = false) :
    ScalaRegion.deref w s ≠ some x := by
  unfold Op.clearsRegion at hc
  simp only [Bool.or_eq_false_iff, decide_eq_false_iff_not] at hc
  exact hc.1

theorem Region.allocate_region_other (w : Heap) (r a n x : Nat) (hx : x ≠ r) :
    (Region.allocate w r a n).1.region x = w.region x := by
  unfold Region.allocate
  split
  · simp only [Region.allocate_big_chunk]
    rw [Heap.region_setRegion_ne _ _ _ _ hx]
    rfl
  · simp only
    split
    · rw [Heap.region_setRegion_ne _ _ _ _ hx]
      exact Heap.region_setRegion_ne _ _ _ _ hx
    · simp only [Region.allocate_new_block]
      rw [Heap.region_setRegion_ne _ _ _ _ hx, RegionPool.get_block_region,
        Heap.region_setRegion_ne _ _ _ _ hx]
      exact Heap.region_setRegion_ne _ _ _ _ hx

/-- The frame of a native call: unless it is an `align` or an allocation on
`x`, a call that does not clear the live region `x` leaves `block_offset_`,
`current_block_`, `used_blocks_` and `big_chunks_` of `x` as they were. -/
theorem step_sameAlloc {w w1 : Heap} {fuel : Nat} {op : Op} {x : Nat} (hinv : Inv w)
    (e : step fuel w op = some w1) (hl : (w.region x).references_ ≠ 0)
    (hc : op.clearsRegion fuel w x = false) (hb : op.bumps w x = false) :
    w.sameAlloc w1 x := by
  have h0 : InvWith w [] := hinv
  have hobs := Op.clearsRegion_live hc
  have hl1 : (w1.region x).references_ ≠ 0 := hobs w1 (Op.observed_step e)
  cases op with
  | poolCtor =>
    simp only [hail.step, Option.some.injEq] at e
    subst e; exact Heap.sameAlloc_of_eq rfl
  | regionCtor p =>
    simp only [hail.step, Region_nativeCtor] at e
    split at e
    · simp only [Option.some.injEq] at e
      subst e
      exact (RegionPool.get_region_keepsUp w p x hl).1
    · cases e
  | initEmpty =>
    simp only [hail.step, Option.some.injEq] at e
    subst e; exact Heap.sameAlloc_of_eq rfl
  | clearButKeepMem s =>
    have hs := Op.clearsRegion_slot hc
    simp only [hail.step, Region_clearButKeepMem] at e
    split at e
    · cases e
    · next r hd =>
      have hx : x ≠ r := fun e1 => hs (by rw [hd, e1])
      exact (h0.region_clear_down (h0.deref_live hd).2 e x hx hl1).1
  | align s a =>
    simp only [Op.bumps, decide_eq_false_iff_not] at hb
    simp only [hail.step, Region_nativeAlign] at e
    split at e
    · split at e
      · cases e
      · next r hd =>
        simp only [Option.some.injEq] at e
        subst e
        have hx : x ≠ r := fun e1 => hb (by rw [hd, e1])
        exact Heap.sameAlloc_of_eq (Heap.region_setRegion_ne _ _ _ _ hx)
    · cases e
  | alignAllocate s a n =>
    simp only [Op.bumps, decide_eq_false_iff_not] at hb
    simp only [hail.step, Region_nativeAlignAllocate] at e
    split at e
    · split at e
      · simp at e
      · next r hd =>
        simp only [Option.map_some', Option.some.injEq] at e
        subst e
        have hx : x ≠ r := fun e1 => hb (by rw [hd, e1])
        exact Heap.sameAlloc_of_eq (Region.allocate_region_other w r a n x hx)
    · cases e
  | allocate s n =>
    simp only [Op.bumps, decide_eq_false_iff_not] at hb
    simp only [hail.step, Region_nativeAllocate] at e
    split at e
    · simp at e
    · next r hd =>
      simp only [Option.map_some', Option.some.injEq] at e
      subst e
      have hx : x ≠ r := fun e1 => hb (by rw [hd, e1])
      exact Heap.sameAlloc_of_eq (Region.allocate_region_other w r 1 n x hx)
  | reference s s2 =>
    simp only [hail.step, Region_nativeReference] at e
    split at e
    · next r h2 hd hs2 =>
      simp only [Option.some.injEq] at e
      subst e
      have k1 := RegionPtr.copy_keepsUp w h2 x
      have k2 := (Heap.setRegion_keeps (RegionPtr.copy w h2).1 r
        { (RegionPtr.copy w h2).1.region r with
          parents_ := ((RegionPtr.copy w h2).1.region r).parents_ ++ [(RegionPtr.copy w h2).2] }
        x rfl rfl).1
      exact ((k1.trans_up k2) hl).1
    · cases e
  | refreshRegion s => exact (h0.nativeRefreshRegion_keeps e x).same hl hl1
  | clearRegion s =>
    simp only [hail.step, Region_nativeClearRegion] at e
    exact Heap.keeps.same (h0.assign_slot_keeps (fun hn => absurd rfl hn) e x).1 hl hl1
  | setNumParents s n =>
    simp only [hail.step, Region_nativeSetNumParents] at e
    split at e
    · cases e
    · next r hd =>
      exact (h0.set_num_parents_down (h0.deref_live hd).1 (h0.deref_live hd).2 e x hl1).1
  | setParentReference s s2 i =>
    simp only [hail.step, Region_nativeSetParentReference] at e
    split at e
    · next r h2 hd hs2 =>
      obtain ⟨hr, hlr⟩ := h0.deref_live hd
      have h1 := h0.copy (InvWith.slot_mem hs2)
      rw [RegionPtr.copy_snd] at e
      have k := h1.set_parent_reference_keeps
        (by rw [RegionPtr.copy_regions_length]; exact hr) (RegionPtr.copy_live w h2 r hlr) e x
      exact (Heap.keeps.after_up (RegionPtr.copy_keepsUp w h2 x) k).same hl hl1
    · cases e
  | getParentReferenceInto s s2 i =>
    simp only [hail.step] at e
    obtain ⟨wc, ec, k1, k2⟩ := h0.nativeGetParentReferenceInto_keeps e x
    have hlc := hobs wc (Op.observed_first ec)
    exact (k1.same hl hlc).trans_alloc ((k2 hlc).same hlc hl1)
  | clearParentReference s i =>
    simp only [hail.step, Region_nativeClearParentReference, Region.clear_parent_reference] at e
    split at e
    · cases e
    · next r hd =>
      exact Heap.keeps.same (h0.assign_parent_keeps (h0.deref_live hd).1 (h0.deref_live hd).2
        (fun hn => absurd rfl hn) e x).1 hl hl1
  | own this pool =>
    simp only [hail.step, ScalaRegionPool.own] at e
    split at e
    · split at e
      · cases e
      · exact (ScalaRegionPool.own_loop_keepsUp _ x e hl).1
    · cases e

theorem Region.handedOut_congr {R R1 : Region} (h : R1.allocState = R.allocState)
    (y : Addr × Nat) : R.handedOut y → R1.handedOut y := by
  simp only [Region.allocState, Prod.mk.injEq] at h
  obtain ⟨h1, h2, h3, h4⟩ := h
  unfold Region.handedOut
  rw [h1, h2, h3, h4]
  exact id

/-- An `align` only raises the bump offset: what was handed out stays so. -/
theorem Region.align_handedOut (w : Heap) (r a : Nat) (hr : r < w.regions.length)
    (ha : 0 < a) (y : Addr × Nat) :
    (w.region r).handedOut y → ((Region.align w r a).region r).handedOut y := by
  rw [Region.align_region w r a hr]
  have hge := le_align (w.region r).block_offset_ a ha
  rintro (⟨h1, h2, h3⟩ | h | h)
  · exact Or.inl ⟨h1, le_trans h2 hge, h3⟩
  · exact Or.inr (Or.inl h)
  · exact Or.inr (Or.inr h)

theorem Op.range_of_bumps_false {w : Heap} {x : Nat} {op : Op} (hb : op.bumps w x = false) :
    op.range w x = none := by
  cases op with
  | align s a => rfl
  | alignAllocate s a n =>
    simp only [Op.bumps, decide_eq_false_iff_not] at hb
    simp only [Op.range, if_neg hb]
  | allocate s n =>
    simp only [Op.bumps, decide_eq_false_iff_not] at hb
    simp only [Op.range, if_neg hb]
  | _ => rfl

/-- One native call of a session, seen from the live region `x` that it does
not clear: the ranges handed out by `x` stay handed out, and if the call is an
allocation from `x`, the range it returns is handed out afterwards and is
disjoint from every range handed out before. -/
theorem step_handedOut {w w1 : Heap} {fuel : Nat} {op : Op} {x : Nat} (hinv : Inv w)
    (hbuf : BuffersOk w) (e : step fuel w op = some w1)
    (hl : (w.region x).references_ ≠ 0) (hc : op.clearsRegion fuel w x = false) :
    (∀ y, (w.region x).handedOut y → (w1.region x).handedOut y) ∧
    (∀ rg, op.range w x = some rg →
      (w1.region x).handedOut rg ∧ ∀ y, (w.region x).handedOut y → Addr.disjoint y rg) := by
  have hx := Heap.lt_of_references_ne_zero w x hl
  by_cases hb : op.bumps w x = false
  · refine ⟨fun y => Region.handedOut_congr (step_sameAlloc hinv e hl hc hb) y, ?_⟩
    intro rg hrg
    rw [Op.range_of_bumps_false hb] at hrg
    cases hrg
  · simp only [Bool.not_eq_false] at hb
    cases op with
    | align s a =>
      simp only [Op.bumps, decide_eq_true_eq] at hb
      simp only [hail.step, Region_nativeAlign, hb] at e
      split at e
      · next ha =>
        simp only [Option.some.injEq] at e
        subst e
        refine ⟨fun y => Region.align_handedOut w x a hx (isAlignment_pos ha) y, ?_⟩
        intro rg hrg
        simp only [Op.range] at hrg
        cases hrg
      · cases e
    | alignAllocate s a n =>
      simp only [Op.bumps, decide_eq_true_eq] at hb
      simp only [hail.step, Region_nativeAlignAllocate, hb] at e
      split at e
      · next ha =>
        simp only [Option.map_some', Option.some.injEq] at e
        subst e
        obtain ⟨_, h1, h2, h3⟩ := Region.allocate_once w x a n hbuf hx (isAlignment_pos ha)
        refine ⟨h3, ?_⟩
        intro rg hrg
        simp only [Op.range, hb, if_true, Region_nativeAlignAllocate, Option.map_some',
          Option.some.injEq] at hrg
        subst hrg
        exact ⟨h1, h2⟩
      · cases e
    | allocate s n =>
      simp only [Op.bumps, decide_eq_true_eq] at hb
      simp only [hail.step, Region_nativeAllocate, hb, Option.map_some',
        Option.some.injEq] at e
      subst e
      obtain ⟨_, h1, h2, h3⟩ := Region.allocate_once w x 1 n hbuf hx Nat.one_pos
      refine ⟨h3, ?_⟩
      intro rg hrg
      simp only [Op.range, hb, if_true, Region_nativeAllocate, Option.map_some',
        Option.some.injEq] at hrg
      subst hrg
      exact ⟨h1, h2⟩
    | _ => simp [Op.bumps] at hb

/-- A session of native calls that does not clear the live region `x`: the
ranges returned by the allocations from `x` are pairwise disjoint and are
handed out at the end, and so is every range handed out before the session,
which is disjoint from all of them. -/
theorem allocatedRanges_spec (fuel : Nat) (x : Nat) (ops : List Op) :
    ∀ (w w1 : Heap), Inv w → BuffersOk w → (w.region x).references_ ≠ 0 →
      run fuel w ops = some w1 → noClear fuel x w ops = true →
      (allocatedRanges fuel x w ops).Pairwise Addr.disjoint ∧
      (∀ y ∈ allocatedRanges fuel x w ops, (w1.region x).handedOut y) ∧
      (∀ y, (w.region x).handedOut y → (w1.region x).handedOut y ∧
        ∀ z ∈ allocatedRanges fuel x w ops, Addr.disjoint y z) := by
  induction ops with
  | nil =>
    intro w w1 _ _ _ e _
    simp only [run, Option.some.injEq] at e
    subst e
    exact ⟨List.Pairwise.nil, fun y hy => absurd hy (List.not_mem_nil y),
      fun y hy => ⟨hy, fun z hz => absurd hz (List.not_mem_nil z)⟩⟩
  | cons op ops ih =>
    intro w w1 hinv hbuf hl e hnc
    simp only [run] at e
    split at e
    · cases e
    · next w2 e2 =>
      simp only [noClear, e2, Bool.and_eq_true, Bool.not_eq_true'] at hnc
      obtain ⟨hc, hnc2⟩ := hnc
      have hl2 : (w2.region x).references_ ≠ 0 :=
        Op.clearsRegion_live hc w2 (Op.observed_step e2)
      obtain ⟨hkeep, hnew⟩ := step_handedOut hinv hbuf e2 hl hc
      obtain ⟨ih1, ih2, ih3⟩ := ih w2 w1 (hinv.step e2)
        (hbuf.of_step (BufStep.step_buf hinv e2)) hl2 e hnc2
      simp only [allocatedRanges, e2]
      cases hr : op.range w x with
      | none =>
        simp only [Option.toList, List.nil_append]
        exact ⟨ih1, ih2, fun y hy => ih3 y (hkeep y hy)⟩
      | some rg =>
        obtain ⟨hrg1, hrg2⟩ := hnew rg hr
        simp only [Option.toList, List.singleton_append]
        refine ⟨List.Pairwise.cons (fun z hz => (ih3 rg hrg1).2 z hz) ih1, ?_, ?_⟩
        · intro y hy
          rcases List.mem_cons.1 hy with e1 | hy
          · rw [e1]; exact (ih3 rg hrg1).1
          · exact ih2 y hy
        · intro y hy
          refine ⟨(ih3 y (hkeep y hy)).1, fun z hz => ?_⟩
          rcases List.mem_cons.1 hz with e1 | hz
          · rw [e1]; exact hrg2 y hy
          · exact (ih3 y (hkeep y hy)).2 z hz

/-! ## C18: allocations from one region do not overlap -/

/-- C18. Allocation disjointness.  Let `x` be a live region of a memory the
host can bring about, and take any session of native calls from there in which
no call runs `Region::clear` on `x`: no `clearButKeepMem` on a slot that holds
`x`, and no release of its last handle.  Any other native call may come
between the allocations from `x`: allocations from other regions, `align`,
region creation, parent references, handle drops, ownership transfer.  Then
the byte ranges returned by the `allocate` calls on `x`, each given by the
buffer it lies in, its offset there and the size asked for, are pairwise
disjoint; each lies entirely inside a block of `x` (offset + n ≤ BLOCK_SIZE)
or inside one of its oversized chunks; each is still handed out by `x` at the
end of the session; and every range that `x` had handed out before the session
is still handed out at the end and is disjoint from all of them. -/
theorem allocation_disjointness (fuel : Nat) (w w1 : Heap) (x : Nat) (ops : List Op)
    (hw : Reachable w) (hl : (w.region x).references_ ≠ 0)
    (e : run fuel w ops = some w1) (hnc : noClear fuel x w ops = true) :
    (allocatedRanges fuel x w ops).Pairwise Addr.disjoint ∧
    (∀ y ∈ allocatedRanges fuel x w ops, (w1.region x).contains y) ∧
    (∀ y ∈ allocatedRanges fuel x w ops, (w1.region x).handedOut y) ∧
    (∀ y, (w.region x).handedOut y → (w1.region x).handedOut y ∧
      ∀ z ∈ allocatedRanges fuel x w ops, Addr.disjoint y z) := by
  obtain ⟨h1, h2, h3⟩ :=
    allocatedRanges_spec fuel x ops w w1 hw.inv hw.buffersOk hl e hnc
  exact ⟨h1, fun y hy => Region.handedOut_contains (h2 y hy), h2, h3⟩

/-- Why a clear is looked for inside `getParentReferenceInto`.  In
`reviveScenario` the count of region 1 is not zero after any of the calls, yet
the first statement of `getParentReferenceInto` (Region.cpp:270) overwrites
the only handle to region 1 with a null handle, so `Region::clear` runs on it
(count 0 at the test of Region.cpp:271), and the second statement takes it
from the free list again.  The two allocations around that call return the
same bytes; the session is one with an intervening clear, and `noClear` says
so. -/
theorem clear_inside_getParentReferenceInto :
    run 3 Heap.empty [.poolCtor, .regionCtor 0, .regionCtor 0, .setNumParents 0 1] =
      some reviveHeap ∧
    (reviveHeap.region 1).references_ = 1 ∧
    (run 3 reviveHeap (reviveScenario.take 1)).map (fun w => (w.region 1).references_) =
      some 1 ∧
    (run 3 reviveHeap (reviveScenario.take 2)).map (fun w => (w.region 1).references_) =
      some 2 ∧
    (run 3 reviveHeap reviveScenario).map (fun w => (w.region 1).references_) = some 2 ∧
    ((run 3 reviveHeap (reviveScenario.take 1)).bind
      (fun w => Region_nativeGetParentReferenceInto_first 3 w 0 1 0)).map
      (fun w => (w.region 1).references_) = some 0 ∧
    allocatedRanges 3 1 reviveHeap reviveScenario =
      [({ buffer := 1, offset := 0 }, 10), ({ buffer := 1, offset := 0 }, 10)] ∧
    noClear 3 1 reviveHeap reviveScenario = false := by
  decide

/-- C18 at a concrete session: four allocations from region 0, served from its
first block, from a second block and from an oversized chunk, with other
native calls in between. -/
theorem allocation_disjointness_witness :
    (parentScenarioHeap.region 0).references_ ≠ 0 ∧
    run 3 parentScenarioHeap allocScenario = some allocScenarioHeap ∧
    noClear 3 0 parentScenarioHeap allocScenario = true ∧
    allocatedRanges 3 0 parentScenarioHeap allocScenario =
      [({ buffer := 0, offset := 0 }, 100), ({ buffer := 4, offset := 0 }, 65500),
       ({ buffer := 5, offset := 0 }, 70000), ({ buffer := 4, offset := 65504 }, 8)] ∧
    (allocatedRanges 3 0 parentScenarioHeap allocScenario).Pairwise Addr.disjoint ∧
    (∀ y ∈ allocatedRanges 3 0 parentScenarioHeap allocScenario,
      (allocScenarioHeap.region 0).contains y) :=
  ⟨by decide, by decide, by decide, by decide,
    (allocation_disjointness 3 parentScenarioHeap allocScenarioHeap 0 allocScenario
      parentScenarioHeap_reachable (by decide) (by decide) (by decide)).1,
    (allocation_disjointness 3 parentScenarioHeap allocScenarioHeap 0 allocScenario
      parentScenarioHeap_reachable (by decide) (by decide) (by decide)).2.1⟩

end hail
